import Mathlib

/-!
# VieCut: bucket priority queue, heavy-edge reducer, multicut local search

A shallow embedding of three source files of VieCut

* `lib/data_structure/priority_queues/bucket_pq.h`
* `lib/algorithms/global_mincut/cactus/heavy_edges.h`
* `lib/algorithms/multicut/local_search.h`

together with theorems about them.  Node ids, edge ids, counts and edge
weights are natural numbers, gains are integers.
-/

namespace VieCut

/-! ## bucket_pq.h -/

/-- The class `bucket_pq`.  The `std::unordered_map` `m_queue_index` is a
finite map from node ids to `(index in bucket, gain)`; the vector of vectors
`m_buckets` is a list of lists. -/
structure bucket_pq where
  m_elements : Nat
  m_gain_span : Nat
  m_max_idx : Nat
  m_queue_index : Nat → Option (Nat × Int)
  m_buckets : List (List Nat)

namespace bucket_pq

/-- Constructor `bucket_pq(gain_span)`: no elements, `m_max_idx = 0`,
`2 * gain_span + 1` empty buckets. -/
def mk_pq (gain_span_input : Nat) : bucket_pq :=
  { m_elements := 0
    m_gain_span := gain_span_input
    m_max_idx := 0
    m_queue_index := fun _ => none
    m_buckets := List.replicate (2 * gain_span_input + 1) [] }

/-- The bucket index `unsigned address = gain + m_gain_span`.  For a gain of
at least `-m_gain_span` the sum is the natural number computed here. -/
def address (q : bucket_pq) (gain : Int) : Nat :=
  (gain + (q.m_gain_span : Int)).toNat

/-- Read bucket `a` (`m_buckets[a]`). -/
def bucket (q : bucket_pq) (a : Nat) : List Nat :=
  q.m_buckets[a]?.getD []

/-- Method `size()`. -/
def size (q : bucket_pq) : Nat := q.m_elements

/-- Method `empty()`. -/
def empty (q : bucket_pq) : Bool := q.m_elements == 0

/-- Method `insert(node, gain)`. -/
def insert (q : bucket_pq) (node : Nat) (gain : Int) : bucket_pq :=
  let address := q.address gain
  let max_idx := if address > q.m_max_idx then address else q.m_max_idx
  let buckets := q.m_buckets.set address (q.bucket address ++ [node])
  let newBucket := buckets[address]?.getD []
  { m_elements := q.m_elements + 1
    m_gain_span := q.m_gain_span
    m_max_idx := max_idx
    m_queue_index := fun x =>
      if x = node then some (newBucket.length - 1, gain) else q.m_queue_index x
    m_buckets := buckets }

/-- Method `maxValue()`: `m_max_idx - m_gain_span`. -/
def maxValue (q : bucket_pq) : Int :=
  (q.m_max_idx : Int) - (q.m_gain_span : Int)

/-- Method `maxElement()`: `m_buckets[m_max_idx].back()`; there is no value
when that bucket is empty. -/
def maxElement (q : bucket_pq) : Option Nat :=
  (q.bucket q.m_max_idx).getLast?

/-- The loop `while (m_max_idx != 0) { m_max_idx--; if (size > 0) break; }`
started at `idx`. -/
def scanDown (buckets : List (List Nat)) : Nat → Nat
  | 0 => 0
  | i + 1 => if (buckets[i]?.getD []).length > 0 then i else scanDown buckets i

/-- Method `deleteMax()`.  `back()` of an empty bucket has no value: the result
is `none` then. -/
def deleteMax (q : bucket_pq) : Option (Nat × bucket_pq) :=
  match (q.bucket q.m_max_idx).getLast? with
  | none => none
  | some node =>
    let buckets := q.m_buckets.set q.m_max_idx (q.bucket q.m_max_idx).dropLast
    let max_idx :=
      if (buckets[q.m_max_idx]?.getD []).length = 0 then scanDown buckets q.m_max_idx
      else q.m_max_idx
    some (node,
      { m_elements := q.m_elements - 1
        m_gain_span := q.m_gain_span
        m_max_idx := max_idx
        m_queue_index := fun x => if x = node then none else q.m_queue_index x
        m_buckets := buckets })

/-- Method `deleteNode(node)`.  The assertion that the node is in
`m_queue_index` is the `none` result. -/
def deleteNode (q : bucket_pq) (node : Nat) : Option bucket_pq :=
  match q.m_queue_index node with
  | none => none
  | some (in_bucket_idx, old_gain) =>
    let address := q.address old_gain
    let b := q.bucket address
    if b.length > 1 then
      match b.getLast? with
      | none => none
      | some last =>
        -- m_queue_index[back].first = in_bucket_idx; swap; pop_back
        let index1 : Nat → Option (Nat × Int) := fun x =>
          if x = last then some (in_bucket_idx, ((q.m_queue_index last).getD (0, 0)).2)
          else q.m_queue_index x
        let b1 := (b.set in_bucket_idx last).dropLast
        some
          { m_elements := q.m_elements - 1
            m_gain_span := q.m_gain_span
            m_max_idx := q.m_max_idx
            m_queue_index := fun x => if x = node then none else index1 x
            m_buckets := q.m_buckets.set address b1 }
    else
      let buckets := q.m_buckets.set address b.dropLast
      let max_idx :=
        if address = q.m_max_idx then scanDown buckets q.m_max_idx else q.m_max_idx
      some
        { m_elements := q.m_elements - 1
          m_gain_span := q.m_gain_span
          m_max_idx := max_idx
          m_queue_index := fun x => if x = node then none else q.m_queue_index x
          m_buckets := buckets }

/-- Method `changeKey(node, new_gain)`: `deleteNode` then `insert`. -/
def changeKey (q : bucket_pq) (node : Nat) (new_gain : Int) : Option bucket_pq :=
  match q.deleteNode node with
  | none => none
  | some q1 => some (q1.insert node new_gain)

/-- Method `contains(node)`. -/
def contains (q : bucket_pq) (node : Nat) : Bool :=
  (q.m_queue_index node).isSome

/-- Method `gain(node)`: `0` for a node that is not in the queue. -/
def gain (q : bucket_pq) (node : Nat) : Int :=
  match q.m_queue_index node with
  | none => 0
  | some p => p.2

/-- A sequence of `insert` calls, in list order. -/
def insertAll (q : bucket_pq) : List (Nat × Int) → bucket_pq
  | [] => q
  | p :: rest => insertAll (q.insert p.1 p.2) rest

/-- Call `deleteMax` `k` times and collect the returned nodes. -/
def deleteMaxN : Nat → bucket_pq → Option (List Nat × bucket_pq)
  | 0, q => some ([], q)
  | k + 1, q =>
    match q.deleteMax with
    | none => none
    | some (x, q1) =>
      match deleteMaxN k q1 with
      | none => none
      | some (xs, q2) => some (x :: xs, q2)

/-- Representation invariant of the queue: the bucket vector has
`2 * gain_span + 1` entries, `m_max_idx` is the highest non-empty bucket (`0`
for an empty queue), `m_elements` counts the stored nodes, and `m_queue_index`
records for every stored node its slot and gain, and nothing else. -/
structure WF (q : bucket_pq) : Prop where
  len : q.m_buckets.length = 2 * q.m_gain_span + 1
  above : ∀ i, q.m_max_idx < i → q.bucket i = []
  top : q.m_elements ≠ 0 → q.bucket q.m_max_idx ≠ []
  zero : q.m_elements = 0 → q.m_max_idx = 0
  count : q.m_elements = q.m_buckets.flatten.length
  sound : ∀ x i g, q.m_queue_index x = some (i, g) →
    -(q.m_gain_span : Int) ≤ g ∧ g ≤ (q.m_gain_span : Int) ∧
      (q.bucket (q.address g))[i]? = some x
  complete : ∀ a i x, (q.bucket a)[i]? = some x →
    q.m_queue_index x = some (i, (a : Int) - (q.m_gain_span : Int))

/-- States reachable from a fresh queue of the given `gain_span` by the public
operations under their preconditions: `insert` of a node that is not contained
with a gain in `[-gain_span, gain_span]`, `deleteMax` on a non-empty queue,
`deleteNode` and `changeKey` of a contained node (the new gain in range). -/
inductive Reachable (span : Nat) : bucket_pq → Prop
  | fresh : Reachable span (mk_pq span)
  | insert {q : bucket_pq} (node : Nat) (g : Int) : Reachable span q →
      q.contains node = false → -(span : Int) ≤ g → g ≤ (span : Int) →
      Reachable span (q.insert node g)
  | deleteMax {q q1 : bucket_pq} {x : Nat} : Reachable span q →
      q.empty = false → q.deleteMax = some (x, q1) → Reachable span q1
  | deleteNode {q q1 : bucket_pq} (node : Nat) : Reachable span q →
      q.contains node = true → q.deleteNode node = some q1 → Reachable span q1
  | changeKey {q q1 : bucket_pq} (node : Nat) (g : Int) : Reachable span q →
      q.contains node = true → -(span : Int) ≤ g → g ≤ (span : Int) →
      q.changeKey node g = some q1 → Reachable span q1

end bucket_pq

/-! ## mutable_graph (data_structure/mutable_graph.h, not part of the sources read here) -/

/-- One slot of a node's edge list: target node and weight. -/
structure Edge where
  target : Nat
  weight : Nat
deriving DecidableEq, Repr

/-- A super-node: the original vertices merged into it (`containedVertices`)
and its ordered edge list. -/
structure Vertex where
  contained : List Nat
  edges : List Edge
deriving DecidableEq, Repr

/-- Modelled from the spec: the class `mutable_graph` (spec §3, "Graph G
(external contract)"), whose header is not among the sources.  A graph is the
list of its super-nodes, a node id being the index in the list, and the
`currentPosition` map from original vertex ids to node ids, where `none` stands
for `UNDEFINED_NODE`. -/
structure mutable_graph where
  vertices : List Vertex
  current_position : Nat → Option Nat

namespace mutable_graph

/-- Modelled from the spec: `n()`, the number of super-nodes. -/
def n (G : mutable_graph) : Nat := G.vertices.length

/-- Modelled from the spec: `nodes()`, the node ids `0 .. n()-1`. -/
def nodes (G : mutable_graph) : List Nat := List.range G.n

/-- Modelled from the spec: `containedVertices(n)`. -/
def containedVertices (G : mutable_graph) (n : Nat) : List Nat :=
  (G.vertices[n]?.map Vertex.contained).getD []

/-- The edge list of node `n`. -/
def edgesOf (G : mutable_graph) (n : Nat) : List Edge :=
  (G.vertices[n]?.map Vertex.edges).getD []

/-- Modelled from the spec: `isEmpty(n)`, "node present but with no contained
originals". -/
def isEmpty (G : mutable_graph) (n : Nat) : Bool := (G.containedVertices n).isEmpty

/-- Modelled from the spec: `get_first_invalid_edge(n)`, "current edge count of
n". -/
def get_first_invalid_edge (G : mutable_graph) (n : Nat) : Nat := (G.edgesOf n).length

/-- Modelled from the spec: `getWeightedNodeDegree(n)`, the sum of the weights
of the edges of `n`. -/
def getWeightedNodeDegree (G : mutable_graph) (n : Nat) : Nat :=
  ((G.edgesOf n).map Edge.weight).sum

/-- Modelled from the spec: `getEdge(n, e)`; there is no value for an edge id
that is not below the edge count. -/
def getEdge (G : mutable_graph) (n e : Nat) : Option Edge := (G.edgesOf n)[e]?

/-- Modelled from the spec: `getEdgeTarget(n, e)`. -/
def getEdgeTarget (G : mutable_graph) (n e : Nat) : Option Nat :=
  (G.getEdge n e).map Edge.target

/-- Modelled from the spec: `getEdgeWeight(n, e)`. -/
def getEdgeWeight (G : mutable_graph) (n e : Nat) : Option Nat :=
  (G.getEdge n e).map Edge.weight

/-- Modelled from the spec: `getCurrentPosition(v)`; `none` is
`UNDEFINED_NODE`. -/
def getCurrentPosition (G : mutable_graph) (v : Nat) : Option Nat := G.current_position v

/-- Modelled from the spec: `setCurrentPosition(v, pos)`. -/
def setCurrentPosition (G : mutable_graph) (v : Nat) (pos : Option Nat) : mutable_graph :=
  { G with current_position := fun x => if x = v then pos else G.current_position x }

/-- Modelled from the spec: `setContainedVertices(n, list)`. -/
def setContainedVertices (G : mutable_graph) (n : Nat) (l : List Nat) : mutable_graph :=
  match G.vertices[n]? with
  | none => G
  | some vtx => { G with vertices := G.vertices.set n { vtx with contained := l } }

/-- Replace the edge list of node `n`. -/
def setEdges (G : mutable_graph) (n : Nat) (es : List Edge) : mutable_graph :=
  match G.vertices[n]? with
  | none => G
  | some vtx => { G with vertices := G.vertices.set n { vtx with edges := es } }

/-- Modelled from the spec: `getReverseEdge(n, e)`, the slot of the target of
edge `e` of `n` that leads back to `n` (spec §3 (ii), §6: "the reverse edge of
(u,e→v) must always resolve to an edge (v,e'→u)"). -/
def getReverseEdge (G : mutable_graph) (n e : Nat) : Option Nat :=
  match G.getEdge n e with
  | none => none
  | some ed =>
    let i := (G.edgesOf ed.target).findIdx (fun x => x.target == n)
    if i < (G.edgesOf ed.target).length then some i else none

/-- Modelled from the spec: `new_empty_node()`, a fresh super-node without
contained originals and without edges; its id is the former `n()`. -/
def new_empty_node (G : mutable_graph) : Nat × mutable_graph :=
  (G.n, { G with vertices := G.vertices ++ [{ contained := [], edges := [] }] })

/-- Modelled from the spec: `new_edge_order(u, v, w)`, a new edge of weight `w`
between `u` and `v`, appended to both edge lists.  No value when an end point
is not a node. -/
def new_edge_order (G : mutable_graph) (u v w : Nat) : Option mutable_graph :=
  if u < G.n ∧ v < G.n then
    let G1 := G.setEdges u (G.edgesOf u ++ [{ target := v, weight := w }])
    some (G1.setEdges v (G1.edgesOf v ++ [{ target := u, weight := w }]))
  else none

/-- Modelled from the spec: `setEdgeWeight(n, e, w)`, for the edge and its
reverse edge. -/
def setEdgeWeight (G : mutable_graph) (n e w : Nat) : Option mutable_graph :=
  match G.getEdge n e, G.getReverseEdge n e with
  | some ed, some r =>
    let G1 := G.setEdges n ((G.edgesOf n).set e { ed with weight := w })
    some (G1.setEdges ed.target
      ((G1.edgesOf ed.target).set r { target := n, weight := w }))
  | _, _ => none

/-- Modelled from the spec: `deleteEdge(n, e)`, removing the edge and its
reverse edge; the other slots keep their order. -/
def deleteEdge (G : mutable_graph) (n e : Nat) : Option mutable_graph :=
  match G.getEdge n e, G.getReverseEdge n e with
  | some ed, some r =>
    let G1 := G.setEdges n ((G.edgesOf n).eraseIdx e)
    some (G1.setEdges ed.target ((G1.edgesOf ed.target).eraseIdx r))
  | _, _ => none

/-- Add an edge slot to an edge list in which parallel edges are collapsed:
the weight is added to the slot with the same target if there is one (spec §3
(iv)). -/
def addEdge (es : List Edge) (e : Edge) : List Edge :=
  if es.any (fun x => x.target == e.target) then
    es.map (fun x => if x.target = e.target then { x with weight := x.weight + e.weight } else x)
  else es ++ [e]

/-- Collapse parallel edges, summing their weights (spec §3 (iv)). -/
def collapse (es : List Edge) : List Edge := es.foldl addEdge []

/-- Rename the target `a` to `b` in an edge list. -/
def retarget (a b : Nat) (es : List Edge) : List Edge :=
  es.map (fun x => if x.target = a then { x with target := b } else x)

/-- Modelled from the spec: `deleteVertex(v)`, of which the spec gives the name
only, in the reading in which the node is removed from the graph.  The edges at
`v` disappear from all edge lists, the originals positioned at `v` become
`UNDEFINED`, and the node with the highest id takes the id `v`, so that the
node ids stay `0 .. n()-1` (spec §9: identities must "survive renumbering").
The other reading, in which the node stays as a tombstone, is
`deleteVertexTombstone`. -/
def deleteVertex (G : mutable_graph) (v : Nat) : mutable_graph :=
  if v < G.n then
    let last := G.n - 1
    let vs := G.vertices.map
      (fun x => { x with edges := retarget last v (x.edges.filter (fun ed => ed.target != v)) })
    { vertices := (vs.set v (vs[last]?.getD { contained := [], edges := [] })).dropLast
      current_position := fun c =>
        match G.current_position c with
        | none => none
        | some p => if p = v then none else if p = last then some v else some p }
  else G

/-- Merge node `v` into node `r` (`r ≠ v`): the contained originals of `v` are
appended to those of `r` and positioned at `r`, every edge at `v` becomes an
edge at `r`, the edges between `r` and `v` disappear (spec §3 (iii)) and
parallel edges are collapsed (spec §3 (iv)); then `v`, now empty and without
edges, is deleted. -/
def mergeInto (G : mutable_graph) (r v : Nat) : mutable_graph :=
  if r < G.n ∧ v < G.n ∧ r ≠ v then
    let vs := G.vertices.map (fun x => { x with edges := collapse (retarget v r x.edges) })
    let merged : Vertex :=
      { contained := G.containedVertices r ++ G.containedVertices v
        edges := collapse ((retarget v r (G.edgesOf r ++ G.edgesOf v)).filter
          (fun ed => ed.target != r)) }
    let G1 : mutable_graph :=
      { vertices := (vs.set r merged).set v { contained := [], edges := [] }
        current_position := fun c =>
          match G.current_position c with
          | none => none
          | some p => if p = v then some r else some p }
    G1.deleteVertex v
  else G

/-- Modelled from the spec: `contractVertexSet(S)`, merging the nodes of `S`
into one super-node.  The node of `S` with the smallest id is kept and the
others are merged into it, highest id first. -/
def contractVertexSet (G : mutable_graph) (S : List Nat) : mutable_graph :=
  match (List.range G.n).find? (fun x => decide (x ∈ S)) with
  | none => G
  | some r =>
    (List.range G.n).reverse.foldl
      (fun H v => if v ∈ S ∧ v ≠ r then H.mergeInto r v else H) G

/-- Modelled from the spec: `contractEdge(u, e)`, which contracts the target of
edge `e` of `u` into `u` (spec §4.C: the node "is contracted into neighbor 0
via the reverse edge from neighbor 0"). -/
def contractEdge (G : mutable_graph) (u e : Nat) : Option mutable_graph :=
  match G.getEdgeTarget u e with
  | none => none
  | some t => if t = u then none else some (G.mergeInto u t)

/-- Modelled from the spec: `start_construction(numNodes)` followed by edge
insertion: a graph on `numNodes` nodes, node `i` containing the original `i`,
with the given undirected edges `(u, v, w)`. -/
def ofEdges (numNodes : Nat) (es : List (Nat × Nat × Nat)) : mutable_graph :=
  es.foldl (fun G e => (G.new_edge_order e.1 e.2.1 e.2.2).getD G)
    { vertices := (List.range numNodes).map (fun i => { contained := [i], edges := [] })
      current_position := fun c => if c < numNodes then some c else none }

end mutable_graph

/-! ## heavy_edges.h -/

namespace heavy_edges

open mutable_graph

/-- The statement `contract[min].emplace_back(max)` (with `contract[min] =
{ max }` for a new key) on the map `contract`, kept as an association list in
the order in which the keys were first inserted. -/
def addContract (contract : List (Nat × List Nat)) (min max : Nat) : List (Nat × List Nat) :=
  if contract.any (fun p => p.1 == min) then
    contract.map (fun p => if p.1 = min then (p.1, p.2 ++ [max]) else p)
  else contract ++ [(min, [max])]

/-- The two containers filled by the first loop of `removeHeavyEdges`. -/
structure Scan where
  contract : List (Nat × List Nat)
  markForCactus : List Nat
deriving DecidableEq, Repr

/-- Body of the inner loop of `removeHeavyEdges` for the edge `ed` of the
non-empty node `n`. -/
def scanEdge (mincut : Nat) (G : mutable_graph) (n : Nat) (st : Scan) (ed : Edge) : Scan :=
  if G.isEmpty ed.target then st
  else
    let st1 : Scan :=
      if ed.weight > mincut then
        let v1 := (G.containedVertices n).headD 0
        let v2 := (G.containedVertices ed.target).headD 0
        { st with contract := addContract st.contract (min v1 v2) (max v1 v2) }
      else st
    if ed.weight = mincut ∧ G.get_first_invalid_edge n = 1 then
      { st1 with markForCactus := st1.markForCactus ++ [(G.containedVertices n).headD 0] }
    else st1

/-- Body of the outer loop of `removeHeavyEdges` for node `n`. -/
def scanNode (mincut : Nat) (G : mutable_graph) (st : Scan) (n : Nat) : Scan :=
  if G.isEmpty n then st else (G.edgesOf n).foldl (scanEdge mincut G n) st

/-- The first loop of `removeHeavyEdges`. -/
def scan (mincut : Nat) (G : mutable_graph) : Scan :=
  G.nodes.foldl (scanNode mincut G) { contract := [], markForCactus := [] }

/-- Body of the second loop of `removeHeavyEdges` for one group
`(lowest, others)`.  A position that is `UNDEFINED_NODE` is not a node id: no
value then. -/
def contractGroup (G : mutable_graph) (grp : Nat × List Nat) : Option mutable_graph :=
  match (grp.1 :: grp.2).mapM G.getCurrentPosition with
  | none => none
  | some ps =>
    let vtxset := ps.eraseDups
    if vtxset.length > 1 then some (G.contractVertexSet vtxset) else some G

/-- The second loop of `removeHeavyEdges` over the groups in the given order. -/
def contractGroups : List (Nat × List Nat) → mutable_graph → Option mutable_graph
  | [], G => some G
  | grp :: rest, G =>
    match contractGroup G grp with
    | none => none
    | some G1 => contractGroups rest G1

/-- Body of the third loop of `removeHeavyEdges` for the marked original `e`.
The result is `none` when the position of `e` is `UNDEFINED_NODE` or the
assertion `get_first_invalid_edge(n) == 1` fails. -/
def deleteLeaf (st : mutable_graph × List (Nat × List Nat)) (e : Nat) :
    Option (mutable_graph × List (Nat × List Nat)) :=
  if st.1.n > 2 then
    match st.1.getCurrentPosition e with
    | none => none
    | some n =>
      if st.1.get_first_invalid_edge n ≠ 1 then none
      else
        match st.1.getEdgeTarget n 0 with
        | none => none
        | some t =>
          if st.1.isEmpty t then some st
          else
            some (st.1.deleteVertex n,
              st.2 ++ [((st.1.containedVertices t).headD 0, st.1.containedVertices n)])
  else some st

/-- The third loop of `removeHeavyEdges`. -/
def deleteLeaves :
    List Nat → mutable_graph × List (Nat × List Nat) →
      Option (mutable_graph × List (Nat × List Nat))
  | [], st => some st
  | e :: rest, st =>
    match deleteLeaf st e with
    | none => none
    | some st1 => deleteLeaves rest st1

/-- Method `removeHeavyEdges(G)`: the graph after the call and the returned log
`cactusEdge`.  `iter` is the order in which the range-for visits the groups of
the `std::unordered_map` `contract`. -/
def removeHeavyEdges (mincut : Nat)
    (iter : List (Nat × List Nat) → List (Nat × List Nat)) (G : mutable_graph) :
    Option (mutable_graph × List (Nat × List Nat)) :=
  match contractGroups (iter (scan mincut G).contract) G with
  | none => none
  | some G1 => deleteLeaves (scan mincut G).markForCactus (G1, [])

/-- Body of the loop of `contractCycleEdges` for node `n`. -/
def cycleStep (mincut : Nat)
    (st : mutable_graph × List ((Nat × Nat) × List Nat)) (n : Nat) :
    Option (mutable_graph × List ((Nat × Nat) × List Nat)) :=
  if st.1.get_first_invalid_edge n = 2 ∧ st.1.getWeightedNodeDegree n = mincut then
    match st.1.getEdge n 0, st.1.getEdge n 1 with
    | some e0, some e1 =>
      if st.1.isEmpty e0.target || st.1.isEmpty e1.target then some st
      else if e0.weight ≠ mincut / 2 ∨ e1.weight ≠ mincut / 2 then some st
      else
        let contained := st.1.containedVertices n
        let G1 := st.1.setContainedVertices n []
        let G2 := contained.foldl (fun H c => H.setCurrentPosition c none) G1
        match G2.getReverseEdge n 0 with
        | none => none
        | some r =>
          match G2.contractEdge e0.target r with
          | none => none
          | some G3 =>
            some (G3, st.2 ++ [(((st.1.containedVertices e0.target).headD 0,
              (st.1.containedVertices e1.target).headD 0), contained)])
    | _, _ => none
  else some st

/-- The loop `for (NodeID n = 0; n < G->n(); ++n)` of `contractCycleEdges`,
started at `n`; `fuel` bounds the number of iterations. -/
def cycleLoop (mincut : Nat) :
    Nat → Nat → mutable_graph × List ((Nat × Nat) × List Nat) →
      Option (mutable_graph × List ((Nat × Nat) × List Nat))
  | 0, _, st => some st
  | fuel + 1, n, st =>
    if n < st.1.n then
      match cycleStep mincut st n with
      | none => none
      | some st1 => cycleLoop mincut fuel (n + 1) st1
    else some st

/-- Method `contractCycleEdges(G)`.  The loop counter grows by one per
iteration and `G->n()` never grows, so `G->n()` iterations are enough. -/
def contractCycleEdges (mincut : Nat) (G : mutable_graph) :
    Option (mutable_graph × List ((Nat × Nat) × List Nat)) :=
  cycleLoop mincut G.n 0 (G, [])

/-- The statements `setContainedVertices(v, cont)` and the loop that sets the
position of every original in `cont` to `v`. -/
def install (G : mutable_graph) (v : Nat) (cont : List Nat) : mutable_graph :=
  cont.foldl (fun H c => H.setCurrentPosition c (some v)) (G.setContainedVertices v cont)

/-- The width of `EdgeWeight` (an unsigned 64 bit integer in
`common/definitions.h`, which is not among the sources). -/
def edgeWeightBits : Nat := 64

/-- Body of the loop of `reInsertCycles` for one log entry; `none` when a
position is `UNDEFINED_NODE`, and when no edge of `n0` leads to `n1`, where `e`
stays `UNDEFINED_EDGE` and `getEdgeWeight(n0, e)` reads out of range. -/
def reInsertCycle (mincut : Nat) (G : mutable_graph) (entry : (Nat × Nat) × List Nat) :
    Option mutable_graph :=
  match G.getCurrentPosition entry.1.1, G.getCurrentPosition entry.1.2 with
  | some n0, some n1 =>
    if n0 = n1 then
      match G.new_empty_node.2.new_edge_order n0 G.new_empty_node.1 mincut with
      | none => none
      | some G2 => some (install G2 G.new_empty_node.1 entry.2)
    else
      let e := (G.edgesOf n0).findIdx (fun x => x.target == n1)
      if e < (G.edgesOf n0).length then
        match G.new_empty_node.2.new_edge_order n0 G.new_empty_node.1 (mincut / 2) with
        | none => none
        | some G2 =>
          match G2.new_edge_order n1 G.new_empty_node.1 (mincut / 2) with
          | none => none
          | some G3 =>
            match G3.getEdgeWeight n0 e with
            | none => none
            | some w01 =>
              match (if w01 = mincut / 2 then G3.deleteEdge n0 e
                else G3.setEdgeWeight n0 e
                  ((w01 + 2 ^ edgeWeightBits - mincut / 2) % 2 ^ edgeWeightBits)) with
              | none => none
              | some G5 => some (install G5 G.new_empty_node.1 entry.2)
      else none
  | _, _ => none

/-- A loop over the log in reverse order (`for (size_t i = size; i-- > 0; )`). -/
def replay {α : Type} (step : mutable_graph → α → Option mutable_graph) :
    List α → mutable_graph → Option mutable_graph
  | [], G => some G
  | entry :: rest, G =>
    match replay step rest G with
    | none => none
    | some G1 => step G1 entry

/-- Method `reInsertCycles(G, toInsert)`. -/
def reInsertCycles (mincut : Nat) (G : mutable_graph)
    (toInsert : List ((Nat × Nat) × List Nat)) : Option mutable_graph :=
  replay (reInsertCycle mincut) toInsert G

/-- Body of the loop of `reInsertVertices` for one log entry. -/
def reInsertVertex (mincut : Nat) (G : mutable_graph) (entry : Nat × List Nat) :
    Option mutable_graph :=
  match G.getCurrentPosition entry.1 with
  | none => none
  | some curr =>
    match G.new_empty_node.2.new_edge_order curr G.new_empty_node.1 mincut with
    | none => none
    | some G2 => some (install G2 G.new_empty_node.1 entry.2)

/-- Method `reInsertVertices(G, toInsert)`. -/
def reInsertVertices (mincut : Nat) (G : mutable_graph) (toInsert : List (Nat × List Nat)) :
    Option mutable_graph :=
  replay (reInsertVertex mincut) toInsert G

end heavy_edges

/-! ## local_search.h -/

namespace local_search

open mutable_graph

/-- The constant `UNDEFINED_NODE` of `common/definitions.h` (not among the
sources): the largest value of the 32 bit type `NodeID`. -/
def UNDEFINED_NODE : Nat := 4294967295

/-- What the methods of `local_search` read and do not change: the original
graph, the fixed-vertex marking, and what comes from outside the class.
* `term_pos n` is `isTerm[problem->graph->getCurrentPosition(problem->mapped(n))]`
  (the classes `multicut_problem` and `mutable_graph` are not among the sources);
* `inexact` and `num_terminals` are the two fields read from
  `configuration::getConfig()`;
* `num_blocks` is `original_terminals.size()`;
* `solver H` is `push_relabel::solve_max_flow_min_cut(H, {0, 1}, 0, true)`: the
  flow value and the source-side vertices;
* `permute k` is the vector produced by the `k`-th call
  `permutate_vector_good(&permute, true)` and `shuffle k` the reordering done
  by the `k`-th call `permutate_vector_good(&neighboringBlocks)`. -/
structure Env where
  original_graph : mutable_graph
  fixed_vertex : Nat → Bool
  term_pos : Nat → Bool
  inexact : Bool
  num_terminals : Nat
  num_blocks : Nat
  solver : mutable_graph → Nat × List Nat
  permute : Nat → List Nat
  shuffle : Nat → List (Nat × Nat × Nat) → List (Nat × Nat × Nat)

/-- The fields of `local_search` that its methods change: the solution vector
`*sol`, the map `movedToNewBlock`, the matrix `previousConnectivity` and the
vector `noImprovement`. -/
structure State where
  sol : Nat → Nat
  movedToNewBlock : Nat → Option Nat
  previousConnectivity : Nat → Nat → Nat
  noImprovement : List Nat

/-- The vector `mapping` and the counter `id` after the first loop of
`flowBetweenBlocks`, for the nodes visited so far. -/
def mappingStep (env : Env) (solution : Nat → Nat) (terminal1 terminal2 : Nat)
    (acc : (Nat → Nat) × Nat) (n : Nat) : (Nat → Nat) × Nat :=
  if solution n ≠ terminal1 ∧ solution n ≠ terminal2 then acc
  else if env.fixed_vertex n then
    (fun x => if x = n then (if solution n = terminal1 then 0 else 1) else acc.1 x, acc.2)
  else (fun x => if x = n then acc.2 else acc.1 x, acc.2 + 1)

/-- The first loop of `flowBetweenBlocks`: `mapping` (initially
`UNDEFINED_NODE` everywhere) and `id` (initially 2). -/
def buildMapping (env : Env) (solution : Nat → Nat) (terminal1 terminal2 : Nat) :
    (Nat → Nat) × Nat :=
  env.original_graph.nodes.foldl (mappingStep env solution terminal1 terminal2)
    (fun _ => UNDEFINED_NODE, 2)

/-- The statement `if (m.count(k) > 0) m[k] += w; else m[k] = w;` on a
`std::unordered_map` kept as an association list. -/
def addTo (m : List (Nat × Nat)) (k w : Nat) : List (Nat × Nat) :=
  if m.any (fun p => p.1 == k) then m.map (fun p => if p.1 = k then (p.1, p.2 + w) else p)
  else m ++ [(k, w)]

/-- What the second loop of `flowBetweenBlocks` accumulates: `sol_weight`, the
edges added to the auxiliary graph `G` so far, `edgesToFixed0` and
`edgesToFixed1`. -/
structure FlowScan where
  sol_weight : Nat
  edges : List (Nat × Nat × Nat)
  edgesToFixed0 : List (Nat × Nat)
  edgesToFixed1 : List (Nat × Nat)
deriving DecidableEq, Repr

/-- Body of the inner loop of the edge scan of `flowBetweenBlocks` for the edge
`ed` of node `n`. -/
def flowScanEdge (solution : Nat → Nat) (terminal1 terminal2 : Nat) (mapping : Nat → Nat)
    (n : Nat) (acc : FlowScan) (ed : Edge) : FlowScan :=
  if (solution ed.target ≠ terminal1 ∧ solution ed.target ≠ terminal2)
      ∨ mapping n ≥ mapping ed.target ∨ mapping ed.target < 2 then acc
  else
    let acc1 : FlowScan :=
      if solution ed.target ≠ solution n then { acc with sol_weight := acc.sol_weight + ed.weight }
      else acc
    if mapping n < 2 then
      if mapping n = 0 then
        { acc1 with edgesToFixed0 := addTo acc1.edgesToFixed0 (mapping ed.target) ed.weight }
      else
        { acc1 with edgesToFixed1 := addTo acc1.edgesToFixed1 (mapping ed.target) ed.weight }
    else { acc1 with edges := acc1.edges ++ [(mapping n, mapping ed.target, ed.weight)] }

/-- Body of the outer loop of the edge scan of `flowBetweenBlocks`. -/
def flowScanNode (env : Env) (solution : Nat → Nat) (terminal1 terminal2 : Nat)
    (mapping : Nat → Nat) (acc : FlowScan) (n : Nat) : FlowScan :=
  if solution n ≠ terminal1 ∧ solution n ≠ terminal2 then acc
  else (env.original_graph.edgesOf n).foldl
    (flowScanEdge solution terminal1 terminal2 mapping n) acc

/-- The edge scan of `flowBetweenBlocks`. -/
def flowScan (env : Env) (solution : Nat → Nat) (terminal1 terminal2 : Nat)
    (mapping : Nat → Nat) : FlowScan :=
  env.original_graph.nodes.foldl (flowScanNode env solution terminal1 terminal2 mapping)
    { sol_weight := 0, edges := [], edgesToFixed0 := [], edgesToFixed1 := [] }

/-- The edges of the auxiliary graph in the order in which `new_edge_order` is
called: the edges between non-fixed vertices, then one edge to node 0 per entry
of `edgesToFixed0`, then one edge to node 1 per entry of `edgesToFixed1`. -/
def auxEdges (fs : FlowScan) : List (Nat × Nat × Nat) :=
  fs.edges ++ fs.edgesToFixed0.map (fun p => (p.1, 0, p.2))
    ++ fs.edgesToFixed1.map (fun p => (p.1, 1, p.2))

/-- The auxiliary graph `G` of `flowBetweenBlocks`: `start_construction(id)`
and the calls of `new_edge_order`. -/
def auxGraph (id : Nat) (fs : FlowScan) : mutable_graph :=
  ofEdges id (auxEdges fs)

/-- Body of the last loop of `flowBetweenBlocks` (the reassignment) for node
`n`; `none` is the path `LOG1 << "DIFFERENT"; exit(1);`. -/
def reassignStep (env : Env) (terminal1 terminal2 : Nat) (mapping : Nat → Nat)
    (zero : List Nat) (solution : Option (Nat → Nat)) (n : Nat) : Option (Nat → Nat) :=
  match solution with
  | none => none
  | some sol =>
    if sol n = terminal1 ∨ sol n = terminal2 then
      if env.fixed_vertex n ∧ (decide (mapping n ∈ zero) ≠ decide (sol n = terminal1)) then none
      else
        some (fun x => if x = n then (if mapping n ∈ zero then terminal1 else terminal2)
          else sol x)
    else some sol

/-- The result of the solver call of `flowBetweenBlocks(terminal1, terminal2)`:
the pair `(f, s)`. -/
def flowResult (env : Env) (solution : Nat → Nat) (terminal1 terminal2 : Nat) : Nat × List Nat :=
  env.solver (auxGraph (buildMapping env solution terminal1 terminal2).2
    (flowScan env solution terminal1 terminal2 (buildMapping env solution terminal1 terminal2).1))

/-- Method `flowBetweenBlocks(terminal1, terminal2)`: the returned pair
`(improvement, f)` and the new state, or `none` on the fatal path.  The
unsigned difference `sol_weight - f` is kept as an integer: a negative value
stands for a wrap-around of the machine value. -/
def flowBetweenBlocks (env : Env) (st : State) (terminal1 terminal2 : Nat) :
    Option ((Int × Nat) × State) :=
  let mp := buildMapping env st.sol terminal1 terminal2
  let fs := flowScan env st.sol terminal1 terminal2 mp.1
  let fr := flowResult env st.sol terminal1 terminal2
  let noImp := if fr.1 < fs.sol_weight then st.noImprovement
    else st.noImprovement ++ [fr.1]
  match env.original_graph.nodes.foldl (reassignStep env terminal1 terminal2 mp.1 fr.2)
      (some st.sol) with
  | none => none
  | some sol1 =>
    some (((fs.sol_weight : Int) - (fr.1 : Int), fr.1),
      { st with sol := sol1, noImprovement := noImp })

/-- The matrix `blockConnectivity` of `flowLocalSearch`: entry `(a, b)` is the
sum of `w` over the edges `(n, t, w)`, seen from `n`, with `solution[n] = a`,
`solution[t] = b`, `b > a` and not both end points fixed. -/
def blockConnectivity (env : Env) (solution : Nat → Nat) (a b : Nat) : Nat :=
  (env.original_graph.nodes.map (fun n =>
    ((env.original_graph.edgesOf n).map (fun ed =>
      if solution n = a ∧ solution ed.target = b ∧ solution ed.target > solution n
          ∧ (env.fixed_vertex n = false ∨ env.fixed_vertex ed.target = false)
      then ed.weight else 0)).sum)).sum

/-- The vector `neighboringBlocks` of `flowLocalSearch` before it is permuted:
the pairs `(i, j)` in row-major order whose connectivity differs from
`previousConnectivity[i][j]`. -/
def neighboringBlocks (env : Env) (st : State) : List (Nat × Nat × Nat) :=
  (List.range env.num_blocks).flatMap (fun i =>
    ((List.range env.num_blocks).filter (fun j =>
      decide (blockConnectivity env st.sol i j ≠ st.previousConnectivity i j))).map
      (fun j => (i, j, blockConnectivity env st.sol i j)))

/-- The loop of `flowLocalSearch` over the permuted `neighboringBlocks`. -/
def flowPairs (env : Env) :
    List (Nat × Nat × Nat) → Int × State → Option (Int × State)
  | [], acc => some acc
  | p :: rest, acc =>
    match flowBetweenBlocks env acc.2 p.1 p.2.1 with
    | none => none
    | some r =>
      flowPairs env rest
        (acc.1 + r.1.1,
          { r.2 with previousConnectivity := fun a b =>
              if a = p.1 ∧ b = p.2.1 then r.1.2 else r.2.previousConnectivity a b })

/-- Method `flowLocalSearch()`, in the `k`-th iteration of the driver. -/
def flowLocalSearch (env : Env) (k : Nat) (st : State) : Option (Int × State) :=
  match flowPairs env (env.shuffle k (neighboringBlocks env st)) (0, st) with
  | none => none
  | some r => some (r.1, { r.2 with noImprovement := [] })

/-- The vector `blockwgt` of `gainLocalSearch` for node `n`. -/
def blockwgt (env : Env) (solution : Nat → Nat) (n : Nat) (b : Nat) : Nat :=
  ((env.original_graph.edgesOf n).map
    (fun ed => if solution ed.target = b then ed.weight else 0)).sum

/-- The loop of `gainLocalSearch` that finds `(maxBlockID, maxBlockWgt)`. -/
def maxBlock (wgt : Nat → Nat) (ownBlockID num_terminals : Nat) : Nat × Nat :=
  (List.range num_terminals).foldl
    (fun acc i => if i ≠ ownBlockID ∧ wgt i > acc.2 then (i, wgt i) else acc) (0, 0)

/-- The local state of `gainLocalSearch`: the solution, `improvement`,
`inBoundary`, `nextBest` (`none` for the pair `(UNDEFINED_NODE, 0)`, whose
block id differs from every `maxBlockID`) and `movedToNewBlock`. -/
structure GainState where
  sol : Nat → Nat
  improvement : Int
  inBoundary : Nat → Bool
  nextBest : Nat → Option (Nat × Int)
  movedToNewBlock : Nat → Option Nat

/-- The loops `nextBest[b] = (UNDEFINED_NODE, 0); inBoundary[b] = true;` over
the targets `b` of the edges of `n`. -/
def invalidate (env : Env) (gs : GainState) (n : Nat) : GainState :=
  (env.original_graph.edgesOf n).foldl
    (fun g ed =>
      { g with
        nextBest := fun x => if x = ed.target then none else g.nextBest x
        inBoundary := fun x => if x = ed.target then true else g.inBoundary x })
    gs

/-- Body of the paired-move loop of `gainLocalSearch` for the edge `ed` of `n`;
the Boolean is `notDoublemoved`. -/
def pairStep (env : Env) (n maxBlockID : Nat) (gain : Int) (acc : GainState × Bool) (ed : Edge) :
    GainState × Bool :=
  match acc.1.nextBest ed.target with
  | none => acc
  | some nb =>
    if acc.1.sol ed.target = acc.1.sol n ∧ nb.1 = maxBlockID
        ∧ nb.2 + gain + 2 * (ed.weight : Int) > 0 ∧ nb.2 + gain + 2 * (ed.weight : Int) > gain then
      let g1 : GainState :=
        { acc.1 with
          sol := fun x => if x = ed.target then maxBlockID
            else if x = n then maxBlockID else acc.1.sol x
          improvement := acc.1.improvement + (nb.2 + gain + 2 * (ed.weight : Int))
          movedToNewBlock :=
            if env.inexact then
              fun x => if x = ed.target then some maxBlockID
                else if x = n then some maxBlockID else acc.1.movedToNewBlock x
            else acc.1.movedToNewBlock }
      let g2 := invalidate env g1 n
      let g3 : GainState :=
        { g2 with nextBest := fun x => if x = ed.target then none else g2.nextBest x }
      (invalidate env g3 ed.target, false)
    else acc

/-- The statement `if (maxBlockWgt) inBoundary[n] = false;` of
`gainLocalSearch`. -/
def markInner (gs : GainState) (n maxBlockWgt : Nat) : GainState :=
  if maxBlockWgt ≠ 0 then
    { gs with inBoundary := fun x => if x = n then false else gs.inBoundary x }
  else gs

/-- The end of the body of the main loop of `gainLocalSearch`, after the
paired-move loop has produced `r`: nothing more after a paired move, else the
solo move if `gain >= 0`, else the entry `nextBest[n] = (maxBlockID, gain)`. -/
def soloStep (env : Env) (n maxBlockID : Nat) (gain : Int) (r : GainState × Bool) : GainState :=
  if r.2 = false then r.1
  else if gain ≥ 0 then
    invalidate env
      { r.1 with
        sol := fun x => if x = n then maxBlockID else r.1.sol x
        movedToNewBlock :=
          if env.inexact then fun x => if x = n then some maxBlockID else r.1.movedToNewBlock x
          else r.1.movedToNewBlock
        improvement := r.1.improvement + gain } n
  else
    { r.1 with nextBest := fun x => if x = n then some (maxBlockID, gain) else r.1.nextBest x }

/-- The pair `(maxBlockID, maxBlockWgt)` that `gainLocalSearch` computes for
node `n`. -/
def bestBlock (env : Env) (solution : Nat → Nat) (n : Nat) : Nat × Nat :=
  maxBlock (blockwgt env solution n) (solution n) env.num_terminals

/-- The value of a signed 64 bit integer (`int64_t`) with the bit pattern of
`x` modulo `2^64`: the conversion `static_cast<int64_t>` of an unsigned 64 bit
value and the result of a signed 64 bit operation in two's complement. -/
def toInt64 (x : Int) : Int := (x + 2 ^ 63) % 2 ^ 64 - 2 ^ 63

/-- The difference `maxBlockWgt - ownBlockWgt` of the two block weights of node
`n` as an integer, without the conversions to 64 bit. -/
def gainExact (env : Env) (solution : Nat → Nat) (n : Nat) : Int :=
  ((bestBlock env solution n).2 : Int) - (blockwgt env solution n (solution n) : Int)

/-- The value `gain` that `gainLocalSearch` computes for node `n`:
`static_cast<int64_t>(maxBlockWgt) - static_cast<int64_t>(ownBlockWgt)`, a
difference of two `int64_t` values. -/
def gainOf (env : Env) (solution : Nat → Nat) (n : Nat) : Int :=
  toInt64 (toInt64 ((bestBlock env solution n).2 : Int)
    - toInt64 (blockwgt env solution n (solution n) : Int))

/-- Body of the main loop of `gainLocalSearch` for the node `n = permute[v]`. -/
def gainStep (env : Env) (gs : GainState) (n : Nat) : GainState :=
  if env.fixed_vertex n ∨ gs.inBoundary n = false ∨ env.term_pos n then gs
  else
    soloStep env n (bestBlock env gs.sol n).1 (gainOf env gs.sol n)
      ((env.original_graph.edgesOf n).foldl
        (pairStep env n (bestBlock env gs.sol n).1 (gainOf env gs.sol n))
        (markInner gs n (bestBlock env gs.sol n).2, true))

/-- Method `gainLocalSearch()`, in the `k`-th iteration of the driver: the
returned improvement and the new state. -/
def gainLocalSearch (env : Env) (k : Nat) (st : State) : Int × State :=
  let r := (env.permute k).foldl (gainStep env)
    { sol := st.sol, improvement := 0, inBoundary := fun _ => true,
      nextBest := fun _ => none, movedToNewBlock := st.movedToNewBlock }
  (r.improvement, { st with sol := r.sol, movedToNewBlock := r.movedToNewBlock })

/-- The loop of `improveSolution` from its `k`-th iteration on, with
`total_improvement` so far; `none` on the fatal path of `flowBetweenBlocks`
and when `fuel` iterations do not end the loop.  The tests `impFlow > 0` and
`impGain > 0` are on unsigned values, which are positive exactly when they are
not 0. -/
def improveLoop (env : Env) : Nat → Nat → Int → State → Option (Int × State)
  | 0, _, _, _ => none
  | fuel + 1, k, total, st =>
    match flowLocalSearch env k st with
    | none => none
    | some rf =>
      let rg := gainLocalSearch env k rf.2
      if rf.1 ≠ 0 ∨ rg.1 ≠ 0 then improveLoop env fuel (k + 1) (total + rf.1 + rg.1) rg.2
      else some (total + rf.1 + rg.1, rg.2)

/-- Method `improveSolution()`. -/
def improveSolution (env : Env) (fuel : Nat) (st : State) : Option (Int × State) :=
  improveLoop env fuel 0 0 st

/-- The total cut weight of a solution: the sum of `w(u, v)` over the edges
`{u, v}` of the original graph with `sol[u] ≠ sol[v]`, every edge taken once
(from its end point with the smaller id). -/
def cutWeight (G : mutable_graph) (sol : Nat → Nat) : Nat :=
  (G.nodes.map (fun u =>
    ((G.edgesOf u).map (fun ed =>
      if u < ed.target ∧ sol u ≠ sol ed.target then ed.weight else 0)).sum)).sum

/-- The weight of the cut of a graph `H` that has the node set `s` on one side:
the sum of the weights of the edges leaving `s`. -/
def cutOf (H : mutable_graph) (s : List Nat) : Nat :=
  (H.nodes.map (fun u =>
    ((H.edgesOf u).map (fun ed =>
      if u ∈ s ∧ ed.target ∉ s then ed.weight else 0)).sum)).sum

/-- A simple undirected graph: edge targets are nodes, there are no self-loops
and no parallel edges, and every edge has its reverse edge of the same
weight. -/
def Simple (G : mutable_graph) : Prop :=
  (∀ u ed, ed ∈ G.edgesOf u → ed.target < G.n ∧ ed.target ≠ u) ∧
  (∀ u, ((G.edgesOf u).map Edge.target).Nodup) ∧
  (∀ u ed, ed ∈ G.edgesOf u → ({ target := u, weight := ed.weight } : Edge) ∈ G.edgesOf ed.target)

/-- The edge weights are small enough for the signed 64 bit arithmetic of
`gainLocalSearch`: the sum of the weighted degrees of all nodes, twice the
total edge weight, is below `2^63`. -/
def WeightBound (G : mutable_graph) : Prop :=
  (G.nodes.map G.getWeightedNodeDegree).sum < 2 ^ 63

/-- A max-flow procedure that returns the value and the source side of a
minimum cut between node 0 and node 1. -/
def MinCutSolver (solver : mutable_graph → Nat × List Nat) : Prop :=
  ∀ H : mutable_graph,
    0 ∈ (solver H).2 ∧ 1 ∉ (solver H).2 ∧ (solver H).1 = cutOf H (solver H).2 ∧
    ∀ s : List Nat, 0 ∈ s → 1 ∉ s → (solver H).1 ≤ cutOf H s

end local_search

namespace local_search
open mutable_graph

/-- A small instance: the path 0 - 1 - 2 with unit weights, the end points
fixed, vertices 0 and 1 in block 0 and vertex 2 in block 1, and a solver that
answers with the cut `{0, 2}` of value 1 (node 2 of the auxiliary graph stands
for vertex 1). -/
def pathEnv : Env :=
  { original_graph := ofEdges 3 [(0, 1, 1), (1, 2, 1)]
    fixed_vertex := fun v => v == 0 || v == 2
    term_pos := fun _ => false
    inexact := false
    num_terminals := 2
    num_blocks := 2
    solver := fun _ => (1, [0, 2])
    permute := fun _ => [0, 1, 2]
    shuffle := fun _ l => l }

/-- The state that goes with `pathEnv`. -/
def pathState : State :=
  { sol := fun v => if v = 2 then 1 else 0
    movedToNewBlock := fun _ => none
    previousConnectivity := fun _ _ => 0
    noImprovement := [] }

end local_search

namespace local_search
open mutable_graph

/-- The part of the loop invariant of `gainLocalSearch` behind the validity of
the solution: block ids stay below `num_terminals`, fixed vertices keep their
block, and `nextBest` is set for non-fixed vertices only. -/
def ValidInv (env : Env) (sol0 : Nat → Nat) (gs : GainState) : Prop :=
  (∀ v, v < env.original_graph.n → gs.sol v < env.num_terminals) ∧
  (∀ v, env.fixed_vertex v = true → gs.sol v = sol0 v) ∧
  (∀ x p, gs.nextBest x = some p → env.fixed_vertex x = false)

end local_search

namespace local_search
open mutable_graph

/-- The directed edges of a graph as triples `(source, target, weight)`: every
slot of every edge list. -/
def dedges (G : mutable_graph) : List (Nat × Nat × Nat) :=
  G.nodes.flatMap (fun u => (G.edgesOf u).map (fun ed => (u, ed.target, ed.weight)))

end local_search

namespace local_search
open mutable_graph

/-- The loop invariant of `gainLocalSearch` on a simple graph, relative to the
solution `sol0` at the start of the call: `improvement` is the decrease of the
cut weight so far and is not negative, block ids are below `num_terminals`,
and an entry of `nextBest` is the pair `(maxBlockID, gain)` that the code would
compute for that vertex from the current solution, with a negative gain. -/
def GainInv (env : Env) (sol0 : Nat → Nat) (gs : GainState) : Prop :=
  (cutWeight env.original_graph gs.sol : Int) + gs.improvement
    = (cutWeight env.original_graph sol0 : Int) ∧
  0 ≤ gs.improvement ∧
  (∀ v, v < env.original_graph.n → gs.sol v < env.num_terminals) ∧
  (∀ x p, gs.nextBest x = some p →
    p = ((bestBlock env gs.sol x).1, gainExact env gs.sol x) ∧ p.2 < 0)

/-- The weight of the edges of `t` that lead to `n`. -/
def wtTo (G : mutable_graph) (t n : Nat) : Nat :=
  ((G.edgesOf t).map (fun ed => if ed.target = n then ed.weight else 0)).sum

end local_search

namespace local_search
open mutable_graph

/-- The weight that the edge `e = (u, v, w)` contributes to the cut with side
`s`: `w` if exactly one end point is in `s`. -/
def crossW (s : List Nat) (e : Nat × Nat × Nat) : Nat :=
  if decide (e.1 ∈ s) ≠ decide (e.2.1 ∈ s) then e.2.2 else 0

/-- The directed edge `x = (n, t, w)` of the original graph passes the tests of
the edge scan of `flowBetweenBlocks`: both end points are in one of the two
blocks, `mapping[n] < mapping[t]` and `mapping[t] >= 2`. -/
def scanned (sol : Nat → Nat) (t1 t2 : Nat) (m : Nat → Nat) (x : Nat × Nat × Nat) : Bool :=
  decide ((sol x.1 = t1 ∨ sol x.1 = t2) ∧ (sol x.2.1 = t1 ∨ sol x.2.1 = t2)
    ∧ m x.1 < m x.2.1 ∧ 2 ≤ m x.2.1)

/-- Both end points of the directed edge `x` are in one of the two blocks and
not both are fixed: the edges that the auxiliary graph represents. -/
def relevant (env : Env) (sol : Nat → Nat) (t1 t2 : Nat) (x : Nat × Nat × Nat) : Bool :=
  decide ((sol x.1 = t1 ∨ sol x.1 = t2) ∧ (sol x.2.1 = t1 ∨ sol x.2.1 = t2)
    ∧ ¬ (env.fixed_vertex x.1 = true ∧ env.fixed_vertex x.2.1 = true))

/-- The solution that the reassignment loop of `flowBetweenBlocks` writes for
the source side `s`. -/
def reassigned (sol : Nat → Nat) (t1 t2 : Nat) (m : Nat → Nat) (s : List Nat) (N : Nat) :
    Nat → Nat :=
  fun v => if v < N ∧ (sol v = t1 ∨ sol v = t2) then (if m v ∈ s then t1 else t2) else sol v

/-- The cut of the auxiliary graph that the current solution induces: node 0
and the images of the non-fixed vertices of block `t1`. -/
def currentSide (env : Env) (sol : Nat → Nat) (t1 : Nat) (m : Nat → Nat) : List Nat :=
  0 :: (env.original_graph.nodes.filter
    (fun v => decide (sol v = t1 ∧ env.fixed_vertex v = false))).map m

end local_search

namespace local_search
open mutable_graph

/-- The nodes of `H` and the targets of its edges: the ids whose membership in
a node set decides the weight of the cut. -/
def cutUniverse (H : mutable_graph) : List Nat :=
  H.nodes ++ H.nodes.flatMap (fun u => (H.edgesOf u).map Edge.target)

/-- The node sets that contain node 0 and not node 1, one for every sublist of
the other ids of `cutUniverse`. -/
def cutCandidates (H : mutable_graph) : List (List Nat) :=
  ((cutUniverse H).filter (fun v => decide (v ≠ 0 ∧ v ≠ 1))).sublists.map (fun c => 0 :: c)

/-- A minimum-cut solver by exhaustive search: the lightest of the candidate
node sets and its weight. -/
def exhaustiveSolver (H : mutable_graph) : Nat × List Nat :=
  (cutOf H ((cutCandidates H).foldl (fun b c => if cutOf H c < cutOf H b then c else b) [0]),
    (cutCandidates H).foldl (fun b c => if cutOf H c < cutOf H b then c else b) [0])

/-- The instance `pathEnv` with the exhaustive minimum-cut solver. -/
def pathEnvExact : Env :=
  { pathEnv with solver := exhaustiveSolver }

end local_search

namespace mutable_graph

/-- The node id that `mergeInto r v` gives to the node with id `p` of a graph
with `n` nodes: `v` goes to `r`, and the highest id takes the place of `v`. -/
def mergeMap (n r v p : Nat) : Nat :=
  if r < n ∧ v < n ∧ r ≠ v then
    (if (if p = v then r else p) = n - 1 then v else (if p = v then r else p))
  else p

/-- The position map agrees with the contained lists: every original in the
contained list of a node has that node as its current position. -/
def Positioned (G : mutable_graph) : Prop :=
  ∀ n c, c ∈ G.containedVertices n → G.current_position c = some n

/-- An undirected graph: edge targets are nodes and every edge has its reverse
edge of the same weight. -/
def Undirected (G : mutable_graph) : Prop :=
  ∀ u ed, ed ∈ G.edgesOf u →
    ed.target < G.n ∧ ({ target := u, weight := ed.weight } : Edge) ∈ G.edgesOf ed.target

end mutable_graph

namespace heavy_edges
open mutable_graph

/-- Node `x` of `G` has an edge that is heavier than `mincut`. -/
def Heavy (mincut : Nat) (G : mutable_graph) (x : Nat) : Prop :=
  ∃ ed ∈ G.edgesOf x, ed.weight > mincut

end heavy_edges

namespace mutable_graph

/-- The graph inside `mergeInto r v` before node `v` is deleted: `r` holds the
merged node and `v` is empty and without edges. -/
def mergeCore (G : mutable_graph) (r v : Nat) : mutable_graph :=
  { vertices := ((G.vertices.map
        (fun x => ({ x with edges := collapse (retarget v r x.edges) } : Vertex))).set r
        { contained := G.containedVertices r ++ G.containedVertices v
          edges := collapse ((retarget v r (G.edgesOf r ++ G.edgesOf v)).filter
            (fun ed => ed.target != r)) }).set v { contained := [], edges := [] }
    current_position := fun c =>
      match G.current_position c with
      | none => none
      | some p => if p = v then some r else some p }

end mutable_graph

namespace heavy_edges
open mutable_graph

/-- The invariant of the third loop of `removeHeavyEdges`, for the marked
originals `marks` and the state `(G, cactusEdge)`: positions agree with the
contained lists; the node of a marked original has exactly one edge, and the
target of that edge is not the node of a marked original; the originals of the
logged contained lists have no position and the lists are pairwise disjoint;
the first component of a log entry is positioned at a node that is not the node
of a marked original. -/
def LeafInv (marks : List Nat) (st : mutable_graph × List (Nat × List Nat)) : Prop :=
  Positioned st.1 ∧
  (∀ e ∈ marks, ∀ x, st.1.current_position e = some x →
    x < st.1.n ∧ ∃ T w, st.1.edgesOf x = [{ target := T, weight := w }] ∧
      ∀ e1 ∈ marks, st.1.current_position e1 ≠ some T) ∧
  (∀ entry ∈ st.2, ∀ c ∈ entry.2, st.1.current_position c = none) ∧
  st.2.Pairwise (fun a b => ∀ c, c ∈ a.2 → c ∉ b.2) ∧
  (∀ entry ∈ st.2, ∃ p, p < st.1.n ∧ st.1.current_position entry.1 = some p ∧
    ∀ e1 ∈ marks, st.1.current_position e1 ≠ some p)

end heavy_edges

namespace mutable_graph

/-- A connected graph: every node is reachable from every node along edges. -/
def Connected (G : mutable_graph) : Prop :=
  ∀ u v, u < G.n → v < G.n →
    Relation.ReflTransGen (fun a b => ∃ ed ∈ G.edgesOf a, ed.target = b) u v

end mutable_graph

namespace heavy_edges
open mutable_graph

/-- A small instance: the triangle on the nodes 0, 1, 2 with the edges 0 - 1 and
0 - 2 of weight 9 and the edge 1 - 2 of weight 7. -/
def triangle : mutable_graph := ofEdges 3 [(0, 1, 9), (0, 2, 9), (1, 2, 7)]

/-- A small instance: the cycle 0 - 2 - 4 - 1 - 3 - 0 with all edges of
weight 2. -/
def fiveCycle : mutable_graph := ofEdges 5 [(0, 2, 2), (2, 4, 2), (4, 1, 2), (1, 3, 2), (3, 0, 2)]

end heavy_edges

namespace heavy_edges
open mutable_graph

/-- Scenario S4: the cycle A - B - C - A with all edges of weight 2, the nodes
numbered A = 0, B = 1, C = 2. -/
def s4Graph : mutable_graph := ofEdges 3 [(0, 1, 2), (1, 2, 2), (2, 0, 2)]

end heavy_edges

namespace local_search
open mutable_graph

/-- Scenario S5: the graph with the edges (v0,v2,2), (v1,v2,1), (v2,v3,5),
(v3,v1,1), the terminals v0 and v1 fixed, block `T1 = 0` and block `T2 = 1`,
visited in the order `perm`. -/
def s5Env (perm : List Nat) (inexact : Bool) : Env :=
  { original_graph := ofEdges 4 [(0, 2, 2), (1, 2, 1), (2, 3, 5), (3, 1, 1)]
    fixed_vertex := fun v => decide (v < 2)
    term_pos := fun v => decide (v < 2)
    inexact := inexact
    num_terminals := 2
    num_blocks := 2
    solver := exhaustiveSolver
    permute := fun _ => perm
    shuffle := fun _ l => l }

/-- Scenario S5: the initial solution `[T1, T2, T1, T2]`. -/
def s5State : State :=
  { sol := fun v => if v = 1 ∨ v = 3 then 1 else 0
    movedToNewBlock := fun _ => none
    previousConnectivity := fun _ _ => 0
    noImprovement := [] }

end local_search

namespace heavy_edges
open mutable_graph

/-- A small instance: the path 0 - 1 - 2 with weights 9 and 1 after the nodes 0
and 1 have been merged, so that the originals 0 and 1 sit in one super-node. -/
def mergedPair : mutable_graph := (ofEdges 3 [(0, 1, 9), (1, 2, 1)]).mergeInto 0 1

end heavy_edges

namespace heavy_edges
open mutable_graph

/-- The invariant of the third loop of `removeHeavyEdges` behind the contents
of the log, for the input graph `G`, the marked originals `marks` and the state
`(H, cactusEdge)`: the node of `H` at which a marked original sits, and every
logged contained list, is the contained list of a node of `G` whose edge list
is a single edge of weight `mincut`. -/
def PendantInv (mincut : Nat) (G : mutable_graph) (marks : List Nat)
    (st : mutable_graph × List (Nat × List Nat)) : Prop :=
  (∀ e ∈ marks, ∀ x, st.1.current_position e = some x →
    ∃ m T, m < G.n ∧ G.edgesOf m = [{ target := T, weight := mincut }] ∧
      st.1.containedVertices x = G.containedVertices m) ∧
  (∀ entry ∈ st.2, ∃ m T, m < G.n ∧ G.edgesOf m = [{ target := T, weight := mincut }] ∧
    entry.2 = G.containedVertices m)

end heavy_edges

namespace bucket_pq

/-- The reachable states of `Reachable`, each with the history of its calls
summed up in a map `m`: `m x` is the gain `x` was most recently inserted or
`changeKey`-ed with, and `none` if `x` was never inserted or was removed
(by `deleteMax` or `deleteNode`) after its last insertion. -/
inductive Tracked (span : Nat) : bucket_pq → (Nat → Option Int) → Prop
  | fresh : Tracked span (mk_pq span) (fun _ => none)
  | insert {q : bucket_pq} {m : Nat → Option Int} (node : Nat) (g : Int) : Tracked span q m →
      q.contains node = false → -(span : Int) ≤ g → g ≤ (span : Int) →
      Tracked span (q.insert node g) (fun x => if x = node then some g else m x)
  | deleteMax {q q1 : bucket_pq} {m : Nat → Option Int} {x : Nat} : Tracked span q m →
      q.empty = false → q.deleteMax = some (x, q1) →
      Tracked span q1 (fun y => if y = x then none else m y)
  | deleteNode {q q1 : bucket_pq} {m : Nat → Option Int} (node : Nat) : Tracked span q m →
      q.contains node = true → q.deleteNode node = some q1 →
      Tracked span q1 (fun y => if y = node then none else m y)
  | changeKey {q q1 : bucket_pq} {m : Nat → Option Int} (node : Nat) (g : Int) :
      Tracked span q m →
      q.contains node = true → -(span : Int) ≤ g → g ≤ (span : Int) →
      q.changeKey node g = some q1 →
      Tracked span q1 (fun y => if y = node then some g else m y)

/-- A queue of span 3 after `insert(1, 2)`, `insert(2, 2)`, `insert(3, -1)`. -/
def threeInserted : bucket_pq :=
  (((mk_pq 3).insert 1 2).insert 2 2).insert 3 (-1)

/-- The queue `threeInserted` after `changeKey(2, 0)`. -/
def afterChange : bucket_pq :=
  (threeInserted.changeKey 2 0).getD (mk_pq 3)

/-- The queue `afterChange` after `deleteNode(1)`. -/
def afterDelete : bucket_pq :=
  (afterChange.deleteNode 1).getD (mk_pq 3)

end bucket_pq

namespace local_search
open mutable_graph

/-- The local state of `gainLocalSearch`, called on the state `st`, after its
main loop has visited the nodes `l`. -/
def gainPrefix (env : Env) (st : State) (l : List Nat) : GainState :=
  l.foldl (gainStep env)
    { sol := st.sol, improvement := 0, inBoundary := fun _ => true,
      nextBest := fun _ => none, movedToNewBlock := st.movedToNewBlock }

/-- A small instance with a paired move: the terminals 0 (block 0) and 1
(block 1) are fixed, the vertices 2 and 3 are joined by an edge of weight 5 and
each has an edge of weight 1 to terminal 0 and of weight 3 to terminal 1. -/
def pairEnv : Env :=
  { original_graph := ofEdges 4 [(0, 2, 1), (2, 3, 5), (1, 2, 3), (1, 3, 3), (0, 3, 1)]
    fixed_vertex := fun v => decide (v < 2)
    term_pos := fun v => decide (v < 2)
    inexact := false
    num_terminals := 2
    num_blocks := 2
    solver := exhaustiveSolver
    permute := fun _ => [0, 1, 2, 3]
    shuffle := fun _ l => l }

/-- The state that goes with `pairEnv`: only terminal 1 is in block 1. -/
def pairState : State :=
  { sol := fun v => if v = 1 then 1 else 0
    movedToNewBlock := fun _ => none
    previousConnectivity := fun _ _ => 0
    noImprovement := [] }

end local_search

namespace local_search
open mutable_graph

/-- The instance `pairEnv` with a solver that returns the value 2 and the
source side `{0}`, the minimum cut of the auxiliary graph of the blocks 0 and 1
in the state `pairState`. -/
def pairFlowEnv : Env :=
  { pairEnv with solver := fun _ => (2, [0]) }

end local_search

namespace heavy_edges
open mutable_graph

/-- The graphs that the loop of `contractCycleEdges(G)` goes through: `G`
itself, and the graph left by the body of the loop run for a node of such a
graph. -/
inductive CycleState (mincut : Nat) (G : mutable_graph) : mutable_graph → Prop
  | start : CycleState mincut G G
  | step {H H1 : mutable_graph} {L L1 : List ((Nat × Nat) × List Nat)} (n : Nat) :
      CycleState mincut G H → n < H.n → cycleStep mincut (H, L) n = some (H1, L1) →
      CycleState mincut G H1

/-- A triangle with the weights 2, 2 and 3: node 0 has degree 2 and weighted
degree 5. -/
def oddTriangle : mutable_graph := ofEdges 3 [(0, 1, 2), (1, 2, 2), (2, 0, 3)]

end heavy_edges

namespace mutable_graph

/-- No parallel edges (spec §3 (iv)): the targets of the edges of a node are
pairwise different. -/
def NoParallel (G : mutable_graph) : Prop :=
  ∀ u, ((G.edgesOf u).map Edge.target).Nodup

end mutable_graph

namespace local_search
open mutable_graph

/-- The loop of `flowLocalSearch` over the permuted `neighboringBlocks`, as in
`flowPairs`, with a record of its calls: one entry `(a, b, connect)` per call
`flowBetweenBlocks(a, b)`, in the order of the calls, `connect` being the flow
value that the call returned. -/
def flowPairsLog (env : Env) :
    List (Nat × Nat × Nat) → (Int × State) × List (Nat × Nat × Nat) →
      Option ((Int × State) × List (Nat × Nat × Nat))
  | [], acc => some acc
  | p :: rest, acc =>
    match flowBetweenBlocks env acc.1.2 p.1 p.2.1 with
    | none => none
    | some r =>
      flowPairsLog env rest
        ((acc.1.1 + r.1.1,
          { r.2 with previousConnectivity := fun a b =>
              if a = p.1 ∧ b = p.2.1 then r.1.2 else r.2.previousConnectivity a b }),
          acc.2 ++ [(p.1, p.2.1, r.1.2)])

/-- The state of the instance `pairFlowEnv` after one pass of `flowLocalSearch`
from `pairState`: the vertices 2 and 3 are in block 1 and
`previousConnectivity[0][1]` is the flow value 2. -/
def pairStateAfter : State :=
  { sol := fun v => if v = 0 then 0 else 1
    movedToNewBlock := fun _ => none
    previousConnectivity := fun a b => if a = 0 ∧ b = 1 then 2 else 0
    noImprovement := [] }

end local_search

namespace local_search
open mutable_graph

/-- The auxiliary graph that `flowBetweenBlocks(0, 1)` builds in the instance
`bigEnv`: node 2 stands for vertex 2 and has an edge of weight 1 to node 0 and
an edge of weight `2^63 + 5` to node 1. -/
def bigAux : mutable_graph :=
  ofEdges 3 [(2, 0, 1), (2, 1, 9223372036854775813)]

/-- A minimum-cut solver for the instance `bigEnv`: on the nodes and edges of
`bigAux` the value 1 and the source side `{0}`, the exhaustive search on every
other graph. -/
def bigSolver (H : mutable_graph) : Nat × List Nat :=
  if H.vertices = bigAux.vertices then (1, [0]) else exhaustiveSolver H

/-- An instance with a weight above `2^63`: the terminals 0 (block 0) and 1
(block 1) are fixed, and vertex 2 has an edge of weight 1 to terminal 0 and an
edge of weight `2^63 + 5` to terminal 1.  Every weight and every sum of
weights fits an unsigned 64 bit integer. -/
def bigEnv : Env :=
  { original_graph := ofEdges 3 [(0, 2, 1), (1, 2, 9223372036854775813)]
    fixed_vertex := fun v => decide (v < 2)
    term_pos := fun v => decide (v < 2)
    inexact := false
    num_terminals := 2
    num_blocks := 2
    solver := bigSolver
    permute := fun _ => [0, 1, 2]
    shuffle := fun _ l => l }

/-- The state that goes with `bigEnv`, as after the constructor: vertex 2 is in
block 1, on the side of its heavy edge; the cut weight is 1. -/
def bigState : State :=
  { sol := fun v => if v = 0 then 0 else 1
    movedToNewBlock := fun _ => none
    previousConnectivity := fun _ _ => 0
    noImprovement := [] }

/-- The state of `bigEnv` after a flow pass: vertex 2 is in block 1 and
`previousConnectivity[0][1]` is the flow value 1. -/
def bigFlowed : State :=
  { sol := fun v => if v = 0 then 0 else 1
    movedToNewBlock := fun _ => none
    previousConnectivity := fun a b => if a = 0 ∧ b = 1 then 1 else 0
    noImprovement := [] }

/-- The state of `bigEnv` after a gain pass: vertex 2 is in block 0, away from
its heavy edge; the cut weight is `2^63 + 5`. -/
def bigMoved : State :=
  { sol := fun v => if v = 0 ∨ v = 2 then 0 else 1
    movedToNewBlock := fun _ => none
    previousConnectivity := fun a b => if a = 0 ∧ b = 1 then 1 else 0
    noImprovement := [] }

end local_search

namespace mutable_graph

end mutable_graph

namespace heavy_edges
open mutable_graph

/-- Body of the third loop of `removeHeavyEdges` for the marked original `e`,
as in `deleteLeaf`, with the operation `deleteVertex` of the graph class, which
is not among the sources, as the parameter `del`. -/
def deleteLeafWith (del : mutable_graph → Nat → mutable_graph)
    (st : mutable_graph × List (Nat × List Nat)) (e : Nat) :
    Option (mutable_graph × List (Nat × List Nat)) :=
  if st.1.n > 2 then
    match st.1.getCurrentPosition e with
    | none => none
    | some n =>
      if st.1.get_first_invalid_edge n ≠ 1 then none
      else
        match st.1.getEdgeTarget n 0 with
        | none => none
        | some t =>
          if st.1.isEmpty t then some st
          else
            some (del st.1 n,
              st.2 ++ [((st.1.containedVertices t).headD 0, st.1.containedVertices n)])
  else some st

/-- The third loop of `removeHeavyEdges`, with `deleteVertex` as the parameter
`del`. -/
def deleteLeavesWith (del : mutable_graph → Nat → mutable_graph) :
    List Nat → mutable_graph × List (Nat × List Nat) →
      Option (mutable_graph × List (Nat × List Nat))
  | [], st => some st
  | e :: rest, st =>
    match deleteLeafWith del st e with
    | none => none
    | some st1 => deleteLeavesWith del rest st1

/-- Method `removeHeavyEdges(G)`, with `deleteVertex` as the parameter `del`. -/
def removeHeavyEdgesWith (del : mutable_graph → Nat → mutable_graph) (mincut : Nat)
    (iter : List (Nat × List Nat) → List (Nat × List Nat)) (G : mutable_graph) :
    Option (mutable_graph × List (Nat × List Nat)) :=
  match contractGroups (iter (scan mincut G).contract) G with
  | none => none
  | some G1 => deleteLeavesWith del (scan mincut G).markForCactus (G1, [])

end heavy_edges

namespace mutable_graph

/-- The weight of the edges of an edge list that lead to `t`. -/
def wtOf (l : List Edge) (t : Nat) : Nat :=
  (l.map (fun e => if e.target = t then e.weight else 0)).sum

/-- Every edge of the graph has a positive weight. -/
def Positive (G : mutable_graph) : Prop :=
  ∀ u ed, ed ∈ G.edgesOf u → 0 < ed.weight

/-- The edge list `l` with every target renamed by `σ`. -/
def renameEdges (σ : Nat → Nat) (l : List Edge) : List Edge :=
  l.map (fun e => { target := σ e.target, weight := e.weight })

/-- The edge list `l` after its edge to `t`, of weight `w`, has been lowered by
`h`: the slot is removed when `w = h` (`deleteEdge`) and gets the weight
`w - h` otherwise (`setEdgeWeight`). -/
def lowerEdge (l : List Edge) (t w h : Nat) : List Edge :=
  if w = h then l.eraseIdx (l.findIdx (fun x => x.target == t))
  else l.set (l.findIdx (fun x => x.target == t)) { target := t, weight := w - h }

end mutable_graph

namespace heavy_edges
open mutable_graph

/-- The weighted degree of every node fits into an `EdgeWeight`. -/
def DegBound (G : mutable_graph) : Prop :=
  ∀ x, G.getWeightedNodeDegree x < 2 ^ edgeWeightBits

/-- The graphs on which the round trip of `contractCycleEdges` and
`reInsertCycles` is followed: simple and undirected, the position map agrees
with the contained lists, the edge weights are positive and the weighted
degrees fit into an `EdgeWeight`. -/
def CycleWF (G : mutable_graph) : Prop :=
  local_search.Simple G ∧ Positioned G ∧ Positive G ∧ DegBound G

/-- The graph `K` is the graph `G` with node `x` renamed to `σ x`: the same
number of nodes, `σ` is one-to-one on the nodes, node `σ x` of `K` has the
contained list of node `x` of `G`, its edge list is the edge list of `x` with
the targets renamed, up to the order of the slots, its weighted degree is that
of `x`, the originals contained in `x` are positioned at `σ x`, and an original
without a position in `G` has none in `K`. -/
def RenamedCopy (σ : Nat → Nat) (G K : mutable_graph) : Prop :=
  K.n = G.n ∧ (∀ x, x < G.n → σ x < G.n) ∧
  (∀ x y, x < G.n → y < G.n → σ x = σ y → x = y) ∧
  (∀ x, x < G.n →
    K.containedVertices (σ x) = G.containedVertices x ∧
    (K.edgesOf (σ x)).Perm (renameEdges σ (G.edgesOf x)) ∧
    K.getWeightedNodeDegree (σ x) = G.getWeightedNodeDegree x ∧
    ∀ c ∈ G.containedVertices x, K.getCurrentPosition c = some (σ x)) ∧
  (∀ c, G.getCurrentPosition c = none → K.getCurrentPosition c = none)

/-- The relation between a graph `H` of the contraction loop and the graph `K`
that the replay has reached: `K` is `H` with node `x` renamed to `τ x`, the
edges compared by the weight between each pair of nodes. -/
def ReplayRel (τ : Nat → Nat) (H K : mutable_graph) : Prop :=
  K.n = H.n ∧ (∀ x, x < H.n → τ x < H.n) ∧
  (∀ x y, x < H.n → y < H.n → τ x = τ y → x = y) ∧
  (∀ x, x < H.n → K.containedVertices (τ x) = H.containedVertices x) ∧
  (∀ x y, x < H.n → y < H.n → wtOf (K.edgesOf (τ x)) (τ y) = wtOf (H.edgesOf x) y) ∧
  (∀ x c, x < H.n → c ∈ H.containedVertices x → K.current_position c = some (τ x)) ∧
  (∀ c, H.current_position c = none → K.current_position c = none) ∧
  (∀ u ed, ed ∈ K.edgesOf u → ed.target < K.n) ∧ NoParallel K ∧ Positive K

/-- The record of the replay of the log `L` from the graph `K` to the graph
`K0`.  For every entry `((p0, p1), cont)` of `L`, with `L2` the entries behind
it, which are replayed before it: the replay of `L2` returns a graph `Ka`, the
step for the entry returns a graph `Kb` in which the new node `Ka.n()` has
exactly the two edges of weight `λ/2` to the positions of `p0` and `p1`; and in
the graph `K0` at the end of the replay that node contains `cont`, is the
position of the originals of `cont`, and has exactly two edges, each of weight
`λ/2`. -/
def ReplayTrace (mincut : Nat) (L : List ((Nat × Nat) × List Nat))
    (K K0 : mutable_graph) : Prop :=
  ∀ L1 entry L2, L = L1 ++ entry :: L2 →
    ∃ Ka Kb n0 n1, reInsertCycles mincut K L2 = some Ka ∧
      reInsertCycle mincut Ka entry = some Kb ∧
      Kb.getCurrentPosition entry.1.1 = some n0 ∧
      Kb.getCurrentPosition entry.1.2 = some n1 ∧ n0 ≠ n1 ∧
      Kb.edgesOf Ka.n = [{ target := n0, weight := mincut / 2 },
        { target := n1, weight := mincut / 2 }] ∧
      Ka.n < K0.n ∧ K0.containedVertices Ka.n = entry.2 ∧
      (∀ c ∈ entry.2, K0.getCurrentPosition c = some Ka.n) ∧
      ∃ a b, K0.edgesOf Ka.n = [a, b] ∧ a.weight = mincut / 2 ∧ b.weight = mincut / 2

/-- A triangle with an edge of weight 0 between the nodes 1 and 2. -/
def zeroWeightTriangle : mutable_graph := ofEdges 3 [(0, 1, 2), (0, 2, 2), (1, 2, 0)]

end heavy_edges

end VieCut

/-! # Theorems -/

namespace VieCut

/-! ## bucket_pq.h: the representation invariant -/

namespace bucket_pq

theorem getD_set_same {α : Type} (bs : List (List α)) (a : Nat) (v : List α) (h : a < bs.length) :
    (bs.set a v)[a]?.getD [] = v := by
  simp [List.getElem?_set, h]

theorem getD_set_other {α : Type} (bs : List (List α)) (a i : Nat) (v : List α) (h : a ≠ i) :
    (bs.set a v)[i]?.getD [] = bs[i]?.getD [] := by
  simp [List.getElem?_set, h]

theorem getD_oob {α : Type} (bs : List (List α)) (a : Nat) (h : bs.length ≤ a) :
    bs[a]?.getD [] = [] := by
  simp [List.getElem?_eq_none h]

theorem flatten_length_set {α : Type} (bs : List (List α)) (a : Nat) (v : List α)
    (h : a < bs.length) :
    (bs.set a v).flatten.length + (bs[a]?.getD []).length = bs.flatten.length + v.length := by
  induction bs generalizing a with
  | nil => simp at h
  | cons b bs ih =>
    cases a with
    | zero => simp; omega
    | succ a =>
      simp at h
      have := ih a h
      simp at this ⊢
      omega

theorem length_le_flatten {α : Type} (bs : List (List α)) (a : Nat) :
    (bs[a]?.getD []).length ≤ bs.flatten.length := by
  induction bs generalizing a with
  | nil => simp
  | cons b bs ih =>
    cases a with
    | zero => simp
    | succ a =>
      have := ih a
      simp at this ⊢
      omega

theorem exists_nonempty_of_flatten {α : Type} (bs : List (List α)) (h : bs.flatten.length ≠ 0) :
    ∃ a : Nat, bs[a]?.getD [] ≠ [] := by
  induction bs with
  | nil => simp at h
  | cons b bs ih =>
    by_cases hb : b = []
    · subst hb
      simp at h
      obtain ⟨a, ha⟩ := ih (by simpa using h)
      exact ⟨a + 1, by simpa using ha⟩
    · exact ⟨0, by simpa using hb⟩

theorem flatten_eq_nil_of_all {α : Type} (bs : List (List α)) (h : ∀ a : Nat, bs[a]?.getD [] = []) :
    bs.flatten = [] := by
  by_contra hne
  have : bs.flatten.length ≠ 0 := by
    intro h0; exact hne (List.length_eq_zero.mp h0)
  obtain ⟨a, ha⟩ := exists_nonempty_of_flatten bs this
  exact ha (h a)

/-- Splitting the concatenation of the buckets at the highest non-empty one. -/
theorem flatten_split {α : Type} (bs : List (List α)) (m : Nat) (hm : m < bs.length)
    (hab : ∀ i, m < i → bs[i]?.getD [] = []) :
    bs.flatten = (bs.take m).flatten ++ bs[m]?.getD [] := by
  have h1 : bs = bs.take m ++ (bs[m] :: bs.drop (m + 1)) := by
    rw [← List.drop_eq_getElem_cons hm, List.take_append_drop]
  have h2 : (bs.drop (m + 1)).flatten = [] := by
    apply flatten_eq_nil_of_all
    intro a
    have := hab (m + 1 + a) (by omega)
    simpa [List.getElem?_drop] using this
  conv_lhs => rw [h1]
  rw [List.flatten_append, List.flatten_cons, h2]
  simp [hm]

theorem take_set_self {α : Type} (bs : List α) (m : Nat) (v : α) :
    (bs.set m v).take m = bs.take m := by
  induction bs generalizing m with
  | nil => simp
  | cons b bs ih =>
    cases m with
    | zero => simp
    | succ m => simp [ih]

theorem flatten_set_top {α : Type} (bs : List (List α)) (m : Nat) (v : List α) (hm : m < bs.length)
    (hab : ∀ i, m < i → bs[i]?.getD [] = []) :
    (bs.set m v).flatten = (bs.take m).flatten ++ v := by
  have h := flatten_split (bs.set m v) m (by simpa using hm) (by
    intro i hi
    rw [getD_set_other _ _ _ _ (by omega)]
    exact hab i hi)
  rw [h, getD_set_same _ _ _ hm]
  rw [take_set_self]

theorem scanDown_le (bs : List (List Nat)) (k : Nat) : scanDown bs k ≤ k := by
  induction k with
  | zero => simp [scanDown]
  | succ k ih =>
    simp only [scanDown]
    split
    · omega
    · omega

theorem scanDown_between (bs : List (List Nat)) (k i : Nat) (h1 : scanDown bs k < i) (h2 : i < k) :
    bs[i]?.getD [] = [] := by
  induction k with
  | zero => omega
  | succ k ih =>
    simp only [scanDown] at h1
    split at h1
    · omega
    · rename_i hk
      by_cases hik : i = k
      · subst hik
        simpa using hk
      · exact ih h1 (by omega)

theorem scanDown_spec (bs : List (List Nat)) (k : Nat) :
    bs[scanDown bs k]?.getD [] ≠ [] ∨ scanDown bs k = 0 := by
  induction k with
  | zero => right; simp [scanDown]
  | succ k ih =>
    simp only [scanDown]
    split
    · rename_i hk
      left
      intro h
      rw [h] at hk
      simp at hk
    · exact ih

theorem address_cast (q : bucket_pq) (g : Int) (h : -(q.m_gain_span : Int) ≤ g) :
    ((q.address g : Nat) : Int) = g + (q.m_gain_span : Int) := by
  unfold address; omega

theorem address_sub (q : bucket_pq) (a : Nat) :
    q.address ((a : Int) - (q.m_gain_span : Int)) = a := by
  unfold address; omega

theorem address_lt (q : bucket_pq) (g : Int) (hl : q.m_buckets.length = 2 * q.m_gain_span + 1)
    (h1 : -(q.m_gain_span : Int) ≤ g) (h2 : g ≤ (q.m_gain_span : Int)) :
    q.address g < q.m_buckets.length := by
  unfold address; omega

theorem bucket_oob (q : bucket_pq) (a : Nat) (h : q.m_buckets.length ≤ a) : q.bucket a = [] :=
  getD_oob _ _ h

theorem bucket_lt_of_ne (q : bucket_pq) (a : Nat) (h : q.bucket a ≠ []) : a < q.m_buckets.length := by
  by_contra hc
  exact h (bucket_oob q a (by omega))

theorem WF_mk_pq (span : Nat) : WF (mk_pq span) := by
  refine ⟨by simp [mk_pq], ?_, ?_, ?_, ?_, ?_, ?_⟩
  · intro i _
    simp only [bucket, mk_pq, List.getElem?_replicate]
    split <;> rfl
  · intro h; exact absurd rfl h
  · intro _; rfl
  · simp only [mk_pq]
    symm
    rw [List.length_eq_zero]
    apply flatten_eq_nil_of_all
    intro a
    simp only [List.getElem?_replicate]
    split <;> rfl
  · intro x i g h; simp [mk_pq] at h
  · intro a i x h
    have : (mk_pq span).bucket a = [] := by
      simp only [bucket, mk_pq, List.getElem?_replicate]
      split <;> rfl
    rw [this] at h
    simp at h

theorem insert_bucket_same (q : bucket_pq) (node : Nat) (g : Int)
    (ha : q.address g < q.m_buckets.length) :
    (q.insert node g).bucket (q.address g) = q.bucket (q.address g) ++ [node] := by
  simp only [insert, bucket]
  exact getD_set_same _ _ _ ha

theorem insert_bucket_other (q : bucket_pq) (node : Nat) (g : Int) (i : Nat)
    (hi : q.address g ≠ i) :
    (q.insert node g).bucket i = q.bucket i := by
  simp only [insert, bucket]
  exact getD_set_other _ _ _ _ hi

theorem insert_index (q : bucket_pq) (node : Nat) (g : Int)
    (ha : q.address g < q.m_buckets.length) (x : Nat) :
    (q.insert node g).m_queue_index x =
      if x = node then some ((q.bucket (q.address g)).length, g) else q.m_queue_index x := by
  have h := getD_set_same q.m_buckets (q.address g) (q.bucket (q.address g) ++ [node]) ha
  simp only [insert, h]
  simp

theorem not_contains_of_mem (q : bucket_pq) (hq : WF q) (node : Nat)
    (hc : q.contains node = false) (a i : Nat) : (q.bucket a)[i]? ≠ some node := by
  intro h
  have := hq.complete a i node h
  simp [contains, this] at hc

theorem WF_insert (q : bucket_pq) (hq : WF q) (node : Nat) (g : Int)
    (hc : q.contains node = false)
    (h1 : -(q.m_gain_span : Int) ≤ g) (h2 : g ≤ (q.m_gain_span : Int)) :
    WF (q.insert node g) := by
  have ha := address_lt q g hq.len h1 h2
  have hsame := insert_bucket_same q node g ha
  have hother := insert_bucket_other q node g
  have hidx := insert_index q node g ha
  have hmax : (q.insert node g).m_max_idx =
      if q.address g > q.m_max_idx then q.address g else q.m_max_idx := rfl
  have hspan : (q.insert node g).m_gain_span = q.m_gain_span := rfl
  have haddr : ∀ g', (q.insert node g).address g' = q.address g' := fun _ => rfl
  refine ⟨?_, ?_, ?_, ?_, ?_, ?_, ?_⟩
  · simp only [insert, List.length_set]; exact hq.len
  · intro i hi
    rw [hmax] at hi
    have hne : q.address g ≠ i := by split at hi <;> omega
    rw [hother i hne]
    apply hq.above
    split at hi <;> omega
  · intro _
    rw [hmax]
    split
    · rw [hsame]; simp
    · rename_i hle
      by_cases he : q.address g = q.m_max_idx
      · rw [← he, hsame]; simp
      · rw [hother _ he]
        apply hq.top
        intro h0
        have := hq.zero h0
        omega
  · intro h; simp [insert] at h
  · have := flatten_length_set q.m_buckets (q.address g) (q.bucket (q.address g) ++ [node]) ha
    have hc := hq.count
    simp only [insert]
    simp only [bucket, List.length_append, List.length_singleton] at this ⊢
    omega
  · intro x i g' hx
    rw [hspan, haddr]
    rw [hidx] at hx
    split at hx
    · rename_i hxn
      simp only [Option.some.injEq, Prod.mk.injEq] at hx
      obtain ⟨rfl, rfl⟩ := hx
      refine ⟨h1, h2, ?_⟩
      rw [hsame, hxn]
      simp
    · obtain ⟨b1, b2, b3⟩ := hq.sound x i g' hx
      refine ⟨b1, b2, ?_⟩
      by_cases he : q.address g = q.address g'
      · rw [← he, hsame]
        rw [← he] at b3
        have hlt : i < (q.bucket (q.address g)).length := by
          by_contra hn
          rw [List.getElem?_eq_none (by omega)] at b3
          simp at b3
        rw [List.getElem?_append_left hlt]
        exact b3
      · rw [hother _ he]; exact b3
  · intro a i x hx
    rw [hspan, hidx]
    by_cases he : q.address g = a
    · subst he
      rw [hsame] at hx
      by_cases hlt : i < (q.bucket (q.address g)).length
      · rw [List.getElem?_append_left hlt] at hx
        have hxn : x ≠ node := by
          rintro rfl
          exact not_contains_of_mem q hq _ hc _ _ hx
        rw [if_neg hxn]
        exact hq.complete _ _ _ hx
      · rw [List.getElem?_append_right (by omega)] at hx
        have hi0 : i - (q.bucket (q.address g)).length = 0 := by
          by_contra hn
          rw [List.getElem?_eq_none (by simp; omega)] at hx
          simp at hx
        rw [hi0] at hx
        simp only [List.getElem?_cons_zero, Option.some.injEq] at hx
        subst hx
        rw [if_pos rfl]
        have hcast := address_cast q g h1
        have : i = (q.bucket (q.address g)).length := by omega
        rw [this, hcast]
        simp
    · rw [hother _ he] at hx
      have hxn : x ≠ node := by
        rintro rfl
        exact not_contains_of_mem q hq _ hc _ _ hx
      rw [if_neg hxn]
      exact hq.complete _ _ _ hx

theorem all_empty_of_flatten (bs : List (List Nat)) (h : bs.flatten.length = 0) (a : Nat) :
    bs[a]?.getD [] = [] := by
  have := length_le_flatten bs a
  exact List.length_eq_zero.mp (by omega)

/-- Removing one element from bucket `a` and rescanning `m_max_idx` when the top
bucket became empty keeps the shape part of the invariant. -/
theorem shape_remove (q q1 : bucket_pq) (hq : WF q) (a : Nat) (b' : List Nat)
    (hlen : b'.length + 1 = (q.bucket a).length)
    (hb : q1.m_buckets = q.m_buckets.set a b')
    (he : q1.m_elements = q.m_elements - 1)
    (hs : q1.m_gain_span = q.m_gain_span)
    (hm : q1.m_max_idx =
      if a = q.m_max_idx ∧ b' = [] then scanDown q1.m_buckets q.m_max_idx else q.m_max_idx) :
    q1.m_buckets.length = 2 * q1.m_gain_span + 1 ∧
    (∀ i, q1.m_max_idx < i → q1.bucket i = []) ∧
    (q1.m_elements ≠ 0 → q1.bucket q1.m_max_idx ≠ []) ∧
    (q1.m_elements = 0 → q1.m_max_idx = 0) ∧
    q1.m_elements = q1.m_buckets.flatten.length := by
  have hane : q.bucket a ≠ [] := by
    intro h; rw [h] at hlen; simp at hlen
  have ha : a < q.m_buckets.length := bucket_lt_of_ne q a hane
  have hamax : a ≤ q.m_max_idx := by
    by_contra hc
    exact hane (hq.above a (by omega))
  have hbs : q1.bucket a = b' := by
    simp only [bucket, hb]; exact getD_set_same _ _ _ ha
  have hbo : ∀ i, a ≠ i → q1.bucket i = q.bucket i := by
    intro i hi
    simp only [bucket, hb]; exact getD_set_other _ _ _ _ hi
  have hcnt : q1.m_buckets.flatten.length + 1 = q.m_buckets.flatten.length := by
    have := flatten_length_set q.m_buckets a b' ha
    rw [hb]
    simp only [bucket] at hlen
    omega
  have hold : q.m_elements ≠ 0 := by
    have := hq.count; omega
  have habove : ∀ i, q1.m_max_idx < i → q1.bucket i = [] := by
    intro i hi
    rw [hm] at hi
    split at hi
    · rename_i hc
      obtain ⟨hc1, hc2⟩ := hc
      by_cases h1 : a < i
      · rw [hbo i (by omega)]; exact hq.above i (by omega)
      · by_cases h2 : i = a
        · rw [h2, hbs]; exact hc2
        · exact scanDown_between _ _ _ hi (by omega)
    · rw [hbo i (by omega)]; exact hq.above i hi
  refine ⟨?_, habove, ?_, ?_, ?_⟩
  · rw [hb, hs, List.length_set]; exact hq.len
  · intro hne
    have hfl : q1.m_buckets.flatten.length ≠ 0 := by
      have := hq.count; omega
    obtain ⟨j, hj⟩ := exists_nonempty_of_flatten _ hfl
    have hjle : j ≤ q1.m_max_idx := by
      by_contra hc
      exact hj (habove j (by omega))
    by_cases hc : a = q.m_max_idx ∧ b' = []
    · rw [if_pos hc] at hm
      rcases scanDown_spec q1.m_buckets q.m_max_idx with h | h
      · rw [← hm] at h; exact h
      · rw [← hm] at h
        have : j = q1.m_max_idx := by omega
        rw [← this]; exact hj
    · rw [if_neg hc] at hm
      rw [hm]
      by_cases ham : a = q.m_max_idx
      · rw [← ham, hbs]
        intro h; exact hc ⟨ham, h⟩
      · rw [hbo _ ham]; exact hq.top hold
  · intro h0
    have hfl : q1.m_buckets.flatten.length = 0 := by
      have := hq.count; omega
    have hall := all_empty_of_flatten _ hfl
    by_cases hc : a = q.m_max_idx ∧ b' = []
    · rw [if_pos hc] at hm
      rcases scanDown_spec q1.m_buckets q.m_max_idx with h | h
      · exact absurd (hall _) h
      · rw [hm]; exact h
    · rw [if_neg hc] at hm
      exfalso
      by_cases ham : a = q.m_max_idx
      · apply hc
        refine ⟨ham, ?_⟩
        rw [← hbs]; exact hall a
      · have := hq.top hold
        rw [← hbo _ ham] at this
        exact this (hall _)
  · have := hq.count; omega

theorem getLast?_eq_some_getElem? (b : List Nat) (x : Nat) (h : b.getLast? = some x) :
    b[b.length - 1]? = some x ∧ 0 < b.length := by
  rw [List.getLast?_eq_getElem?] at h
  refine ⟨h, ?_⟩
  by_contra hc
  have : b = [] := List.length_eq_zero.mp (by omega)
  subst this
  simp at h

/-- A stored node sits in exactly one slot. -/
theorem slot_unique (q : bucket_pq) (hq : WF q) (a i a' i' x : Nat)
    (h1 : (q.bucket a)[i]? = some x) (h2 : (q.bucket a')[i']? = some x) : a = a' ∧ i = i' := by
  have e1 := hq.complete a i x h1
  have e2 := hq.complete a' i' x h2
  rw [e1] at e2
  simp only [Option.some.injEq, Prod.mk.injEq] at e2
  omega

theorem deleteMax_some (q : bucket_pq) (hq : WF q) (hne : q.m_elements ≠ 0) :
    ∃ x q1, q.deleteMax = some (x, q1) := by
  have := hq.top hne
  unfold deleteMax
  cases h : (q.bucket q.m_max_idx).getLast? with
  | none => rw [List.getLast?_eq_none_iff] at h; exact absurd h this
  | some x => exact ⟨x, _, rfl⟩

theorem deleteMax_fields (q q1 : bucket_pq) (x : Nat) (h : q.deleteMax = some (x, q1)) :
    (q.bucket q.m_max_idx).getLast? = some x ∧
    q1.m_buckets = q.m_buckets.set q.m_max_idx (q.bucket q.m_max_idx).dropLast ∧
    q1.m_elements = q.m_elements - 1 ∧
    q1.m_gain_span = q.m_gain_span ∧
    q1.m_queue_index = (fun y => if y = x then none else q.m_queue_index y) ∧
    q1.m_max_idx =
      if ((q.m_buckets.set q.m_max_idx (q.bucket q.m_max_idx).dropLast)[q.m_max_idx]?.getD
          []).length = 0
      then scanDown (q.m_buckets.set q.m_max_idx (q.bucket q.m_max_idx).dropLast) q.m_max_idx
      else q.m_max_idx := by
  unfold deleteMax at h
  cases hl : (q.bucket q.m_max_idx).getLast? with
  | none => rw [hl] at h; simp at h
  | some y =>
    rw [hl] at h
    simp only [Option.some.injEq, Prod.mk.injEq] at h
    obtain ⟨rfl, rfl⟩ := h
    exact ⟨rfl, rfl, rfl, rfl, rfl, rfl⟩

theorem WF_deleteMax (q q1 : bucket_pq) (x : Nat) (hq : WF q) (h : q.deleteMax = some (x, q1)) :
    WF q1 := by
  obtain ⟨hl, hb, he, hs, hi, hm⟩ := deleteMax_fields q q1 x h
  obtain ⟨hx, hpos⟩ := getLast?_eq_some_getElem? _ _ hl
  have hne : q.bucket q.m_max_idx ≠ [] := by
    intro h0; rw [h0] at hpos; simp at hpos
  have ha : q.m_max_idx < q.m_buckets.length := bucket_lt_of_ne q _ hne
  have hlen : (q.bucket q.m_max_idx).dropLast.length + 1 = (q.bucket q.m_max_idx).length := by
    simp; omega
  have hm' : q1.m_max_idx =
      if q.m_max_idx = q.m_max_idx ∧ (q.bucket q.m_max_idx).dropLast = [] then
        scanDown q1.m_buckets q.m_max_idx else q.m_max_idx := by
    rw [hm, hb, getD_set_same _ _ _ ha]
    by_cases hd : (q.bucket q.m_max_idx).dropLast = []
    · simp [hd]
    · have : (q.bucket q.m_max_idx).dropLast.length ≠ 0 := by
        intro h0; exact hd (List.length_eq_zero.mp h0)
      rw [if_neg this, if_neg (fun hc => hd hc.2)]
  obtain ⟨s1, s2, s3, s4, s5⟩ := shape_remove q q1 hq q.m_max_idx _ hlen hb he hs hm'
  have hbs : q1.bucket q.m_max_idx = (q.bucket q.m_max_idx).dropLast := by
    simp only [bucket, hb]; exact getD_set_same _ _ _ ha
  have hbo : ∀ i, q.m_max_idx ≠ i → q1.bucket i = q.bucket i := by
    intro i hi
    simp only [bucket, hb]; exact getD_set_other _ _ _ _ hi
  have hsub : ∀ a i y, (q1.bucket a)[i]? = some y → (q.bucket a)[i]? = some y ∧
      (a = q.m_max_idx → i < (q.bucket q.m_max_idx).length - 1) := by
    intro a i y hy
    by_cases ham : q.m_max_idx = a
    · subst ham
      rw [hbs, List.getElem?_dropLast] at hy
      split at hy
      · exact ⟨hy, fun _ => by assumption⟩
      · simp at hy
    · rw [hbo a ham] at hy
      exact ⟨hy, fun h => absurd h.symm ham⟩
  refine ⟨s1, s2, s3, s4, s5, ?_, ?_⟩
  · intro y i g hy
    rw [hi] at hy
    simp only at hy
    split at hy
    · simp at hy
    · rename_i hyx
      rw [hs]
      obtain ⟨b1, b2, b3⟩ := hq.sound y i g hy
      refine ⟨b1, b2, ?_⟩
      have haddr : q1.address g = q.address g := by simp [address, hs]
      rw [haddr]
      by_cases ham : q.m_max_idx = q.address g
      · rw [← ham] at b3 ⊢
        rw [hbs, List.getElem?_dropLast]
        have : i ≠ (q.bucket q.m_max_idx).length - 1 := by
          intro hc
          rw [hc, hx] at b3
          simp at b3
          exact hyx b3.symm
        have hil : i < (q.bucket q.m_max_idx).length := by
          by_contra hn
          rw [List.getElem?_eq_none (by omega)] at b3
          simp at b3
        rw [if_pos (by omega)]
        exact b3
      · rw [hbo _ ham]; exact b3
  · intro a i y hy
    obtain ⟨h1, h2⟩ := hsub a i y hy
    rw [hi, hs]
    simp only
    have hyx : y ≠ x := by
      rintro rfl
      obtain ⟨e1, e2⟩ := slot_unique q hq _ _ _ _ _ h1 hx
      have := h2 e1
      omega
    rw [if_neg hyx]
    exact hq.complete a i y h1

/-- What `deleteNode` computes, for a stored node, with both branches of the
code written as one description: the node's slot receives the last node of the
bucket and the last slot is dropped. -/
theorem deleteNode_spec (q : bucket_pq) (hq : WF q) (node i : Nat) (g : Int)
    (hidx : q.m_queue_index node = some (i, g)) :
    ∃ last q1, (q.bucket (q.address g)).getLast? = some last ∧
      q.deleteNode node = some q1 ∧
      q1.m_buckets = q.m_buckets.set (q.address g)
        (((q.bucket (q.address g)).set i last).dropLast) ∧
      q1.m_elements = q.m_elements - 1 ∧
      q1.m_gain_span = q.m_gain_span ∧
      q1.m_max_idx =
        (if q.address g = q.m_max_idx ∧ (((q.bucket (q.address g)).set i last).dropLast) = []
         then scanDown q1.m_buckets q.m_max_idx else q.m_max_idx) ∧
      q1.m_queue_index = (fun x => if x = node then none else
        if x = last then some (i, ((q.address g : Nat) : Int) - (q.m_gain_span : Int))
        else q.m_queue_index x) := by
  obtain ⟨b1, b2, b3⟩ := hq.sound node i g hidx
  have hil : i < (q.bucket (q.address g)).length := by
    by_contra hn
    rw [List.getElem?_eq_none (by omega)] at b3
    simp at b3
  have hne : q.bucket (q.address g) ≠ [] := by
    intro h0; rw [h0] at hil; simp at hil
  cases hl : (q.bucket (q.address g)).getLast? with
  | none => rw [List.getLast?_eq_none_iff] at hl; exact absurd hl hne
  | some last =>
    obtain ⟨hlast, _⟩ := getLast?_eq_some_getElem? _ _ hl
    have hlidx := hq.complete _ _ _ hlast
    by_cases hlen : (q.bucket (q.address g)).length > 1
    · refine ⟨last,
        { m_elements := q.m_elements - 1
          m_gain_span := q.m_gain_span
          m_max_idx := q.m_max_idx
          m_queue_index := fun x => if x = node then none else
            if x = last then some (i, ((q.m_queue_index last).getD (0, 0)).2)
            else q.m_queue_index x
          m_buckets := q.m_buckets.set (q.address g)
            (((q.bucket (q.address g)).set i last).dropLast) },
        rfl, ?_, rfl, rfl, rfl, ?_, ?_⟩
      · unfold deleteNode
        simp only [hidx, hl]
        rw [if_pos hlen]
      · have : ((q.bucket (q.address g)).set i last).dropLast ≠ [] := by
          intro h0
          have := congrArg List.length h0
          simp at this
          omega
        simp only
        rw [if_neg (fun hc => this hc.2)]
      · funext x
        simp only [hlidx, Option.getD_some]
    · have hlen1 : (q.bucket (q.address g)).length = 1 := by omega
      have hi0 : i = 0 := by omega
      subst hi0
      rw [hlen1] at hlast
      simp only [Nat.sub_self] at hlast
      rw [b3] at hlast
      simp only [Option.some.injEq] at hlast
      subst hlast
      have hd : ((q.bucket (q.address g)).set 0 node).dropLast = (q.bucket (q.address g)).dropLast := by
        match hb : q.bucket (q.address g), hlen1 with
        | [y], _ => simp
      have hd0 : (q.bucket (q.address g)).dropLast = [] := by
        match hb : q.bucket (q.address g), hlen1 with
        | [y], _ => simp
      refine ⟨node,
        { m_elements := q.m_elements - 1
          m_gain_span := q.m_gain_span
          m_max_idx := if q.address g = q.m_max_idx then
            scanDown (q.m_buckets.set (q.address g) (q.bucket (q.address g)).dropLast) q.m_max_idx
            else q.m_max_idx
          m_queue_index := fun x => if x = node then none else q.m_queue_index x
          m_buckets := q.m_buckets.set (q.address g) (q.bucket (q.address g)).dropLast },
        rfl, ?_, ?_, rfl, rfl, ?_, ?_⟩
      · unfold deleteNode
        simp only [hidx]
        rw [if_neg hlen]
      · simp only; rw [hd]
      · simp only
        rw [hd, hd0]
        by_cases ham : q.address g = q.m_max_idx
        · simp [ham]
        · simp [ham]
      · funext x
        by_cases hx : x = node
        · simp [hx]
        · simp [hx]

theorem WF_of_deleteNode_fields (q q1 : bucket_pq) (hq : WF q) (node i last : Nat) (g : Int)
    (hidx : q.m_queue_index node = some (i, g))
    (hl : (q.bucket (q.address g)).getLast? = some last)
    (hb : q1.m_buckets = q.m_buckets.set (q.address g)
        (((q.bucket (q.address g)).set i last).dropLast))
    (he : q1.m_elements = q.m_elements - 1)
    (hs : q1.m_gain_span = q.m_gain_span)
    (hm : q1.m_max_idx =
        (if q.address g = q.m_max_idx ∧ (((q.bucket (q.address g)).set i last).dropLast) = []
         then scanDown q1.m_buckets q.m_max_idx else q.m_max_idx))
    (hi : q1.m_queue_index = (fun x => if x = node then none else
        if x = last then some (i, ((q.address g : Nat) : Int) - (q.m_gain_span : Int))
        else q.m_queue_index x)) :
    WF q1 := by
  obtain ⟨b1, b2, b3⟩ := hq.sound node i g hidx
  obtain ⟨hlast, hpos⟩ := getLast?_eq_some_getElem? _ _ hl
  have hil : i < (q.bucket (q.address g)).length := by
    by_contra hn
    rw [List.getElem?_eq_none (by omega)] at b3
    simp at b3
  have hne : q.bucket (q.address g) ≠ [] := by
    intro h0; rw [h0] at hil; simp at hil
  have ha : q.address g < q.m_buckets.length := bucket_lt_of_ne q _ hne
  have hlen : (((q.bucket (q.address g)).set i last).dropLast).length + 1 =
      (q.bucket (q.address g)).length := by
    simp; omega
  obtain ⟨s1, s2, s3, s4, s5⟩ := shape_remove q q1 hq (q.address g) _ hlen hb he hs hm
  have hbs : q1.bucket (q.address g) = ((q.bucket (q.address g)).set i last).dropLast := by
    simp only [bucket, hb]; exact getD_set_same _ _ _ ha
  have hbo : ∀ j, q.address g ≠ j → q1.bucket j = q.bucket j := by
    intro j hj
    simp only [bucket, hb]; exact getD_set_other _ _ _ _ hj
  have haddr : ∀ g', q1.address g' = q.address g' := by intro g'; simp [address, hs]
  -- reading the shrunk bucket
  have hread : ∀ j y, (((q.bucket (q.address g)).set i last).dropLast)[j]? = some y →
      j < (q.bucket (q.address g)).length - 1 ∧
      ((j = i ∧ y = last) ∨ (j ≠ i ∧ (q.bucket (q.address g))[j]? = some y)) := by
    intro j y hy
    rw [List.getElem?_dropLast] at hy
    split at hy
    · rename_i hj
      simp only [List.length_set] at hj
      refine ⟨hj, ?_⟩
      rw [List.getElem?_set] at hy
      by_cases hij : i = j
      · left
        subst hij
        rw [if_pos rfl, if_pos hil] at hy
        simp only [Option.some.injEq] at hy
        exact ⟨rfl, hy.symm⟩
      · right
        rw [if_neg hij] at hy
        exact ⟨fun h => hij h.symm, hy⟩
    · simp at hy
  have hwrite : ∀ j y, j < (q.bucket (q.address g)).length - 1 → j ≠ i →
      (q.bucket (q.address g))[j]? = some y →
      (((q.bucket (q.address g)).set i last).dropLast)[j]? = some y := by
    intro j y hj hji hy
    rw [List.getElem?_dropLast, if_pos (by simpa using hj), List.getElem?_set, if_neg (by omega)]
    exact hy
  refine ⟨s1, s2, s3, s4, s5, ?_, ?_⟩
  · intro y j g' hy
    rw [hi] at hy
    simp only at hy
    split at hy
    · simp at hy
    · rename_i hyn
      rw [hs, haddr]
      split at hy
      · rename_i hyl
        simp only [Option.some.injEq, Prod.mk.injEq] at hy
        obtain ⟨rfl, rfl⟩ := hy
        have hlen' := hq.len
        refine ⟨by omega, by omega, ?_⟩
        rw [address_sub, hbs]
        have hne' : i ≠ (q.bucket (q.address g)).length - 1 := by
          intro hc
          rw [← hc, b3] at hlast
          simp only [Option.some.injEq] at hlast
          exact hyn (hyl.trans hlast.symm)
        rw [List.getElem?_dropLast, if_pos (by simp; omega), List.getElem?_set, if_pos rfl,
          if_pos hil, hyl]
      · rename_i hyl
        obtain ⟨c1, c2, c3⟩ := hq.sound y j g' hy
        refine ⟨c1, c2, ?_⟩
        by_cases hag : q.address g = q.address g'
        · rw [← hag] at c3 ⊢
          rw [hbs]
          have hj1 : j ≠ i := by
            rintro rfl
            rw [b3] at c3
            simp only [Option.some.injEq] at c3
            exact hyn c3.symm
          have hj2 : j ≠ (q.bucket (q.address g)).length - 1 := by
            rintro rfl
            rw [hlast] at c3
            simp only [Option.some.injEq] at c3
            exact hyl c3.symm
          have hjl : j < (q.bucket (q.address g)).length := by
            by_contra hn
            rw [List.getElem?_eq_none (by omega)] at c3
            simp at c3
          exact hwrite j y (by omega) hj1 c3
        · rw [hbo _ hag]; exact c3
  · intro a j y hy
    rw [hi, hs]
    simp only
    by_cases hag : q.address g = a
    · subst hag
      rw [hbs] at hy
      obtain ⟨hj, hcase⟩ := hread j y hy
      rcases hcase with ⟨rfl, rfl⟩ | ⟨hji, hyb⟩
      · have hyn : y ≠ node := by
          rintro rfl
          obtain ⟨_, e2⟩ := slot_unique q hq _ _ _ _ _ b3 hlast
          omega
        rw [if_neg hyn, if_pos rfl]
      · have hyn : y ≠ node := by
          rintro rfl
          obtain ⟨_, e2⟩ := slot_unique q hq _ _ _ _ _ b3 hyb
          exact hji e2.symm
        have hyl : y ≠ last := by
          rintro rfl
          obtain ⟨_, e2⟩ := slot_unique q hq _ _ _ _ _ hlast hyb
          omega
        rw [if_neg hyn, if_neg hyl]
        exact hq.complete _ _ _ hyb
    · rw [hbo _ hag] at hy
      have hyn : y ≠ node := by
        rintro rfl
        obtain ⟨e1, _⟩ := slot_unique q hq _ _ _ _ _ b3 hy
        exact hag e1
      have hyl : y ≠ last := by
        rintro rfl
        obtain ⟨e1, _⟩ := slot_unique q hq _ _ _ _ _ hlast hy
        exact hag e1
      rw [if_neg hyn, if_neg hyl]
      exact hq.complete _ _ _ hy

theorem WF_deleteNode (q q1 : bucket_pq) (hq : WF q) (node : Nat)
    (h : q.deleteNode node = some q1) : WF q1 := by
  cases hidx : q.m_queue_index node with
  | none => simp [deleteNode, hidx] at h
  | some p =>
    obtain ⟨i, g⟩ := p
    obtain ⟨last, q2, hl, hd, hb, he, hs, hm, hi⟩ := deleteNode_spec q hq node i g hidx
    rw [hd] at h
    simp only [Option.some.injEq] at h
    subst h
    exact WF_of_deleteNode_fields q q2 hq node i last g hidx hl hb he hs hm hi

theorem deleteNode_not_contains (q q1 : bucket_pq) (hq : WF q) (node : Nat)
    (h : q.deleteNode node = some q1) : q1.contains node = false := by
  cases hidx : q.m_queue_index node with
  | none => simp [deleteNode, hidx] at h
  | some p =>
    obtain ⟨i, g⟩ := p
    obtain ⟨last, q2, hl, hd, hb, he, hs, hm, hi⟩ := deleteNode_spec q hq node i g hidx
    rw [hd] at h
    simp only [Option.some.injEq] at h
    subst h
    simp [contains, hi]

theorem deleteNode_span (q q1 : bucket_pq) (node : Nat)
    (h : q.deleteNode node = some q1) : q1.m_gain_span = q.m_gain_span := by
  unfold deleteNode at h
  split at h
  · simp at h
  · simp only at h
    split at h
    · split at h
      · simp at h
      · simp only [Option.some.injEq] at h
        subst h; rfl
    · simp only [Option.some.injEq] at h
      subst h; rfl

theorem WF_changeKey (q q1 : bucket_pq) (hq : WF q) (node : Nat) (g : Int)
    (h1 : -(q.m_gain_span : Int) ≤ g) (h2 : g ≤ (q.m_gain_span : Int))
    (h : q.changeKey node g = some q1) : WF q1 := by
  unfold changeKey at h
  cases hd : q.deleteNode node with
  | none => rw [hd] at h; simp at h
  | some q2 =>
    rw [hd] at h
    simp only [Option.some.injEq] at h
    subst h
    have hs := deleteNode_span q q2 node hd
    exact WF_insert q2 (WF_deleteNode q q2 hq node hd) node g
      (deleteNode_not_contains q q2 hq node hd) (by rw [hs]; exact h1) (by rw [hs]; exact h2)

theorem insert_span (q : bucket_pq) (node : Nat) (g : Int) :
    (q.insert node g).m_gain_span = q.m_gain_span := rfl

theorem WF_of_Reachable (span : Nat) (q : bucket_pq) (h : Reachable span q) :
    WF q ∧ q.m_gain_span = span := by
  induction h with
  | fresh => exact ⟨WF_mk_pq span, rfl⟩
  | insert node g _ hc h1 h2 ih =>
    obtain ⟨w, s⟩ := ih
    exact ⟨WF_insert _ w node g hc (by rw [s]; exact h1) (by rw [s]; exact h2), s⟩
  | deleteMax _ _ hd ih =>
    obtain ⟨w, s⟩ := ih
    exact ⟨WF_deleteMax _ _ _ w hd, (deleteMax_fields _ _ _ hd).2.2.2.1.trans s⟩
  | deleteNode node _ _ hd ih =>
    obtain ⟨w, s⟩ := ih
    exact ⟨WF_deleteNode _ _ w node hd, (deleteNode_span _ _ node hd).trans s⟩
  | changeKey node g _ _ h1 h2 hd ih =>
    obtain ⟨w, s⟩ := ih
    refine ⟨WF_changeKey _ _ w node g (by rw [s]; exact h1) (by rw [s]; exact h2) hd, ?_⟩
    unfold changeKey at hd
    split at hd
    · simp at hd
    · rename_i q2 hq2
      simp only [Option.some.injEq] at hd
      subst hd
      exact (deleteNode_span _ _ node hq2).trans s


/-! ## bucket_pq.h: order of `deleteMax` -/

theorem filter_lt_succ_perm {α : Type} (key : α → Nat) (l : List α) (N : Nat) :
    (l.filter (fun p => key p < N) ++ l.filter (fun p => key p = N)).Perm
      (l.filter (fun p => key p < N + 1)) := by
  induction l with
  | nil => simp
  | cons x l ih =>
    by_cases h1 : key x < N
    · have h2 : key x ≠ N := by omega
      have h3 : key x < N + 1 := by omega
      rw [List.filter_cons_of_pos (by simpa using h1), List.filter_cons_of_neg (by simpa using h2),
        List.filter_cons_of_pos (by simpa using h3)]
      exact List.Perm.cons x ih
    · by_cases h2 : key x = N
      · have h3 : key x < N + 1 := by omega
        rw [List.filter_cons_of_neg (by simpa using h1), List.filter_cons_of_pos (by simpa using h2),
          List.filter_cons_of_pos (by simpa using h3)]
        exact List.perm_middle.trans (List.Perm.cons x ih)
      · have h3 : ¬ key x < N + 1 := by omega
        rw [List.filter_cons_of_neg (by simpa using h1), List.filter_cons_of_neg (by simpa using h2),
          List.filter_cons_of_neg (by simpa using h3)]
        exact ih

theorem part_perm {α : Type} (key : α → Nat) (l : List α) (N : Nat) :
    ((List.range N).flatMap (fun a => l.filter (fun p => key p = a))).Perm
      (l.filter (fun p => key p < N)) := by
  induction N with
  | zero => simp
  | succ N ih =>
    rw [List.range_succ, List.flatMap_append]
    simp only [List.flatMap_cons, List.flatMap_nil, List.append_nil]
    exact (List.Perm.append_right _ ih).trans (filter_lt_succ_perm key l N)

theorem part_mem {α : Type} (key : α → Nat) (l : List α) (N : Nat) (x : α)
    (h : x ∈ (List.range N).flatMap (fun a => l.filter (fun p => key p = a))) :
    key x < N ∧ x ∈ l := by
  rw [List.mem_flatMap] at h
  obtain ⟨a, ha, hx⟩ := h
  rw [List.mem_range] at ha
  rw [List.mem_filter] at hx
  simp only [decide_eq_true_eq] at hx
  exact ⟨by omega, hx.1⟩

theorem part_sorted {α : Type} (key : α → Nat) (l : List α) (N : Nat) :
    ((List.range N).flatMap (fun a => l.filter (fun p => key p = a))).Pairwise
      (fun x y => key x ≤ key y) := by
  induction N with
  | zero => simp
  | succ N ih =>
    rw [List.range_succ, List.flatMap_append]
    simp only [List.flatMap_cons, List.flatMap_nil, List.append_nil]
    rw [List.pairwise_append]
    refine ⟨ih, ?_, ?_⟩
    · apply List.pairwise_of_forall_mem_list
      intro x hx y hy
      rw [List.mem_filter] at hx hy
      simp only [decide_eq_true_eq] at hx hy
      omega
    · intro x hx y hy
      have := (part_mem key l N x hx).1
      rw [List.mem_filter] at hy
      simp only [decide_eq_true_eq] at hy
      omega

theorem part_sublist {α : Type} (key : α → Nat) (l : List α) (N a : Nat) (ha : a < N) :
    (l.filter (fun p => key p = a)).Sublist
      ((List.range N).flatMap (fun b => l.filter (fun p => key p = b))) := by
  induction N with
  | zero => omega
  | succ N ih =>
    rw [List.range_succ, List.flatMap_append]
    simp only [List.flatMap_cons, List.flatMap_nil, List.append_nil]
    by_cases h : a = N
    · subst h
      exact List.sublist_append_right _ _
    · exact (ih (by omega)).trans (List.sublist_append_left _ _)

theorem deleteMax_flatten (q q1 : bucket_pq) (x : Nat) (hq : WF q)
    (h : q.deleteMax = some (x, q1)) :
    q.m_buckets.flatten = q1.m_buckets.flatten ++ [x] := by
  obtain ⟨hl, hb, -, -, -, -⟩ := deleteMax_fields q q1 x h
  obtain ⟨-, hpos⟩ := getLast?_eq_some_getElem? _ _ hl
  have hne : q.bucket q.m_max_idx ≠ [] := by
    intro h0; rw [h0] at hpos; simp at hpos
  have ha : q.m_max_idx < q.m_buckets.length := bucket_lt_of_ne q _ hne
  have h1 := flatten_split q.m_buckets q.m_max_idx ha hq.above
  have h2 := flatten_set_top q.m_buckets q.m_max_idx (q.bucket q.m_max_idx).dropLast ha hq.above
  rw [hb, h1, h2, List.append_assoc]
  congr 1
  exact (List.dropLast_append_getLast? x hl).symm

/-- Calling `deleteMax` as many times as there are elements returns the
concatenation of the buckets read backwards and empties the queue. -/
theorem drain_all (k : Nat) : ∀ q : bucket_pq, WF q → q.m_elements = k →
    ∃ q1, deleteMaxN k q = some (q.m_buckets.flatten.reverse, q1) ∧ q1.m_elements = 0 ∧ WF q1 := by
  induction k with
  | zero =>
    intro q hq hk
    refine ⟨q, ?_, hk, hq⟩
    have : q.m_buckets.flatten = [] := by
      apply List.length_eq_zero.mp
      rw [← hq.count]; exact hk
    simp [deleteMaxN, this]
  | succ k ih =>
    intro q hq hk
    obtain ⟨x, q', hd⟩ := deleteMax_some q hq (by omega)
    have hq' := WF_deleteMax q q' x hq hd
    have hk' : q'.m_elements = k := by
      have := (deleteMax_fields q q' x hd).2.2.1
      omega
    obtain ⟨q1, h1, h2, h3⟩ := ih q' hq' hk'
    refine ⟨q1, ?_, h2, h3⟩
    simp only [deleteMaxN, hd, h1]
    rw [deleteMax_flatten q q' x hq hd]
    simp

theorem insertAll_span (ins : List (Nat × Int)) : ∀ q : bucket_pq,
    (insertAll q ins).m_gain_span = q.m_gain_span := by
  induction ins with
  | nil => intro q; rfl
  | cons p rest ih => intro q; simp only [insertAll]; rw [ih]; rfl

theorem insertAll_length (ins : List (Nat × Int)) : ∀ q : bucket_pq,
    (insertAll q ins).m_buckets.length = q.m_buckets.length := by
  induction ins with
  | nil => intro q; rfl
  | cons p rest ih => intro q; simp only [insertAll]; rw [ih]; simp [insert]

theorem insertAll_elements (ins : List (Nat × Int)) : ∀ q : bucket_pq,
    (insertAll q ins).m_elements = q.m_elements + ins.length := by
  induction ins with
  | nil => intro q; rfl
  | cons p rest ih =>
    intro q; simp only [insertAll]; rw [ih]; simp only [insert, List.length_cons]; omega

theorem insertAll_bucket (ins : List (Nat × Int)) : ∀ (q : bucket_pq) (a : Nat),
    (∀ p ∈ ins, q.address p.2 < q.m_buckets.length) →
    (insertAll q ins).bucket a =
      q.bucket a ++ (ins.filter (fun p => q.address p.2 = a)).map Prod.fst := by
  induction ins with
  | nil => intro q a _; simp [insertAll]
  | cons p rest ih =>
    intro q a hr
    have hp := hr p (List.mem_cons_self _ _)
    simp only [insertAll]
    have haddr : ∀ g, (q.insert p.1 p.2).address g = q.address g := fun _ => rfl
    rw [ih (q.insert p.1 p.2) a (by
      intro p' hp'
      rw [haddr]
      simp only [insert, List.length_set]
      exact hr p' (List.mem_cons_of_mem _ hp'))]
    simp only [haddr]
    by_cases h : q.address p.2 = a
    · subst h
      rw [insert_bucket_same q p.1 p.2 hp, List.filter_cons_of_pos (by simp)]
      simp
    · rw [insert_bucket_other q p.1 p.2 a h, List.filter_cons_of_neg (by simpa using h)]

theorem insert_contains_other (q : bucket_pq) (node x : Nat) (g : Int) (h : x ≠ node) :
    (q.insert node g).contains x = q.contains x := by
  simp [insert, contains, h]

theorem WF_insertAll (ins : List (Nat × Int)) : ∀ q : bucket_pq, WF q →
    (∀ p ∈ ins, -(q.m_gain_span : Int) ≤ p.2 ∧ p.2 ≤ (q.m_gain_span : Int)) →
    (ins.map Prod.fst).Nodup → (∀ p ∈ ins, q.contains p.1 = false) →
    WF (insertAll q ins) := by
  induction ins with
  | nil => intro q hq _ _ _; exact hq
  | cons p rest ih =>
    intro q hq hr hn hc
    simp only [insertAll]
    have hp := hr p (List.mem_cons_self _ _)
    simp only [List.map_cons, List.nodup_cons] at hn
    apply ih
    · exact WF_insert q hq p.1 p.2 (hc p (List.mem_cons_self _ _)) hp.1 hp.2
    · intro p' hp'
      exact hr p' (List.mem_cons_of_mem _ hp')
    · exact hn.2
    · intro p' hp'
      rw [insert_contains_other]
      · exact hc p' (List.mem_cons_of_mem _ hp')
      · intro he
        apply hn.1
        rw [← he]
        exact List.mem_map_of_mem _ hp'

theorem mk_pq_bucket (span a : Nat) : (mk_pq span).bucket a = [] := by
  simp only [bucket, mk_pq, List.getElem?_replicate]
  split <;> rfl

/-- The buckets after a sequence of inserts into a fresh queue: bucket `a`
holds the nodes inserted with address `a`, in insertion order. -/
theorem insertAll_buckets_eq (span : Nat) (ins : List (Nat × Int))
    (hr : ∀ p ∈ ins, -(span : Int) ≤ p.2 ∧ p.2 ≤ (span : Int)) :
    (insertAll (mk_pq span) ins).m_buckets =
      (List.range (2 * span + 1)).map
        (fun a => (ins.filter (fun p => (p.2 + (span : Int)).toNat = a)).map Prod.fst) := by
  have hlen : (insertAll (mk_pq span) ins).m_buckets.length = 2 * span + 1 := by
    rw [insertAll_length]; simp [mk_pq]
  have hb := fun a => insertAll_bucket ins (mk_pq span) a (by
    intro p hp
    have := hr p hp
    simp only [address, mk_pq, List.length_replicate]
    omega)
  apply List.ext_getElem?
  intro a
  by_cases ha : a < 2 * span + 1
  · have h1 := hb a
    rw [mk_pq_bucket, List.nil_append] at h1
    simp only [bucket] at h1
    rw [List.getElem?_eq_getElem (by omega)] at h1 ⊢
    simp only [Option.getD_some] at h1
    rw [h1, List.getElem?_eq_getElem (by simpa using ha)]
    simp [address, mk_pq]
  · rw [List.getElem?_eq_none (by omega), List.getElem?_eq_none (by simp; omega)]

/-- C2 (bucket PQ order).  On a fresh queue of any `gain_span`, after inserting
pairwise distinct nodes with gains in `[-gain_span, gain_span]`, calling
`deleteMax` once per inserted node succeeds every time and returns all inserted
nodes (`out` is a permutation of the inserted pairs), in non-increasing gain
order, nodes of equal gain last-inserted-first; before the first `deleteMax`
`maxValue()` is the largest inserted gain, and afterwards `empty()` holds. -/
theorem bucket_pq_order (span : Nat) (ins : List (Nat × Int))
    (hnodup : (ins.map Prod.fst).Nodup)
    (hrange : ∀ p ∈ ins, -(span : Int) ≤ p.2 ∧ p.2 ≤ (span : Int)) :
    ∃ (out : List (Nat × Int)) (q1 : bucket_pq),
      deleteMaxN ins.length (insertAll (mk_pq span) ins) = some (out.map Prod.fst, q1) ∧
      out.Perm ins ∧
      out.Pairwise (fun a b => a.2 ≥ b.2) ∧
      (∀ a b, a.2 = b.2 → List.Sublist [a, b] ins → List.Sublist [b, a] out) ∧
      (ins ≠ [] → (∃ p ∈ ins, p.2 = (insertAll (mk_pq span) ins).maxValue) ∧
          ∀ p ∈ ins, p.2 ≤ (insertAll (mk_pq span) ins).maxValue) ∧
      q1.empty = true := by
  have hWF : WF (insertAll (mk_pq span) ins) :=
    WF_insertAll ins (mk_pq span) (WF_mk_pq span) hrange hnodup (fun _ _ => rfl)
  have hel : (insertAll (mk_pq span) ins).m_elements = ins.length := by
    rw [insertAll_elements]; simp [mk_pq]
  have hspan : (insertAll (mk_pq span) ins).m_gain_span = span := by
    rw [insertAll_span]; rfl
  obtain ⟨q1, hd, h0, -⟩ := drain_all ins.length _ hWF hel
  have hkey : ∀ p ∈ ins, (p.2 + (span : Int)).toNat < 2 * span + 1 := by
    intro p hp
    have := hrange p hp
    omega
  have hbk : ∀ a, (insertAll (mk_pq span) ins).bucket a =
      (ins.filter (fun p => (p.2 + (span : Int)).toNat = a)).map Prod.fst := by
    intro a
    have := insertAll_bucket ins (mk_pq span) a (by
      intro p hp
      have := hkey p hp
      simpa [address, mk_pq] using this)
    rw [mk_pq_bucket, List.nil_append] at this
    exact this
  refine ⟨((List.range (2 * span + 1)).flatMap
      (fun a => ins.filter (fun p => (p.2 + (span : Int)).toNat = a))).reverse, q1, ?_, ?_, ?_, ?_,
      ?_, ?_⟩
  · rw [hd, insertAll_buckets_eq span ins hrange, List.map_reverse]
    congr 3
    rw [List.map_flatMap]
    rfl
  · refine (List.reverse_perm _).trans ?_
    refine (part_perm (fun p : Nat × Int => (p.2 + (span : Int)).toNat) ins (2 * span + 1)).trans ?_
    rw [List.filter_eq_self.mpr]
    intro p hp
    simpa using hkey p hp
  · rw [List.pairwise_reverse]
    have := part_sorted (fun p : Nat × Int => (p.2 + (span : Int)).toNat) ins (2 * span + 1)
    refine List.Pairwise.imp_of_mem ?_ this
    intro a b ha hb hab
    have ha' := hrange a (part_mem _ _ _ _ ha).2
    have hb' := hrange b (part_mem _ _ _ _ hb).2
    simp only at hab
    show b.2 ≥ a.2
    omega
  · intro a b hab hsub
    have ha : a ∈ ins := hsub.subset (by simp)
    have h1 : List.Sublist [a, b]
        (ins.filter (fun p => (p.2 + (span : Int)).toNat = (a.2 + (span : Int)).toNat)) := by
      have := hsub.filter (fun p => decide ((p.2 + (span : Int)).toNat = (a.2 + (span : Int)).toNat))
      simpa [hab] using this
    have h2 := h1.trans (part_sublist (fun p : Nat × Int => (p.2 + (span : Int)).toNat) ins
      (2 * span + 1) _ (hkey a ha))
    simpa using h2.reverse
  · intro hne
    have hel0 : (insertAll (mk_pq span) ins).m_elements ≠ 0 := by
      rw [hel]
      intro h
      exact hne (List.length_eq_zero.mp h)
    have htop := hWF.top hel0
    rw [hbk] at htop
    constructor
    · obtain ⟨x, hx⟩ := List.exists_mem_of_ne_nil _ htop
      rw [List.mem_map] at hx
      obtain ⟨p, hp, -⟩ := hx
      rw [List.mem_filter] at hp
      simp only [decide_eq_true_eq] at hp
      refine ⟨p, hp.1, ?_⟩
      have := hrange p hp.1
      simp only [maxValue, hspan]
      omega
    · intro p hp
      have hle : (p.2 + (span : Int)).toNat ≤ (insertAll (mk_pq span) ins).m_max_idx := by
        by_contra hc
        have := hWF.above _ (Nat.lt_of_not_le hc)
        rw [hbk] at this
        have hmem : p.1 ∈ (ins.filter
            (fun p' => (p'.2 + (span : Int)).toNat = (p.2 + (span : Int)).toNat)).map Prod.fst :=
          List.mem_map_of_mem _ (List.mem_filter.mpr ⟨hp, by simp⟩)
        rw [this] at hmem
        simp at hmem
      have := hrange p hp
      simp only [maxValue, hspan]
      omega
  · simp [empty, h0]

/-- The scenario of C2 (span 3, inserts `(a,+2)`, `(b,-1)`, `(c,+2)` with
`a = 0`, `b = 1`, `c = 2`): `maxValue()` is 2 and `deleteMax` returns `c, a, b`. -/
theorem bucket_pq_order_witness :
    ((([(0, 2), (1, -1), (2, 2)] : List (Nat × Int)).map Prod.fst).Nodup ∧
      (∀ p ∈ ([(0, 2), (1, -1), (2, 2)] : List (Nat × Int)),
        -((3 : Nat) : Int) ≤ p.2 ∧ p.2 ≤ ((3 : Nat) : Int))) ∧
    (∃ (out : List (Nat × Int)) (q1 : bucket_pq),
      deleteMaxN 3 (insertAll (mk_pq 3) [(0, 2), (1, -1), (2, 2)]) =
        some (out.map Prod.fst, q1) ∧
      out.Perm [(0, 2), (1, -1), (2, 2)] ∧
      out.Pairwise (fun a b => a.2 ≥ b.2) ∧
      (∀ a b, a.2 = b.2 → List.Sublist [a, b] [(0, 2), (1, -1), (2, 2)] →
        List.Sublist [b, a] out) ∧
      (([(0, 2), (1, -1), (2, 2)] : List (Nat × Int)) ≠ [] →
        (∃ p ∈ ([(0, 2), (1, -1), (2, 2)] : List (Nat × Int)),
          p.2 = (insertAll (mk_pq 3) [(0, 2), (1, -1), (2, 2)]).maxValue) ∧
          ∀ p ∈ ([(0, 2), (1, -1), (2, 2)] : List (Nat × Int)),
            p.2 ≤ (insertAll (mk_pq 3) [(0, 2), (1, -1), (2, 2)]).maxValue) ∧
      q1.empty = true) ∧
    (deleteMaxN 3 (insertAll (mk_pq 3) [(0, 2), (1, -1), (2, 2)])).map Prod.fst =
      some [2, 0, 1] ∧
    (insertAll (mk_pq 3) [(0, 2), (1, -1), (2, 2)]).maxValue = 2 :=
  ⟨⟨by decide, by decide⟩,
    bucket_pq_order 3 [(0, 2), (1, -1), (2, 2)] (by decide) (by decide), by decide, by decide⟩


end bucket_pq

namespace bucket_pq

/-! ## bucket_pq.h: the maximum index -/

theorem contains_iff (q : bucket_pq) (x : Nat) :
    q.contains x = true ↔ ∃ i g, q.m_queue_index x = some (i, g) := by
  unfold contains
  cases h : q.m_queue_index x with
  | none => simp
  | some p => exact ⟨fun _ => ⟨p.1, p.2, rfl⟩, fun _ => rfl⟩

theorem gain_of_index (q : bucket_pq) (x i : Nat) (g : Int)
    (h : q.m_queue_index x = some (i, g)) : q.gain x = g := by
  simp [gain, h]

/-- C9 (max-index invariant).  In every state reachable from a fresh queue by
`insert`, `deleteMax`, `deleteNode` and `changeKey` under their preconditions:
if the queue is non-empty, bucket `m_max_idx` is non-empty and every bucket of
higher index is empty, no contained node has a gain above `maxValue()`, and
`maxElement()` is a contained node whose gain is `maxValue()`; if the queue is
empty, `m_max_idx` is 0. -/
theorem max_index_invariant (span : Nat) (q : bucket_pq) (h : Reachable span q) :
    (q.empty = false →
      q.bucket q.m_max_idx ≠ [] ∧ (∀ i, q.m_max_idx < i → q.bucket i = []) ∧
      (∀ x, q.contains x = true → q.gain x ≤ q.maxValue) ∧
      (∃ x, q.maxElement = some x ∧ q.contains x = true ∧ q.gain x = q.maxValue)) ∧
    (q.empty = true → q.m_max_idx = 0) := by
  obtain ⟨hq, -⟩ := WF_of_Reachable span q h
  constructor
  · intro he
    have hne : q.m_elements ≠ 0 := by simpa [empty] using he
    have htop := hq.top hne
    refine ⟨htop, hq.above, ?_, ?_⟩
    · intro x hx
      obtain ⟨i, g, hi⟩ := (contains_iff q x).mp hx
      obtain ⟨b1, b2, b3⟩ := hq.sound x i g hi
      rw [gain_of_index q x i g hi]
      have hle : q.address g ≤ q.m_max_idx := by
        by_contra hc
        have := hq.above _ (Nat.lt_of_not_le hc)
        rw [this] at b3
        simp at b3
      have := address_cast q g b1
      simp only [maxValue]
      omega
    · cases hl : (q.bucket q.m_max_idx).getLast? with
      | none => rw [List.getLast?_eq_none_iff] at hl; exact absurd hl htop
      | some x =>
        obtain ⟨hx, -⟩ := getLast?_eq_some_getElem? _ _ hl
        have hi := hq.complete _ _ _ hx
        exact ⟨x, hl, (contains_iff q x).mpr ⟨_, _, hi⟩, gain_of_index q x _ _ hi⟩
  · intro he
    exact hq.zero (by simpa [empty] using he)

/-- A reachable state for C9: two inserts into a fresh queue of span 3. -/
theorem max_index_invariant_witness :
    Reachable 3 (((mk_pq 3).insert 10 2).insert 11 (-1)) ∧
    ((((mk_pq 3).insert 10 2).insert 11 (-1)).empty = false →
      (((mk_pq 3).insert 10 2).insert 11 (-1)).bucket
          (((mk_pq 3).insert 10 2).insert 11 (-1)).m_max_idx ≠ [] ∧
      (∀ i, (((mk_pq 3).insert 10 2).insert 11 (-1)).m_max_idx < i →
        (((mk_pq 3).insert 10 2).insert 11 (-1)).bucket i = []) ∧
      (∀ x, (((mk_pq 3).insert 10 2).insert 11 (-1)).contains x = true →
        (((mk_pq 3).insert 10 2).insert 11 (-1)).gain x ≤
          (((mk_pq 3).insert 10 2).insert 11 (-1)).maxValue) ∧
      (∃ x, (((mk_pq 3).insert 10 2).insert 11 (-1)).maxElement = some x ∧
        (((mk_pq 3).insert 10 2).insert 11 (-1)).contains x = true ∧
        (((mk_pq 3).insert 10 2).insert 11 (-1)).gain x =
          (((mk_pq 3).insert 10 2).insert 11 (-1)).maxValue)) ∧
    ((((mk_pq 3).insert 10 2).insert 11 (-1)).empty = true →
      (((mk_pq 3).insert 10 2).insert 11 (-1)).m_max_idx = 0) :=
  ⟨Reachable.insert 11 (-1) (Reachable.insert 10 2 Reachable.fresh rfl (by decide) (by decide))
      rfl (by decide) (by decide),
    max_index_invariant 3 _
      (Reachable.insert 11 (-1) (Reachable.insert 10 2 Reachable.fresh rfl (by decide) (by decide))
        rfl (by decide) (by decide))⟩

end bucket_pq

namespace bucket_pq

/-! ## bucket_pq.h: `changeKey` with the stored gain -/

theorem swap_last_perm (b : List Nat) : ∀ (i n last : Nat), b[i]? = some n →
    b.getLast? = some last → ((b.set i last).dropLast ++ [n]).Perm b := by
  induction b with
  | nil => intro i n last h; simp at h
  | cons x b ih =>
    intro i n last hi hl
    cases i with
    | zero =>
      simp only [List.getElem?_cons_zero, Option.some.injEq] at hi
      subst hi
      cases b with
      | nil =>
        simp at hl
        subst hl
        simp
      | cons y b =>
        have hl' : (y :: b).getLast? = some last := by
          rw [List.getLast?_cons_cons] at hl; exact hl
        have hb : (y :: b) = (y :: b).dropLast ++ [last] :=
          (List.dropLast_append_getLast? last hl').symm
        simp only [List.set_cons_zero]
        rw [List.dropLast_cons_of_ne_nil (by simp)]
        conv_rhs => rw [hb]
        simp only [List.cons_append]
        have p1 : (last :: ((y :: b).dropLast ++ [x])).Perm (last :: x :: (y :: b).dropLast) :=
          List.Perm.cons _ (List.perm_append_comm : ((y :: b).dropLast ++ [x]).Perm ([x] ++ (y :: b).dropLast))
        have p2 : (last :: x :: (y :: b).dropLast).Perm (x :: last :: (y :: b).dropLast) :=
          List.Perm.swap _ _ _
        have p3 : (x :: last :: (y :: b).dropLast).Perm (x :: ((y :: b).dropLast ++ [last])) :=
          List.Perm.cons _ (List.perm_append_comm : ([last] ++ (y :: b).dropLast).Perm ((y :: b).dropLast ++ [last]))
        exact p1.trans (p2.trans p3)
    | succ i =>
      simp only [List.getElem?_cons_succ] at hi
      have hne : b ≠ [] := by
        intro h0; rw [h0] at hi; simp at hi
      have hl' : b.getLast? = some last := by
        cases b with
        | nil => exact absurd rfl hne
        | cons y b => rw [List.getLast?_cons_cons] at hl; exact hl
      simp only [List.set_cons_succ]
      rw [List.dropLast_cons_of_ne_nil (by
        intro h0
        have := congrArg List.length h0
        simp at this
        exact hne this)]
      simp only [List.cons_append]
      exact List.Perm.cons _ (ih i n last hi hl')

theorem flatten_split3 {α : Type} (bs : List (List α)) (a : Nat) (ha : a < bs.length) :
    bs.flatten = (bs.take a).flatten ++ (bs[a]?.getD [] ++ (bs.drop (a + 1)).flatten) := by
  have h1 : bs = bs.take a ++ (bs[a] :: bs.drop (a + 1)) := by
    rw [← List.drop_eq_getElem_cons ha, List.take_append_drop]
  conv_lhs => rw [h1]
  rw [List.flatten_append, List.flatten_cons]
  simp [ha]

theorem flatten_set3 {α : Type} (bs : List (List α)) (a : Nat) (v : List α) (ha : a < bs.length) :
    (bs.set a v).flatten = (bs.take a).flatten ++ (v ++ (bs.drop (a + 1)).flatten) := by
  rw [flatten_split3 (bs.set a v) a (by simpa using ha), getD_set_same _ _ _ ha, take_set_self]
  congr 3
  exact List.drop_set_of_lt _ _ (by omega)

theorem map_eq_of_perm_const {β : Type} (f : Nat → β) (c : β) (b b' : List Nat)
    (hp : b'.Perm b) (hc : ∀ x ∈ b, f x = c) : b'.map f = b.map f := by
  have h1 : b.map f = List.replicate b.length c := by
    apply List.eq_replicate_iff.mpr
    refine ⟨by simp, ?_⟩
    intro y hy
    rw [List.mem_map] at hy
    obtain ⟨x, hx, rfl⟩ := hy
    exact hc x hx
  have h2 : b'.map f = List.replicate b'.length c := by
    apply List.eq_replicate_iff.mpr
    refine ⟨by simp, ?_⟩
    intro y hy
    rw [List.mem_map] at hy
    obtain ⟨x, hx, rfl⟩ := hy
    exact hc x (hp.subset hx)
  rw [h1, h2, hp.length_eq]

/-- What `changeKey(n, gain(n))` computes on a well-formed queue. -/
theorem changeKey_same_spec (q : bucket_pq) (hq : WF q) (n i : Nat) (g : Int)
    (hidx : q.m_queue_index n = some (i, g)) :
    ∃ last q1, (q.bucket (q.address g)).getLast? = some last ∧
      q.changeKey n g = some q1 ∧
      q1.m_buckets = q.m_buckets.set (q.address g)
        (((q.bucket (q.address g)).set i last).dropLast ++ [n]) ∧
      q1.m_elements = q.m_elements ∧
      q1.m_gain_span = q.m_gain_span ∧
      q1.m_max_idx = q.m_max_idx ∧
      (∀ x, q1.contains x = q.contains x ∧ q1.gain x = q.gain x) := by
  obtain ⟨last, q2, hl, hd, hb, he, hs, hm, hi⟩ := deleteNode_spec q hq n i g hidx
  obtain ⟨b1, b2, b3⟩ := hq.sound n i g hidx
  obtain ⟨hlast, hpos⟩ := getLast?_eq_some_getElem? _ _ hl
  have hne : q.bucket (q.address g) ≠ [] := by
    intro h0; rw [h0] at hpos; simp at hpos
  have ha : q.address g < q.m_buckets.length := bucket_lt_of_ne q _ hne
  have hamax : q.address g ≤ q.m_max_idx := by
    by_contra hc
    exact hne (hq.above _ (by omega))
  have haddr : q2.address g = q.address g := by simp [address, hs]
  have hb2 : q2.bucket (q.address g) = ((q.bucket (q.address g)).set i last).dropLast := by
    simp only [bucket, hb]; exact getD_set_same _ _ _ ha
  have hel : q.m_elements ≠ 0 := by
    have := hq.count
    have := length_le_flatten q.m_buckets (q.address g)
    simp only [bucket] at hpos
    omega
  refine ⟨last, q2.insert n g, hl, ?_, ?_, ?_, hs, ?_, ?_⟩
  · simp [changeKey, hd]
  · simp only [insert, haddr, hb2, hb, List.set_set]
  · simp only [insert, he]; omega
  · simp only [insert, haddr, hm]
    have hsd := scanDown_le q2.m_buckets q.m_max_idx
    split <;> split <;> omega
  · intro x
    have hix := insert_index q2 n g (by rw [haddr, hb, List.length_set]; exact ha) x
    have hlidx := hq.complete _ _ _ hlast
    by_cases hx : x = n
    · subst hx
      simp [contains, gain, hix, hidx]
    · by_cases hxl : x = last
      · subst hxl
        simp [contains, gain, hix, hx, hi, hlidx]
      · simp [contains, gain, hix, hx, hi, hxl]

/-- After `changeKey(n, gain(n))` every bucket holds the same nodes as before,
possibly in another order. -/
theorem changeKey_same_bucket_perm (q q1 : bucket_pq) (hq : WF q) (n i last : Nat) (g : Int)
    (hidx : q.m_queue_index n = some (i, g))
    (hl : (q.bucket (q.address g)).getLast? = some last)
    (hb : q1.m_buckets = q.m_buckets.set (q.address g)
        (((q.bucket (q.address g)).set i last).dropLast ++ [n])) (a : Nat) :
    (q1.bucket a).Perm (q.bucket a) := by
  obtain ⟨b1, b2, b3⟩ := hq.sound n i g hidx
  have hne : q.bucket (q.address g) ≠ [] := by
    intro h0; rw [h0] at b3; simp at b3
  have ha : q.address g < q.m_buckets.length := bucket_lt_of_ne q _ hne
  by_cases h : q.address g = a
  · subst h
    have : q1.bucket (q.address g) = ((q.bucket (q.address g)).set i last).dropLast ++ [n] := by
      simp only [bucket, hb]; exact getD_set_same _ _ _ ha
    rw [this]
    exact swap_last_perm _ i n last b3 hl
  · have : q1.bucket a = q.bucket a := by
      simp only [bucket, hb]; exact getD_set_other _ _ _ _ h
    rw [this]

theorem gain_const_on_bucket (q : bucket_pq) (hq : WF q) (a x : Nat) (hx : x ∈ q.bucket a) :
    q.gain x = (a : Int) - (q.m_gain_span : Int) := by
  obtain ⟨j, hj⟩ := List.getElem?_of_mem hx
  exact gain_of_index q x j _ (hq.complete a j x hj)

/-- C8, as amended.  In every reachable state and for every contained node
`n`, `changeKey(n, gain(n))` succeeds and keeps `size()`, `contains` and `gain`
of every node and `maxValue()`; every bucket keeps its nodes up to their order,
so repeated `deleteMax` returns a permutation of the sequence it would have
returned without the call, with the same gain at every position. -/
theorem changeKey_same_gain (span : Nat) (q : bucket_pq) (h : Reachable span q) (n : Nat)
    (hc : q.contains n = true) :
    ∃ q1, q.changeKey n (q.gain n) = some q1 ∧
      q1.size = q.size ∧
      (∀ x, q1.contains x = q.contains x ∧ q1.gain x = q.gain x) ∧
      q1.maxValue = q.maxValue ∧
      (∀ a, (q1.bucket a).Perm (q.bucket a)) ∧
      ∃ out out1 r r1, deleteMaxN q.size q = some (out, r) ∧
        deleteMaxN q1.size q1 = some (out1, r1) ∧
        out1.Perm out ∧ out1.map q.gain = out.map q.gain := by
  obtain ⟨hq, hspan⟩ := WF_of_Reachable span q h
  obtain ⟨i, g, hidx⟩ := (contains_iff q n).mp hc
  have hg : q.gain n = g := gain_of_index q n i g hidx
  rw [hg]
  obtain ⟨last, q1, hl, hck, hb, he, hs, hm, hx⟩ := changeKey_same_spec q hq n i g hidx
  obtain ⟨b1, b2, b3⟩ := hq.sound n i g hidx
  have hne : q.bucket (q.address g) ≠ [] := by
    intro h0; rw [h0] at b3; simp at b3
  have ha : q.address g < q.m_buckets.length := bucket_lt_of_ne q _ hne
  have hq1 : WF q1 := WF_changeKey q q1 hq n g b1 b2 hck
  have hperm := changeKey_same_bucket_perm q q1 hq n i last g hidx hl hb
  obtain ⟨r, hd, -, -⟩ := drain_all q.m_elements q hq rfl
  obtain ⟨r1, hd1, -, -⟩ := drain_all q1.m_elements q1 hq1 rfl
  have hpa := hperm (q.address g)
  have hbk1 : q1.bucket (q.address g) =
      ((q.bucket (q.address g)).set i last).dropLast ++ [n] := by
    simp only [bucket, hb]; exact getD_set_same _ _ _ ha
  rw [hbk1] at hpa
  have hf := flatten_split3 q.m_buckets (q.address g) ha
  have hf1 := flatten_set3 q.m_buckets (q.address g)
    (((q.bucket (q.address g)).set i last).dropLast ++ [n]) ha
  rw [← hb] at hf1
  refine ⟨q1, hck, he, hx, ?_, hperm, q.m_buckets.flatten.reverse, q1.m_buckets.flatten.reverse,
    r, r1, hd, hd1, ?_, ?_⟩
  · simp [maxValue, hm, hs]
  · refine (List.reverse_perm _).trans (List.Perm.trans ?_ (List.reverse_perm _).symm)
    rw [hf, hf1]
    exact List.Perm.append_left _ (List.Perm.append_right _ hpa)
  · rw [List.map_reverse, List.map_reverse, hf, hf1]
    simp only [List.map_append]
    have := map_eq_of_perm_const q.gain _ (q.bucket (q.address g)) _ hpa
      (fun x hx => gain_const_on_bucket q hq _ x hx)
    simp only [List.map_append, bucket] at this ⊢
    rw [this]

/-- A contained node of a reachable state for C8 (as amended). -/
theorem changeKey_same_gain_witness :
    (Reachable 3 (((mk_pq 3).insert 0 2).insert 2 2) ∧
      (((mk_pq 3).insert 0 2).insert 2 2).contains 0 = true) ∧
    ∃ q1, (((mk_pq 3).insert 0 2).insert 2 2).changeKey 0
        ((((mk_pq 3).insert 0 2).insert 2 2).gain 0) = some q1 ∧
      q1.size = (((mk_pq 3).insert 0 2).insert 2 2).size ∧
      (∀ x, q1.contains x = (((mk_pq 3).insert 0 2).insert 2 2).contains x ∧
        q1.gain x = (((mk_pq 3).insert 0 2).insert 2 2).gain x) ∧
      q1.maxValue = (((mk_pq 3).insert 0 2).insert 2 2).maxValue ∧
      (∀ a, (q1.bucket a).Perm ((((mk_pq 3).insert 0 2).insert 2 2).bucket a)) ∧
      ∃ out out1 r r1,
        deleteMaxN (((mk_pq 3).insert 0 2).insert 2 2).size (((mk_pq 3).insert 0 2).insert 2 2) =
          some (out, r) ∧
        deleteMaxN q1.size q1 = some (out1, r1) ∧
        out1.Perm out ∧
        out1.map (((mk_pq 3).insert 0 2).insert 2 2).gain =
          out.map (((mk_pq 3).insert 0 2).insert 2 2).gain :=
  ⟨⟨Reachable.insert 2 2 (Reachable.insert 0 2 Reachable.fresh rfl (by decide) (by decide))
      rfl (by decide) (by decide), rfl⟩,
    changeKey_same_gain 3 _
      (Reachable.insert 2 2 (Reachable.insert 0 2 Reachable.fresh rfl (by decide) (by decide))
        rfl (by decide) (by decide)) 0 rfl⟩

/-- C8 as stated fails: with span 3 and inserts `(0,+2)`, `(1,-1)`, `(2,+2)`,
repeated `deleteMax` returns `2, 0, 1`, but after `changeKey(0, gain(0))` it
returns `0, 2, 1`. -/
theorem changeKey_same_gain_reorders :
    (insertAll (mk_pq 3) [(0, 2), (1, -1), (2, 2)]).contains 0 = true ∧
    (deleteMaxN 3 (insertAll (mk_pq 3) [(0, 2), (1, -1), (2, 2)])).map Prod.fst =
      some [2, 0, 1] ∧
    (((insertAll (mk_pq 3) [(0, 2), (1, -1), (2, 2)]).changeKey 0
        ((insertAll (mk_pq 3) [(0, 2), (1, -1), (2, 2)]).gain 0)).bind
      (deleteMaxN 3)).map Prod.fst = some [0, 2, 1] := by
  decide

end bucket_pq

namespace heavy_edges
open mutable_graph

/-! ## heavy_edges.h: the scenarios -/

/-- The star with centre 0 and leaves 1, 2, 3 (all edges of weight 4, λ = 4)
when `deleteVertex` removes the slot of the node and lowers `n()`: all three
leaves are marked, and `removeHeavyEdges` returns a log of two entries and
leaves a graph of two super-nodes; the same holds when the centre is node 3. -/
theorem star_log_has_two_entries :
    (scan 4 (ofEdges 4 [(0, 1, 4), (0, 2, 4), (0, 3, 4)])).markForCactus = [1, 2, 3] ∧
    (removeHeavyEdges 4 id (ofEdges 4 [(0, 1, 4), (0, 2, 4), (0, 3, 4)])).map
        (fun r => (r.2.length, r.1.n)) = some (2, 2) ∧
    (removeHeavyEdges 4 id (ofEdges 4 [(3, 0, 4), (3, 1, 4), (3, 2, 4)])).map
        (fun r => (r.2.length, r.1.n)) = some (2, 2) := by
  decide

/-- The star with centre X = 0 and leaves 1, 2, 3 (all edges of weight 4,
λ = 4) when `deleteVertex` removes the slot of the node and lowers `n()`:
`removeHeavyEdges` marks the three leaves, logs and deletes the first two of
them, and stops at the guard `G->n() > 2`: the log is
`[(0,[1]), (0,[2])]` and the final graph has the two super-nodes X and leaf 3
joined by the edge of weight 4.  `reInsertVertices` with that log then
reattaches two pendants of degree 1 and weight 4 to X, which gives the star
again. -/
theorem star_scenario :
    (scan 4 (ofEdges 4 [(0, 1, 4), (0, 2, 4), (0, 3, 4)])).markForCactus = [1, 2, 3] ∧
    (removeHeavyEdges 4 id (ofEdges 4 [(0, 1, 4), (0, 2, 4), (0, 3, 4)])).map
        (fun r => (r.1.vertices, (List.range 4).map r.1.getCurrentPosition, r.2)) =
      some ([{ contained := [0], edges := [{ target := 1, weight := 4 }] },
             { contained := [3], edges := [{ target := 0, weight := 4 }] }],
            [some 0, none, none, some 1],
            [(0, [1]), (0, [2])]) ∧
    ((removeHeavyEdges 4 id (ofEdges 4 [(0, 1, 4), (0, 2, 4), (0, 3, 4)])).bind
        (fun r => reInsertVertices 4 r.1 r.2)).map
        (fun G => (G.vertices, (List.range 4).map G.getCurrentPosition)) =
      some ([{ contained := [0],
               edges := [{ target := 1, weight := 4 }, { target := 2, weight := 4 },
                         { target := 3, weight := 4 }] },
             { contained := [3], edges := [{ target := 0, weight := 4 }] },
             { contained := [2], edges := [{ target := 0, weight := 4 }] },
             { contained := [1], edges := [{ target := 0, weight := 4 }] }],
            [some 0, some 3, some 2, some 1]) := by
  decide

end heavy_edges

namespace local_search
open mutable_graph

/-! ## local_search.h: `flowBetweenBlocks` and the fixed vertices -/

theorem mappingStep_other (env : Env) (solution : Nat → Nat) (t1 t2 : Nat)
    (acc : (Nat → Nat) × Nat) (n v : Nat) (h : v ≠ n) :
    (mappingStep env solution t1 t2 acc n).1 v = acc.1 v := by
  unfold mappingStep
  split
  · rfl
  · split <;> simp [h]

theorem mapping_fold_notin (env : Env) (solution : Nat → Nat) (t1 t2 : Nat) (l : List Nat) :
    ∀ (acc : (Nat → Nat) × Nat) (v : Nat), v ∉ l →
      (l.foldl (mappingStep env solution t1 t2) acc).1 v = acc.1 v := by
  induction l with
  | nil => intro acc v _; rfl
  | cons a l ih =>
    intro acc v hv
    simp only [List.mem_cons, not_or] at hv
    simp only [List.foldl_cons]
    rw [ih _ v hv.2, mappingStep_other _ _ _ _ _ _ _ hv.1]

theorem mapping_fold_fixed (env : Env) (solution : Nat → Nat) (t1 t2 : Nat) (l : List Nat)
    (hnd : l.Nodup) :
    ∀ (acc : (Nat → Nat) × Nat) (v : Nat), v ∈ l → env.fixed_vertex v = true →
      (solution v = t1 ∨ solution v = t2) →
      (l.foldl (mappingStep env solution t1 t2) acc).1 v = if solution v = t1 then 0 else 1 := by
  induction l with
  | nil => intro acc v hv; simp at hv
  | cons a l ih =>
    intro acc v hv hf hb
    rw [List.nodup_cons] at hnd
    simp only [List.foldl_cons]
    by_cases hva : v = a
    · subst hva
      rw [mapping_fold_notin _ _ _ _ _ _ _ hnd.1]
      unfold mappingStep
      rw [if_neg (by
        intro hc
        rcases hb with hb | hb
        · exact hc.1 hb
        · exact hc.2 hb), if_pos hf]
      simp
    · have hvl : v ∈ l := by
        rcases List.mem_cons.mp hv with h | h
        · exact absurd h hva
        · exact h
      exact ih hnd.2 _ v hvl hf hb

/-- `mapping[v]` for a fixed vertex of one of the two blocks. -/
theorem buildMapping_fixed (env : Env) (solution : Nat → Nat) (t1 t2 v : Nat)
    (hv : v < env.original_graph.n) (hf : env.fixed_vertex v = true)
    (hb : solution v = t1 ∨ solution v = t2) :
    (buildMapping env solution t1 t2).1 v = if solution v = t1 then 0 else 1 := by
  unfold buildMapping
  exact mapping_fold_fixed env solution t1 t2 _ (List.nodup_range _) _ v
    (by simpa [nodes] using hv) hf hb

theorem reassign_fold_none (env : Env) (t1 t2 : Nat) (mapping : Nat → Nat) (zero : List Nat)
    (l : List Nat) : l.foldl (reassignStep env t1 t2 mapping zero) none = none := by
  induction l with
  | nil => rfl
  | cons a l ih => simp only [List.foldl_cons, reassignStep]; exact ih

/-- The reassignment loop, when it does not take the fatal path: every visited
vertex of the two blocks passed the check for fixed vertices and has been
assigned by its side of the cut; all other entries are unchanged. -/
theorem reassign_fold (env : Env) (t1 t2 : Nat) (mapping : Nat → Nat) (zero : List Nat)
    (sol0 : Nat → Nat) (l : List Nat) (hnd : l.Nodup) :
    ∀ (cur sol1 : Nat → Nat), (∀ x ∈ l, cur x = sol0 x) →
      l.foldl (reassignStep env t1 t2 mapping zero) (some cur) = some sol1 →
      (∀ v, v ∈ l → (sol0 v = t1 ∨ sol0 v = t2) →
        (env.fixed_vertex v = true → (mapping v ∈ zero ↔ sol0 v = t1)) ∧
        sol1 v = if mapping v ∈ zero then t1 else t2) ∧
      (∀ v, (v ∉ l ∨ ¬ (sol0 v = t1 ∨ sol0 v = t2)) → sol1 v = cur v) := by
  induction l with
  | nil =>
    intro cur sol1 _ h
    simp only [List.foldl_nil, Option.some.injEq] at h
    subst h
    exact ⟨fun v hv => by simp at hv, fun _ _ => rfl⟩
  | cons a l ih =>
    intro cur sol1 hcur h
    rw [List.nodup_cons] at hnd
    simp only [List.foldl_cons] at h
    have hca : cur a = sol0 a := hcur a (List.mem_cons_self _ _)
    by_cases hb : sol0 a = t1 ∨ sol0 a = t2
    · by_cases hfat : env.fixed_vertex a = true ∧
          (decide (mapping a ∈ zero) ≠ decide (cur a = t1))
      · have : reassignStep env t1 t2 mapping zero (some cur) a = none := by
          simp only [reassignStep]
          rw [if_pos (by rw [hca]; exact hb), if_pos hfat]
        rw [this, reassign_fold_none] at h
        simp at h
      · have hstep : reassignStep env t1 t2 mapping zero (some cur) a =
            some (fun x => if x = a then (if mapping a ∈ zero then t1 else t2) else cur x) := by
          simp only [reassignStep]
          rw [if_pos (by rw [hca]; exact hb), if_neg hfat]
        rw [hstep] at h
        obtain ⟨h1, h2⟩ := ih hnd.2 _ sol1 (by
          intro x hx
          have hxa : x ≠ a := fun hc => hnd.1 (hc ▸ hx)
          simp only [if_neg hxa]
          exact hcur x (List.mem_cons_of_mem _ hx)) h
        constructor
        · intro v hv hvb
          by_cases hva : v = a
          · subst hva
            constructor
            · intro hf
              by_contra hc
              apply hfat
              refine ⟨hf, ?_⟩
              rw [hca]
              intro hd
              apply hc
              constructor
              · intro hm
                have : decide (mapping v ∈ zero) = true := decide_eq_true hm
                rw [hd] at this
                exact of_decide_eq_true this
              · intro hs
                have : decide (sol0 v = t1) = true := decide_eq_true hs
                rw [← hd] at this
                exact of_decide_eq_true this
            · rw [h2 v (Or.inl hnd.1)]
              simp
          · have hvl : v ∈ l := by
              rcases List.mem_cons.mp hv with h' | h'
              · exact absurd h' hva
              · exact h'
            exact h1 v hvl hvb
        · intro v hv
          have hv' : v ∉ l ∨ ¬ (sol0 v = t1 ∨ sol0 v = t2) := by
            rcases hv with hv | hv
            · left; intro hc; exact hv (List.mem_cons_of_mem _ hc)
            · right; exact hv
          rw [h2 v hv']
          have hva : v ≠ a := by
            rintro rfl
            rcases hv with hv | hv
            · exact hv (List.mem_cons_self _ _)
            · exact hv hb
          simp [hva]
    · have hstep : reassignStep env t1 t2 mapping zero (some cur) a = some cur := by
        simp only [reassignStep]
        rw [if_neg (by rw [hca]; exact hb)]
      rw [hstep] at h
      obtain ⟨h1, h2⟩ := ih hnd.2 cur sol1 (fun x hx => hcur x (List.mem_cons_of_mem _ hx)) h
      constructor
      · intro v hv hvb
        have hva : v ≠ a := by rintro rfl; exact hb hvb
        have hvl : v ∈ l := by
          rcases List.mem_cons.mp hv with h' | h'
          · exact absurd h' hva
          · exact h'
        exact h1 v hvl hvb
      · intro v hv
        apply h2
        rcases hv with hv | hv
        · left; intro hc; exact hv (List.mem_cons_of_mem _ hc)
        · right; exact hv

/-- What `flowBetweenBlocks` returns when it returns. -/
theorem flowBetweenBlocks_some (env : Env) (st : State) (t1 t2 : Nat)
    (r : (Int × Nat) × State) (h : flowBetweenBlocks env st t1 t2 = some r) :
    env.original_graph.nodes.foldl
        (reassignStep env t1 t2 (buildMapping env st.sol t1 t2).1 (flowResult env st.sol t1 t2).2)
        (some st.sol) = some r.2.sol ∧
    r.1.1 = ((flowScan env st.sol t1 t2 (buildMapping env st.sol t1 t2).1).sol_weight : Int)
      - ((flowResult env st.sol t1 t2).1 : Int) ∧
    r.1.2 = (flowResult env st.sol t1 t2).1 ∧
    r.2.previousConnectivity = st.previousConnectivity ∧
    r.2.movedToNewBlock = st.movedToNewBlock := by
  unfold flowBetweenBlocks at h
  simp only at h
  split at h
  · simp at h
  · rename_i sol1 hs
    simp only [Option.some.injEq] at h
    subst h
    exact ⟨hs, rfl, rfl, rfl, rfl⟩

/-- C4 (fixed-vertex invariance under the flow swap).  Whenever
`flowBetweenBlocks(t1, t2)` returns, every fixed vertex that was in block `t1`
is in block `t1` afterwards and every fixed vertex that was in block `t2` is in
block `t2` afterwards; and if the source side `s` returned by the solver lacks
node 0 while a fixed vertex is in `t1`, or contains node 1 while a fixed vertex
is in `t2`, the call ends on the fatal path (`none`) instead of returning. -/
theorem flow_fixed_invariance (env : Env) (st : State) (t1 t2 : Nat) (h12 : t1 ≠ t2) :
    (∀ r, flowBetweenBlocks env st t1 t2 = some r →
      ∀ v, env.fixed_vertex v = true →
        (st.sol v = t1 → r.2.sol v = t1) ∧ (st.sol v = t2 → r.2.sol v = t2)) ∧
    (∀ v, v < env.original_graph.n → env.fixed_vertex v = true →
      ((st.sol v = t1 ∧ 0 ∉ (flowResult env st.sol t1 t2).2) ∨
       (st.sol v = t2 ∧ 1 ∈ (flowResult env st.sol t1 t2).2)) →
      flowBetweenBlocks env st t1 t2 = none) := by
  have key : ∀ r, flowBetweenBlocks env st t1 t2 = some r →
      ∀ v, v < env.original_graph.n → env.fixed_vertex v = true →
        (st.sol v = t1 ∨ st.sol v = t2) →
        ((if st.sol v = t1 then 0 else 1) ∈ (flowResult env st.sol t1 t2).2 ↔ st.sol v = t1) ∧
        r.2.sol v = if (if st.sol v = t1 then 0 else 1) ∈ (flowResult env st.sol t1 t2).2
          then t1 else t2 := by
    intro r hr v hv hf hb
    obtain ⟨hfold, -⟩ := flowBetweenBlocks_some env st t1 t2 r hr
    obtain ⟨h1, -⟩ := reassign_fold env t1 t2 _ _ st.sol _ (List.nodup_range _) st.sol r.2.sol
      (fun _ _ => rfl) hfold
    have := h1 v (by simpa [nodes] using hv) hb
    rw [buildMapping_fixed env st.sol t1 t2 v hv hf hb] at this
    exact ⟨this.1 hf, this.2⟩
  constructor
  · intro r hr v hf
    by_cases hv : v < env.original_graph.n
    · constructor
      · intro hs
        obtain ⟨k1, k2⟩ := key r hr v hv hf (Or.inl hs)
        rw [k2, if_pos (k1.mpr hs)]
      · intro hs
        obtain ⟨k1, k2⟩ := key r hr v hv hf (Or.inr hs)
        rw [k2]
        by_cases h1 : st.sol v = t1
        · rw [if_pos (k1.mpr h1), ← h1, hs]
        · rw [if_neg (fun hc => h1 (k1.mp hc))]
    · obtain ⟨hfold, -⟩ := flowBetweenBlocks_some env st t1 t2 r hr
      obtain ⟨-, h2⟩ := reassign_fold env t1 t2 _ _ st.sol _ (List.nodup_range _) st.sol r.2.sol
        (fun _ _ => rfl) hfold
      have := h2 v (Or.inl (by simpa [nodes] using hv))
      rw [this]
      exact ⟨id, id⟩
  · intro v hv hf hcase
    cases hres : flowBetweenBlocks env st t1 t2 with
    | none => rfl
    | some r =>
      exfalso
      rcases hcase with ⟨hs, h0⟩ | ⟨hs, h1⟩
      · obtain ⟨k1, -⟩ := key r hres v hv hf (Or.inl hs)
        rw [if_pos hs] at k1
        exact h0 (k1.mpr hs)
      · obtain ⟨k1, -⟩ := key r hres v hv hf (Or.inr hs)
        have hne : st.sol v ≠ t1 := by rw [hs]; exact fun hc => h12 hc.symm
        rw [if_neg hne] at k1
        exact hne (k1.mp h1)

/-- An instance of C4: on `pathEnv` the call `flowBetweenBlocks(0, 1)` returns
and the fixed end points keep their blocks. -/
theorem flow_fixed_invariance_witness :
    (0 : Nat) ≠ 1 ∧
    ((∀ r, flowBetweenBlocks pathEnv pathState 0 1 = some r →
      ∀ v, pathEnv.fixed_vertex v = true →
        (pathState.sol v = 0 → r.2.sol v = 0) ∧ (pathState.sol v = 1 → r.2.sol v = 1)) ∧
    (∀ v, v < pathEnv.original_graph.n → pathEnv.fixed_vertex v = true →
      ((pathState.sol v = 0 ∧ 0 ∉ (flowResult pathEnv pathState.sol 0 1).2) ∨
       (pathState.sol v = 1 ∧ 1 ∈ (flowResult pathEnv pathState.sol 0 1).2)) →
      flowBetweenBlocks pathEnv pathState 0 1 = none)) ∧
    (flowBetweenBlocks pathEnv pathState 0 1).map
      (fun r => (r.1, (List.range 3).map r.2.sol)) = some ((0, 1), [0, 0, 1]) :=
  ⟨by decide, flow_fixed_invariance pathEnv pathState 0 1 (by decide), by decide⟩

end local_search

namespace local_search
open mutable_graph

/-! ## local_search.h: `gainLocalSearch` keeps the solution valid -/

theorem maxBlock_fold_lt (wgt : Nat → Nat) (own T : Nat) (l : List Nat) (hl : ∀ i ∈ l, i < T) :
    ∀ acc : Nat × Nat, acc.1 < T →
      (l.foldl (fun acc i => if i ≠ own ∧ wgt i > acc.2 then (i, wgt i) else acc) acc).1 < T := by
  induction l with
  | nil => intro acc h; exact h
  | cons a l ih =>
    intro acc h
    simp only [List.foldl_cons]
    apply ih (fun i hi => hl i (List.mem_cons_of_mem _ hi))
    split
    · exact hl a (List.mem_cons_self _ _)
    · exact h

theorem maxBlock_lt (wgt : Nat → Nat) (own T : Nat) (hT : 0 < T) : (maxBlock wgt own T).1 < T := by
  unfold maxBlock
  exact maxBlock_fold_lt wgt own T _ (fun i hi => List.mem_range.mp hi) (0, 0) hT

theorem invalidate_fold (l : List Edge) : ∀ gs : GainState,
    (l.foldl (fun (g : GainState) ed =>
      { g with
        nextBest := fun x => if x = ed.target then none else g.nextBest x
        inBoundary := fun x => if x = ed.target then true else g.inBoundary x }) gs).sol = gs.sol ∧
    (l.foldl (fun (g : GainState) ed =>
      { g with
        nextBest := fun x => if x = ed.target then none else g.nextBest x
        inBoundary := fun x => if x = ed.target then true else g.inBoundary x })
        gs).improvement = gs.improvement ∧
    (l.foldl (fun (g : GainState) ed =>
      { g with
        nextBest := fun x => if x = ed.target then none else g.nextBest x
        inBoundary := fun x => if x = ed.target then true else g.inBoundary x })
        gs).movedToNewBlock = gs.movedToNewBlock ∧
    (∀ x, (l.foldl (fun (g : GainState) ed =>
      { g with
        nextBest := fun x => if x = ed.target then none else g.nextBest x
        inBoundary := fun x => if x = ed.target then true else g.inBoundary x }) gs).nextBest x =
      if x ∈ l.map Edge.target then none else gs.nextBest x) := by
  induction l with
  | nil => intro gs; simp
  | cons a l ih =>
    intro gs
    simp only [List.foldl_cons]
    obtain ⟨h1, h2, h3, h4⟩ := ih
      { gs with
        nextBest := fun x => if x = a.target then none else gs.nextBest x
        inBoundary := fun x => if x = a.target then true else gs.inBoundary x }
    refine ⟨h1, h2, h3, ?_⟩
    intro x
    rw [h4 x]
    simp only [List.map_cons, List.mem_cons]
    by_cases hx : x ∈ l.map Edge.target
    · simp [hx]
    · by_cases hxa : x = a.target
      · simp [hxa]
      · simp [hx, hxa]

theorem invalidate_sol (env : Env) (gs : GainState) (n : Nat) :
    (invalidate env gs n).sol = gs.sol := (invalidate_fold _ gs).1

theorem invalidate_improvement (env : Env) (gs : GainState) (n : Nat) :
    (invalidate env gs n).improvement = gs.improvement := (invalidate_fold _ gs).2.1

theorem invalidate_moved (env : Env) (gs : GainState) (n : Nat) :
    (invalidate env gs n).movedToNewBlock = gs.movedToNewBlock := (invalidate_fold _ gs).2.2.1

theorem invalidate_nextBest (env : Env) (gs : GainState) (n x : Nat) :
    (invalidate env gs n).nextBest x =
      if x ∈ (env.original_graph.edgesOf n).map Edge.target then none else gs.nextBest x :=
  (invalidate_fold _ gs).2.2.2 x

theorem invalidate_nextBest_some (env : Env) (gs : GainState) (n x : Nat) (p : Nat × Int)
    (h : (invalidate env gs n).nextBest x = some p) : gs.nextBest x = some p := by
  rw [invalidate_nextBest] at h
  split at h
  · simp at h
  · exact h

theorem pairStep_valid (env : Env) (sol0 : Nat → Nat) (n M : Nat) (gain : Int)
    (hn : env.fixed_vertex n = false) (hM : 0 < env.num_terminals → M < env.num_terminals)
    (hT : 0 < env.original_graph.n → 0 < env.num_terminals)
    (acc : GainState × Bool) (ed : Edge) (h : ValidInv env sol0 acc.1) :
    ValidInv env sol0 (pairStep env n M gain acc ed).1 := by
  unfold pairStep
  split
  · exact h
  · rename_i nb hnb
    split
    · obtain ⟨h1, h2, h3⟩ := h
      have hted : env.fixed_vertex ed.target = false := h3 _ _ hnb
      refine ⟨?_, ?_, ?_⟩
      · intro v hv
        simp only [invalidate_sol]
        have hMlt := hM (hT (by omega))
        split
        · exact hMlt
        · split
          · exact hMlt
          · exact h1 v hv
      · intro v hv
        simp only [invalidate_sol]
        have hvt : v ≠ ed.target := by
          rintro rfl; rw [hted] at hv; simp at hv
        have hvn : v ≠ n := by
          rintro rfl; rw [hn] at hv; simp at hv
        rw [if_neg hvt, if_neg hvn]
        exact h2 v hv
      · intro x p hx
        have hx1 := invalidate_nextBest_some _ _ _ _ _ hx
        simp only at hx1
        split at hx1
        · simp at hx1
        · have hx2 := invalidate_nextBest_some _ _ _ _ _ hx1
          exact h3 x p hx2
    · exact h

theorem pairFold_valid (env : Env) (sol0 : Nat → Nat) (n M : Nat) (gain : Int)
    (hn : env.fixed_vertex n = false) (hM : 0 < env.num_terminals → M < env.num_terminals)
    (hT : 0 < env.original_graph.n → 0 < env.num_terminals) (l : List Edge) :
    ∀ acc : GainState × Bool, ValidInv env sol0 acc.1 →
      ValidInv env sol0 (l.foldl (pairStep env n M gain) acc).1 := by
  induction l with
  | nil => intro acc h; exact h
  | cons a l ih =>
    intro acc h
    simp only [List.foldl_cons]
    exact ih _ (pairStep_valid env sol0 n M gain hn hM hT acc a h)

theorem gainStep_valid (env : Env) (sol0 : Nat → Nat)
    (hT : 0 < env.original_graph.n → 0 < env.num_terminals)
    (gs : GainState) (n : Nat) (h : ValidInv env sol0 gs) :
    ValidInv env sol0 (gainStep env gs n) := by
  unfold gainStep
  split
  · exact h
  · rename_i hskip
    have hn : env.fixed_vertex n = false := by
      cases hf : env.fixed_vertex n
      · rfl
      · exact absurd (Or.inl hf) hskip
    have hM : 0 < env.num_terminals → (bestBlock env gs.sol n).1 < env.num_terminals :=
      fun hpos => maxBlock_lt _ _ _ hpos
    have h1 : ValidInv env sol0 (markInner gs n (bestBlock env gs.sol n).2) := by
      unfold markInner
      split
      · exact h
      · exact h
    have hr := pairFold_valid env sol0 n _ (gainOf env gs.sol n) hn hM hT
      (env.original_graph.edgesOf n) (_, true) h1
    unfold soloStep
    split
    · exact hr
    · obtain ⟨r1, r2, r3⟩ := hr
      split
      · refine ⟨?_, ?_, ?_⟩
        · intro v hv
          rw [invalidate_sol]
          simp only
          split
          · exact hM (hT (by omega))
          · exact r1 v hv
        · intro v hv
          rw [invalidate_sol]
          simp only
          have hvn : v ≠ n := by
            rintro rfl; rw [hn] at hv; simp at hv
          rw [if_neg hvn]
          exact r2 v hv
        · intro x p hx
          have := invalidate_nextBest_some _ _ _ _ _ hx
          exact r3 x p this
      · refine ⟨r1, r2, ?_⟩
        intro x p hx
        simp only at hx
        split at hx
        · rename_i hxn
          rw [hxn]; exact hn
        · exact r3 x p hx

theorem gainFold_valid (env : Env) (sol0 : Nat → Nat)
    (hT : 0 < env.original_graph.n → 0 < env.num_terminals) (l : List Nat) :
    ∀ gs : GainState, ValidInv env sol0 gs → ValidInv env sol0 (l.foldl (gainStep env) gs) := by
  induction l with
  | nil => intro gs h; exact h
  | cons a l ih =>
    intro gs h
    simp only [List.foldl_cons]
    exact ih _ (gainStep_valid env sol0 hT gs a h)

/-- C5 (solution validity after gain local search).  If every vertex of the
original graph has a block id below `num_terminals` before `gainLocalSearch`,
it has one afterwards, and every fixed vertex has the same block as before the
call (the neighbour moved in a paired move is never fixed, because `nextBest`
is only ever set for vertices that passed the `fixed_vertex` test). -/
theorem gain_keeps_valid (env : Env) (k : Nat) (st : State)
    (hvalid : ∀ v, v < env.original_graph.n → st.sol v < env.num_terminals) :
    (∀ v, v < env.original_graph.n → (gainLocalSearch env k st).2.sol v < env.num_terminals) ∧
    (∀ v, env.fixed_vertex v = true → (gainLocalSearch env k st).2.sol v = st.sol v) := by
  have hT : 0 < env.original_graph.n → 0 < env.num_terminals := by
    intro h
    have := hvalid 0 h
    omega
  have h0 : ValidInv env st.sol
      { sol := st.sol, improvement := 0, inBoundary := fun _ => true,
        nextBest := fun _ => none, movedToNewBlock := st.movedToNewBlock } :=
    ⟨hvalid, fun _ _ => rfl, fun x p hx => by simp at hx⟩
  obtain ⟨h1, h2, -⟩ := gainFold_valid env st.sol hT (env.permute k) _ h0
  exact ⟨h1, h2⟩

/-- An instance of C5: on `pathEnv` the free vertex 1 makes a solo move of gain
0 to block 1, and the fixed end points keep their blocks. -/
theorem gain_keeps_valid_witness :
    (∀ v, v < pathEnv.original_graph.n → pathState.sol v < pathEnv.num_terminals) ∧
    ((∀ v, v < pathEnv.original_graph.n →
        (gainLocalSearch pathEnv 0 pathState).2.sol v < pathEnv.num_terminals) ∧
      (∀ v, pathEnv.fixed_vertex v = true →
        (gainLocalSearch pathEnv 0 pathState).2.sol v = pathState.sol v)) ∧
    ((gainLocalSearch pathEnv 0 pathState).1,
      (List.range 3).map (gainLocalSearch pathEnv 0 pathState).2.sol) = (0, [0, 1, 1]) :=
  ⟨by decide, gain_keeps_valid pathEnv 0 pathState (by decide), by decide⟩

end local_search

namespace local_search
open mutable_graph

/-! ## local_search.h: sums over the edges of a simple graph -/

theorem sum_flatMap_map {α β : Type} (l : List α) (f : α → List β) (g : β → Int) :
    ((l.flatMap f).map g).sum = (l.map (fun a => ((f a).map g).sum)).sum := by
  induction l with
  | nil => simp
  | cons a l ih => simp [List.flatMap_cons, ih]

theorem sum_flatMap_map_nat {α β : Type} (l : List α) (f : α → List β) (g : β → Nat) :
    ((l.flatMap f).map g).sum = (l.map (fun a => ((f a).map g).sum)).sum := by
  induction l with
  | nil => simp
  | cons a l ih => simp [List.flatMap_cons, ih]

/-- A double sum over nodes and edge lists is a sum over `dedges`. -/
theorem sum_dedges (G : mutable_graph) (g : Nat × Nat × Nat → Int) :
    ((dedges G).map g).sum =
      (G.nodes.map (fun u => ((G.edgesOf u).map
        (fun ed => g (u, ed.target, ed.weight))).sum)).sum := by
  unfold dedges
  rw [sum_flatMap_map]
  congr 1
  apply List.map_congr_left
  intro u _
  rw [List.map_map]
  rfl

theorem sum_dedges_nat (G : mutable_graph) (g : Nat × Nat × Nat → Nat) :
    ((dedges G).map g).sum =
      (G.nodes.map (fun u => ((G.edgesOf u).map
        (fun ed => g (u, ed.target, ed.weight))).sum)).sum := by
  unfold dedges
  rw [sum_flatMap_map_nat]
  congr 1
  apply List.map_congr_left
  intro u _
  rw [List.map_map]
  rfl

theorem mem_dedges (G : mutable_graph) (u t w : Nat) :
    (u, t, w) ∈ dedges G ↔ u < G.n ∧ ({ target := t, weight := w } : Edge) ∈ G.edgesOf u := by
  unfold dedges
  simp only [List.mem_flatMap, List.mem_map, nodes, List.mem_range, Prod.mk.injEq]
  constructor
  · rintro ⟨a, ha, ed, hed, rfl, rfl, rfl⟩
    exact ⟨ha, hed⟩
  · rintro ⟨hu, hed⟩
    exact ⟨u, hu, _, hed, rfl, rfl, rfl⟩

theorem edgesOf_oob (G : mutable_graph) (u : Nat) (h : G.n ≤ u) : G.edgesOf u = [] := by
  unfold edgesOf
  rw [List.getElem?_eq_none (by simpa [n] using h)]
  rfl

theorem mem_dedges_iff (G : mutable_graph) (u t w : Nat) :
    (u, t, w) ∈ dedges G ↔ ({ target := t, weight := w } : Edge) ∈ G.edgesOf u := by
  rw [mem_dedges]
  constructor
  · exact fun h => h.2
  · intro h
    refine ⟨?_, h⟩
    by_contra hc
    rw [edgesOf_oob G u (by omega)] at h
    simp at h

theorem dedges_nodup (G : mutable_graph) (hs : Simple G) : (dedges G).Nodup := by
  unfold dedges
  rw [List.nodup_flatMap]
  constructor
  · intro u _
    have h2 := hs.2.1 u
    rw [List.Nodup] at h2 ⊢
    rw [List.pairwise_map] at h2 ⊢
    exact h2.imp (fun h hc => h (by simpa using (Prod.mk.inj (Prod.mk.inj hc).2).1))
  · have : (List.range G.n).Pairwise (fun a b => a ≠ b) := List.nodup_range _
    unfold nodes
    refine this.imp ?_
    intro a b hab
    simp only [Function.onFun, List.disjoint_left, List.mem_map]
    rintro x ⟨e1, -, rfl⟩ ⟨e2, -, h2⟩
    exact hab (Prod.mk.inj h2).1.symm

/-- Reversing every directed edge of a simple graph permutes `dedges`. -/
theorem dedges_rev_perm (G : mutable_graph) (hs : Simple G) :
    ((dedges G).map (fun x => (x.2.1, x.1, x.2.2))).Perm (dedges G) := by
  rw [List.perm_ext_iff_of_nodup]
  · intro x
    obtain ⟨u, t, w⟩ := x
    simp only [List.mem_map, Prod.mk.injEq, Prod.exists]
    constructor
    · rintro ⟨a, b, c, habc, rfl, rfl, rfl⟩
      rw [mem_dedges_iff] at habc ⊢
      exact hs.2.2 a _ habc
    · intro h
      refine ⟨t, u, w, ?_, rfl, rfl, rfl⟩
      rw [mem_dedges_iff] at h ⊢
      exact hs.2.2 u _ h
  · apply List.Nodup.map _ (dedges_nodup G hs)
    intro x y hxy
    simp only [Prod.mk.injEq] at hxy
    obtain ⟨h1, h2, h3⟩ := hxy
    exact Prod.ext h2 (Prod.ext h1 h3)
  · exact dedges_nodup G hs

theorem sum_dedges_rev (G : mutable_graph) (hs : Simple G) (g : Nat × Nat × Nat → Int) :
    ((dedges G).map g).sum = ((dedges G).map (fun x => g (x.2.1, x.1, x.2.2))).sum := by
  have := (dedges_rev_perm G hs).map g
  rw [List.map_map] at this
  exact (this.sum_eq).symm

theorem dedges_ne (G : mutable_graph) (hs : Simple G) (x : Nat × Nat × Nat) (hx : x ∈ dedges G) :
    x.2.1 ≠ x.1 ∧ x.2.1 < G.n ∧ x.1 < G.n := by
  obtain ⟨u, t, w⟩ := x
  have h1 := (mem_dedges G u t w).mp hx
  have := hs.1 u _ h1.2
  exact ⟨this.2, this.1, h1.1⟩

theorem cutWeight_eq_dedges (G : mutable_graph) (sol : Nat → Nat) :
    cutWeight G sol =
      ((dedges G).map (fun x => if x.1 < x.2.1 ∧ sol x.1 ≠ sol x.2.1 then x.2.2 else 0)).sum := by
  rw [sum_dedges_nat]
  rfl

theorem sum_map_cast (l : List (Nat × Nat × Nat)) (g : Nat × Nat × Nat → Nat) :
    (((l.map g).sum : Nat) : Int) = (l.map (fun x => (g x : Int))).sum := by
  induction l with
  | nil => simp
  | cons a l ih => simp [ih]

theorem sum_map_add_int {α : Type} (l : List α) (f g : α → Int) :
    (l.map (fun x => f x + g x)).sum = (l.map f).sum + (l.map g).sum := by
  induction l with
  | nil => simp
  | cons a l ih => simp [ih]; omega

theorem sum_map_congr_int {α : Type} (l : List α) (f g : α → Int) (h : ∀ x ∈ l, f x = g x) :
    (l.map f).sum = (l.map g).sum := by
  rw [List.map_congr_left h]

theorem sum_map_mul_int {α : Type} (l : List α) (f : α → Int) (c : Int) :
    (l.map (fun x => c * f x)).sum = c * (l.map f).sum := by
  induction l with
  | nil => simp
  | cons a l ih => simp [ih]; ring

/-- The sum of the weights of all directed edges whose end points are in
different blocks is twice the cut weight. -/
theorem dsum_eq_two_cut (G : mutable_graph) (hs : Simple G) (sol : Nat → Nat) :
    ((dedges G).map (fun x => if sol x.1 ≠ sol x.2.1 then (x.2.2 : Int) else 0)).sum =
      2 * (cutWeight G sol : Int) := by
  have h1 : (cutWeight G sol : Int) = ((dedges G).map
      (fun x => if x.1 < x.2.1 ∧ sol x.1 ≠ sol x.2.1 then (x.2.2 : Int) else 0)).sum := by
    rw [cutWeight_eq_dedges, sum_map_cast]
    apply sum_map_congr_int
    intro x _
    split <;> simp
  have h2 := sum_dedges_rev G hs
    (fun x => if x.1 < x.2.1 ∧ sol x.1 ≠ sol x.2.1 then (x.2.2 : Int) else 0)
  simp only at h2
  have h3 : 2 * (cutWeight G sol : Int) = (cutWeight G sol : Int) + (cutWeight G sol : Int) := by
    ring
  rw [h3]
  conv_rhs => rw [h1]
  conv_rhs => arg 2; rw [h2]
  rw [← sum_map_add_int]
  apply sum_map_congr_int
  intro x hx
  have hne := (dedges_ne G hs x hx).1
  by_cases hc : sol x.1 = sol x.2.1
  · simp [hc]
  · have hc' : sol x.2.1 ≠ sol x.1 := fun h => hc h.symm
    rcases Nat.lt_or_gt_of_ne hne with hlt | hgt
    · have : ¬ x.1 < x.2.1 := by omega
      simp [hc, hc', hlt, this]
    · have : ¬ x.2.1 < x.1 := by omega
      simp [hc, hc', hgt, this]

theorem sum_range_single (N n : Nat) (F : Nat → Int) :
    ((List.range N).map (fun u => if u = n then F u else 0)).sum = if n < N then F n else 0 := by
  induction N with
  | zero => simp
  | succ N ih =>
    rw [List.range_succ, List.map_append, List.sum_append, ih]
    by_cases h1 : n < N
    · have : N ≠ n := by omega
      simp [h1, this, Nat.lt_succ_of_lt h1]
    · by_cases h2 : n = N
      · subst h2; simp
      · have : ¬ n < N + 1 := by omega
        have h3 : N ≠ n := fun h => h2 h.symm
        simp [h1, this, h3]

/-- The part of a sum over `dedges` that belongs to the edges leaving `n`. -/
theorem sum_dedges_source (G : mutable_graph) (n : Nat) (a : Nat → Nat → Int) :
    ((dedges G).map (fun x => if x.1 = n then a x.2.1 x.2.2 else 0)).sum =
      ((G.edgesOf n).map (fun ed => a ed.target ed.weight)).sum := by
  rw [sum_dedges]
  have : (G.nodes.map (fun u => ((G.edgesOf u).map
      (fun ed => if u = n then a ed.target ed.weight else 0)).sum)) =
      (G.nodes.map (fun u => if u = n then
        ((G.edgesOf u).map (fun ed => a ed.target ed.weight)).sum else 0)) := by
    apply List.map_congr_left
    intro u _
    by_cases h : u = n
    · simp [h]
    · simp [h]
  simp only at this ⊢
  rw [this]
  unfold nodes
  rw [sum_range_single]
  split
  · rfl
  · rw [edgesOf_oob G n (by omega)]
    simp

/-- Moving one vertex `n` to block `M` changes the cut weight by the weight of
its edges into its old block minus the weight of its edges into `M`. -/
theorem cutWeight_move (env : Env) (hs : Simple env.original_graph) (sol : Nat → Nat) (n M : Nat) :
    (cutWeight env.original_graph (fun x => if x = n then M else sol x) : Int) =
      (cutWeight env.original_graph sol : Int) + (blockwgt env sol n (sol n) : Int)
        - (blockwgt env sol n M : Int) := by
  have hD' := dsum_eq_two_cut env.original_graph hs (fun x => if x = n then M else sol x)
  have hD := dsum_eq_two_cut env.original_graph hs sol
  -- the difference of the two directed sums
  have hdiff : ((dedges env.original_graph).map (fun x =>
        if (if x.1 = n then M else sol x.1) ≠ (if x.2.1 = n then M else sol x.2.1)
        then (x.2.2 : Int) else 0)).sum =
      ((dedges env.original_graph).map (fun x =>
        if sol x.1 ≠ sol x.2.1 then (x.2.2 : Int) else 0)).sum +
      (((dedges env.original_graph).map (fun x => if x.1 = n then
        ((if M ≠ sol x.2.1 then (x.2.2 : Int) else 0) -
          (if sol n ≠ sol x.2.1 then (x.2.2 : Int) else 0)) else 0)).sum +
      ((dedges env.original_graph).map (fun x => if x.2.1 = n then
        ((if M ≠ sol x.1 then (x.2.2 : Int) else 0) -
          (if sol n ≠ sol x.1 then (x.2.2 : Int) else 0)) else 0)).sum) := by
    rw [← sum_map_add_int, ← sum_map_add_int]
    apply sum_map_congr_int
    intro x hx
    have hne := (dedges_ne env.original_graph hs x hx).1
    by_cases h1 : x.1 = n
    · have h2 : x.2.1 ≠ n := by rw [← h1]; exact hne
      simp only [h1, h2, if_true, if_false]
      by_cases c1 : M = sol x.2.1 <;> by_cases c2 : sol n = sol x.2.1 <;> simp [c1, c2]
    · by_cases h2 : x.2.1 = n
      · simp only [h1, h2, if_true, if_false]
        have e1 : (sol x.1 = M) ↔ (M = sol x.1) := eq_comm
        have e2 : (sol x.1 = sol n) ↔ (sol n = sol x.1) := eq_comm
        simp only [ne_eq, e1, e2]
        by_cases c1 : M = sol x.1 <;> by_cases c2 : sol n = sol x.1 <;> simp [c1, c2]
      · simp [h1, h2]
  have hrev := sum_dedges_rev env.original_graph hs (fun x => if x.2.1 = n then
        ((if M ≠ sol x.1 then (x.2.2 : Int) else 0) -
          (if sol n ≠ sol x.1 then (x.2.2 : Int) else 0)) else 0)
  simp only at hrev
  have hsrc := sum_dedges_source env.original_graph n (fun t w =>
    (if M ≠ sol t then (w : Int) else 0) - (if sol n ≠ sol t then (w : Int) else 0))
  simp only at hsrc
  have hbw : ((env.original_graph.edgesOf n).map (fun ed =>
      (if M ≠ sol ed.target then (ed.weight : Int) else 0) -
        (if sol n ≠ sol ed.target then (ed.weight : Int) else 0))).sum =
      (blockwgt env sol n (sol n) : Int) - (blockwgt env sol n M : Int) := by
    unfold blockwgt
    generalize env.original_graph.edgesOf n = l
    induction l with
    | nil => simp
    | cons e l ih =>
      simp only [List.map_cons, List.sum_cons, ih, Nat.cast_add]
      by_cases c1 : M = sol e.target <;> by_cases c2 : sol n = sol e.target <;>
        simp [c1, c2, eq_comm] <;> omega
  simp only at hD'
  rw [hdiff, hD, hrev, hsrc, hbw] at hD'
  omega

end local_search

namespace local_search
open mutable_graph

/-! ## local_search.h: exact accounting of `gainLocalSearch` -/

theorem maxBlock_fold_spec (wgt : Nat → Nat) (own : Nat) (l : List Nat) :
    ∀ acc : Nat × Nat,
      ((acc.2 = 0 ∧ acc.1 = 0) ∨ (acc.1 ≠ own ∧ acc.2 = wgt acc.1 ∧ acc.2 > 0)) →
      (((l.foldl (fun acc i => if i ≠ own ∧ wgt i > acc.2 then (i, wgt i) else acc) acc).2 = 0 ∧
        (l.foldl (fun acc i => if i ≠ own ∧ wgt i > acc.2 then (i, wgt i) else acc) acc).1 = 0) ∨
       ((l.foldl (fun acc i => if i ≠ own ∧ wgt i > acc.2 then (i, wgt i) else acc) acc).1 ≠ own ∧
        (l.foldl (fun acc i => if i ≠ own ∧ wgt i > acc.2 then (i, wgt i) else acc) acc).2 =
          wgt (l.foldl (fun acc i => if i ≠ own ∧ wgt i > acc.2 then (i, wgt i) else acc) acc).1 ∧
        (l.foldl (fun acc i => if i ≠ own ∧ wgt i > acc.2 then (i, wgt i) else acc) acc).2 > 0)) ∧
      acc.2 ≤ (l.foldl (fun acc i => if i ≠ own ∧ wgt i > acc.2 then (i, wgt i) else acc) acc).2 ∧
      (∀ i ∈ l, i ≠ own →
        wgt i ≤ (l.foldl (fun acc i => if i ≠ own ∧ wgt i > acc.2 then (i, wgt i) else acc) acc).2)
    := by
  induction l with
  | nil =>
    intro acc h
    exact ⟨h, Nat.le_refl _, fun i hi => by simp at hi⟩
  | cons a l ih =>
    intro acc h
    simp only [List.foldl_cons]
    by_cases hc : a ≠ own ∧ wgt a > acc.2
    · rw [if_pos hc]
      obtain ⟨h1, h2, h3⟩ := ih (a, wgt a) (Or.inr ⟨hc.1, rfl, by have := hc.2; omega⟩)
      refine ⟨h1, by have := hc.2; simp only at h2; omega, ?_⟩
      intro i hi hio
      rcases List.mem_cons.mp hi with rfl | hi'
      · exact h2
      · exact h3 i hi' hio
    · rw [if_neg hc]
      obtain ⟨h1, h2, h3⟩ := ih acc h
      refine ⟨h1, h2, ?_⟩
      intro i hi hio
      rcases List.mem_cons.mp hi with rfl | hi'
      · have : ¬ wgt i > acc.2 := fun hw => hc ⟨hio, hw⟩
        omega
      · exact h3 i hi' hio

/-- The result `(maxBlockID, maxBlockWgt)` of the maximum loop: either `(0, 0)`
or a block other than the own one with its positive weight; no other block
below `num_terminals` is heavier. -/
theorem maxBlock_spec (wgt : Nat → Nat) (own T : Nat) :
    (((maxBlock wgt own T).2 = 0 ∧ (maxBlock wgt own T).1 = 0) ∨
      ((maxBlock wgt own T).1 ≠ own ∧ (maxBlock wgt own T).2 = wgt (maxBlock wgt own T).1 ∧
        (maxBlock wgt own T).2 > 0)) ∧
    (∀ i, i < T → i ≠ own → wgt i ≤ (maxBlock wgt own T).2) := by
  obtain ⟨h1, -, h3⟩ := maxBlock_fold_spec wgt own (List.range T) (0, 0) (Or.inl ⟨rfl, rfl⟩)
  exact ⟨h1, fun i hi => h3 i (List.mem_range.mpr hi)⟩

theorem blockwgt_zero_of_valid (env : Env) (sol : Nat → Nat) (n b : Nat)
    (hv : ∀ ed ∈ env.original_graph.edgesOf n, sol ed.target < env.num_terminals)
    (hb : env.num_terminals ≤ b) : blockwgt env sol n b = 0 := by
  unfold blockwgt
  apply List.sum_eq_zero
  intro x hx
  rw [List.mem_map] at hx
  obtain ⟨ed, hed, rfl⟩ := hx
  have := hv ed hed
  rw [if_neg (by omega)]

/-- The computed gain of `n`: the weight into `maxBlockID` minus the weight
into the own block when `maxBlockID` is another block, and minus the weight
into the own block when `maxBlockID` is the own block. -/
theorem gainExact_spec (env : Env) (sol : Nat → Nat) (n : Nat)
    (hv : ∀ ed ∈ env.original_graph.edgesOf n, sol ed.target < env.num_terminals) :
    ((bestBlock env sol n).1 ≠ sol n →
      gainExact env sol n = (blockwgt env sol n (bestBlock env sol n).1 : Int)
        - (blockwgt env sol n (sol n) : Int)) ∧
    ((bestBlock env sol n).1 = sol n →
      gainExact env sol n = - (blockwgt env sol n (sol n) : Int)) := by
  obtain ⟨h1, h2⟩ := maxBlock_spec (blockwgt env sol n) (sol n) env.num_terminals
  unfold gainExact
  unfold bestBlock at *
  constructor
  · intro hne
    rcases h1 with ⟨hw, hm⟩ | ⟨-, hw, -⟩
    · have : blockwgt env sol n (maxBlock (blockwgt env sol n) (sol n) env.num_terminals).1 = 0 := by
        rw [hm]
        by_cases hT : 0 < env.num_terminals
        · have := h2 0 hT (by rw [← hm]; exact hne)
          omega
        · exact blockwgt_zero_of_valid env sol n 0 hv (by omega)
      rw [hw, this]
    · rw [← hw]
  · intro he
    rcases h1 with ⟨hw, -⟩ | ⟨hne, -, -⟩
    · rw [hw]; simp
    · exact absurd he hne

theorem blockwgt_congr (env : Env) (sol sol' : Nat → Nat) (x : Nat)
    (h : ∀ ed ∈ env.original_graph.edgesOf x, sol' ed.target = sol ed.target) :
    blockwgt env sol' x = blockwgt env sol x := by
  funext b
  unfold blockwgt
  congr 1
  apply List.map_congr_left
  intro ed hed
  rw [h ed hed]

theorem best_congr (env : Env) (sol sol' : Nat → Nat) (x : Nat)
    (h : ∀ ed ∈ env.original_graph.edgesOf x, sol' ed.target = sol ed.target)
    (hx : sol' x = sol x) :
    bestBlock env sol' x = bestBlock env sol x ∧ gainExact env sol' x = gainExact env sol x := by
  have hb := blockwgt_congr env sol sol' x h
  unfold gainExact bestBlock
  rw [hb, hx]
  exact ⟨rfl, rfl⟩

theorem blockwgt_ge (env : Env) (sol : Nat → Nat) (n b : Nat) (ed : Edge)
    (hed : ed ∈ env.original_graph.edgesOf n) (hb : sol ed.target = b) :
    ed.weight ≤ blockwgt env sol n b := by
  unfold blockwgt
  have : (if sol ed.target = b then ed.weight else 0) ∈
      (env.original_graph.edgesOf n).map (fun ed => if sol ed.target = b then ed.weight else 0) :=
    List.mem_map_of_mem _ hed
  rw [if_pos hb] at this
  exact List.single_le_sum (fun _ _ => Nat.zero_le _) _ this

theorem wtTo_list (l : List Edge) (hnd : (l.map Edge.target).Nodup) (ed : Edge) (hed : ed ∈ l) :
    (l.map (fun e => if e.target = ed.target then e.weight else 0)).sum = ed.weight := by
  induction l with
  | nil => simp at hed
  | cons a l ih =>
    simp only [List.map_cons, List.nodup_cons] at hnd
    simp only [List.map_cons, List.sum_cons]
    rcases List.mem_cons.mp hed with rfl | hl
    · have : (l.map (fun e => if e.target = ed.target then e.weight else 0)).sum = 0 := by
        apply List.sum_eq_zero
        intro x hx
        rw [List.mem_map] at hx
        obtain ⟨e, he, rfl⟩ := hx
        rw [if_neg]
        intro hc
        exact hnd.1 (hc ▸ List.mem_map_of_mem _ he)
      simp [this]
    · have hat : a.target ≠ ed.target := by
        intro hc
        exact hnd.1 (hc ▸ List.mem_map_of_mem _ hl)
      rw [if_neg hat, ih hnd.2 hl]
      simp

theorem wtTo_eq (G : mutable_graph) (hs : Simple G) (n : Nat) (ed : Edge)
    (hed : ed ∈ G.edgesOf n) : wtTo G ed.target n = ed.weight := by
  have hrev := hs.2.2 n ed hed
  have := wtTo_list (G.edgesOf ed.target) (hs.2.1 ed.target) _ hrev
  simpa [wtTo] using this

/-- The block weights of `t` after another vertex `n` has moved to block `M`. -/
theorem blockwgt_upd (env : Env) (sol : Nat → Nat) (n M t b : Nat) :
    (blockwgt env (fun x => if x = n then M else sol x) t b : Int) =
      (blockwgt env sol t b : Int)
        + (if M = b then (wtTo env.original_graph t n : Int) else 0)
        - (if sol n = b then (wtTo env.original_graph t n : Int) else 0) := by
  unfold blockwgt wtTo
  generalize env.original_graph.edgesOf t = l
  induction l with
  | nil => simp
  | cons e l ih =>
    simp only [List.map_cons, List.sum_cons, Nat.cast_add]
    by_cases h1 : e.target = n
    · by_cases c1 : M = b <;> by_cases c2 : sol n = b <;>
        simp [h1, c1, c2] at ih ⊢ <;> omega
    · by_cases c1 : M = b <;> by_cases c2 : sol n = b <;>
        simp [h1, c1, c2] at ih ⊢ <;> omega

end local_search

namespace local_search
open mutable_graph

theorem valid_targets (env : Env) (hs : Simple env.original_graph) (sol : Nat → Nat)
    (hv : ∀ v, v < env.original_graph.n → sol v < env.num_terminals) (n : Nat) :
    ∀ ed ∈ env.original_graph.edgesOf n, sol ed.target < env.num_terminals :=
  fun ed hed => hv _ (hs.1 n ed hed).1

/-- The state after a paired move of `n` and its neighbour `ed.target`: the
invariant holds again and `nextBest` is cleared at every neighbour of `n`. -/
theorem paired_move_inv (env : Env) (hs : Simple env.original_graph) (sol0 : Nat → Nat)
    (g : GainState) (n : Nat) (ed : Edge) (nb : Nat × Int)
    (hinv : GainInv env sol0 g)
    (hed : ed ∈ env.original_graph.edgesOf n)
    (hnb : g.nextBest ed.target = some nb)
    (hsame : g.sol ed.target = g.sol n)
    (hblock : nb.1 = (bestBlock env g.sol n).1)
    (hpos : nb.2 + gainExact env g.sol n + 2 * (ed.weight : Int) > 0)
    (mv : Nat → Option Nat) (inb : Nat → Bool) :
    GainInv env sol0
      (invalidate env
        { (invalidate env
            { sol := fun x => if x = ed.target then (bestBlock env g.sol n).1
                else if x = n then (bestBlock env g.sol n).1 else g.sol x
              improvement := g.improvement + (nb.2 + gainExact env g.sol n + 2 * (ed.weight : Int))
              inBoundary := inb
              nextBest := g.nextBest
              movedToNewBlock := mv } n) with
          nextBest := fun x => if x = ed.target then none else
            (invalidate env
              { sol := fun x => if x = ed.target then (bestBlock env g.sol n).1
                  else if x = n then (bestBlock env g.sol n).1 else g.sol x
                improvement := g.improvement + (nb.2 + gainExact env g.sol n + 2 * (ed.weight : Int))
                inBoundary := inb
                nextBest := g.nextBest
                movedToNewBlock := mv } n).nextBest x } ed.target) ∧
    (∀ e ∈ env.original_graph.edgesOf n,
      (invalidate env
        { (invalidate env
            { sol := fun x => if x = ed.target then (bestBlock env g.sol n).1
                else if x = n then (bestBlock env g.sol n).1 else g.sol x
              improvement := g.improvement + (nb.2 + gainExact env g.sol n + 2 * (ed.weight : Int))
              inBoundary := inb
              nextBest := g.nextBest
              movedToNewBlock := mv } n) with
          nextBest := fun x => if x = ed.target then none else
            (invalidate env
              { sol := fun x => if x = ed.target then (bestBlock env g.sol n).1
                  else if x = n then (bestBlock env g.sol n).1 else g.sol x
                improvement := g.improvement + (nb.2 + gainExact env g.sol n + 2 * (ed.weight : Int))
                inBoundary := inb
                nextBest := g.nextBest
                movedToNewBlock := mv } n).nextBest x } ed.target).nextBest e.target = none) := by
  obtain ⟨hcut, himp, hval, hnext⟩ := hinv
  obtain ⟨hnbeq, hnbneg⟩ := hnext _ _ hnb
  have htn : ed.target ≠ n := (hs.1 n ed hed).2
  have htN : ed.target < env.original_graph.n := (hs.1 n ed hed).1
  have hrev : ({ target := n, weight := ed.weight } : Edge) ∈ env.original_graph.edgesOf ed.target :=
    hs.2.2 n ed hed
  have hvn := valid_targets env hs g.sol hval n
  have hvt := valid_targets env hs g.sol hval ed.target
  have hnb1 : nb.1 = (bestBlock env g.sol ed.target).1 := by rw [hnbeq]
  have hnb2 : nb.2 = gainExact env g.sol ed.target := by rw [hnbeq]
  have hT : 0 < env.num_terminals := by
    have := hval _ htN
    omega
  have hMlt : (bestBlock env g.sol n).1 < env.num_terminals := maxBlock_lt _ _ _ hT
  -- the destination is another block
  have hMB : (bestBlock env g.sol n).1 ≠ g.sol n := by
    intro hc
    have g1 := (gainExact_spec env g.sol n hvn).2 hc
    have g2 := (gainExact_spec env g.sol ed.target hvt).2 (by rw [← hnb1, hblock, hc, hsame])
    have w1 := blockwgt_ge env g.sol n (g.sol n) ed hed hsame
    have w2 := blockwgt_ge env g.sol ed.target (g.sol ed.target) _ hrev (by simp [hsame])
    simp only at w2
    rw [hnb2, g1, g2] at hpos
    omega
  have g1 := (gainExact_spec env g.sol n hvn).1 hMB
  have g2 := (gainExact_spec env g.sol ed.target hvt).1 (by rw [← hnb1, hblock, hsame]; exact hMB)
  rw [← hnb1, hblock, hsame] at g2
  -- the cut weight after the two moves
  have c1 := cutWeight_move env hs g.sol n (bestBlock env g.sol n).1
  have c2 := cutWeight_move env hs (fun x => if x = n then (bestBlock env g.sol n).1 else g.sol x)
    ed.target (bestBlock env g.sol n).1
  simp only [if_neg htn] at c2
  have u1 := blockwgt_upd env g.sol n (bestBlock env g.sol n).1 ed.target (g.sol ed.target)
  have u2 := blockwgt_upd env g.sol n (bestBlock env g.sol n).1 ed.target (bestBlock env g.sol n).1
  rw [wtTo_eq env.original_graph hs n ed hed] at u1 u2
  rw [hsame, if_neg hMB, if_pos rfl] at u1
  rw [if_pos rfl, if_neg (fun h => hMB h.symm)] at u2
  rw [hsame] at c2
  constructor
  · refine ⟨?_, ?_, ?_, ?_⟩
    · rw [invalidate_sol, invalidate_improvement]
      simp only [invalidate_sol, invalidate_improvement]
      rw [hnb2]
      omega
    · rw [invalidate_improvement]
      simp only [invalidate_improvement]
      omega
    · intro v hv
      rw [invalidate_sol]
      simp only [invalidate_sol]
      split
      · exact hMlt
      · split
        · exact hMlt
        · exact hval v hv
    · intro x p hx
      rw [invalidate_sol]
      simp only [invalidate_sol]
      rw [invalidate_nextBest] at hx
      split at hx
      · simp at hx
      · rename_i hxt
        simp only at hx
        split at hx
        · simp at hx
        · rename_i hxe
          rw [invalidate_nextBest] at hx
          split at hx
          · simp at hx
          · rename_i hxn
            simp only at hx
            obtain ⟨hp, hpneg⟩ := hnext x p hx
            refine ⟨?_, hpneg⟩
            have hxn' : x ≠ n := by
              rintro rfl
              exact hxt (List.mem_map.mpr ⟨_, hrev, rfl⟩)
            have hcongr := best_congr env g.sol
              (fun y => if y = ed.target then (bestBlock env g.sol n).1
                else if y = n then (bestBlock env g.sol n).1 else g.sol y) x
              (by
                intro e he
                have h1 : e.target ≠ ed.target := by
                  intro hc
                  apply hxt
                  have := hs.2.2 x e he
                  rw [hc] at this
                  exact List.mem_map.mpr ⟨_, this, rfl⟩
                have h2 : e.target ≠ n := by
                  intro hc
                  apply hxn
                  have := hs.2.2 x e he
                  rw [hc] at this
                  exact List.mem_map.mpr ⟨_, this, rfl⟩
                simp [h1, h2])
              (by simp [hxe, hxn'])
            rw [hcongr.1, hcongr.2]
            exact hp
  · intro e he
    rw [invalidate_nextBest]
    split
    · rfl
    · simp only
      split
      · rfl
      · rw [invalidate_nextBest]
        rw [if_pos (List.mem_map_of_mem _ he)]

end local_search

namespace local_search
open mutable_graph

theorem GainInv_of_fields (env : Env) (sol0 : Nat → Nat) (g g' : GainState)
    (h : GainInv env sol0 g) (h1 : g'.sol = g.sol) (h2 : g'.improvement = g.improvement)
    (h3 : g'.nextBest = g.nextBest) : GainInv env sol0 g' := by
  unfold GainInv at *
  rw [h1, h2, h3]
  exact h

theorem pairStep_inv (env : Env) (hs : Simple env.original_graph) (sol0 sol : Nat → Nat)
    (n : Nat) (acc : GainState × Bool) (ed : Edge)
    (hed : ed ∈ env.original_graph.edgesOf n)
    (h1 : acc.2 = true → GainInv env sol0 acc.1 ∧ acc.1.sol = sol)
    (h2 : acc.2 = false → GainInv env sol0 acc.1 ∧
      ∀ e ∈ env.original_graph.edgesOf n, acc.1.nextBest e.target = none) :
    ((pairStep env n (bestBlock env sol n).1 (gainExact env sol n) acc ed).2 = true →
      GainInv env sol0 (pairStep env n (bestBlock env sol n).1 (gainExact env sol n) acc ed).1 ∧
      (pairStep env n (bestBlock env sol n).1 (gainExact env sol n) acc ed).1.sol = sol) ∧
    ((pairStep env n (bestBlock env sol n).1 (gainExact env sol n) acc ed).2 = false →
      GainInv env sol0 (pairStep env n (bestBlock env sol n).1 (gainExact env sol n) acc ed).1 ∧
      ∀ e ∈ env.original_graph.edgesOf n,
        (pairStep env n (bestBlock env sol n).1 (gainExact env sol n) acc ed).1.nextBest e.target
          = none) := by
  unfold pairStep
  cases hnb : acc.1.nextBest ed.target with
  | none => exact ⟨h1, h2⟩
  | some nb =>
    simp only
    split
    · rename_i hc
      obtain ⟨hsame, hblock, hpos, -⟩ := hc
      have hacc : acc.2 = true := by
        cases hb : acc.2
        · have := (h2 hb).2 ed hed
          rw [hnb] at this
          simp at this
        · rfl
      obtain ⟨hinv, hsol⟩ := h1 hacc
      subst hsol
      have := paired_move_inv env hs sol0 acc.1 n ed nb hinv hed hnb hsame hblock hpos
        (if env.inexact then
          fun x => if x = ed.target then some (bestBlock env acc.1.sol n).1
            else if x = n then some (bestBlock env acc.1.sol n).1 else acc.1.movedToNewBlock x
          else acc.1.movedToNewBlock) acc.1.inBoundary
      exact ⟨fun h => by simp at h, fun _ => this⟩
    · exact ⟨h1, h2⟩

theorem pairFold_inv (env : Env) (hs : Simple env.original_graph) (sol0 sol : Nat → Nat)
    (n : Nat) (l : List Edge) (hl : ∀ e ∈ l, e ∈ env.original_graph.edgesOf n) :
    ∀ acc : GainState × Bool,
      (acc.2 = true → GainInv env sol0 acc.1 ∧ acc.1.sol = sol) →
      (acc.2 = false → GainInv env sol0 acc.1 ∧
        ∀ e ∈ env.original_graph.edgesOf n, acc.1.nextBest e.target = none) →
      ((l.foldl (pairStep env n (bestBlock env sol n).1 (gainExact env sol n)) acc).2 = true →
        GainInv env sol0 (l.foldl (pairStep env n (bestBlock env sol n).1 (gainExact env sol n)) acc).1
        ∧ (l.foldl (pairStep env n (bestBlock env sol n).1 (gainExact env sol n)) acc).1.sol = sol) ∧
      ((l.foldl (pairStep env n (bestBlock env sol n).1 (gainExact env sol n)) acc).2 = false →
        GainInv env sol0
          (l.foldl (pairStep env n (bestBlock env sol n).1 (gainExact env sol n)) acc).1) := by
  induction l with
  | nil =>
    intro acc h1 h2
    exact ⟨h1, fun h => (h2 h).1⟩
  | cons a l ih =>
    intro acc h1 h2
    simp only [List.foldl_cons]
    obtain ⟨k1, k2⟩ := pairStep_inv env hs sol0 sol n acc a (hl a (List.mem_cons_self _ _)) h1 h2
    exact ih (fun e he => hl e (List.mem_cons_of_mem _ he)) _ k1 k2

theorem soloStep_inv (env : Env) (hs : Simple env.original_graph) (sol0 sol : Nat → Nat)
    (n : Nat) (r : GainState × Bool)
    (h1 : r.2 = true → GainInv env sol0 r.1 ∧ r.1.sol = sol)
    (h2 : r.2 = false → GainInv env sol0 r.1) :
    GainInv env sol0 (soloStep env n (bestBlock env sol n).1 (gainExact env sol n) r) := by
  unfold soloStep
  split
  · rename_i hr
    exact h2 hr
  · rename_i hr
    have hr' : r.2 = true := by
      cases hb : r.2
      · exact absurd hb hr
      · rfl
    obtain ⟨⟨hcut, himp, hval, hnext⟩, hsol⟩ := h1 hr'
    subst hsol
    have hvn := valid_targets env hs r.1.sol hval n
    split
    · rename_i hg
      have c1 := cutWeight_move env hs r.1.sol n (bestBlock env r.1.sol n).1
      have hgain : gainExact env r.1.sol n =
          (blockwgt env r.1.sol n (bestBlock env r.1.sol n).1 : Int)
            - (blockwgt env r.1.sol n (r.1.sol n) : Int) := by
        by_cases hM : (bestBlock env r.1.sol n).1 = r.1.sol n
        · have := (gainExact_spec env r.1.sol n hvn).2 hM
          rw [hM]
          omega
        · exact (gainExact_spec env r.1.sol n hvn).1 hM
      refine ⟨?_, ?_, ?_, ?_⟩
      · rw [invalidate_sol, invalidate_improvement]
        simp only
        omega
      · rw [invalidate_improvement]
        simp only
        omega
      · intro v hv
        rw [invalidate_sol]
        simp only
        split
        · exact maxBlock_lt _ _ _ (by have := hval v hv; omega)
        · exact hval v hv
      · intro x p hx
        rw [invalidate_sol]
        simp only
        rw [invalidate_nextBest] at hx
        split at hx
        · simp at hx
        · rename_i hxn
          simp only at hx
          obtain ⟨hp, hpneg⟩ := hnext x p hx
          refine ⟨?_, hpneg⟩
          have hxn' : x ≠ n := by
            rintro rfl
            rw [hp] at hpneg
            simp only at hpneg
            omega
          have hcongr := best_congr env r.1.sol
            (fun y => if y = n then (bestBlock env r.1.sol n).1 else r.1.sol y) x
            (by
              intro e he
              have h2 : e.target ≠ n := by
                intro hc
                apply hxn
                have := hs.2.2 x e he
                rw [hc] at this
                exact List.mem_map.mpr ⟨_, this, rfl⟩
              simp [h2])
            (by simp [hxn'])
          rw [hcongr.1, hcongr.2]
          exact hp
    · rename_i hg
      refine ⟨hcut, himp, hval, ?_⟩
      intro x p hx
      simp only at hx
      split at hx
      · rename_i hxn
        simp only [Option.some.injEq] at hx
        subst hx
        rw [hxn]
        exact ⟨rfl, by simp only; omega⟩
      · exact hnext x p hx

theorem toInt64_id (x : Int) (h1 : -(2 ^ 63) ≤ x) (h2 : x < 2 ^ 63) : toInt64 x = x := by
  unfold toInt64
  rw [Int.emod_eq_of_lt (by omega) (by omega)]
  omega

theorem sum_filter_le (es : List Edge) (p : Edge → Prop) [DecidablePred p] :
    (es.map (fun ed => if p ed then ed.weight else 0)).sum ≤ (es.map Edge.weight).sum := by
  induction es with
  | nil => simp
  | cons a l ih =>
    simp only [List.map_cons, List.sum_cons]
    split <;> omega

theorem blockwgt_le_degree (env : Env) (sol : Nat → Nat) (n b : Nat) :
    blockwgt env sol n b ≤ env.original_graph.getWeightedNodeDegree n := by
  unfold blockwgt getWeightedNodeDegree
  exact sum_filter_le _ _

theorem mem_le_sum (l : List Nat) (x : Nat) (h : x ∈ l) : x ≤ l.sum := by
  induction l with
  | nil => simp at h
  | cons a l ih =>
    simp only [List.sum_cons]
    rcases List.mem_cons.mp h with h1 | h1
    · omega
    · have := ih h1
      omega

theorem degree_lt_of_bound (G : mutable_graph) (hw : WeightBound G) (n : Nat) :
    G.getWeightedNodeDegree n < 2 ^ 63 := by
  by_cases hn : n < G.n
  · have hm : G.getWeightedNodeDegree n ∈ G.nodes.map G.getWeightedNodeDegree :=
      List.mem_map.mpr ⟨n, by unfold nodes; exact List.mem_range.mpr hn, rfl⟩
    have := mem_le_sum _ _ hm
    unfold WeightBound at hw
    omega
  · unfold getWeightedNodeDegree
    rw [edgesOf_oob G n (by omega)]
    simp

/-- Under the bound on the weights the 64 bit computation of the gain gives
the difference of the two block weights. -/
theorem gainOf_eq_exact (env : Env) (hw : WeightBound env.original_graph) (sol : Nat → Nat)
    (n : Nat) : gainOf env sol n = gainExact env sol n := by
  have hd := degree_lt_of_bound env.original_graph hw n
  have h1 : blockwgt env sol n (sol n) < 2 ^ 63 :=
    lt_of_le_of_lt (blockwgt_le_degree env sol n (sol n)) hd
  have h2 : (bestBlock env sol n).2 < 2 ^ 63 := by
    obtain ⟨hm, -⟩ := maxBlock_spec (blockwgt env sol n) (sol n) env.num_terminals
    unfold bestBlock
    rcases hm with ⟨h0, -⟩ | ⟨-, hwt, -⟩
    · rw [h0]; decide
    · rw [hwt]
      exact lt_of_le_of_lt (blockwgt_le_degree env sol n _) hd
  unfold gainOf gainExact
  rw [toInt64_id ((bestBlock env sol n).2 : Int) (by omega) (by omega),
    toInt64_id (blockwgt env sol n (sol n) : Int) (by omega) (by omega)]
  exact toInt64_id _ (by omega) (by omega)

theorem gainStep_inv (env : Env) (hs : Simple env.original_graph)
    (hw : WeightBound env.original_graph) (sol0 : Nat → Nat)
    (gs : GainState) (n : Nat) (h : GainInv env sol0 gs) :
    GainInv env sol0 (gainStep env gs n) := by
  unfold gainStep
  rw [gainOf_eq_exact env hw]
  split
  · exact h
  · have hm : GainInv env sol0 (markInner gs n (bestBlock env gs.sol n).2) ∧
        (markInner gs n (bestBlock env gs.sol n).2).sol = gs.sol := by
      unfold markInner
      split
      · exact ⟨GainInv_of_fields env sol0 gs _ h rfl rfl rfl, rfl⟩
      · exact ⟨h, rfl⟩
    obtain ⟨k1, k2⟩ := pairFold_inv env hs sol0 gs.sol n (env.original_graph.edgesOf n)
      (fun _ he => he) (markInner gs n (bestBlock env gs.sol n).2, true)
      (fun _ => hm) (fun hc => by simp at hc)
    exact soloStep_inv env hs sol0 gs.sol n _ k1 k2

theorem gainFold_inv (env : Env) (hs : Simple env.original_graph)
    (hw : WeightBound env.original_graph) (sol0 : Nat → Nat)
    (l : List Nat) : ∀ gs : GainState, GainInv env sol0 gs →
      GainInv env sol0 (l.foldl (gainStep env) gs) := by
  induction l with
  | nil => intro gs h; exact h
  | cons a l ih =>
    intro gs h
    simp only [List.foldl_cons]
    exact ih _ (gainStep_inv env hs hw sol0 gs a h)

/-- On a simple graph and a valid solution, the value returned by
`gainLocalSearch` is the cut weight before the call minus the cut weight after
it, it is not negative, and the solution stays valid. -/
theorem gainLocalSearch_exact (env : Env) (hs : Simple env.original_graph)
    (hw : WeightBound env.original_graph) (k : Nat) (st : State)
    (hvalid : ∀ v, v < env.original_graph.n → st.sol v < env.num_terminals) :
    (cutWeight env.original_graph (gainLocalSearch env k st).2.sol : Int)
        + (gainLocalSearch env k st).1 = (cutWeight env.original_graph st.sol : Int) ∧
    0 ≤ (gainLocalSearch env k st).1 ∧
    (∀ v, v < env.original_graph.n → (gainLocalSearch env k st).2.sol v < env.num_terminals) ∧
    (gainLocalSearch env k st).2.previousConnectivity = st.previousConnectivity := by
  have h0 : GainInv env st.sol
      { sol := st.sol, improvement := 0, inBoundary := fun _ => true,
        nextBest := fun _ => none, movedToNewBlock := st.movedToNewBlock } :=
    ⟨by simp, le_refl _, hvalid, fun x p hx => by simp at hx⟩
  obtain ⟨h1, h2, h3, -⟩ := gainFold_inv env hs hw st.sol (env.permute k) _ h0
  exact ⟨h1, h2, h3, rfl⟩

end local_search

namespace local_search
open mutable_graph

/-! ## local_search.h: the auxiliary graph of `flowBetweenBlocks` -/

theorem setEdges_n (G : mutable_graph) (u : Nat) (es : List Edge) :
    (G.setEdges u es).n = G.n := by
  unfold setEdges
  split
  · rfl
  · simp [n]

theorem setEdges_edgesOf (G : mutable_graph) (u x : Nat) (es : List Edge) (hu : u < G.n) :
    (G.setEdges u es).edgesOf x = if x = u then es else G.edgesOf x := by
  unfold setEdges
  have h : u < G.vertices.length := hu
  rw [List.getElem?_eq_getElem h]
  simp only [edgesOf]
  by_cases hx : x = u
  · subst hx
    simp [h]
  · rw [List.getElem?_set_ne (fun hc => hx hc.symm)]
    simp [hx]

theorem new_edge_order_spec (G G' : mutable_graph) (u v w : Nat)
    (h : G.new_edge_order u v w = some G') :
    u < G.n ∧ v < G.n ∧ G'.n = G.n ∧
    (∀ x, G'.edgesOf x =
      (if x = u then G.edgesOf x ++ [{ target := v, weight := w }] else G.edgesOf x) ++
      (if x = v then [{ target := u, weight := w }] else [])) := by
  unfold new_edge_order at h
  split at h
  · rename_i huv
    simp only [Option.some.injEq] at h
    subst h
    refine ⟨huv.1, huv.2, ?_, ?_⟩
    · rw [setEdges_n, setEdges_n]
    · intro x
      rw [setEdges_edgesOf _ _ _ _ (by rw [setEdges_n]; exact huv.2),
        setEdges_edgesOf _ _ _ _ huv.1, setEdges_edgesOf _ _ _ _ huv.1]
      by_cases hxv : x = v
      · subst hxv
        by_cases hxu : x = u
        · simp [hxu]
        · simp [hxu]
      · by_cases hxu : x = u
        · subst hxu
          simp [hxv]
        · simp [hxv, hxu]
  · simp at h

theorem sum_range_congr_add (N u d : Nat) (f f' : Nat → Nat) (hu : u < N)
    (h1 : ∀ x, x ≠ u → f' x = f x) (h2 : f' u = f u + d) :
    ((List.range N).map f').sum = ((List.range N).map f).sum + d := by
  induction N with
  | zero => omega
  | succ N ih =>
    rw [List.range_succ, List.map_append, List.map_append, List.sum_append, List.sum_append]
    simp only [List.map_cons, List.map_nil, List.sum_cons, List.sum_nil, Nat.add_zero]
    by_cases hN : u = N
    · subst hN
      have : ((List.range u).map f').sum = ((List.range u).map f).sum := by
        congr 1
        apply List.map_congr_left
        intro x hx
        exact h1 x (by have := List.mem_range.mp hx; omega)
      rw [this, h2]
      omega
    · rw [ih (by omega), h1 N (fun hc => hN hc.symm)]
      omega

/-- The weight that an edge between `u` and `v` adds to the cut with side
`s`. -/
theorem cutOf_new_edge (G G' : mutable_graph) (u v w : Nat) (s : List Nat)
    (h : G.new_edge_order u v w = some G') :
    cutOf G' s = cutOf G s + (if decide (u ∈ s) ≠ decide (v ∈ s) then w else 0) := by
  obtain ⟨hu, hv, hn, he⟩ := new_edge_order_spec G G' u v w h
  unfold cutOf nodes
  rw [hn]
  -- first the slot at `u`, then the slot at `v`
  have step1 := sum_range_congr_add G.n u (if u ∈ s ∧ v ∉ s then w else 0)
    (fun x => ((G.edgesOf x).map (fun ed => if x ∈ s ∧ ed.target ∉ s then ed.weight else 0)).sum)
    (fun x => (((if x = u then G.edgesOf x ++ [{ target := v, weight := w }] else G.edgesOf x)).map
      (fun ed => if x ∈ s ∧ ed.target ∉ s then ed.weight else 0)).sum) hu
    (by intro x hx; simp [hx]) (by simp)
  have step2 := sum_range_congr_add G.n v (if v ∈ s ∧ u ∉ s then w else 0)
    (fun x => (((if x = u then G.edgesOf x ++ [{ target := v, weight := w }] else G.edgesOf x)).map
      (fun ed => if x ∈ s ∧ ed.target ∉ s then ed.weight else 0)).sum)
    (fun x => ((G'.edgesOf x).map
      (fun ed => if x ∈ s ∧ ed.target ∉ s then ed.weight else 0)).sum) hv
    (by intro x hx; simp only; rw [he x]; simp [hx]) (by simp only; rw [he v]; simp)
  rw [step2, step1]
  by_cases h1 : u ∈ s <;> by_cases h2 : v ∈ s <;> simp [h1, h2]

theorem ofEdges_fold_cut (s : List Nat) (es : List (Nat × Nat × Nat)) :
    ∀ G : mutable_graph, (∀ e ∈ es, e.1 < G.n ∧ e.2.1 < G.n) →
      cutOf (es.foldl (fun G e => (G.new_edge_order e.1 e.2.1 e.2.2).getD G) G) s =
        cutOf G s +
          (es.map (fun e => if decide (e.1 ∈ s) ≠ decide (e.2.1 ∈ s) then e.2.2 else 0)).sum := by
  induction es with
  | nil => intro G _; simp
  | cons e es ih =>
    intro G hb
    simp only [List.foldl_cons, List.map_cons, List.sum_cons]
    have he := hb e (List.mem_cons_self _ _)
    cases hnew : G.new_edge_order e.1 e.2.1 e.2.2 with
    | none =>
      unfold new_edge_order at hnew
      rw [if_pos he] at hnew
      simp at hnew
    | some G' =>
      simp only [Option.getD_some]
      have hn := (new_edge_order_spec G G' _ _ _ hnew).2.2.1
      rw [ih G' (by
        intro e' he'
        rw [hn]
        exact hb e' (List.mem_cons_of_mem _ he')), cutOf_new_edge G G' _ _ _ s hnew]
      omega

/-- The weight of a cut of the graph built by `ofEdges` is the sum of the
weights of the listed edges that cross the cut. -/
theorem cutOf_ofEdges (id : Nat) (es : List (Nat × Nat × Nat)) (s : List Nat)
    (hb : ∀ e ∈ es, e.1 < id ∧ e.2.1 < id) :
    cutOf (ofEdges id es) s =
      (es.map (fun e => if decide (e.1 ∈ s) ≠ decide (e.2.1 ∈ s) then e.2.2 else 0)).sum := by
  unfold ofEdges
  rw [ofEdges_fold_cut s es _ (by simpa [n] using hb)]
  have : cutOf { vertices := (List.range id).map (fun i => ({ contained := [i], edges := [] } : Vertex))
                 current_position := fun c => if c < id then some c else none } s = 0 := by
    unfold cutOf
    apply List.sum_eq_zero
    intro x hx
    rw [List.mem_map] at hx
    obtain ⟨u, hu, rfl⟩ := hx
    have : ({ vertices := (List.range id).map (fun i => ({ contained := [i], edges := [] } : Vertex))
              current_position := fun c => if c < id then some c else none } : mutable_graph).edgesOf u
        = [] := by
      simp only [edgesOf, List.getElem?_map]
      cases (List.range id)[u]? <;> rfl
    rw [this]
    rfl
  rw [this]
  simp

end local_search

namespace local_search
open mutable_graph

theorem crossW_symm (s : List Nat) (u v w : Nat) : crossW s (u, v, w) = crossW s (v, u, w) := by
  unfold crossW
  by_cases h1 : u ∈ s <;> by_cases h2 : v ∈ s <;> simp [h1, h2]

theorem addTo_keys (m : List (Nat × Nat)) (k w : Nat) (h : (m.map Prod.fst).Nodup) :
    ((addTo m k w).map Prod.fst).Nodup := by
  unfold addTo
  split
  · have : (m.map (fun p => if p.1 = k then (p.1, p.2 + w) else p)).map Prod.fst = m.map Prod.fst := by
      rw [List.map_map]
      apply List.map_congr_left
      intro p _
      simp only [Function.comp]
      split <;> rfl
    rw [this]; exact h
  · rename_i hany
    rw [List.map_append, List.nodup_append]
    refine ⟨h, by simp, ?_⟩
    intro a ha hb
    simp only [List.map_cons, List.map_nil, List.mem_singleton] at hb
    subst hb
    apply hany
    rw [List.any_eq_true]
    rw [List.mem_map] at ha
    obtain ⟨p, hp, hpk⟩ := ha
    exact ⟨p, hp, by simp [hpk]⟩

theorem addTo_sum (g : Nat → Bool) (m : List (Nat × Nat)) (k w : Nat)
    (h : (m.map Prod.fst).Nodup) :
    ((addTo m k w).map (fun p => if g p.1 then p.2 else 0)).sum =
      (m.map (fun p => if g p.1 then p.2 else 0)).sum + (if g k then w else 0) := by
  unfold addTo
  split
  · rename_i hany
    rw [List.any_eq_true] at hany
    obtain ⟨q, hq, hqk⟩ := hany
    simp only [beq_iff_eq] at hqk
    induction m with
    | nil => simp at hq
    | cons a m ih =>
      simp only [List.map_cons, List.nodup_cons] at h
      simp only [List.map_cons, List.sum_cons]
      by_cases hak : a.1 = k
      · have hrest : (m.map (fun p => if p.1 = k then (p.1, p.2 + w) else p)) = m := by
          conv_rhs => rw [← List.map_id m]
          apply List.map_congr_left
          intro p hp
          have : p.1 ≠ k := by
            intro hc
            apply h.1
            rw [hak, ← hc]
            exact List.mem_map_of_mem _ hp
          simp [this]
        rw [hrest]
        simp only [hak, if_true]
        by_cases hg : g k
        · simp [hg]; omega
        · simp [hg]
      · have hq' : q ∈ m := by
          rcases List.mem_cons.mp hq with rfl | h'
          · exact absurd hqk hak
          · exact h'
        rw [if_neg hak, ih h.2 hq']
        omega
  · simp

theorem flowScanEdge_spec (sol : Nat → Nat) (t1 t2 : Nat) (m : Nat → Nat) (s : List Nat)
    (n : Nat) (acc : FlowScan) (ed : Edge)
    (hn : sol n = t1 ∨ sol n = t2)
    (h0 : (acc.edgesToFixed0.map Prod.fst).Nodup) (h1 : (acc.edgesToFixed1.map Prod.fst).Nodup) :
    ((flowScanEdge sol t1 t2 m n acc ed).edgesToFixed0.map Prod.fst).Nodup ∧
    ((flowScanEdge sol t1 t2 m n acc ed).edgesToFixed1.map Prod.fst).Nodup ∧
    ((auxEdges (flowScanEdge sol t1 t2 m n acc ed)).map (crossW s)).sum =
      ((auxEdges acc).map (crossW s)).sum +
        (if scanned sol t1 t2 m (n, ed.target, ed.weight)
          then crossW s (m n, m ed.target, ed.weight) else 0) ∧
    (flowScanEdge sol t1 t2 m n acc ed).sol_weight = acc.sol_weight +
      (if scanned sol t1 t2 m (n, ed.target, ed.weight) ∧ sol n ≠ sol ed.target
        then ed.weight else 0) := by
  unfold flowScanEdge
  by_cases hskip : (sol ed.target ≠ t1 ∧ sol ed.target ≠ t2) ∨ m n ≥ m ed.target ∨ m ed.target < 2
  · rw [if_pos hskip]
    have hsc : scanned sol t1 t2 m (n, ed.target, ed.weight) = false := by
      unfold scanned
      simp only [decide_eq_false_iff_not]
      rintro ⟨-, a2, a3, a4⟩
      rcases hskip with ⟨b1, b2⟩ | b | b
      · rcases a2 with a2 | a2
        · exact b1 a2
        · exact b2 a2
      · omega
      · omega
    simp [hsc, h0, h1]
  · rw [if_neg hskip]
    have hsc : scanned sol t1 t2 m (n, ed.target, ed.weight) = true := by
      unfold scanned
      simp only [decide_eq_true_eq]
      simp only [not_or, not_and_or, not_not, not_le, not_lt] at hskip
      refine ⟨hn, ?_, by omega, by omega⟩
      rcases hskip.1 with h | h
      · exact Or.inl h
      · exact Or.inr h
    have hval : ∀ acc1 : FlowScan, acc1.edges = acc.edges → acc1.edgesToFixed0 = acc.edgesToFixed0 →
        acc1.edgesToFixed1 = acc.edgesToFixed1 →
        ((if m n < 2 then
            if m n = 0 then
              { acc1 with edgesToFixed0 := addTo acc1.edgesToFixed0 (m ed.target) ed.weight }
            else { acc1 with edgesToFixed1 := addTo acc1.edgesToFixed1 (m ed.target) ed.weight }
          else { acc1 with edges := acc1.edges ++ [(m n, m ed.target, ed.weight)] }
            : FlowScan).edgesToFixed0.map Prod.fst).Nodup ∧
        ((if m n < 2 then
            if m n = 0 then
              { acc1 with edgesToFixed0 := addTo acc1.edgesToFixed0 (m ed.target) ed.weight }
            else { acc1 with edgesToFixed1 := addTo acc1.edgesToFixed1 (m ed.target) ed.weight }
          else { acc1 with edges := acc1.edges ++ [(m n, m ed.target, ed.weight)] }
            : FlowScan).edgesToFixed1.map Prod.fst).Nodup ∧
        ((auxEdges (if m n < 2 then
            if m n = 0 then
              { acc1 with edgesToFixed0 := addTo acc1.edgesToFixed0 (m ed.target) ed.weight }
            else { acc1 with edgesToFixed1 := addTo acc1.edgesToFixed1 (m ed.target) ed.weight }
          else { acc1 with edges := acc1.edges ++ [(m n, m ed.target, ed.weight)] })).map
            (crossW s)).sum =
          ((auxEdges acc).map (crossW s)).sum + crossW s (m n, m ed.target, ed.weight) ∧
        (if m n < 2 then
            if m n = 0 then
              { acc1 with edgesToFixed0 := addTo acc1.edgesToFixed0 (m ed.target) ed.weight }
            else { acc1 with edgesToFixed1 := addTo acc1.edgesToFixed1 (m ed.target) ed.weight }
          else { acc1 with edges := acc1.edges ++ [(m n, m ed.target, ed.weight)] }
            : FlowScan).sol_weight = acc1.sol_weight := by
      intro acc1 e1 e2 e3
      by_cases hm2 : m n < 2
      · rw [if_pos hm2]
        by_cases hm0 : m n = 0
        · rw [if_pos hm0]
          refine ⟨by simp only; rw [e2]; exact addTo_keys _ _ _ h0, by simp only; rw [e3]; exact h1,
            ?_, rfl⟩
          simp only [auxEdges, List.map_append, List.sum_append, List.map_map, e1, e2, e3]
          have := addTo_sum (fun k => decide (k ∈ s) != decide (0 ∈ s)) acc.edgesToFixed0
            (m ed.target) ed.weight h0
          simp only at this
          have hc : crossW s (m n, m ed.target, ed.weight) =
              if (decide (m ed.target ∈ s) != decide (0 ∈ s)) = true then ed.weight else 0 := by
            rw [crossW_symm, hm0]
            unfold crossW
            by_cases a1 : m ed.target ∈ s <;> by_cases a2 : 0 ∈ s <;> simp [a1, a2]
          have hl : ∀ l : List (Nat × Nat),
              (l.map (crossW s ∘ fun p => (p.1, 0, p.2))).sum =
              (l.map (fun p => if (decide (p.1 ∈ s) != decide (0 ∈ s)) = true then p.2 else 0)).sum := by
            intro l
            congr 1
            apply List.map_congr_left
            intro p _
            simp only [Function.comp, crossW]
            by_cases a1 : p.1 ∈ s <;> by_cases a2 : 0 ∈ s <;> simp [a1, a2]
          rw [hl, hl, this, hc]
          omega
        · rw [if_neg hm0]
          have hm1 : m n = 1 := by omega
          refine ⟨by simp only; rw [e2]; exact h0, by simp only; rw [e3]; exact addTo_keys _ _ _ h1,
            ?_, rfl⟩
          simp only [auxEdges, List.map_append, List.sum_append, List.map_map, e1, e2, e3]
          have := addTo_sum (fun k => decide (k ∈ s) != decide (1 ∈ s)) acc.edgesToFixed1
            (m ed.target) ed.weight h1
          simp only at this
          have hc : crossW s (m n, m ed.target, ed.weight) =
              if (decide (m ed.target ∈ s) != decide (1 ∈ s)) = true then ed.weight else 0 := by
            rw [crossW_symm, hm1]
            unfold crossW
            by_cases a1 : m ed.target ∈ s <;> by_cases a2 : 1 ∈ s <;> simp [a1, a2]
          have hl : ∀ l : List (Nat × Nat),
              (l.map (crossW s ∘ fun p => (p.1, 1, p.2))).sum =
              (l.map (fun p => if (decide (p.1 ∈ s) != decide (1 ∈ s)) = true then p.2 else 0)).sum := by
            intro l
            congr 1
            apply List.map_congr_left
            intro p _
            simp only [Function.comp, crossW]
            by_cases a1 : p.1 ∈ s <;> by_cases a2 : 1 ∈ s <;> simp [a1, a2]
          rw [hl, hl, this, hc]
          omega
      · rw [if_neg hm2]
        refine ⟨by simp only; rw [e2]; exact h0, by simp only; rw [e3]; exact h1, ?_, rfl⟩
        simp only [auxEdges, List.map_append, List.sum_append, List.map_cons, List.map_nil,
          List.sum_cons, List.sum_nil, e1, e2, e3]
        omega
    simp only
    by_cases hd : sol ed.target ≠ sol n
    · rw [if_pos hd]
      obtain ⟨a1, a2, a3, a4⟩ := hval { acc with sol_weight := acc.sol_weight + ed.weight } rfl rfl rfl
      refine ⟨a1, a2, ?_, ?_⟩
      · rw [a3]; simp [hsc]
      · rw [a4]
        have : sol n ≠ sol ed.target := fun h => hd h.symm
        simp [hsc, this]
    · rw [if_neg hd]
      obtain ⟨a1, a2, a3, a4⟩ := hval acc rfl rfl rfl
      refine ⟨a1, a2, ?_, ?_⟩
      · rw [a3]; simp [hsc]
      · rw [a4]
        have : sol n = sol ed.target := by
          by_contra hc
          exact hd (fun h => hc h.symm)
        simp [this]

theorem flowScanEdges_spec (sol : Nat → Nat) (t1 t2 : Nat) (m : Nat → Nat) (s : List Nat)
    (n : Nat) (hn : sol n = t1 ∨ sol n = t2) (l : List Edge) :
    ∀ acc : FlowScan, (acc.edgesToFixed0.map Prod.fst).Nodup →
      (acc.edgesToFixed1.map Prod.fst).Nodup →
      ((l.foldl (flowScanEdge sol t1 t2 m n) acc).edgesToFixed0.map Prod.fst).Nodup ∧
      ((l.foldl (flowScanEdge sol t1 t2 m n) acc).edgesToFixed1.map Prod.fst).Nodup ∧
      ((auxEdges (l.foldl (flowScanEdge sol t1 t2 m n) acc)).map (crossW s)).sum =
        ((auxEdges acc).map (crossW s)).sum +
          (l.map (fun ed => if scanned sol t1 t2 m (n, ed.target, ed.weight)
            then crossW s (m n, m ed.target, ed.weight) else 0)).sum ∧
      (l.foldl (flowScanEdge sol t1 t2 m n) acc).sol_weight = acc.sol_weight +
        (l.map (fun ed => if scanned sol t1 t2 m (n, ed.target, ed.weight) ∧ sol n ≠ sol ed.target
          then ed.weight else 0)).sum := by
  induction l with
  | nil => intro acc h0 h1; simp [h0, h1]
  | cons a l ih =>
    intro acc h0 h1
    simp only [List.foldl_cons, List.map_cons, List.sum_cons]
    obtain ⟨a1, a2, a3, a4⟩ := flowScanEdge_spec sol t1 t2 m s n acc a hn h0 h1
    obtain ⟨b1, b2, b3, b4⟩ := ih _ a1 a2
    refine ⟨b1, b2, ?_, ?_⟩
    · rw [b3, a3]; omega
    · rw [b4, a4]; omega

theorem flowScanNodes_spec (env : Env) (sol : Nat → Nat) (t1 t2 : Nat) (m : Nat → Nat)
    (s : List Nat) (l : List Nat) :
    ∀ acc : FlowScan, (acc.edgesToFixed0.map Prod.fst).Nodup →
      (acc.edgesToFixed1.map Prod.fst).Nodup →
      ((auxEdges (l.foldl (flowScanNode env sol t1 t2 m) acc)).map (crossW s)).sum =
        ((auxEdges acc).map (crossW s)).sum +
          (l.map (fun n => ((env.original_graph.edgesOf n).map
            (fun ed => if scanned sol t1 t2 m (n, ed.target, ed.weight)
              then crossW s (m n, m ed.target, ed.weight) else 0)).sum)).sum ∧
      (l.foldl (flowScanNode env sol t1 t2 m) acc).sol_weight = acc.sol_weight +
        (l.map (fun n => ((env.original_graph.edgesOf n).map
          (fun ed => if scanned sol t1 t2 m (n, ed.target, ed.weight) ∧ sol n ≠ sol ed.target
            then ed.weight else 0)).sum)).sum := by
  induction l with
  | nil => intro acc _ _; simp
  | cons a l ih =>
    intro acc h0 h1
    simp only [List.foldl_cons, List.map_cons, List.sum_cons]
    by_cases hn : sol a = t1 ∨ sol a = t2
    · have hstep : flowScanNode env sol t1 t2 m acc a =
          (env.original_graph.edgesOf a).foldl (flowScanEdge sol t1 t2 m a) acc := by
        unfold flowScanNode
        rw [if_neg]
        intro hc
        rcases hn with h | h
        · exact hc.1 h
        · exact hc.2 h
      rw [hstep]
      obtain ⟨a1, a2, a3, a4⟩ := flowScanEdges_spec sol t1 t2 m s a hn _ acc h0 h1
      obtain ⟨b3, b4⟩ := ih _ a1 a2
      refine ⟨?_, ?_⟩
      · rw [b3, a3]; omega
      · rw [b4, a4]; omega
    · have hstep : flowScanNode env sol t1 t2 m acc a = acc := by
        unfold flowScanNode
        rw [if_pos]
        simp only [not_or] at hn
        exact hn
      rw [hstep]
      obtain ⟨b3, b4⟩ := ih acc h0 h1
      have hz : ∀ ed : Edge, scanned sol t1 t2 m (a, ed.target, ed.weight) = false := by
        intro ed
        unfold scanned
        simp only [decide_eq_false_iff_not]
        rintro ⟨c, -⟩
        exact hn c
      refine ⟨?_, ?_⟩
      · rw [b3]; simp [hz]
      · rw [b4]; simp [hz]

/-- What the edge scan of `flowBetweenBlocks` accumulates, as sums over the
directed edges of the original graph that pass its tests: the weight of a cut
of the auxiliary graph, and `sol_weight`. -/
theorem flowScan_spec (env : Env) (sol : Nat → Nat) (t1 t2 : Nat) (m : Nat → Nat)
    (s : List Nat) :
    ((auxEdges (flowScan env sol t1 t2 m)).map (crossW s)).sum =
      ((dedges env.original_graph).map (fun x => if scanned sol t1 t2 m x
        then crossW s (m x.1, m x.2.1, x.2.2) else 0)).sum ∧
    (flowScan env sol t1 t2 m).sol_weight =
      ((dedges env.original_graph).map (fun x => if scanned sol t1 t2 m x ∧ sol x.1 ≠ sol x.2.1
        then x.2.2 else 0)).sum := by
  obtain ⟨h1, h2⟩ := flowScanNodes_spec env sol t1 t2 m s env.original_graph.nodes
    { sol_weight := 0, edges := [], edgesToFixed0 := [], edgesToFixed1 := [] }
    (by simp) (by simp)
  unfold flowScan
  rw [h1, h2, sum_dedges_nat, sum_dedges_nat]
  simp [auxEdges]

end local_search

namespace local_search
open mutable_graph

theorem mapping_fold_inv (env : Env) (sol : Nat → Nat) (t1 t2 : Nat) (l : List Nat)
    (hnd : l.Nodup) :
    2 ≤ (l.foldl (mappingStep env sol t1 t2) (fun _ => UNDEFINED_NODE, 2)).2 ∧
    (∀ v ∈ l, (sol v = t1 ∨ sol v = t2) → env.fixed_vertex v = false →
      2 ≤ (l.foldl (mappingStep env sol t1 t2) (fun _ => UNDEFINED_NODE, 2)).1 v ∧
      (l.foldl (mappingStep env sol t1 t2) (fun _ => UNDEFINED_NODE, 2)).1 v <
        (l.foldl (mappingStep env sol t1 t2) (fun _ => UNDEFINED_NODE, 2)).2) ∧
    (∀ v ∈ l, ∀ w ∈ l, (sol v = t1 ∨ sol v = t2) → env.fixed_vertex v = false →
      (sol w = t1 ∨ sol w = t2) → env.fixed_vertex w = false →
      (l.foldl (mappingStep env sol t1 t2) (fun _ => UNDEFINED_NODE, 2)).1 v =
        (l.foldl (mappingStep env sol t1 t2) (fun _ => UNDEFINED_NODE, 2)).1 w → v = w) := by
  induction l using List.reverseRecOn with
  | nil => simp
  | append_singleton l a ih =>
    rw [List.nodup_append] at hnd
    obtain ⟨hl, -, hdis⟩ := hnd
    have hal : a ∉ l := fun h => hdis h (List.mem_singleton_self a)
    obtain ⟨i1, i2, i3⟩ := ih hl
    rw [List.foldl_append]
    simp only [List.foldl_cons, List.foldl_nil]
    generalize hacc : l.foldl (mappingStep env sol t1 t2) (fun _ => UNDEFINED_NODE, 2) = acc at *
    have hother : ∀ v ∈ l, (mappingStep env sol t1 t2 acc a).1 v = acc.1 v := by
      intro v hv
      exact mappingStep_other env sol t1 t2 acc a v (fun hc => hal (hc ▸ hv))
    by_cases hb : sol a = t1 ∨ sol a = t2
    · by_cases hf : env.fixed_vertex a = true
      · have hstep2 : (mappingStep env sol t1 t2 acc a).2 = acc.2 := by
          unfold mappingStep
          rw [if_neg (by
            intro hc
            rcases hb with h | h
            · exact hc.1 h
            · exact hc.2 h), if_pos hf]
        refine ⟨by rw [hstep2]; exact i1, ?_, ?_⟩
        · intro v hv hvb hvf
          rcases List.mem_append.mp hv with h | h
          · rw [hother v h, hstep2]; exact i2 v h hvb hvf
          · simp only [List.mem_singleton] at h
            subst h
            rw [hf] at hvf; simp at hvf
        · intro v hv w hw hvb hvf hwb hwf
          have hv' : v ∈ l := by
            rcases List.mem_append.mp hv with h | h
            · exact h
            · simp only [List.mem_singleton] at h
              subst h
              rw [hf] at hvf; simp at hvf
          have hw' : w ∈ l := by
            rcases List.mem_append.mp hw with h | h
            · exact h
            · simp only [List.mem_singleton] at h
              subst h
              rw [hf] at hwf; simp at hwf
          rw [hother v hv', hother w hw']
          exact i3 v hv' w hw' hvb hvf hwb hwf
      · have hstep : mappingStep env sol t1 t2 acc a =
            (fun x => if x = a then acc.2 else acc.1 x, acc.2 + 1) := by
          unfold mappingStep
          rw [if_neg (by
            intro hc
            rcases hb with h | h
            · exact hc.1 h
            · exact hc.2 h), if_neg hf]
        have hrange : ∀ v ∈ l ++ [a], (sol v = t1 ∨ sol v = t2) → env.fixed_vertex v = false →
            2 ≤ (mappingStep env sol t1 t2 acc a).1 v ∧
            (mappingStep env sol t1 t2 acc a).1 v < (mappingStep env sol t1 t2 acc a).2 ∧
            (v ∈ l → (mappingStep env sol t1 t2 acc a).1 v < acc.2) ∧
            (v = a → (mappingStep env sol t1 t2 acc a).1 v = acc.2) := by
          intro v hv hvb hvf
          rcases List.mem_append.mp hv with h | h
          · have := i2 v h hvb hvf
            have hva : v ≠ a := fun hc => hal (hc ▸ h)
            rw [hother v h]
            rw [hstep]
            simp only
            exact ⟨this.1, by omega, fun _ => this.2, fun hc => absurd hc hva⟩
          · simp only [List.mem_singleton] at h
            subst h
            rw [hstep]
            simp only [if_true]
            exact ⟨i1, by omega, fun hc => absurd hc hal, fun _ => trivial⟩
        refine ⟨by rw [hstep]; simp only; omega, ?_, ?_⟩
        · intro v hv hvb hvf
          have := hrange v hv hvb hvf
          exact ⟨this.1, this.2.1⟩
        · intro v hv w hw hvb hvf hwb hwf hvw
          have rv := hrange v hv hvb hvf
          have rw' := hrange w hw hwb hwf
          rcases List.mem_append.mp hv with h | h
          · rcases List.mem_append.mp hw with h' | h'
            · rw [hother v h, hother w h'] at hvw
              exact i3 v h w h' hvb hvf hwb hwf hvw
            · simp only [List.mem_singleton] at h'
              have a1 := rv.2.2.1 h
              have a2 := rw'.2.2.2 h'
              omega
          · simp only [List.mem_singleton] at h
            rcases List.mem_append.mp hw with h' | h'
            · have a1 := rv.2.2.2 h
              have a2 := rw'.2.2.1 h'
              omega
            · simp only [List.mem_singleton] at h'
              rw [h, h']
    · have hstep : mappingStep env sol t1 t2 acc a = acc := by
        unfold mappingStep
        rw [if_pos]
        simp only [not_or] at hb
        exact hb
      rw [hstep]
      refine ⟨i1, ?_, ?_⟩
      · intro v hv hvb hvf
        rcases List.mem_append.mp hv with h | h
        · exact i2 v h hvb hvf
        · simp only [List.mem_singleton] at h
          subst h
          exact absurd hvb hb
      · intro v hv w hw hvb hvf hwb hwf
        have hv' : v ∈ l := by
          rcases List.mem_append.mp hv with h | h
          · exact h
          · simp only [List.mem_singleton] at h
            subst h
            exact absurd hvb hb
        have hw' : w ∈ l := by
          rcases List.mem_append.mp hw with h | h
          · exact h
          · simp only [List.mem_singleton] at h
            subst h
            exact absurd hwb hb
        exact i3 v hv' w hw' hvb hvf hwb hwf

/-- The vector `mapping` of `flowBetweenBlocks`: the non-fixed vertices of the
two blocks receive pairwise distinct ids from 2 on, below the final `id`. -/
theorem buildMapping_free (env : Env) (sol : Nat → Nat) (t1 t2 : Nat) :
    2 ≤ (buildMapping env sol t1 t2).2 ∧
    (∀ v, v < env.original_graph.n → (sol v = t1 ∨ sol v = t2) → env.fixed_vertex v = false →
      2 ≤ (buildMapping env sol t1 t2).1 v ∧
      (buildMapping env sol t1 t2).1 v < (buildMapping env sol t1 t2).2) ∧
    (∀ v w, v < env.original_graph.n → w < env.original_graph.n →
      (sol v = t1 ∨ sol v = t2) → env.fixed_vertex v = false →
      (sol w = t1 ∨ sol w = t2) → env.fixed_vertex w = false →
      (buildMapping env sol t1 t2).1 v = (buildMapping env sol t1 t2).1 w → v = w) := by
  obtain ⟨h1, h2, h3⟩ := mapping_fold_inv env sol t1 t2 env.original_graph.nodes
    (List.nodup_range _)
  refine ⟨h1, ?_, ?_⟩
  · intro v hv
    exact h2 v (by simpa [nodes] using hv)
  · intro v w hv hw
    exact h3 v (by simpa [nodes] using hv) w (by simpa [nodes] using hw)

end local_search

namespace local_search
open mutable_graph

/-- `mapping[v]` of a vertex of the two blocks is in the source side exactly
when the reassignment puts `v` into block `t1`; a fixed vertex keeps its block
when node 0 is on the source side and node 1 is not. -/
theorem reassigned_fixed (env : Env) (sol : Nat → Nat) (t1 t2 : Nat) (s : List Nat)
    (h0 : 0 ∈ s) (h1 : 1 ∉ s) (v : Nat) (hv : v < env.original_graph.n)
    (hb : sol v = t1 ∨ sol v = t2) (hf : env.fixed_vertex v = true) :
    reassigned sol t1 t2 (buildMapping env sol t1 t2).1 s env.original_graph.n v = sol v := by
  unfold reassigned
  rw [if_pos ⟨hv, hb⟩, buildMapping_fixed env sol t1 t2 v hv hf hb]
  by_cases h : sol v = t1
  · rw [if_pos h, if_pos h0, h]
  · rw [if_neg h, if_neg h1]
    rcases hb with hb | hb
    · exact absurd hb h
    · exact hb.symm

theorem reassigned_in (sol : Nat → Nat) (t1 t2 : Nat) (m : Nat → Nat) (s : List Nat) (N v : Nat)
    (hv : v < N) (hb : sol v = t1 ∨ sol v = t2) :
    reassigned sol t1 t2 m s N v = if m v ∈ s then t1 else t2 := by
  unfold reassigned
  rw [if_pos ⟨hv, hb⟩]

theorem reassigned_out (sol : Nat → Nat) (t1 t2 : Nat) (m : Nat → Nat) (s : List Nat) (N v : Nat)
    (hb : ¬ (sol v = t1 ∨ sol v = t2)) :
    reassigned sol t1 t2 m s N v = sol v := by
  unfold reassigned
  rw [if_neg (fun hc => hb hc.2)]

/-- Edge by edge: after the reassignment an edge that the auxiliary graph
represents is cut exactly when its image crosses the cut `s`, and every other
edge is cut exactly when it was cut before. -/
theorem reassigned_edge (env : Env) (hs : Simple env.original_graph) (sol : Nat → Nat)
    (t1 t2 : Nat) (h12 : t1 ≠ t2) (s : List Nat) (h0 : 0 ∈ s) (h1 : 1 ∉ s)
    (x : Nat × Nat × Nat) (hx : x ∈ dedges env.original_graph) :
    (if reassigned sol t1 t2 (buildMapping env sol t1 t2).1 s env.original_graph.n x.1 ≠
        reassigned sol t1 t2 (buildMapping env sol t1 t2).1 s env.original_graph.n x.2.1
      then (x.2.2 : Int) else 0) =
    (if relevant env sol t1 t2 x
      then (crossW s ((buildMapping env sol t1 t2).1 x.1, (buildMapping env sol t1 t2).1 x.2.1,
        x.2.2) : Int)
      else 0) +
    (if relevant env sol t1 t2 x then 0 else (if sol x.1 ≠ sol x.2.1 then (x.2.2 : Int) else 0)) := by
  obtain ⟨-, htN, huN⟩ := dedges_ne env.original_graph hs x hx
  by_cases hbu : sol x.1 = t1 ∨ sol x.1 = t2
  · by_cases hbt : sol x.2.1 = t1 ∨ sol x.2.1 = t2
    · by_cases hff : env.fixed_vertex x.1 = true ∧ env.fixed_vertex x.2.1 = true
      · have hrel : relevant env sol t1 t2 x = false := by
          unfold relevant
          simp only [decide_eq_false_iff_not]
          exact fun hc => hc.2.2 hff
        rw [hrel, reassigned_fixed env sol t1 t2 s h0 h1 _ huN hbu hff.1,
          reassigned_fixed env sol t1 t2 s h0 h1 _ htN hbt hff.2]
        simp
      · have hrel : relevant env sol t1 t2 x = true := by
          unfold relevant
          simp only [decide_eq_true_eq]
          exact ⟨hbu, hbt, hff⟩
        rw [hrel, reassigned_in _ _ _ _ _ _ _ huN hbu, reassigned_in _ _ _ _ _ _ _ htN hbt]
        unfold crossW
        by_cases a1 : (buildMapping env sol t1 t2).1 x.1 ∈ s <;>
          by_cases a2 : (buildMapping env sol t1 t2).1 x.2.1 ∈ s <;>
          simp [a1, a2, h12, Ne.symm h12]
    · have hrel : relevant env sol t1 t2 x = false := by
        unfold relevant
        simp only [decide_eq_false_iff_not]
        exact fun hc => hbt hc.2.1
      rw [hrel, reassigned_in _ _ _ _ _ _ _ huN hbu, reassigned_out _ _ _ _ _ _ _ hbt]
      simp only [not_or] at hbt
      have e1 : (if (buildMapping env sol t1 t2).1 x.1 ∈ s then t1 else t2) ≠ sol x.2.1 := by
        split
        · exact fun h => hbt.1 h.symm
        · exact fun h => hbt.2 h.symm
      have e2 : sol x.1 ≠ sol x.2.1 := by
        rcases hbu with h | h
        · rw [h]; exact fun h' => hbt.1 h'.symm
        · rw [h]; exact fun h' => hbt.2 h'.symm
      simp [e1, e2]
  · have hrel : relevant env sol t1 t2 x = false := by
      unfold relevant
      simp only [decide_eq_false_iff_not]
      exact fun hc => hbu hc.1
    rw [hrel, reassigned_out _ _ _ _ _ _ _ hbu]
    by_cases hbt : sol x.2.1 = t1 ∨ sol x.2.1 = t2
    · rw [reassigned_in _ _ _ _ _ _ _ htN hbt]
      simp only [not_or] at hbu
      have e1 : sol x.1 ≠ (if (buildMapping env sol t1 t2).1 x.2.1 ∈ s then t1 else t2) := by
        split
        · exact hbu.1
        · exact hbu.2
      have e2 : sol x.1 ≠ sol x.2.1 := by
        rcases hbt with h | h
        · rw [h]; exact hbu.1
        · rw [h]; exact hbu.2
      simp [e1, e2]
    · rw [reassigned_out _ _ _ _ _ _ _ hbt]
      simp

/-- Of the two directions of an edge that the auxiliary graph represents,
exactly one passes the tests of the edge scan; no direction of another edge
does. -/
theorem relevant_scanned (env : Env) (hs : Simple env.original_graph) (sol : Nat → Nat)
    (t1 t2 : Nat) (x : Nat × Nat × Nat) (hx : x ∈ dedges env.original_graph) (F : Int) :
    (if relevant env sol t1 t2 x then F else 0) =
      (if scanned sol t1 t2 (buildMapping env sol t1 t2).1 x then F else 0) +
      (if scanned sol t1 t2 (buildMapping env sol t1 t2).1 (x.2.1, x.1, x.2.2) then F else 0) := by
  obtain ⟨hne, htN, huN⟩ := dedges_ne env.original_graph hs x hx
  obtain ⟨-, hfree, hinj⟩ := buildMapping_free env sol t1 t2
  by_cases hbu : sol x.1 = t1 ∨ sol x.1 = t2
  · by_cases hbt : sol x.2.1 = t1 ∨ sol x.2.1 = t2
    · have mu_fixed := fun hf => buildMapping_fixed env sol t1 t2 x.1 huN hf hbu
      have mt_fixed := fun hf => buildMapping_fixed env sol t1 t2 x.2.1 htN hf hbt
      have mu_free := fun hf => hfree x.1 huN hbu hf
      have mt_free := fun hf => hfree x.2.1 htN hbt hf
      have mu_le : ∀ hf : env.fixed_vertex x.1 = true, (buildMapping env sol t1 t2).1 x.1 < 2 := by
        intro hf; rw [mu_fixed hf]; split <;> omega
      have mt_le : ∀ hf : env.fixed_vertex x.2.1 = true,
          (buildMapping env sol t1 t2).1 x.2.1 < 2 := by
        intro hf; rw [mt_fixed hf]; split <;> omega
      cases hfu : env.fixed_vertex x.1 <;> cases hft : env.fixed_vertex x.2.1
      · have a1 := mu_free hfu
        have a2 := mt_free hft
        have a3 : (buildMapping env sol t1 t2).1 x.1 ≠ (buildMapping env sol t1 t2).1 x.2.1 :=
          fun hc => hne (hinj _ _ huN htN hbu hfu hbt hft hc).symm
        by_cases hlt : (buildMapping env sol t1 t2).1 x.1 < (buildMapping env sol t1 t2).1 x.2.1
        · have hgt : ¬ (buildMapping env sol t1 t2).1 x.2.1 < (buildMapping env sol t1 t2).1 x.1 := by
            omega
          simp [relevant, scanned, hbu, hbt, hfu, hft, hlt, hgt, a1.1, a2.1]
        · have hgt : (buildMapping env sol t1 t2).1 x.2.1 < (buildMapping env sol t1 t2).1 x.1 := by
            omega
          simp [relevant, scanned, hbu, hbt, hfu, hft, hlt, hgt, a1.1, a2.1]
      · have a1 := mu_free hfu
        have a2 := mt_le hft
        have hlt : ¬ (buildMapping env sol t1 t2).1 x.1 < (buildMapping env sol t1 t2).1 x.2.1 := by
          omega
        have hgt : (buildMapping env sol t1 t2).1 x.2.1 < (buildMapping env sol t1 t2).1 x.1 := by
          omega
        simp [relevant, scanned, hbu, hbt, hfu, hft, hlt, hgt, a1.1]
      · have a1 := mu_le hfu
        have a2 := mt_free hft
        have hlt : (buildMapping env sol t1 t2).1 x.1 < (buildMapping env sol t1 t2).1 x.2.1 := by
          omega
        have hgt : ¬ (buildMapping env sol t1 t2).1 x.2.1 < (buildMapping env sol t1 t2).1 x.1 := by
          omega
        simp [relevant, scanned, hbu, hbt, hfu, hft, hlt, hgt, a2.1]
      · have a1 := mu_le hfu
        have a2 := mt_le hft
        have b1 : ¬ 2 ≤ (buildMapping env sol t1 t2).1 x.1 := by omega
        have b2 : ¬ 2 ≤ (buildMapping env sol t1 t2).1 x.2.1 := by omega
        simp [relevant, scanned, hbu, hbt, hfu, hft, b1, b2]
    · simp [relevant, scanned, hbu, hbt]
  · simp [relevant, scanned, hbu]

end local_search

namespace local_search
open mutable_graph

theorem relevant_sum (env : Env) (hs : Simple env.original_graph) (sol : Nat → Nat)
    (t1 t2 : Nat) (F : Nat × Nat × Nat → Int) (hF : ∀ x, F (x.2.1, x.1, x.2.2) = F x) :
    ((dedges env.original_graph).map (fun x => if relevant env sol t1 t2 x then F x else 0)).sum =
      2 * ((dedges env.original_graph).map
        (fun x => if scanned sol t1 t2 (buildMapping env sol t1 t2).1 x then F x else 0)).sum := by
  have h1 : ((dedges env.original_graph).map
        (fun x => if relevant env sol t1 t2 x then F x else 0)).sum =
      ((dedges env.original_graph).map (fun x =>
        (if scanned sol t1 t2 (buildMapping env sol t1 t2).1 x then F x else 0) +
        (if scanned sol t1 t2 (buildMapping env sol t1 t2).1 (x.2.1, x.1, x.2.2)
          then F x else 0))).sum := by
    apply sum_map_congr_int
    intro x hx
    exact relevant_scanned env hs sol t1 t2 x hx (F x)
  have h2 := sum_dedges_rev env.original_graph hs
    (fun x => if scanned sol t1 t2 (buildMapping env sol t1 t2).1 x then F x else 0)
  simp only [hF] at h2
  rw [h1, sum_map_add_int, ← h2]
  ring

/-- The cut weight after the reassignment for a source side `s`, against the
cut weight before: the difference is the weight of `s` in the auxiliary graph
minus `sol_weight`, both written as sums over the scanned edges. -/
theorem cut_reassigned (env : Env) (hs : Simple env.original_graph) (sol : Nat → Nat)
    (t1 t2 : Nat) (h12 : t1 ≠ t2) (s : List Nat) (h0 : 0 ∈ s) (h1 : 1 ∉ s) :
    (cutWeight env.original_graph
        (reassigned sol t1 t2 (buildMapping env sol t1 t2).1 s env.original_graph.n) : Int) +
      (((dedges env.original_graph).map (fun x =>
        if scanned sol t1 t2 (buildMapping env sol t1 t2).1 x ∧ sol x.1 ≠ sol x.2.1
        then x.2.2 else 0)).sum : Nat) =
    (cutWeight env.original_graph sol : Int) +
      (((dedges env.original_graph).map (fun x =>
        if scanned sol t1 t2 (buildMapping env sol t1 t2).1 x
        then crossW s ((buildMapping env sol t1 t2).1 x.1, (buildMapping env sol t1 t2).1 x.2.1,
          x.2.2) else 0)).sum : Nat) := by
  have d1 := dsum_eq_two_cut env.original_graph hs
    (reassigned sol t1 t2 (buildMapping env sol t1 t2).1 s env.original_graph.n)
  have d2 := dsum_eq_two_cut env.original_graph hs sol
  have e1 : ((dedges env.original_graph).map (fun x =>
      if reassigned sol t1 t2 (buildMapping env sol t1 t2).1 s env.original_graph.n x.1 ≠
        reassigned sol t1 t2 (buildMapping env sol t1 t2).1 s env.original_graph.n x.2.1
      then (x.2.2 : Int) else 0)).sum =
      ((dedges env.original_graph).map (fun x => if relevant env sol t1 t2 x
        then (crossW s ((buildMapping env sol t1 t2).1 x.1, (buildMapping env sol t1 t2).1 x.2.1,
          x.2.2) : Int) else 0)).sum +
      ((dedges env.original_graph).map (fun x => if relevant env sol t1 t2 x then 0
        else (if sol x.1 ≠ sol x.2.1 then (x.2.2 : Int) else 0))).sum := by
    rw [← sum_map_add_int]
    apply sum_map_congr_int
    intro x hx
    exact reassigned_edge env hs sol t1 t2 h12 s h0 h1 x hx
  have e2 : ((dedges env.original_graph).map (fun x =>
      if sol x.1 ≠ sol x.2.1 then (x.2.2 : Int) else 0)).sum =
      ((dedges env.original_graph).map (fun x => if relevant env sol t1 t2 x
        then (if sol x.1 ≠ sol x.2.1 then (x.2.2 : Int) else 0) else 0)).sum +
      ((dedges env.original_graph).map (fun x => if relevant env sol t1 t2 x then 0
        else (if sol x.1 ≠ sol x.2.1 then (x.2.2 : Int) else 0))).sum := by
    rw [← sum_map_add_int]
    apply sum_map_congr_int
    intro x _
    cases relevant env sol t1 t2 x <;> simp
  have r1 := relevant_sum env hs sol t1 t2
    (fun x => (crossW s ((buildMapping env sol t1 t2).1 x.1, (buildMapping env sol t1 t2).1 x.2.1,
      x.2.2) : Int))
    (by intro x; simp only; rw [crossW_symm])
  have r2 := relevant_sum env hs sol t1 t2
    (fun x => if sol x.1 ≠ sol x.2.1 then (x.2.2 : Int) else 0)
    (by
      intro x
      simp only
      by_cases h : sol x.1 = sol x.2.1
      · simp [h]
      · have : sol x.2.1 ≠ sol x.1 := fun hc => h hc.symm
        simp [h, this])
  simp only at r1 r2
  have c1 : (((dedges env.original_graph).map (fun x =>
        if scanned sol t1 t2 (buildMapping env sol t1 t2).1 x ∧ sol x.1 ≠ sol x.2.1
        then x.2.2 else 0)).sum : Nat) =
      ((dedges env.original_graph).map (fun x =>
        if scanned sol t1 t2 (buildMapping env sol t1 t2).1 x
        then (if sol x.1 ≠ sol x.2.1 then (x.2.2 : Int) else 0) else 0)).sum := by
    rw [sum_map_cast]
    apply sum_map_congr_int
    intro x _
    cases scanned sol t1 t2 (buildMapping env sol t1 t2).1 x <;>
      by_cases h : sol x.1 = sol x.2.1 <;> simp [h]
  have c2 : (((dedges env.original_graph).map (fun x =>
        if scanned sol t1 t2 (buildMapping env sol t1 t2).1 x
        then crossW s ((buildMapping env sol t1 t2).1 x.1, (buildMapping env sol t1 t2).1 x.2.1,
          x.2.2) else 0)).sum : Nat) =
      ((dedges env.original_graph).map (fun x =>
        if scanned sol t1 t2 (buildMapping env sol t1 t2).1 x
        then (crossW s ((buildMapping env sol t1 t2).1 x.1, (buildMapping env sol t1 t2).1 x.2.1,
          x.2.2) : Int) else 0)).sum := by
    rw [sum_map_cast]
    apply sum_map_congr_int
    intro x _
    cases scanned sol t1 t2 (buildMapping env sol t1 t2).1 x <;> simp
  rw [c1, c2]
  rw [e1, r1] at d1
  rw [e2, r2] at d2
  omega

end local_search

namespace local_search
open mutable_graph

theorem mapping_lt (env : Env) (sol : Nat → Nat) (t1 t2 v : Nat) (hv : v < env.original_graph.n)
    (hb : sol v = t1 ∨ sol v = t2) :
    (buildMapping env sol t1 t2).1 v < (buildMapping env sol t1 t2).2 := by
  obtain ⟨h2, hfree, -⟩ := buildMapping_free env sol t1 t2
  cases hf : env.fixed_vertex v
  · exact (hfree v hv hb hf).2
  · rw [buildMapping_fixed env sol t1 t2 v hv hf hb]
    split <;> omega

theorem addTo_mem_key (m : List (Nat × Nat)) (k w : Nat) (p : Nat × Nat) (hp : p ∈ addTo m k w) :
    p.1 = k ∨ ∃ q ∈ m, q.1 = p.1 := by
  unfold addTo at hp
  split at hp
  · rw [List.mem_map] at hp
    obtain ⟨q, hq, hqp⟩ := hp
    right
    refine ⟨q, hq, ?_⟩
    split at hqp
    · rw [← hqp]
    · rw [hqp]
  · rcases List.mem_append.mp hp with h | h
    · exact Or.inr ⟨p, h, rfl⟩
    · simp only [List.mem_singleton] at h
      left; rw [h]

theorem flowScanEdge_bound (sol : Nat → Nat) (t1 t2 : Nat) (m : Nat → Nat) (id n : Nat)
    (acc : FlowScan) (ed : Edge)
    (hmn : m n < id)
    (hmt : (sol ed.target = t1 ∨ sol ed.target = t2) → m ed.target < id)
    (hB : (∀ e ∈ acc.edges, e.1 < id ∧ e.2.1 < id) ∧ (∀ p ∈ acc.edgesToFixed0, p.1 < id) ∧
      (∀ p ∈ acc.edgesToFixed1, p.1 < id)) :
    (∀ e ∈ (flowScanEdge sol t1 t2 m n acc ed).edges, e.1 < id ∧ e.2.1 < id) ∧
    (∀ p ∈ (flowScanEdge sol t1 t2 m n acc ed).edgesToFixed0, p.1 < id) ∧
    (∀ p ∈ (flowScanEdge sol t1 t2 m n acc ed).edgesToFixed1, p.1 < id) := by
  obtain ⟨b1, b2, b3⟩ := hB
  unfold flowScanEdge
  by_cases hskip : (sol ed.target ≠ t1 ∧ sol ed.target ≠ t2) ∨ m n ≥ m ed.target ∨ m ed.target < 2
  · rw [if_pos hskip]
    exact ⟨b1, b2, b3⟩
  · rw [if_neg hskip]
    have hmt : m ed.target < id := by
      apply hmt
      simp only [not_or, not_and_or, not_not, not_le, not_lt] at hskip
      exact hskip.1
    have key : ∀ acc1 : FlowScan, acc1.edges = acc.edges →
        acc1.edgesToFixed0 = acc.edgesToFixed0 → acc1.edgesToFixed1 = acc.edgesToFixed1 →
        (∀ e ∈ (if m n < 2 then
            if m n = 0 then
              { acc1 with edgesToFixed0 := addTo acc1.edgesToFixed0 (m ed.target) ed.weight }
            else { acc1 with edgesToFixed1 := addTo acc1.edgesToFixed1 (m ed.target) ed.weight }
          else { acc1 with edges := acc1.edges ++ [(m n, m ed.target, ed.weight)] }
            : FlowScan).edges, e.1 < id ∧ e.2.1 < id) ∧
        (∀ p ∈ (if m n < 2 then
            if m n = 0 then
              { acc1 with edgesToFixed0 := addTo acc1.edgesToFixed0 (m ed.target) ed.weight }
            else { acc1 with edgesToFixed1 := addTo acc1.edgesToFixed1 (m ed.target) ed.weight }
          else { acc1 with edges := acc1.edges ++ [(m n, m ed.target, ed.weight)] }
            : FlowScan).edgesToFixed0, p.1 < id) ∧
        (∀ p ∈ (if m n < 2 then
            if m n = 0 then
              { acc1 with edgesToFixed0 := addTo acc1.edgesToFixed0 (m ed.target) ed.weight }
            else { acc1 with edgesToFixed1 := addTo acc1.edgesToFixed1 (m ed.target) ed.weight }
          else { acc1 with edges := acc1.edges ++ [(m n, m ed.target, ed.weight)] }
            : FlowScan).edgesToFixed1, p.1 < id) := by
      intro acc1 e1 e2 e3
      by_cases hm2 : m n < 2
      · rw [if_pos hm2]
        by_cases hm0 : m n = 0
        · rw [if_pos hm0]
          refine ⟨by simp only; rw [e1]; exact b1, ?_, by simp only; rw [e3]; exact b3⟩
          intro p hp
          simp only at hp
          rw [e2] at hp
          rcases addTo_mem_key _ _ _ p hp with h | ⟨q, hq, hqp⟩
          · rw [h]; exact hmt
          · rw [← hqp]; exact b2 q hq
        · rw [if_neg hm0]
          refine ⟨by simp only; rw [e1]; exact b1, by simp only; rw [e2]; exact b2, ?_⟩
          intro p hp
          simp only at hp
          rw [e3] at hp
          rcases addTo_mem_key _ _ _ p hp with h | ⟨q, hq, hqp⟩
          · rw [h]; exact hmt
          · rw [← hqp]; exact b3 q hq
      · rw [if_neg hm2]
        refine ⟨?_, by simp only; rw [e2]; exact b2, by simp only; rw [e3]; exact b3⟩
        intro e he
        simp only at he
        rw [e1] at he
        rcases List.mem_append.mp he with h | h
        · exact b1 e h
        · simp only [List.mem_singleton] at h
          rw [h]; exact ⟨hmn, hmt⟩
    simp only
    by_cases hd : sol ed.target ≠ sol n
    · rw [if_pos hd]
      exact key { acc with sol_weight := acc.sol_weight + ed.weight } rfl rfl rfl
    · rw [if_neg hd]
      exact key acc rfl rfl rfl

theorem flowScan_bound (env : Env) (hs : Simple env.original_graph) (sol : Nat → Nat)
    (t1 t2 : Nat) :
    ∀ e ∈ auxEdges (flowScan env sol t1 t2 (buildMapping env sol t1 t2).1),
      e.1 < (buildMapping env sol t1 t2).2 ∧ e.2.1 < (buildMapping env sol t1 t2).2 := by
  have h2 := (buildMapping_free env sol t1 t2).1
  have hedges : ∀ (n : Nat) (hn : n < env.original_graph.n) (hb : sol n = t1 ∨ sol n = t2)
      (l : List Edge) (hl : ∀ ed ∈ l, ed ∈ env.original_graph.edgesOf n) (acc : FlowScan),
      ((∀ e ∈ acc.edges, e.1 < (buildMapping env sol t1 t2).2 ∧
          e.2.1 < (buildMapping env sol t1 t2).2) ∧
        (∀ p ∈ acc.edgesToFixed0, p.1 < (buildMapping env sol t1 t2).2) ∧
        (∀ p ∈ acc.edgesToFixed1, p.1 < (buildMapping env sol t1 t2).2)) →
      ((∀ e ∈ (l.foldl (flowScanEdge sol t1 t2 (buildMapping env sol t1 t2).1 n) acc).edges,
          e.1 < (buildMapping env sol t1 t2).2 ∧ e.2.1 < (buildMapping env sol t1 t2).2) ∧
        (∀ p ∈ (l.foldl (flowScanEdge sol t1 t2 (buildMapping env sol t1 t2).1 n)
          acc).edgesToFixed0, p.1 < (buildMapping env sol t1 t2).2) ∧
        (∀ p ∈ (l.foldl (flowScanEdge sol t1 t2 (buildMapping env sol t1 t2).1 n)
          acc).edgesToFixed1, p.1 < (buildMapping env sol t1 t2).2)) := by
    intro n hn hb l
    induction l with
    | nil => intro _ acc h; exact h
    | cons ed l ih =>
      intro hl acc h
      simp only [List.foldl_cons]
      apply ih (fun e he => hl e (List.mem_cons_of_mem _ he))
      apply flowScanEdge_bound _ _ _ _ _ _ _ _ (mapping_lt env sol t1 t2 n hn hb) _ h
      intro hbt
      exact mapping_lt env sol t1 t2 ed.target
        (hs.1 n ed (hl ed (List.mem_cons_self _ _))).1 hbt
  have hnodes : ∀ (l : List Nat) (hl : ∀ n ∈ l, n < env.original_graph.n) (acc : FlowScan),
      ((∀ e ∈ acc.edges, e.1 < (buildMapping env sol t1 t2).2 ∧
          e.2.1 < (buildMapping env sol t1 t2).2) ∧
        (∀ p ∈ acc.edgesToFixed0, p.1 < (buildMapping env sol t1 t2).2) ∧
        (∀ p ∈ acc.edgesToFixed1, p.1 < (buildMapping env sol t1 t2).2)) →
      ((∀ e ∈ (l.foldl (flowScanNode env sol t1 t2 (buildMapping env sol t1 t2).1) acc).edges,
          e.1 < (buildMapping env sol t1 t2).2 ∧ e.2.1 < (buildMapping env sol t1 t2).2) ∧
        (∀ p ∈ (l.foldl (flowScanNode env sol t1 t2 (buildMapping env sol t1 t2).1)
          acc).edgesToFixed0, p.1 < (buildMapping env sol t1 t2).2) ∧
        (∀ p ∈ (l.foldl (flowScanNode env sol t1 t2 (buildMapping env sol t1 t2).1)
          acc).edgesToFixed1, p.1 < (buildMapping env sol t1 t2).2)) := by
    intro l
    induction l with
    | nil => intro _ acc h; exact h
    | cons n l ih =>
      intro hl acc h
      simp only [List.foldl_cons]
      apply ih (fun e he => hl e (List.mem_cons_of_mem _ he))
      unfold flowScanNode
      split
      · exact h
      · rename_i hb
        simp only [not_and_or, not_not] at hb
        exact hedges n (hl n (List.mem_cons_self _ _)) hb _ (fun _ h => h) acc h
  obtain ⟨c1, c2, c3⟩ := hnodes env.original_graph.nodes
    (fun n hn => by simpa [nodes] using hn)
    { sol_weight := 0, edges := [], edgesToFixed0 := [], edgesToFixed1 := [] }
    ⟨by simp, by simp, by simp⟩
  intro e he
  unfold auxEdges at he
  unfold flowScan at he
  simp only [List.mem_append, List.mem_map] at he
  rcases he with (he | ⟨p, hp, rfl⟩) | ⟨p, hp, rfl⟩
  · exact c1 e he
  · exact ⟨c2 p hp, by simp only; omega⟩
  · exact ⟨c3 p hp, by simp only; omega⟩

theorem cutOf_auxGraph (env : Env) (hs : Simple env.original_graph) (sol : Nat → Nat)
    (t1 t2 : Nat) (s : List Nat) :
    cutOf (auxGraph (buildMapping env sol t1 t2).2
        (flowScan env sol t1 t2 (buildMapping env sol t1 t2).1)) s =
      ((dedges env.original_graph).map (fun x =>
        if scanned sol t1 t2 (buildMapping env sol t1 t2).1 x
        then crossW s ((buildMapping env sol t1 t2).1 x.1, (buildMapping env sol t1 t2).1 x.2.1,
          x.2.2) else 0)).sum := by
  unfold auxGraph
  rw [cutOf_ofEdges _ _ _ (flowScan_bound env hs sol t1 t2)]
  rw [← (flowScan_spec env sol t1 t2 _ s).1]
  rfl

end local_search

namespace local_search
open mutable_graph

theorem reassign_fold_ok (env : Env) (t1 t2 : Nat) (mapping : Nat → Nat) (zero : List Nat)
    (sol0 : Nat → Nat) (l : List Nat) (hnd : l.Nodup)
    (hok : ∀ v ∈ l, (sol0 v = t1 ∨ sol0 v = t2) → env.fixed_vertex v = true →
      (mapping v ∈ zero ↔ sol0 v = t1)) :
    ∀ cur : Nat → Nat, (∀ x ∈ l, cur x = sol0 x) →
      ∃ sol1, l.foldl (reassignStep env t1 t2 mapping zero) (some cur) = some sol1 := by
  induction l with
  | nil => intro cur _; exact ⟨cur, rfl⟩
  | cons a l ih =>
    intro cur hcur
    have hnd2 := List.nodup_cons.mp hnd
    have ha := hcur a (List.mem_cons_self _ _)
    simp only [List.foldl_cons]
    unfold reassignStep
    simp only
    by_cases hb : cur a = t1 ∨ cur a = t2
    · rw [if_pos hb]
      have hnf : ¬ (env.fixed_vertex a = true ∧
          (decide (mapping a ∈ zero) ≠ decide (cur a = t1))) := by
        rintro ⟨hf, hne⟩
        have := hok a (List.mem_cons_self _ _) (by rw [← ha]; exact hb) hf
        rw [← ha] at this
        apply hne
        by_cases hz : mapping a ∈ zero
        · simp [hz, this.mp hz]
        · have : ¬ cur a = t1 := fun hc => hz (this.mpr hc)
          simp [hz, this]
      rw [if_neg hnf]
      apply ih hnd2.2 (fun v hv => hok v (List.mem_cons_of_mem _ hv))
      intro x hx
      have : x ≠ a := fun hc => hnd2.1 (hc ▸ hx)
      simp only [if_neg this]
      exact hcur x (List.mem_cons_of_mem _ hx)
    · rw [if_neg hb]
      exact ih hnd2.2 (fun v hv => hok v (List.mem_cons_of_mem _ hv)) cur
        (fun x hx => hcur x (List.mem_cons_of_mem _ hx))

theorem reassign_total (env : Env) (sol : Nat → Nat) (t1 t2 : Nat) (s : List Nat)
    (h0 : 0 ∈ s) (h1 : 1 ∉ s) :
    env.original_graph.nodes.foldl
        (reassignStep env t1 t2 (buildMapping env sol t1 t2).1 s) (some sol) =
      some (reassigned sol t1 t2 (buildMapping env sol t1 t2).1 s env.original_graph.n) := by
  have hnd : env.original_graph.nodes.Nodup := List.nodup_range _
  obtain ⟨sol1, h⟩ := reassign_fold_ok env t1 t2 (buildMapping env sol t1 t2).1 s sol
    env.original_graph.nodes hnd
    (by
      intro v hv hb hf
      have hv2 : v < env.original_graph.n := by simpa [nodes] using hv
      rw [buildMapping_fixed env sol t1 t2 v hv2 hf hb]
      by_cases hc : sol v = t1
      · simp [hc, h0]
      · simp [hc, h1])
    sol (fun _ _ => rfl)
  rw [h]
  obtain ⟨a1, a2⟩ := reassign_fold env t1 t2 (buildMapping env sol t1 t2).1 s sol
    env.original_graph.nodes hnd sol sol1 (fun _ _ => rfl) h
  congr 1
  funext v
  unfold reassigned
  by_cases hc : v < env.original_graph.n ∧ (sol v = t1 ∨ sol v = t2)
  · rw [if_pos hc]
    exact (a1 v (by simpa [nodes] using hc.1) hc.2).2
  · rw [if_neg hc]
    apply a2
    rw [not_and_or] at hc
    rcases hc with hc | hc
    · left; simpa [nodes] using hc
    · right; exact hc

theorem currentSide_mem (env : Env) (sol : Nat → Nat) (t1 t2 : Nat) (v : Nat)
    (hv : v < env.original_graph.n) (hb : sol v = t1 ∨ sol v = t2) :
    (buildMapping env sol t1 t2).1 v ∈ currentSide env sol t1 (buildMapping env sol t1 t2).1 ↔
      sol v = t1 := by
  obtain ⟨h2, hfree, hinj⟩ := buildMapping_free env sol t1 t2
  unfold currentSide
  simp only [List.mem_cons, List.mem_map, List.mem_filter, decide_eq_true_eq]
  cases hf : env.fixed_vertex v
  · have hm := (hfree v hv hb hf).1
    constructor
    · rintro (h | ⟨w, ⟨⟨hw, hw1, hwf⟩, hwm⟩⟩)
      · omega
      · have hw2 : w < env.original_graph.n := by simpa [nodes] using hw
        have := hinj w v hw2 hv (Or.inl hw1) hwf hb hf hwm
        rw [← this]; exact hw1
    · intro h
      right
      exact ⟨v, ⟨by simpa [nodes] using hv, h, hf⟩, rfl⟩
  · rw [buildMapping_fixed env sol t1 t2 v hv hf hb]
    by_cases hc : sol v = t1
    · simp [hc]
    · rw [if_neg hc]
      simp only [hc, iff_false]
      rintro (h | ⟨w, ⟨⟨hw, hw1, hwf⟩, hwm⟩⟩)
      · omega
      · have hw2 : w < env.original_graph.n := by simpa [nodes] using hw
        have := (hfree w hw2 (Or.inl hw1) hwf).1
        omega

theorem currentSide_zero (env : Env) (sol : Nat → Nat) (t1 : Nat) (m : Nat → Nat) :
    0 ∈ currentSide env sol t1 m := by
  unfold currentSide
  exact List.mem_cons_self _ _

theorem currentSide_one (env : Env) (sol : Nat → Nat) (t1 t2 : Nat) :
    1 ∉ currentSide env sol t1 (buildMapping env sol t1 t2).1 := by
  obtain ⟨h2, hfree, hinj⟩ := buildMapping_free env sol t1 t2
  unfold currentSide
  simp only [List.mem_cons, List.mem_map, List.mem_filter, decide_eq_true_eq]
  rintro (h | ⟨w, ⟨⟨hw, hw1, hwf⟩, hwm⟩⟩)
  · omega
  · have hw2 : w < env.original_graph.n := by simpa [nodes] using hw
    have := (hfree w hw2 (Or.inl hw1) hwf).1
    omega

/-- The weight of the cut that the current solution induces in the auxiliary
graph is `sol_weight`. -/
theorem currentSide_weight (env : Env) (hs : Simple env.original_graph) (sol : Nat → Nat)
    (t1 t2 : Nat) :
    ((dedges env.original_graph).map (fun x =>
        if scanned sol t1 t2 (buildMapping env sol t1 t2).1 x
        then crossW (currentSide env sol t1 (buildMapping env sol t1 t2).1)
          ((buildMapping env sol t1 t2).1 x.1, (buildMapping env sol t1 t2).1 x.2.1, x.2.2)
        else 0)).sum =
    ((dedges env.original_graph).map (fun x =>
        if scanned sol t1 t2 (buildMapping env sol t1 t2).1 x ∧ sol x.1 ≠ sol x.2.1
        then x.2.2 else 0)).sum := by
  congr 1
  apply List.map_congr_left
  intro x hx
  obtain ⟨u, t, w⟩ := x
  have hed := (mem_dedges_iff env.original_graph u t w).mp hx
  have ht : t < env.original_graph.n := (hs.1 u _ hed).1
  have hu : u < env.original_graph.n := by
    by_contra hc
    rw [edgesOf_oob env.original_graph u (by omega)] at hed
    simp at hed
  simp only
  cases hsc : scanned sol t1 t2 (buildMapping env sol t1 t2).1 (u, t, w)
  · simp
  · have hsc2 := hsc
    unfold scanned at hsc2
    simp only [decide_eq_true_eq] at hsc2
    obtain ⟨bu, bt, -, -⟩ := hsc2
    have mu := currentSide_mem env sol t1 t2 u hu bu
    have mt := currentSide_mem env sol t1 t2 t ht bt
    unfold crossW
    simp only [true_and, if_true]
    by_cases cu : sol u = t1 <;> by_cases ct : sol t = t1
    · simp [mu.mpr cu, mt.mpr ct, cu, ct]
    · have : ¬ t1 = sol t := fun h => ct h.symm
      simp [mu.mpr cu, (not_congr mt).mpr ct, cu, this]
    · simp [(not_congr mu).mpr cu, mt.mpr ct, cu, ct]
    · have e1 : sol u = t2 := by rcases bu with h | h; exact absurd h cu; exact h
      have e2 : sol t = t2 := by rcases bt with h | h; exact absurd h ct; exact h
      simp [(not_congr mu).mpr cu, (not_congr mt).mpr ct, e1, e2]

end local_search

namespace local_search
open mutable_graph

theorem reassigned_same (sol : Nat → Nat) (t : Nat) (m : Nat → Nat) (s : List Nat) (N : Nat) :
    reassigned sol t t m s N = sol := by
  funext v
  unfold reassigned
  by_cases hc : v < N ∧ (sol v = t ∨ sol v = t)
  · rw [if_pos hc]
    have : sol v = t := by rcases hc.2 with h | h <;> exact h
    rw [this]
    split <;> rfl
  · rw [if_neg hc]

/-- The value and state that `flowBetweenBlocks` returns with a minimum-cut
solver on a simple graph: the call returns, the cut weight drops by exactly the
returned improvement, and the improvement is not negative. -/
theorem flowBetweenBlocks_exact (env : Env) (hs : Simple env.original_graph)
    (hsolver : MinCutSolver env.solver) (st : State) (t1 t2 : Nat) :
    ∃ r, flowBetweenBlocks env st t1 t2 = some r ∧
      (cutWeight env.original_graph r.2.sol : Int) + r.1.1 =
        cutWeight env.original_graph st.sol ∧
      0 ≤ r.1.1 ∧
      r.2.sol = reassigned st.sol t1 t2 (buildMapping env st.sol t1 t2).1
        (flowResult env st.sol t1 t2).2 env.original_graph.n := by
  obtain ⟨s0, s1, sf, smin⟩ := hsolver (auxGraph (buildMapping env st.sol t1 t2).2
    (flowScan env st.sol t1 t2 (buildMapping env st.sol t1 t2).1))
  have hfr : flowResult env st.sol t1 t2 = env.solver (auxGraph (buildMapping env st.sol t1 t2).2
    (flowScan env st.sol t1 t2 (buildMapping env st.sol t1 t2).1)) := rfl
  rw [← hfr] at s0 s1 sf smin
  have hcs := smin (currentSide env st.sol t1 (buildMapping env st.sol t1 t2).1)
    (currentSide_zero _ _ _ _) (currentSide_one env st.sol t1 t2)
  rw [cutOf_auxGraph env hs, currentSide_weight env hs st.sol t1 t2,
    ← (flowScan_spec env st.sol t1 t2 _ []).2] at hcs
  have hret : flowBetweenBlocks env st t1 t2 =
      some ((((flowScan env st.sol t1 t2 (buildMapping env st.sol t1 t2).1).sol_weight : Int) -
          ((flowResult env st.sol t1 t2).1 : Int), (flowResult env st.sol t1 t2).1),
        { st with
          sol := reassigned st.sol t1 t2 (buildMapping env st.sol t1 t2).1
            (flowResult env st.sol t1 t2).2 env.original_graph.n
          noImprovement := if (flowResult env st.sol t1 t2).1 <
              (flowScan env st.sol t1 t2 (buildMapping env st.sol t1 t2).1).sol_weight
            then st.noImprovement else st.noImprovement ++ [(flowResult env st.sol t1 t2).1] }) := by
    unfold flowBetweenBlocks
    simp only
    rw [reassign_total env st.sol t1 t2 _ s0 s1]
  refine ⟨_, hret, ?_, ?_, rfl⟩
  · simp only
    by_cases h12 : t1 = t2
    · subst h12
      rw [reassigned_same]
      have hz : (flowScan env st.sol t1 t1 (buildMapping env st.sol t1 t1).1).sol_weight = 0 := by
        rw [(flowScan_spec env st.sol t1 t1 _ []).2]
        apply List.sum_eq_zero
        intro x hx
        rw [List.mem_map] at hx
        obtain ⟨y, -, rfl⟩ := hx
        split
        · rename_i h
          exfalso
          obtain ⟨hsc, hne⟩ := h
          unfold scanned at hsc
          simp only [decide_eq_true_eq] at hsc
          apply hne
          rcases hsc.1 with a | a <;> rcases hsc.2.1 with b | b <;> rw [a, b]
        · rfl
      omega
    · rw [cutOf_auxGraph env hs] at sf
      have hcut := cut_reassigned env hs st.sol t1 t2 h12 _ s0 s1
      rw [← sf, ← (flowScan_spec env st.sol t1 t2 _ []).2] at hcut
      omega
  · simp only
    omega

theorem reassigned_valid (sol : Nat → Nat) (t1 t2 : Nat) (m : Nat → Nat) (s : List Nat)
    (N T : Nat) (h1 : t1 < T) (h2 : t2 < T) (hv : ∀ v, v < N → sol v < T) :
    ∀ v, v < N → reassigned sol t1 t2 m s N v < T := by
  intro v hvN
  unfold reassigned
  split
  · split
    · exact h1
    · exact h2
  · exact hv v hvN

theorem flowPairs_exact (env : Env) (hs : Simple env.original_graph)
    (hsolver : MinCutSolver env.solver) (l : List (Nat × Nat × Nat))
    (hl : ∀ p ∈ l, p.1 < env.num_terminals ∧ p.2.1 < env.num_terminals) :
    ∀ acc : Int × State, (∀ v, v < env.original_graph.n → acc.2.sol v < env.num_terminals) →
      ∃ r, flowPairs env l acc = some r ∧
        (cutWeight env.original_graph r.2.sol : Int) + r.1 =
          cutWeight env.original_graph acc.2.sol + acc.1 ∧
        acc.1 ≤ r.1 ∧
        (∀ v, v < env.original_graph.n → r.2.sol v < env.num_terminals) := by
  induction l with
  | nil =>
    intro acc hv
    exact ⟨acc, rfl, rfl, le_refl _, hv⟩
  | cons p l ih =>
    intro acc hv
    obtain ⟨r, hr, hcut, hpos, hsol⟩ := flowBetweenBlocks_exact env hs hsolver acc.2 p.1 p.2.1
    have hp := hl p (List.mem_cons_self _ _)
    unfold flowPairs
    rw [hr]
    simp only
    obtain ⟨r2, hr2, hcut2, hle2, hv2⟩ := ih (fun q hq => hl q (List.mem_cons_of_mem _ hq))
      (acc.1 + r.1.1,
        { r.2 with previousConnectivity := fun a b =>
            if a = p.1 ∧ b = p.2.1 then r.1.2 else r.2.previousConnectivity a b })
      (by
        simp only
        rw [hsol]
        exact reassigned_valid _ _ _ _ _ _ _ hp.1 hp.2 hv)
    refine ⟨r2, hr2, ?_, ?_, hv2⟩
    · simp only at hcut2
      omega
    · simp only at hle2
      omega

theorem mem_neighboringBlocks (env : Env) (st : State) (p : Nat × Nat × Nat)
    (hp : p ∈ neighboringBlocks env st) : p.1 < env.num_blocks ∧ p.2.1 < env.num_blocks := by
  unfold neighboringBlocks at hp
  simp only [List.mem_flatMap, List.mem_map, List.mem_filter, List.mem_range] at hp
  obtain ⟨i, hi, j, ⟨hj, -⟩, rfl⟩ := hp
  exact ⟨hi, hj⟩

theorem flowLocalSearch_exact (env : Env) (hs : Simple env.original_graph)
    (hsolver : MinCutSolver env.solver)
    (hshuffle : ∀ k l, (env.shuffle k l).Perm l)
    (hblocks : env.num_blocks ≤ env.num_terminals) (k : Nat) (st : State)
    (hv : ∀ v, v < env.original_graph.n → st.sol v < env.num_terminals) :
    ∃ r, flowLocalSearch env k st = some r ∧
      (cutWeight env.original_graph r.2.sol : Int) + r.1 =
        cutWeight env.original_graph st.sol ∧
      0 ≤ r.1 ∧
      (∀ v, v < env.original_graph.n → r.2.sol v < env.num_terminals) := by
  obtain ⟨r, hr, hcut, hle, hv2⟩ := flowPairs_exact env hs hsolver
    (env.shuffle k (neighboringBlocks env st))
    (by
      intro p hp
      have := mem_neighboringBlocks env st p ((hshuffle k _).mem_iff.mp hp)
      omega)
    (0, st) hv
  unfold flowLocalSearch
  rw [hr]
  refine ⟨_, rfl, ?_, ?_, hv2⟩
  · simp only at hcut ⊢
    omega
  · simp only at hle ⊢
    exact hle

theorem improveLoop_sound (env : Env) (hs : Simple env.original_graph)
    (hw : WeightBound env.original_graph)
    (hsolver : MinCutSolver env.solver)
    (hshuffle : ∀ k l, (env.shuffle k l).Perm l)
    (hblocks : env.num_blocks ≤ env.num_terminals) :
    ∀ (fuel k : Nat) (total : Int) (st : State) (r : Int × State),
      (∀ v, v < env.original_graph.n → st.sol v < env.num_terminals) →
      improveLoop env fuel k total st = some r →
      (cutWeight env.original_graph r.2.sol : Int) + r.1 =
        cutWeight env.original_graph st.sol + total ∧
      total ≤ r.1 ∧
      (∀ v, v < env.original_graph.n → r.2.sol v < env.num_terminals) := by
  intro fuel
  induction fuel with
  | zero =>
    intro k total st r _ h
    simp [improveLoop] at h
  | succ fuel ih =>
    intro k total st r hv h
    obtain ⟨rf, hrf, hcut, hpos, hv2⟩ :=
      flowLocalSearch_exact env hs hsolver hshuffle hblocks k st hv
    obtain ⟨gcut, gpos, gv, -⟩ := gainLocalSearch_exact env hs hw k rf.2 hv2
    unfold improveLoop at h
    rw [hrf] at h
    simp only at h
    split at h
    · obtain ⟨a1, a2, a3⟩ := ih _ _ _ r gv h
      exact ⟨by omega, by omega, a3⟩
    · simp only [Option.some.injEq] at h
      subst h
      exact ⟨by simp only; omega, by simp only; omega, gv⟩

theorem improveLoop_returns (env : Env) (hs : Simple env.original_graph)
    (hw : WeightBound env.original_graph)
    (hsolver : MinCutSolver env.solver)
    (hshuffle : ∀ k l, (env.shuffle k l).Perm l)
    (hblocks : env.num_blocks ≤ env.num_terminals) :
    ∀ (fuel k : Nat) (total : Int) (st : State),
      (∀ v, v < env.original_graph.n → st.sol v < env.num_terminals) →
      cutWeight env.original_graph st.sol < fuel →
      ∃ r, improveLoop env fuel k total st = some r := by
  intro fuel
  induction fuel with
  | zero =>
    intro k total st _ h
    omega
  | succ fuel ih =>
    intro k total st hv hf
    obtain ⟨rf, hrf, hcut, hpos, hv2⟩ :=
      flowLocalSearch_exact env hs hsolver hshuffle hblocks k st hv
    obtain ⟨gcut, gpos, gv, -⟩ := gainLocalSearch_exact env hs hw k rf.2 hv2
    unfold improveLoop
    rw [hrf]
    simp only
    split
    · rename_i hne
      apply ih _ _ _ gv
      omega
    · exact ⟨_, rfl⟩

end local_search

namespace local_search
open mutable_graph

theorem pickMin_spec (H : mutable_graph) (l : List (List Nat)) :
    ∀ b : List Nat,
      (l.foldl (fun b c => if cutOf H c < cutOf H b then c else b) b = b ∨
        l.foldl (fun b c => if cutOf H c < cutOf H b then c else b) b ∈ l) ∧
      cutOf H (l.foldl (fun b c => if cutOf H c < cutOf H b then c else b) b) ≤ cutOf H b ∧
      ∀ c ∈ l, cutOf H (l.foldl (fun b c => if cutOf H c < cutOf H b then c else b) b)
        ≤ cutOf H c := by
  induction l with
  | nil => intro b; simp
  | cons a l ih =>
    intro b
    simp only [List.foldl_cons]
    obtain ⟨h1, h2, h3⟩ := ih (if cutOf H a < cutOf H b then a else b)
    refine ⟨?_, ?_, ?_⟩
    · rcases h1 with h | h
      · rw [h]
        by_cases hc : cutOf H a < cutOf H b
        · rw [if_pos hc]; right; exact List.mem_cons_self _ _
        · rw [if_neg hc]; left; rfl
      · right; exact List.mem_cons_of_mem _ h
    · refine le_trans h2 ?_
      split <;> omega
    · intro c hc
      rcases List.mem_cons.mp hc with rfl | hc
      · refine le_trans h2 ?_
        split <;> omega
      · exact h3 c hc

theorem cutOf_congr (H : mutable_graph) (s s' : List Nat)
    (h : ∀ v ∈ cutUniverse H, (v ∈ s ↔ v ∈ s')) : cutOf H s = cutOf H s' := by
  unfold cutOf
  congr 1
  apply List.map_congr_left
  intro u hu
  congr 1
  apply List.map_congr_left
  intro ed hed
  have h1 := h u (by unfold cutUniverse; exact List.mem_append_left _ hu)
  have h2 := h ed.target (by
    unfold cutUniverse
    apply List.mem_append_right
    rw [List.mem_flatMap]
    exact ⟨u, hu, List.mem_map_of_mem _ hed⟩)
  by_cases a1 : u ∈ s <;> by_cases a2 : ed.target ∈ s
  · simp [a1, a2, h1.mp a1, h2.mp a2]
  · simp [a1, a2, h1.mp a1, (not_congr h2).mp a2]
  · simp [a1, a2, (not_congr h1).mp a1, h2.mp a2]
  · simp [a1, a2, (not_congr h1).mp a1, (not_congr h2).mp a2]

theorem mem_cutCandidates (H : mutable_graph) (c : List Nat) (hc : c ∈ cutCandidates H) :
    0 ∈ c ∧ 1 ∉ c := by
  unfold cutCandidates at hc
  rw [List.mem_map] at hc
  obtain ⟨d, hd, rfl⟩ := hc
  rw [List.mem_sublists] at hd
  refine ⟨List.mem_cons_self _ _, ?_⟩
  intro h1
  rcases List.mem_cons.mp h1 with h | h
  · omega
  · have := hd.subset h
    simp at this

/-- The exhaustive solver returns the value and the source side of a minimum
cut between node 0 and node 1. -/
theorem exhaustiveSolver_spec : MinCutSolver exhaustiveSolver := by
  intro H
  obtain ⟨h1, -, h3⟩ := pickMin_spec H (cutCandidates H) [0]
  refine ⟨?_, ?_, rfl, ?_⟩
  · show 0 ∈ (cutCandidates H).foldl _ [0]
    rcases h1 with h | h
    · rw [h]; simp
    · exact (mem_cutCandidates H _ h).1
  · show 1 ∉ (cutCandidates H).foldl _ [0]
    rcases h1 with h | h
    · rw [h]; simp
    · exact (mem_cutCandidates H _ h).2
  · intro s s0 s1
    show cutOf H ((cutCandidates H).foldl _ [0]) ≤ cutOf H s
    have hmem : (0 :: ((cutUniverse H).filter (fun v => decide (v ≠ 0 ∧ v ≠ 1))).filter
        (fun v => decide (v ∈ s))) ∈ cutCandidates H := by
      unfold cutCandidates
      apply List.mem_map_of_mem
      rw [List.mem_sublists]
      exact List.filter_sublist _
    refine le_trans (h3 _ hmem) (le_of_eq ?_)
    apply cutOf_congr
    intro v hv
    simp only [List.mem_cons, List.mem_filter, decide_eq_true_eq]
    constructor
    · rintro (h | h)
      · rw [h]; exact s0
      · exact h.2
    · intro h
      by_cases hv0 : v = 0
      · left; exact hv0
      · right
        refine ⟨⟨hv, hv0, ?_⟩, h⟩
        intro hv1
        rw [hv1] at h
        exact s1 h

theorem pathEnv_simple : Simple pathEnv.original_graph := by
  have he : ∀ u, pathEnv.original_graph.edgesOf u =
      if u = 0 then [{ target := 1, weight := 1 }]
      else if u = 1 then [{ target := 0, weight := 1 }, { target := 2, weight := 1 }]
      else if u = 2 then [{ target := 1, weight := 1 }] else [] := by
    intro u
    rcases u with _ | _ | _ | u
    · rfl
    · rfl
    · rfl
    · rfl
  have hn : pathEnv.original_graph.n = 3 := rfl
  refine ⟨?_, ?_, ?_⟩
  · intro u ed hed
    rw [he] at hed
    rw [hn]
    split at hed
    · simp at hed; subst hed; simp; omega
    · split at hed
      · simp at hed; rcases hed with rfl | rfl <;> simp <;> omega
      · split at hed
        · simp at hed; subst hed; simp; omega
        · simp at hed
  · intro u
    rw [he]
    split
    · simp
    · split
      · simp
      · split <;> simp
  · intro u ed hed
    rw [he] at hed
    rw [he]
    split at hed
    · simp at hed; subst hed; simp [*]
    · split at hed
      · simp at hed; rcases hed with rfl | rfl <;> simp [*]
      · split at hed
        · simp at hed; subst hed; simp [*]
        · simp at hed

/-- C3, as amended (non-increasing cut): on a simple undirected weighted graph
whose weighted degrees sum to less than `2^63`, with a solution whose block ids
are below `num_terminals`, any fixed-vertex marking and a solver that returns
the value and the source side of a minimum cut between node 0 and node 1,
`improveSolution` returns (the loop ends within `cutWeight + 1` iterations),
and whenever it returns, the cut weight after the call is at most the cut
weight before it, the returned total is not negative and is exactly the
decrease of the cut weight; the values returned by `flowLocalSearch` and
`gainLocalSearch` on such a state are not negative either. -/
theorem improveSolution_non_increasing (env : Env) (hs : Simple env.original_graph)
    (hw : WeightBound env.original_graph)
    (hsolver : MinCutSolver env.solver)
    (hshuffle : ∀ k l, (env.shuffle k l).Perm l)
    (hblocks : env.num_blocks ≤ env.num_terminals) (st : State)
    (hvalid : ∀ v, v < env.original_graph.n → st.sol v < env.num_terminals) :
    (∃ r, improveSolution env (cutWeight env.original_graph st.sol + 1) st = some r) ∧
    (∀ fuel r, improveSolution env fuel st = some r →
      cutWeight env.original_graph r.2.sol ≤ cutWeight env.original_graph st.sol ∧
      0 ≤ r.1 ∧
      (cutWeight env.original_graph r.2.sol : Int) + r.1 = cutWeight env.original_graph st.sol ∧
      (∀ v, v < env.original_graph.n → r.2.sol v < env.num_terminals)) ∧
    (∀ k, (∃ rf, flowLocalSearch env k st = some rf ∧ 0 ≤ rf.1) ∧
      0 ≤ (gainLocalSearch env k st).1) := by
  refine ⟨?_, ?_, ?_⟩
  · exact improveLoop_returns env hs hw hsolver hshuffle hblocks _ 0 0 st hvalid (by omega)
  · intro fuel r h
    obtain ⟨a1, a2, a3⟩ := improveLoop_sound env hs hw hsolver hshuffle hblocks fuel 0 0 st r hvalid h
    exact ⟨by omega, a2, by omega, a3⟩
  · intro k
    obtain ⟨rf, hrf, -, hpos, -⟩ := flowLocalSearch_exact env hs hsolver hshuffle hblocks k st hvalid
    exact ⟨⟨rf, hrf, hpos⟩, (gainLocalSearch_exact env hs hw k st hvalid).2.1⟩

/-- An instance of C3: the path 0 - 1 - 2 with the exhaustive minimum-cut
solver. -/
theorem improveSolution_non_increasing_witness :
    (Simple pathEnvExact.original_graph ∧ WeightBound pathEnvExact.original_graph ∧
      MinCutSolver pathEnvExact.solver ∧
      (∀ k l, (pathEnvExact.shuffle k l).Perm l) ∧
      pathEnvExact.num_blocks ≤ pathEnvExact.num_terminals ∧
      (∀ v, v < pathEnvExact.original_graph.n → pathState.sol v < pathEnvExact.num_terminals)) ∧
    ((∃ r, improveSolution pathEnvExact
        (cutWeight pathEnvExact.original_graph pathState.sol + 1) pathState = some r) ∧
    (∀ fuel r, improveSolution pathEnvExact fuel pathState = some r →
      cutWeight pathEnvExact.original_graph r.2.sol ≤
        cutWeight pathEnvExact.original_graph pathState.sol ∧
      0 ≤ r.1 ∧
      (cutWeight pathEnvExact.original_graph r.2.sol : Int) + r.1 =
        cutWeight pathEnvExact.original_graph pathState.sol ∧
      (∀ v, v < pathEnvExact.original_graph.n → r.2.sol v < pathEnvExact.num_terminals)) ∧
    (∀ k, (∃ rf, flowLocalSearch pathEnvExact k pathState = some rf ∧ 0 ≤ rf.1) ∧
      0 ≤ (gainLocalSearch pathEnvExact k pathState).1)) :=
  ⟨⟨pathEnv_simple, by unfold WeightBound; decide, exhaustiveSolver_spec, fun _ _ => List.Perm.refl _, le_refl _,
      fun v _ => by unfold pathState; simp only; split <;> decide⟩,
    improveSolution_non_increasing pathEnvExact pathEnv_simple (by unfold WeightBound; decide) exhaustiveSolver_spec
      (fun _ _ => List.Perm.refl _) (le_refl _) pathState
      (fun v _ => by unfold pathState; simp only; split <;> decide)⟩

end local_search

namespace mutable_graph

theorem deleteVertex_n (G : mutable_graph) (v : Nat) (hv : v < G.n) :
    (G.deleteVertex v).n = G.n - 1 := by
  unfold deleteVertex
  rw [if_pos hv]
  simp [n]

theorem mergeInto_n (G : mutable_graph) (r v : Nat) (h : r < G.n ∧ v < G.n ∧ r ≠ v) :
    (G.mergeInto r v).n = G.n - 1 := by
  unfold mergeInto
  rw [if_pos h]
  simp only
  rw [deleteVertex_n]
  · simp [n]
  · simp only [n, List.length_set, List.length_map]
    exact h.2.1

theorem deleteVertex_pos (G : mutable_graph) (v c : Nat) (hv : v < G.n) :
    (G.deleteVertex v).current_position c =
      match G.current_position c with
      | none => none
      | some p => if p = v then none else if p = G.n - 1 then some v else some p := by
  unfold deleteVertex
  rw [if_pos hv]

theorem mergeInto_pos (G : mutable_graph) (r v c : Nat) :
    (G.mergeInto r v).current_position c = (G.current_position c).map (mergeMap G.n r v) := by
  unfold mergeInto mergeMap
  by_cases h : r < G.n ∧ v < G.n ∧ r ≠ v
  · rw [if_pos h]
    simp only [if_pos h]
    rw [deleteVertex_pos _ _ _ (by simp only [n, List.length_set, List.length_map]; exact h.2.1)]
    simp only [n, List.length_set, List.length_map]
    cases hc : G.current_position c with
    | none => simp
    | some p =>
      simp only [Option.map_some']
      by_cases hp : p = v
      · simp only [hp, if_true]
        rw [if_neg h.2.2]
        split <;> rfl
      · simp only [if_neg hp]
        split <;> rfl
  · rw [if_neg h]
    simp only [if_neg h]
    cases G.current_position c <;> simp

theorem mergeMap_lt (n r v p : Nat) (h : r < n ∧ v < n ∧ r ≠ v) (hp : p < n) :
    mergeMap n r v p < n - 1 := by
  unfold mergeMap
  rw [if_pos h]
  by_cases a : p = v
  · simp only [a, if_true]
    split <;> omega
  · simp only [if_neg a]
    split <;> omega

theorem mergeMap_inj (n r v p q : Nat) (h : r < n ∧ v < n ∧ r ≠ v)
    (he : mergeMap n r v p = mergeMap n r v q) :
    p = q ∨ ((p = r ∨ p = v) ∧ (q = r ∨ q = v)) := by
  unfold mergeMap at he
  rw [if_pos h, if_pos h] at he
  by_cases a : p = v <;> by_cases b : q = v
  · omega
  · simp only [a, if_true, if_neg b] at he
    split at he <;> split at he <;> omega
  · simp only [b, if_true, if_neg a] at he
    split at he <;> split at he <;> omega
  · simp only [if_neg a, if_neg b] at he
    split at he <;> split at he <;> omega

theorem find_range (p : Nat → Bool) :
    ∀ n r, (List.range n).find? p = some r → r < n ∧ p r = true ∧ ∀ x, x < r → p x = false := by
  intro n
  induction n with
  | zero => intro r h; simp at h
  | succ n ih =>
    intro r h
    rw [List.range_succ, List.find?_append] at h
    cases hf : (List.range n).find? p with
    | some r1 =>
      rw [hf] at h
      simp at h
      subst h
      obtain ⟨a1, a2, a3⟩ := ih r1 hf
      exact ⟨by omega, a2, a3⟩
    | none =>
      rw [hf] at h
      simp only [Option.none_or, Option.or] at h
      have hn := List.find?_eq_none.mp hf
      by_cases hp : p n = true
      · simp only [List.find?_cons, hp, Option.some.injEq] at h
        subst h
        refine ⟨by omega, hp, ?_⟩
        intro x hx
        have := hn x (List.mem_range.mpr hx)
        simpa using this
      · simp [List.find?_cons, hp] at h

theorem find_range_none (p : Nat → Bool) (n : Nat) (h : (List.range n).find? p = none) :
    ∀ x, x < n → p x = false := by
  intro x hx
  have := List.find?_eq_none.mp h x (List.mem_range.mpr hx)
  simpa using this

end mutable_graph

namespace heavy_edges
open mutable_graph

theorem foldl_invariant {σ α : Type} (f : σ → α → σ) (P : σ → Prop) (l : List α) :
    ∀ s0, P s0 → (∀ s a, a ∈ l → P s → P (f s a)) → P (l.foldl f s0) := by
  induction l with
  | nil => intro s0 h0 _; exact h0
  | cons a l ih =>
    intro s0 h0 hstep
    simp only [List.foldl_cons]
    exact ih _ (hstep s0 a (List.mem_cons_self _ _) h0)
      (fun s b hb hs => hstep s b (List.mem_cons_of_mem _ hb) hs)

theorem foldl_hit {σ α : Type} (f : σ → α → σ) (R : σ → Prop) (a0 : α)
    (hmono : ∀ s a, R s → R (f s a)) (hhit : ∀ s, R (f s a0)) (l : List α) (hl : a0 ∈ l) :
    ∀ s0, R (l.foldl f s0) := by
  induction l with
  | nil => simp at hl
  | cons a l ih =>
    intro s0
    simp only [List.foldl_cons]
    rcases List.mem_cons.mp hl with h | h
    · subst h
      exact foldl_invariant f R l _ (hhit s0) (fun s b _ hs => hmono s b hs)
    · exact ih h _

theorem addContract_mono (c : List (Nat × List Nat)) (mn mx a b : Nat)
    (h : ∃ g ∈ c, a ∈ g.1 :: g.2 ∧ b ∈ g.1 :: g.2) :
    ∃ g ∈ addContract c mn mx, a ∈ g.1 :: g.2 ∧ b ∈ g.1 :: g.2 := by
  obtain ⟨g, hg, ha, hb⟩ := h
  unfold addContract
  split
  · by_cases hk : g.1 = mn
    · refine ⟨(g.1, g.2 ++ [mx]), ?_, ?_, ?_⟩
      · rw [List.mem_map]
        exact ⟨g, hg, by rw [if_pos hk]⟩
      · simp only [List.mem_cons, List.mem_append] at ha ⊢
        rcases ha with h | h
        · exact Or.inl h
        · exact Or.inr (Or.inl h)
      · simp only [List.mem_cons, List.mem_append] at hb ⊢
        rcases hb with h | h
        · exact Or.inl h
        · exact Or.inr (Or.inl h)
    · refine ⟨g, ?_, ha, hb⟩
      rw [List.mem_map]
      exact ⟨g, hg, by rw [if_neg hk]⟩
  · exact ⟨g, List.mem_append_left _ hg, ha, hb⟩

theorem addContract_new (c : List (Nat × List Nat)) (mn mx : Nat) :
    ∃ g ∈ addContract c mn mx, mn ∈ g.1 :: g.2 ∧ mx ∈ g.1 :: g.2 := by
  unfold addContract
  split
  · rename_i h
    rw [List.any_eq_true] at h
    obtain ⟨g, hg, hk⟩ := h
    have hk2 : g.1 = mn := by simpa using hk
    refine ⟨(g.1, g.2 ++ [mx]), ?_, ?_, ?_⟩
    · rw [List.mem_map]
      exact ⟨g, hg, by rw [if_pos hk2]⟩
    · simp [hk2]
    · simp
  · refine ⟨(mn, [mx]), ?_, ?_, ?_⟩
    · simp
    · simp
    · simp

theorem addContract_mem (c : List (Nat × List Nat)) (mn mx : Nat) (g : Nat × List Nat)
    (hg : g ∈ addContract c mn mx) (x : Nat) (hx : x ∈ g.1 :: g.2) :
    x = mn ∨ x = mx ∨ ∃ g1 ∈ c, x ∈ g1.1 :: g1.2 := by
  unfold addContract at hg
  split at hg
  · rw [List.mem_map] at hg
    obtain ⟨g1, hg1, he⟩ := hg
    split at he
    · subst he
      simp only [List.mem_cons, List.mem_append, List.mem_singleton, List.mem_nil_iff,
        or_false] at hx
      rcases hx with h | h | h
      · exact Or.inr (Or.inr ⟨g1, hg1, by rw [h]; exact List.mem_cons_self _ _⟩)
      · exact Or.inr (Or.inr ⟨g1, hg1, List.mem_cons_of_mem _ h⟩)
      · exact Or.inr (Or.inl h)
    · subst he
      exact Or.inr (Or.inr ⟨g1, hg1, hx⟩)
  · rcases List.mem_append.mp hg with h | h
    · exact Or.inr (Or.inr ⟨g, h, hx⟩)
    · simp only [List.mem_singleton] at h
      subst h
      simp only [List.mem_cons, List.mem_singleton, List.mem_nil_iff, or_false] at hx
      rcases hx with h | h
      · exact Or.inl h
      · exact Or.inr (Or.inl h)

theorem headD_mem (l : List Nat) (h : l.isEmpty = false) : l.headD 0 ∈ l := by
  cases l with
  | nil => simp at h
  | cons a l => simp

/-- The contract groups and marks after one edge of the scan, in terms of the
state before. -/
theorem scanEdge_spec (mincut : Nat) (G : mutable_graph) (n : Nat) (st : Scan) (ed : Edge) :
    (∀ a b, (∃ g ∈ st.contract, a ∈ g.1 :: g.2 ∧ b ∈ g.1 :: g.2) →
      ∃ g ∈ (scanEdge mincut G n st ed).contract, a ∈ g.1 :: g.2 ∧ b ∈ g.1 :: g.2) ∧
    (G.isEmpty ed.target = false → ed.weight > mincut →
      ∃ g ∈ (scanEdge mincut G n st ed).contract,
        (G.containedVertices n).headD 0 ∈ g.1 :: g.2 ∧
        (G.containedVertices ed.target).headD 0 ∈ g.1 :: g.2) ∧
    (∀ g ∈ (scanEdge mincut G n st ed).contract, ∀ x ∈ g.1 :: g.2,
      (G.isEmpty ed.target = false ∧ ed.weight > mincut ∧
        (x = (G.containedVertices n).headD 0 ∨ x = (G.containedVertices ed.target).headD 0)) ∨
      ∃ g1 ∈ st.contract, x ∈ g1.1 :: g1.2) ∧
    (∀ e ∈ (scanEdge mincut G n st ed).markForCactus,
      e ∈ st.markForCactus ∨
      (e = (G.containedVertices n).headD 0 ∧ ed.weight = mincut ∧
        G.get_first_invalid_edge n = 1)) := by
  unfold scanEdge
  by_cases hE : G.isEmpty ed.target = true
  · rw [if_pos hE]
    refine ⟨fun a b h => h, ?_, ?_, fun e he => Or.inl he⟩
    · intro h; rw [hE] at h; exact absurd h (by simp)
    · intro g hg x hx
      exact Or.inr ⟨g, hg, hx⟩
  · rw [if_neg hE]
    have hE2 : G.isEmpty ed.target = false := by simpa using hE
    simp only
    by_cases hw : ed.weight > mincut
    · rw [if_pos hw]
      have hne : ¬ (ed.weight = mincut ∧ G.get_first_invalid_edge n = 1) := by omega
      rw [if_neg hne]
      refine ⟨?_, ?_, ?_, fun e he => Or.inl he⟩
      · intro a b h
        exact addContract_mono _ _ _ a b h
      · intro _ _
        obtain ⟨g, hg, h1, h2⟩ := addContract_new st.contract
          (min ((G.containedVertices n).headD 0) ((G.containedVertices ed.target).headD 0))
          (max ((G.containedVertices n).headD 0) ((G.containedVertices ed.target).headD 0))
        refine ⟨g, hg, ?_, ?_⟩
        · rcases Nat.le_total ((G.containedVertices n).headD 0)
            ((G.containedVertices ed.target).headD 0) with h | h
          · rw [Nat.min_eq_left h] at h1; exact h1
          · rw [Nat.max_eq_left h] at h2; exact h2
        · rcases Nat.le_total ((G.containedVertices n).headD 0)
            ((G.containedVertices ed.target).headD 0) with h | h
          · rw [Nat.max_eq_right h] at h2; exact h2
          · rw [Nat.min_eq_right h] at h1; exact h1
      · intro g hg x hx
        rcases addContract_mem _ _ _ g hg x hx with h | h | h
        · left
          refine ⟨hE2, hw, ?_⟩
          rw [h]
          rcases Nat.le_total ((G.containedVertices n).headD 0)
            ((G.containedVertices ed.target).headD 0) with h | h
          · left; exact Nat.min_eq_left h
          · right; exact Nat.min_eq_right h
        · left
          refine ⟨hE2, hw, ?_⟩
          rw [h]
          rcases Nat.le_total ((G.containedVertices n).headD 0)
            ((G.containedVertices ed.target).headD 0) with h | h
          · right; exact Nat.max_eq_right h
          · left; exact Nat.max_eq_left h
        · exact Or.inr h
    · rw [if_neg hw]
      refine ⟨?_, fun _ h => absurd h hw, ?_, ?_⟩
      · intro a b h
        split <;> exact h
      · intro g hg x hx
        right
        refine ⟨g, ?_, hx⟩
        split at hg <;> exact hg
      · intro e he
        split at he
        · rename_i hm
          simp only [List.mem_append, List.mem_singleton] at he
          rcases he with h | h
          · exact Or.inl h
          · exact Or.inr ⟨h, hm.1, hm.2⟩
        · exact Or.inl he

theorem scan_records (mincut : Nat) (G : mutable_graph)
    (hne : ∀ n, n < G.n → G.isEmpty n = false) (hund : Undirected G)
    (u : Nat) (ed : Edge) (hed : ed ∈ G.edgesOf u) (hw : ed.weight > mincut) :
    ∃ g ∈ (scan mincut G).contract,
      (G.containedVertices u).headD 0 ∈ g.1 :: g.2 ∧
      (G.containedVertices ed.target).headD 0 ∈ g.1 :: g.2 := by
  have hu : u < G.n := by
    by_contra hc
    rw [local_search.edgesOf_oob G u (by omega)] at hed
    simp at hed
  have hmonoE : ∀ n (l : List Edge) (st : Scan),
      (∃ g ∈ st.contract, (G.containedVertices u).headD 0 ∈ g.1 :: g.2 ∧
        (G.containedVertices ed.target).headD 0 ∈ g.1 :: g.2) →
      ∃ g ∈ (l.foldl (scanEdge mincut G n) st).contract,
        (G.containedVertices u).headD 0 ∈ g.1 :: g.2 ∧
        (G.containedVertices ed.target).headD 0 ∈ g.1 :: g.2 := by
    intro n l st h
    exact foldl_invariant (scanEdge mincut G n)
      (fun s => ∃ g ∈ s.contract, (G.containedVertices u).headD 0 ∈ g.1 :: g.2 ∧
        (G.containedVertices ed.target).headD 0 ∈ g.1 :: g.2) l st h
      (fun s a _ hs => (scanEdge_spec mincut G n s a).1 _ _ hs)
  unfold scan
  apply foldl_hit (scanNode mincut G)
    (fun s => ∃ g ∈ s.contract, (G.containedVertices u).headD 0 ∈ g.1 :: g.2 ∧
        (G.containedVertices ed.target).headD 0 ∈ g.1 :: g.2) u
  · intro s n hs
    unfold scanNode
    split
    · exact hs
    · exact hmonoE n _ s hs
  · intro s
    unfold scanNode
    rw [if_neg (by rw [hne u hu]; simp)]
    apply foldl_hit (scanEdge mincut G u)
      (fun s => ∃ g ∈ s.contract, (G.containedVertices u).headD 0 ∈ g.1 :: g.2 ∧
        (G.containedVertices ed.target).headD 0 ∈ g.1 :: g.2) ed
    · intro s a hs
      exact (scanEdge_spec mincut G u s a).1 _ _ hs
    · intro s
      exact (scanEdge_spec mincut G u s ed).2.1 (hne _ (hund u ed hed).1) hw
    · exact hed
  · simpa [nodes] using hu

theorem scan_members (mincut : Nat) (G : mutable_graph) (hpos : Positioned G)
    (hund : Undirected G) :
    (∀ g ∈ (scan mincut G).contract, ∀ x ∈ g.1 :: g.2,
      ∃ m, G.current_position x = some m ∧ Heavy mincut G m ∧ m < G.n) ∧
    (∀ e ∈ (scan mincut G).markForCactus,
      ∃ m, G.current_position e = some m ∧ ¬ Heavy mincut G m ∧ m < G.n) := by
  unfold scan
  apply foldl_invariant (scanNode mincut G)
    (fun s => (∀ g ∈ s.contract, ∀ x ∈ g.1 :: g.2,
      ∃ m, G.current_position x = some m ∧ Heavy mincut G m ∧ m < G.n) ∧
    (∀ e ∈ s.markForCactus,
      ∃ m, G.current_position e = some m ∧ ¬ Heavy mincut G m ∧ m < G.n))
  · exact ⟨fun g hg => by simp at hg, fun e he => by simp at he⟩
  · intro s n hn hs
    have hn2 : n < G.n := by simpa [nodes] using hn
    unfold scanNode
    split
    · exact hs
    · rename_i hE
      have hE2 : G.isEmpty n = false := by simpa using hE
      have hhead : G.current_position ((G.containedVertices n).headD 0) = some n :=
        hpos n _ (headD_mem _ hE2)
      apply foldl_invariant (scanEdge mincut G n)
        (fun s => (∀ g ∈ s.contract, ∀ x ∈ g.1 :: g.2,
          ∃ m, G.current_position x = some m ∧ Heavy mincut G m ∧ m < G.n) ∧
        (∀ e ∈ s.markForCactus,
          ∃ m, G.current_position e = some m ∧ ¬ Heavy mincut G m ∧ m < G.n))
      · exact hs
      · intro s1 ed hed ⟨h1, h2⟩
        obtain ⟨-, -, a3, a4⟩ := scanEdge_spec mincut G n s1 ed
        refine ⟨?_, ?_⟩
        · intro g hg x hx
          rcases a3 g hg x hx with ⟨hT, hw, hx2⟩ | ⟨g1, hg1, hx1⟩
          · rcases hx2 with h | h
            · rw [h]
              exact ⟨n, hhead, ⟨ed, hed, hw⟩, hn2⟩
            · rw [h]
              refine ⟨ed.target, hpos _ _ (headD_mem _ hT), ?_, (hund n ed hed).1⟩
              exact ⟨_, (hund n ed hed).2, hw⟩
          · exact h1 g1 hg1 x hx1
        · intro e he
          rcases a4 e he with h | ⟨h, hw, hdeg⟩
          · exact h2 e h
          · rw [h]
            refine ⟨n, hhead, ?_, hn2⟩
            rintro ⟨ed1, hed1, hw1⟩
            unfold get_first_invalid_edge at hdeg
            have : ed1 = ed := by
              match hl : G.edgesOf n, hdeg with
              | [x], _ =>
                rw [hl] at hed hed1
                simp only [List.mem_singleton] at hed hed1
                rw [hed, hed1]
            rw [this] at hw1
            omega

end heavy_edges

namespace heavy_edges
open mutable_graph

theorem mem_eraseDups_loop (as : List Nat) :
    ∀ (bs : List Nat) (x : Nat), x ∈ List.eraseDups.loop as bs ↔ x ∈ as ∨ x ∈ bs := by
  induction as with
  | nil =>
    intro bs x
    simp [List.eraseDups.loop]
  | cons a as ih =>
    intro bs x
    unfold List.eraseDups.loop
    cases hb : bs.elem a
    · simp only
      rw [ih]
      simp only [List.mem_cons]
      tauto
    · simp only
      rw [ih]
      have : a ∈ bs := by simpa using hb
      simp only [List.mem_cons]
      constructor
      · tauto
      · rintro ((h | h) | h)
        · right; rw [h]; exact this
        · left; exact h
        · right; exact h

theorem mem_eraseDups (l : List Nat) (x : Nat) : x ∈ l.eraseDups ↔ x ∈ l := by
  unfold List.eraseDups
  rw [mem_eraseDups_loop]
  simp

theorem mapM_some (F : Nat → Option Nat) (l : List Nat) (h : ∀ c ∈ l, ∃ p, F c = some p) :
    ∃ ps, l.mapM F = some ps ∧ (∀ c ∈ l, ∀ p, F c = some p → p ∈ ps) ∧
      (∀ p ∈ ps, ∃ c ∈ l, F c = some p) := by
  induction l with
  | nil => exact ⟨[], rfl, fun c hc => by simp at hc, fun p hp => by simp at hp⟩
  | cons a l ih =>
    obtain ⟨ps, h1, h2, h3⟩ := ih (fun c hc => h c (List.mem_cons_of_mem _ hc))
    obtain ⟨p, hp⟩ := h a (List.mem_cons_self _ _)
    refine ⟨p :: ps, ?_, ?_, ?_⟩
    · rw [List.mapM_cons, hp, h1]
      rfl
    · intro c hc q hq
      rcases List.mem_cons.mp hc with rfl | hc
      · rw [hp] at hq
        simp only [Option.some.injEq] at hq
        rw [← hq]; exact List.mem_cons_self _ _
      · exact List.mem_cons_of_mem _ (h2 c hc q hq)
    · intro q hq
      rcases List.mem_cons.mp hq with rfl | hq
      · exact ⟨a, List.mem_cons_self _ _, hp⟩
      · obtain ⟨c, hc, hcq⟩ := h3 q hq
        exact ⟨c, List.mem_cons_of_mem _ hc, hcq⟩

end heavy_edges

namespace heavy_edges
open mutable_graph

theorem deleteLeaf_spec (G1 : mutable_graph) (marks : List Nat)
    (st st1 : mutable_graph × List (Nat × List Nat)) (e : Nat) (he : e ∈ marks)
    (d : Nat → Option Nat)
    (h1 : ∀ c, st.1.current_position c = (G1.current_position c).bind d)
    (h2 : ∀ x y p, d x = some p → d y = some p → x = y)
    (h3 : ∀ x p, x < G1.n → d x = some p → p < st.1.n)
    (h4 : ∀ x, d x = none → ∃ e ∈ marks, G1.current_position e = some x)
    (hmarks : ∀ e ∈ marks, ∀ y, G1.current_position e = some y → y < G1.n)
    (hret : deleteLeaf st e = some st1) :
    ∃ d1 : Nat → Option Nat,
      (∀ c, st1.1.current_position c = (G1.current_position c).bind d1) ∧
      (∀ x y p, d1 x = some p → d1 y = some p → x = y) ∧
      (∀ x p, x < G1.n → d1 x = some p → p < st1.1.n) ∧
      (∀ x, d1 x = none → ∃ e ∈ marks, G1.current_position e = some x) := by
  have hsame : st1 = st → ∃ d1 : Nat → Option Nat,
      (∀ c, st1.1.current_position c = (G1.current_position c).bind d1) ∧
      (∀ x y p, d1 x = some p → d1 y = some p → x = y) ∧
      (∀ x p, x < G1.n → d1 x = some p → p < st1.1.n) ∧
      (∀ x, d1 x = none → ∃ e ∈ marks, G1.current_position e = some x) := by
    intro h
    subst h
    exact ⟨d, h1, h2, h3, h4⟩
  unfold deleteLeaf at hret
  split at hret
  · unfold getCurrentPosition at hret
    cases hpe : st.1.current_position e with
    | none => rw [hpe] at hret; simp at hret
    | some n =>
      rw [hpe] at hret
      simp only at hret
      split at hret
      · simp at hret
      · cases ht : st.1.getEdgeTarget n 0 with
        | none => rw [ht] at hret; simp at hret
        | some t =>
          rw [ht] at hret
          simp only at hret
          split at hret
          · simp only [Option.some.injEq] at hret
            exact hsame hret.symm
          · simp only [Option.some.injEq] at hret
            subst hret
            simp only
            have hn : n < st.1.n := by
              have := h1 e
              rw [hpe] at this
              cases hg : G1.current_position e with
              | none => rw [hg] at this; simp at this
              | some y =>
                rw [hg] at this
                simp only [Option.some_bind] at this
                exact h3 y n (hmarks e he y hg) this.symm
            refine ⟨fun x => (d x).bind (fun p => if p = n then none
              else if p = st.1.n - 1 then some n else some p), ?_, ?_, ?_, ?_⟩
            · intro c
              rw [deleteVertex_pos _ _ _ hn, h1]
              cases G1.current_position c with
              | none => rfl
              | some y =>
                simp only [Option.some_bind]
                cases d y <;> rfl
            · intro x y p hx hy
              simp only at hx hy
              cases hdx : d x with
              | none => rw [hdx] at hx; simp at hx
              | some px =>
                cases hdy : d y with
                | none => rw [hdy] at hy; simp at hy
                | some py =>
                  rw [hdx] at hx
                  rw [hdy] at hy
                  simp only [Option.some_bind] at hx hy
                  have : px = py := by
                    split at hx
                    · simp at hx
                    · split at hx <;> split at hy
                      · simp at hy
                      · split at hy
                        · omega
                        · simp only [Option.some.injEq] at hx hy; omega
                      · simp at hy
                      · split at hy
                        · simp only [Option.some.injEq] at hx hy; omega
                        · simp only [Option.some.injEq] at hx hy; omega
                  rw [this] at hdx
                  exact h2 x y py hdx hdy
            · intro x p hxn hx
              simp only at hx
              cases hdx : d x with
              | none => rw [hdx] at hx; simp at hx
              | some px =>
                rw [hdx] at hx
                simp only [Option.some_bind] at hx
                have := h3 x px hxn hdx
                rw [deleteVertex_n _ _ hn]
                split at hx
                · simp at hx
                · split at hx
                  · simp only [Option.some.injEq] at hx; omega
                  · simp only [Option.some.injEq] at hx; omega
            · intro x hx
              simp only at hx
              cases hdx : d x with
              | none => exact h4 x hdx
              | some px =>
                rw [hdx] at hx
                simp only [Option.some_bind] at hx
                have hpx : px = n := by
                  by_contra hc
                  rw [if_neg hc] at hx
                  split at hx <;> simp at hx
                refine ⟨e, he, ?_⟩
                have := h1 e
                rw [hpe] at this
                cases hg : G1.current_position e with
                | none => rw [hg] at this; simp at this
                | some y =>
                  rw [hg] at this
                  simp only [Option.some_bind] at this
                  rw [hpx] at hdx
                  rw [h2 x y n hdx this.symm]
  · simp only [Option.some.injEq] at hret
    exact hsame hret.symm

theorem deleteLeaves_spec (G1 : mutable_graph) (marks : List Nat)
    (hmarks : ∀ e ∈ marks, ∀ y, G1.current_position e = some y → y < G1.n) (l : List Nat)
    (hl : ∀ e ∈ l, e ∈ marks) :
    ∀ (st st1 : mutable_graph × List (Nat × List Nat)) (d : Nat → Option Nat),
      (∀ c, st.1.current_position c = (G1.current_position c).bind d) →
      (∀ x y p, d x = some p → d y = some p → x = y) →
      (∀ x p, x < G1.n → d x = some p → p < st.1.n) →
      (∀ x, d x = none → ∃ e ∈ marks, G1.current_position e = some x) →
      deleteLeaves l st = some st1 →
      ∃ d1 : Nat → Option Nat,
        (∀ c, st1.1.current_position c = (G1.current_position c).bind d1) ∧
        (∀ x y p, d1 x = some p → d1 y = some p → x = y) ∧
        (∀ x p, x < G1.n → d1 x = some p → p < st1.1.n) ∧
        (∀ x, d1 x = none → ∃ e ∈ marks, G1.current_position e = some x) := by
  induction l with
  | nil =>
    intro st st1 d h1 h2 h3 h4 hret
    simp only [deleteLeaves, Option.some.injEq] at hret
    subst hret
    exact ⟨d, h1, h2, h3, h4⟩
  | cons e l ih =>
    intro st st1 d h1 h2 h3 h4 hret
    unfold deleteLeaves at hret
    cases hd : deleteLeaf st e with
    | none => rw [hd] at hret; simp at hret
    | some st2 =>
      rw [hd] at hret
      simp only at hret
      obtain ⟨d2, a1, a2, a3, a4⟩ := deleteLeaf_spec G1 marks st st2 e
        (hl e (List.mem_cons_self _ _)) d h1 h2 h3 h4 hmarks hd
      exact ih (fun x hx => hl x (List.mem_cons_of_mem _ hx)) st2 st1 d2 a1 a2 a3 a4 hret

end heavy_edges

namespace heavy_edges
open mutable_graph

theorem setEdges_contained (G : mutable_graph) (u x : Nat) (es : List Edge) :
    (G.setEdges u es).containedVertices x = G.containedVertices x := by
  unfold setEdges
  cases h : G.vertices[u]? with
  | none => rfl
  | some vtx =>
    simp only [containedVertices]
    by_cases hx : x = u
    · subst hx
      have hl : x < G.vertices.length := by
        by_contra hc
        rw [List.getElem?_eq_none (by omega)] at h
        simp at h
      rw [List.getElem?_set_self hl, h]
      rfl
    · rw [List.getElem?_set_ne (fun hc => hx hc.symm)]

theorem setEdges_position (G : mutable_graph) (u : Nat) (es : List Edge) :
    (G.setEdges u es).current_position = G.current_position := by
  unfold setEdges
  split <;> rfl

theorem new_edge_order_keeps (G G1 : mutable_graph) (u v w : Nat)
    (h : G.new_edge_order u v w = some G1) :
    (∀ x, G1.containedVertices x = G.containedVertices x) ∧
    G1.current_position = G.current_position := by
  unfold new_edge_order at h
  split at h
  · simp only [Option.some.injEq] at h
    subst h
    refine ⟨?_, ?_⟩
    · intro x
      rw [setEdges_contained, setEdges_contained]
    · rw [setEdges_position, setEdges_position]
  · simp at h

theorem new_edge_order_undirected (G G1 : mutable_graph) (u v w : Nat)
    (h : G.new_edge_order u v w = some G1) (hund : Undirected G) : Undirected G1 := by
  obtain ⟨hu, hv, hn, hE⟩ := local_search.new_edge_order_spec G G1 u v w h
  have hsub : ∀ x ed, ed ∈ G.edgesOf x → ed ∈ G1.edgesOf x := by
    intro x ed hed
    rw [hE]
    apply List.mem_append_left
    split
    · exact List.mem_append_left _ hed
    · exact hed
  intro x ed hed
  rw [hE] at hed
  rw [hn]
  rcases List.mem_append.mp hed with h1 | h1
  · by_cases hx : x = u
    · rw [if_pos hx] at h1
      rcases List.mem_append.mp h1 with h2 | h2
      · exact ⟨(hund x ed h2).1, hsub _ _ (hund x ed h2).2⟩
      · simp only [List.mem_singleton] at h2
        subst h2
        refine ⟨hv, ?_⟩
        rw [hE]
        apply List.mem_append_right
        simp [hx]
    · rw [if_neg hx] at h1
      exact ⟨(hund x ed h1).1, hsub _ _ (hund x ed h1).2⟩
  · by_cases hx : x = v
    · rw [if_pos hx] at h1
      simp only [List.mem_singleton] at h1
      subst h1
      refine ⟨hu, ?_⟩
      rw [hE]
      apply List.mem_append_left
      simp [hx]
    · rw [if_neg hx] at h1
      simp at h1

theorem ofEdges_fold_keeps (es : List (Nat × Nat × Nat)) :
    ∀ G : mutable_graph,
      ((es.foldl (fun G e => (G.new_edge_order e.1 e.2.1 e.2.2).getD G) G).n = G.n) ∧
      (∀ x, (es.foldl (fun G e => (G.new_edge_order e.1 e.2.1 e.2.2).getD G) G).containedVertices x
        = G.containedVertices x) ∧
      (es.foldl (fun G e => (G.new_edge_order e.1 e.2.1 e.2.2).getD G) G).current_position
        = G.current_position ∧
      (Undirected G →
        Undirected (es.foldl (fun G e => (G.new_edge_order e.1 e.2.1 e.2.2).getD G) G)) := by
  induction es with
  | nil => intro G; exact ⟨rfl, fun _ => rfl, rfl, fun h => h⟩
  | cons e es ih =>
    intro G
    simp only [List.foldl_cons]
    cases hnew : G.new_edge_order e.1 e.2.1 e.2.2 with
    | none =>
      simp only [Option.getD_none]
      exact ih G
    | some G1 =>
      simp only [Option.getD_some]
      obtain ⟨a1, a2, a3, a4⟩ := ih G1
      obtain ⟨b1, b2⟩ := new_edge_order_keeps G G1 _ _ _ hnew
      have b3 := (local_search.new_edge_order_spec G G1 _ _ _ hnew).2.2.1
      refine ⟨by rw [a1, b3], ?_, by rw [a3, b2], ?_⟩
      · intro x; rw [a2, b1]
      · intro hu
        exact a4 (new_edge_order_undirected G G1 _ _ _ hnew hu)

/-- The graphs built by `ofEdges` are undirected, every node is non-empty and
the positions agree with the contained lists. -/
theorem ofEdges_wf (k : Nat) (es : List (Nat × Nat × Nat)) :
    Positioned (ofEdges k es) ∧ (∀ n, n < (ofEdges k es).n → (ofEdges k es).isEmpty n = false) ∧
    Undirected (ofEdges k es) ∧ (ofEdges k es).n = k := by
  obtain ⟨a1, a2, a3, a4⟩ := ofEdges_fold_keeps es
    { vertices := (List.range k).map (fun i => ({ contained := [i], edges := [] } : Vertex))
      current_position := fun c => if c < k then some c else none }
  have hc : ∀ x, (ofEdges k es).containedVertices x = if x < k then [x] else [] := by
    intro x
    unfold ofEdges
    rw [a2]
    unfold containedVertices
    by_cases hx : x < k
    · simp [hx]
    · rw [List.getElem?_eq_none (by simp; omega)]
      simp [hx]
  have hn : (ofEdges k es).n = k := by
    unfold ofEdges
    rw [a1]
    simp [n]
  refine ⟨?_, ?_, ?_, hn⟩
  · intro x c hcx
    rw [hc] at hcx
    unfold ofEdges
    rw [a3]
    by_cases hx : x < k
    · rw [if_pos hx] at hcx
      simp only [List.mem_singleton] at hcx
      subst hcx
      simp [hx]
    · rw [if_neg hx] at hcx
      simp at hcx
  · intro x hx
    rw [hn] at hx
    unfold isEmpty
    rw [hc, if_pos hx]
    rfl
  · unfold ofEdges
    apply a4
    intro u ed hed
    exfalso
    unfold edgesOf at hed
    by_cases hu : u < k
    · simp [hu] at hed
    · rw [List.getElem?_eq_none (by simp; omega)] at hed
      simp at hed

end heavy_edges

namespace heavy_edges
open mutable_graph

end heavy_edges

namespace mutable_graph

theorem deleteVertex_vertex (G : mutable_graph) (v x : Nat) (hv : v < G.n) (hx : x < G.n)
    (hxv : x ≠ v) :
    (G.deleteVertex v).vertices[if x = G.n - 1 then v else x]? =
      (G.vertices[x]?).map (fun vtx => ({ vtx with
        edges := retarget (G.n - 1) v (vtx.edges.filter (fun ed => ed.target != v)) } : Vertex)) := by
  unfold deleteVertex
  rw [if_pos hv]
  simp only
  have hv2 : v < G.vertices.length := hv
  have hx2 : x < G.vertices.length := hx
  rw [List.getElem?_dropLast]
  simp only [List.length_set, List.length_map, n]
  by_cases hl : x = G.vertices.length - 1
  · rw [if_pos hl, if_pos (by omega)]
    rw [List.getElem?_set_self (by simpa using hv2)]
    rw [List.getElem?_map, ← hl, List.getElem?_eq_getElem hx2]
    rfl
  · rw [if_neg hl, if_pos (by omega)]
    rw [List.getElem?_set_ne (fun h => hxv h.symm), List.getElem?_map]

theorem deleteVertex_node (G : mutable_graph) (v x : Nat) (hv : v < G.n) (hx : x < G.n)
    (hxv : x ≠ v) :
    (G.deleteVertex v).containedVertices (if x = G.n - 1 then v else x) = G.containedVertices x ∧
    (G.deleteVertex v).edgesOf (if x = G.n - 1 then v else x) =
      retarget (G.n - 1) v ((G.edgesOf x).filter (fun ed => ed.target != v)) := by
  unfold containedVertices edgesOf
  rw [deleteVertex_vertex G v x hv hx hxv]
  have hx2 : x < G.vertices.length := hx
  rw [List.getElem?_eq_getElem hx2]
  exact ⟨rfl, rfl⟩

theorem containedVertices_oob (G : mutable_graph) (u : Nat) (h : G.n ≤ u) :
    G.containedVertices u = [] := by
  unfold containedVertices
  rw [List.getElem?_eq_none (by simpa [n] using h)]
  rfl

theorem deleteVertex_positioned (G : mutable_graph) (v : Nat) (hv : v < G.n)
    (hpos : Positioned G) : Positioned (G.deleteVertex v) := by
  intro p c hc
  have hp : p < G.n - 1 := by
    by_contra hlt
    rw [containedVertices_oob _ p (by rw [deleteVertex_n _ _ hv]; omega)] at hc
    simp at hc
  rw [deleteVertex_pos _ _ _ hv]
  by_cases hpv : p = v
  · subst hpv
    have hvl : p ≠ G.n - 1 := by omega
    have := (deleteVertex_node G p (G.n - 1) hv (by omega) (fun h => hvl h.symm)).1
    rw [if_pos rfl] at this
    rw [this] at hc
    rw [hpos _ c hc]
    simp only
    rw [if_neg (fun h => hvl h.symm)]
    simp
  · have := (deleteVertex_node G v p hv (by omega) hpv).1
    rw [if_neg (by omega)] at this
    rw [this] at hc
    rw [hpos _ c hc]
    simp only
    rw [if_neg hpv, if_neg (by omega)]

theorem collapse_single (e : Edge) : collapse [e] = [e] := by
  simp [collapse, addEdge]

end mutable_graph

namespace mutable_graph

theorem mergeInto_eq (G : mutable_graph) (r v : Nat) (h : r < G.n ∧ v < G.n ∧ r ≠ v) :
    G.mergeInto r v = (G.mergeCore r v).deleteVertex v := by
  unfold mergeInto mergeCore
  rw [if_pos h]

theorem mergeCore_n (G : mutable_graph) (r v : Nat) : (G.mergeCore r v).n = G.n := by
  simp [mergeCore, n]

theorem mergeCore_node (G : mutable_graph) (r v x : Nat) (hx : x < G.n) (hxv : x ≠ v) :
    (G.mergeCore r v).containedVertices x =
      (if x = r then G.containedVertices r ++ G.containedVertices v else G.containedVertices x) ∧
    (x ≠ r → (G.mergeCore r v).edgesOf x = collapse (retarget v r (G.edgesOf x))) := by
  have hx2 : x < G.vertices.length := hx
  unfold mergeCore containedVertices edgesOf
  simp only
  rw [List.getElem?_set_ne (fun h => hxv h.symm)]
  by_cases hxr : x = r
  · subst hxr
    rw [List.getElem?_set_self (by simpa using hx2)]
    simp
  · rw [List.getElem?_set_ne (fun h => hxr h.symm), List.getElem?_map,
      List.getElem?_eq_getElem hx2]
    simp [hxr]

theorem mergeCore_positioned (G : mutable_graph) (r v : Nat) (hrv : r ≠ v) (hv : v < G.n)
    (hpos : Positioned G) : Positioned (G.mergeCore r v) := by
  intro p c hc
  have hp : p < G.n := by
    by_contra hlt
    rw [containedVertices_oob _ p (by rw [mergeCore_n]; omega)] at hc
    simp at hc
  by_cases hpv : p = v
  · exfalso
    subst hpv
    have hv2 : p < G.vertices.length := hv
    unfold mergeCore containedVertices at hc
    simp only at hc
    rw [List.getElem?_set_self (by simpa using hv2)] at hc
    simp at hc
  · rw [(mergeCore_node G r v p hp hpv).1] at hc
    show (match G.current_position c with
      | none => none
      | some p => if p = v then some r else some p) = some p
    by_cases hpr : p = r
    · rw [if_pos hpr] at hc
      rcases List.mem_append.mp hc with h | h
      · rw [hpos _ c h]
        simp only
        rw [if_neg hrv, hpr]
      · rw [hpos _ c h]
        simp [hpr]
    · rw [if_neg hpr] at hc
      rw [hpos _ c hc]
      simp only
      rw [if_neg hpv]

theorem mergeInto_positioned (G : mutable_graph) (r v : Nat) (hpos : Positioned G) :
    Positioned (G.mergeInto r v) := by
  by_cases h : r < G.n ∧ v < G.n ∧ r ≠ v
  · rw [mergeInto_eq G r v h]
    exact deleteVertex_positioned _ v (by rw [mergeCore_n]; exact h.2.1)
      (mergeCore_positioned G r v h.2.2 h.2.1 hpos)
  · unfold mergeInto
    rw [if_neg h]
    exact hpos

theorem mergeMap_ne (n r v x : Nat) (h : r < n ∧ v < n ∧ r ≠ v) (hxv : x ≠ v) :
    mergeMap n r v x = if x = n - 1 then v else x := by
  unfold mergeMap
  rw [if_pos h, if_neg hxv]

theorem mergeInto_single (G : mutable_graph) (r v x y w : Nat) (h : r < G.n ∧ v < G.n ∧ r ≠ v)
    (hx : x < G.n) (hxv : x ≠ v) (hxr : x ≠ r)
    (he : G.edgesOf x = [{ target := y, weight := w }]) :
    (G.mergeInto r v).edgesOf (mergeMap G.n r v x) =
      [{ target := mergeMap G.n r v y, weight := w }] := by
  rw [mergeInto_eq G r v h, mergeMap_ne _ _ _ _ h hxv]
  have h1 := (deleteVertex_node (G.mergeCore r v) v x (by rw [mergeCore_n]; exact h.2.1)
    (by rw [mergeCore_n]; exact hx) hxv).2
  rw [mergeCore_n] at h1
  rw [h1, (mergeCore_node G r v x hx hxv).2 hxr, he]
  unfold mergeMap
  rw [if_pos h]
  by_cases hyv : y = v
  · subst hyv
    simp only [retarget, collapse_single, h.2.2, List.map_cons, List.map_nil, if_true]
    simp only [List.filter_cons, List.filter_nil]
    simp only [bne_iff_ne, ne_eq, h.2.2, not_false_eq_true, if_true, List.map_cons, List.map_nil]
    split <;> rfl
  · simp only [retarget, collapse_single, hyv, List.map_cons, List.map_nil, if_false]
    simp only [List.filter_cons, List.filter_nil]
    simp only [bne_iff_ne, ne_eq, hyv, not_false_eq_true, if_true, List.map_cons, List.map_nil]
    split <;> rfl

theorem mergeInto_contained (G : mutable_graph) (r v x : Nat) (h : r < G.n ∧ v < G.n ∧ r ≠ v)
    (hx : x < G.n) (hxv : x ≠ v) (hxr : x ≠ r) :
    (G.mergeInto r v).containedVertices (mergeMap G.n r v x) = G.containedVertices x := by
  rw [mergeInto_eq G r v h, mergeMap_ne _ _ _ _ h hxv]
  have h1 := (deleteVertex_node (G.mergeCore r v) v x (by rw [mergeCore_n]; exact h.2.1)
    (by rw [mergeCore_n]; exact hx) hxv).1
  rw [mergeCore_n] at h1
  rw [h1, (mergeCore_node G r v x hx hxv).1, if_neg hxr]

end mutable_graph

namespace mutable_graph

theorem contract_fold (G : mutable_graph) (S : List Nat) (r : Nat) (hrS : r ∈ S)
    (hmin : ∀ x, x < r → x ∉ S) :
    ∀ (k : Nat) (H : mutable_graph) (f : Nat → Nat),
      ((∀ c, H.current_position c = (G.current_position c).map f) ∧
        (∀ x, x < k → f x = x) ∧
        (∀ x, k ≤ x → x < G.n → x ∈ S → f x = r) ∧
        (∀ x, k ≤ x → x < G.n → x ∉ S → k ≤ f x) ∧
        k ≤ H.n ∧
        (∀ x y, x < G.n → y < G.n → f x = f y → x = y ∨ (x ∈ S ∧ y ∈ S)) ∧
        (∀ x, x < G.n → f x < H.n) ∧
        (∀ x, x < G.n → x ∉ S → H.containedVertices (f x) = G.containedVertices x ∧
          ∀ y w, y < G.n → G.edgesOf x = [{ target := y, weight := w }] →
            H.edgesOf (f x) = [{ target := f y, weight := w }]) ∧
        (Positioned G → Positioned H)) →
      ∃ g : Nat → Nat,
        (∀ c, ((List.range k).reverse.foldl
            (fun H v => if v ∈ S ∧ v ≠ r then H.mergeInto r v else H) H).current_position c =
          (G.current_position c).map g) ∧
        (∀ x, x < G.n → x ∈ S → g x = r) ∧
        (∀ x y, x < G.n → y < G.n → g x = g y → x = y ∨ (x ∈ S ∧ y ∈ S)) ∧
        (∀ x, x < G.n → g x < ((List.range k).reverse.foldl
            (fun H v => if v ∈ S ∧ v ≠ r then H.mergeInto r v else H) H).n) ∧
        (∀ x, x < G.n → x ∉ S →
          ((List.range k).reverse.foldl
            (fun H v => if v ∈ S ∧ v ≠ r then H.mergeInto r v else H) H).containedVertices (g x) =
              G.containedVertices x ∧
          ∀ y w, y < G.n → G.edgesOf x = [{ target := y, weight := w }] →
            ((List.range k).reverse.foldl
              (fun H v => if v ∈ S ∧ v ≠ r then H.mergeInto r v else H) H).edgesOf (g x) =
              [{ target := g y, weight := w }]) ∧
        (Positioned G → Positioned ((List.range k).reverse.foldl
            (fun H v => if v ∈ S ∧ v ≠ r then H.mergeInto r v else H) H)) := by
  intro k
  induction k with
  | zero =>
    intro H f ⟨h1, _, h3, _, _, h6, h7, h8, h9⟩
    exact ⟨f, h1, fun x hx hS => h3 x (Nat.zero_le _) hx hS, h6, h7, h8, h9⟩
  | succ k ih =>
    intro H f ⟨h1, h2, h3, h4, h5, h6, h7, h8, h9⟩
    rw [List.range_succ, List.reverse_append]
    simp only [List.reverse_cons, List.reverse_nil, List.nil_append, List.singleton_append,
      List.foldl_cons]
    by_cases hk : k ∈ S ∧ k ≠ r
    · rw [if_pos hk]
      have hrk : r < k := by
        rcases Nat.lt_trichotomy r k with h | h | h
        · exact h
        · exact absurd h.symm hk.2
        · exact absurd hk.1 (hmin k h)
      have hg : r < H.n ∧ k < H.n ∧ r ≠ k := ⟨by omega, by omega, by omega⟩
      have hfS : ∀ x, x < G.n → (f x = r ∨ f x = k) → x ∈ S := by
        intro x hx hfx
        by_cases hxk : x < k + 1
        · rw [h2 x hxk] at hfx
          rcases hfx with h | h
          · rw [h]; exact hrS
          · rw [h]; exact hk.1
        · by_contra hxS
          have := h4 x (by omega) hx hxS
          omega
      apply ih (H.mergeInto r k) (fun x => mergeMap H.n r k (f x))
      refine ⟨?_, ?_, ?_, ?_, ?_, ?_, ?_, ?_, ?_⟩
      · intro c
        rw [mergeInto_pos, h1]
        cases G.current_position c <;> rfl
      · intro x hx
        rw [h2 x (by omega)]
        unfold mergeMap
        rw [if_pos hg, if_neg (show ¬ x = k by omega), if_neg (by omega)]
      · intro x hkx hx hxS
        by_cases hxk : x = k
        · rw [hxk, h2 k (by omega)]
          unfold mergeMap
          rw [if_pos hg]
          simp only [if_true]
          rw [if_neg (by omega)]
        · rw [h3 x (by omega) hx hxS]
          unfold mergeMap
          rw [if_pos hg, if_neg (show ¬ r = k by omega), if_neg (by omega)]
      · intro x hkx hx hxS
        have hxk : x ≠ k := fun h => hxS (h ▸ hk.1)
        have := h4 x (by omega) hx hxS
        unfold mergeMap
        rw [if_pos hg, if_neg (show ¬ f x = k by omega)]
        split <;> omega
      · rw [mergeInto_n _ _ _ hg]
        omega
      · intro x y hx hy hxy
        rcases mergeMap_inj _ _ _ _ _ hg hxy with h | ⟨ha, hb⟩
        · exact h6 x y hx hy h
        · exact Or.inr ⟨hfS x hx ha, hfS y hy hb⟩
      · intro x hx
        rw [mergeInto_n _ _ _ hg]
        exact mergeMap_lt _ _ _ _ hg (h7 x hx)
      · intro x hx hxS
        have hfk : f x ≠ k := fun h => hxS (hfS x hx (Or.inr h))
        have hfr : f x ≠ r := fun h => hxS (hfS x hx (Or.inl h))
        obtain ⟨c1, c2⟩ := h8 x hx hxS
        refine ⟨?_, ?_⟩
        · rw [mergeInto_contained H r k (f x) hg (h7 x hx) hfk hfr, c1]
        · intro y w hy he
          exact mergeInto_single H r k (f x) (f y) w hg (h7 x hx) hfk hfr (c2 y w hy he)
      · intro hp
        exact mergeInto_positioned H r k (h9 hp)
    · rw [if_neg hk]
      apply ih H f
      refine ⟨h1, fun x hx => h2 x (by omega), ?_, ?_, by omega, h6, h7, h8, h9⟩
      · intro x hkx hx hxS
        by_cases hxk : x = k
        · have : k = r := by
            by_contra hne
            exact hk ⟨hxk ▸ hxS, hne⟩
          rw [hxk, this]
          exact h2 r (by omega)
        · exact h3 x (by omega) hx hxS
      · intro x hkx hx hxS
        by_cases hxk : x = k
        · rw [hxk, h2 k (by omega)]
        · have := h4 x (by omega) hx hxS
          omega

/-- What `contractVertexSet(S)` does: the positions are renamed by a map that
sends all nodes of `S` to one node and identifies no other nodes; a node outside
`S` keeps its contained list, and its edge list if that is a single edge. -/
theorem contractVertexSet_pos (G : mutable_graph) (S : List Nat) :
    ∃ g : Nat → Nat,
      (∀ c, (G.contractVertexSet S).current_position c = (G.current_position c).map g) ∧
      (∀ x y, x < G.n → y < G.n → x ∈ S → y ∈ S → g x = g y) ∧
      (∀ x y, x < G.n → y < G.n → g x = g y → x = y ∨ (x ∈ S ∧ y ∈ S)) ∧
      (∀ x, x < G.n → g x < (G.contractVertexSet S).n) ∧
      (∀ x, x < G.n → x ∉ S →
        (G.contractVertexSet S).containedVertices (g x) = G.containedVertices x ∧
        ∀ y w, y < G.n → G.edgesOf x = [{ target := y, weight := w }] →
          (G.contractVertexSet S).edgesOf (g x) = [{ target := g y, weight := w }]) ∧
      (Positioned G → Positioned (G.contractVertexSet S)) := by
  unfold contractVertexSet
  cases hf : (List.range G.n).find? (fun x => decide (x ∈ S)) with
  | none =>
    have hn := find_range_none _ _ hf
    simp only [decide_eq_false_iff_not] at hn
    refine ⟨id, ?_, ?_, ?_, ?_, ?_, fun h => h⟩
    · intro c; simp
    · intro x y hx _ hxS; exact absurd hxS (hn x hx)
    · intro x y _ _ h; exact Or.inl h
    · intro x hx; exact hx
    · intro x _ _
      exact ⟨rfl, fun y w _ h => h⟩
  | some r =>
    obtain ⟨hr, hrS, hmin⟩ := find_range _ _ _ hf
    simp only [decide_eq_true_eq, decide_eq_false_iff_not] at hrS hmin
    simp only
    obtain ⟨g, g1, g2, g3, g4, g5, g6⟩ := contract_fold G S r hrS hmin G.n G id
      ⟨by intro c; simp, fun _ _ => rfl, fun x h1 h2 => by omega, fun x h1 h2 => by omega,
        le_refl _, fun x y _ _ h => Or.inl h, fun x hx => hx,
        fun x _ _ => ⟨rfl, fun y w _ h => h⟩, fun h => h⟩
    refine ⟨g, g1, ?_, g3, g4, g5, g6⟩
    intro x y hx hy hxS hyS
    rw [g2 x hx hxS, g2 y hy hyS]

end mutable_graph

namespace heavy_edges
open mutable_graph

/-- One group of the second loop of `removeHeavyEdges`: when all members have
a position below `n()`, the call returns, the positions are renamed by a map
that identifies the positions of the members and nothing else, and the nodes
that are not such a position keep their contained list and a single edge. -/
theorem contractGroup_spec (H : mutable_graph) (grp : Nat × List Nat)
    (hdef : ∀ c ∈ grp.1 :: grp.2, ∃ p, H.current_position c = some p ∧ p < H.n) :
    ∃ H1 g, contractGroup H grp = some H1 ∧
      (∀ c, H1.current_position c = (H.current_position c).map g) ∧
      (∀ a ∈ grp.1 :: grp.2, ∀ b ∈ grp.1 :: grp.2, H1.current_position a = H1.current_position b) ∧
      (∀ x y, x < H.n → y < H.n → g x = g y →
        x = y ∨ ((∃ c ∈ grp.1 :: grp.2, H.current_position c = some x) ∧
          (∃ c ∈ grp.1 :: grp.2, H.current_position c = some y))) ∧
      (∀ x, x < H.n → g x < H1.n) ∧
      (∀ x, x < H.n → (¬ ∃ c ∈ grp.1 :: grp.2, H.current_position c = some x) →
        H1.containedVertices (g x) = H.containedVertices x ∧
        ∀ y w, y < H.n → H.edgesOf x = [{ target := y, weight := w }] →
          H1.edgesOf (g x) = [{ target := g y, weight := w }]) ∧
      (Positioned H → Positioned H1) := by
  obtain ⟨ps, h1, h2, h3⟩ := mapM_some H.getCurrentPosition (grp.1 :: grp.2)
    (fun c hc => by
      obtain ⟨p, hp, _⟩ := hdef c hc
      exact ⟨p, hp⟩)
  unfold contractGroup
  rw [h1]
  simp only
  by_cases hlen : ps.eraseDups.length > 1
  · rw [if_pos hlen]
    obtain ⟨g, g1, g2, g3, g4, g5, g6⟩ := contractVertexSet_pos H ps.eraseDups
    refine ⟨_, g, rfl, g1, ?_, ?_, g4, ?_, g6⟩
    · intro a ha b hb
      obtain ⟨pa, hpa, hpa2⟩ := hdef a ha
      obtain ⟨pb, hpb, hpb2⟩ := hdef b hb
      rw [g1, g1, hpa, hpb]
      simp only [Option.map_some', Option.some.injEq]
      exact g2 pa pb hpa2 hpb2 ((mem_eraseDups _ _).mpr (h2 a ha pa hpa))
        ((mem_eraseDups _ _).mpr (h2 b hb pb hpb))
    · intro x y hx hy hxy
      rcases g3 x y hx hy hxy with h | ⟨hxS, hyS⟩
      · exact Or.inl h
      · right
        exact ⟨h3 x ((mem_eraseDups _ _).mp hxS), h3 y ((mem_eraseDups _ _).mp hyS)⟩
    · intro x hx hnot
      exact g5 x hx (fun hxS => hnot (h3 x ((mem_eraseDups _ _).mp hxS)))
  · rw [if_neg hlen]
    refine ⟨H, id, rfl, fun c => by simp, ?_, fun x y _ _ h => Or.inl h, fun x hx => hx,
      fun x _ _ => ⟨rfl, fun y w _ h => h⟩, fun h => h⟩
    intro a ha b hb
    obtain ⟨pa, hpa, -⟩ := hdef a ha
    obtain ⟨pb, hpb, -⟩ := hdef b hb
    have ma := (mem_eraseDups _ _).mpr (h2 a ha pa hpa)
    have mb := (mem_eraseDups _ _).mpr (h2 b hb pb hpb)
    rw [hpa, hpb]
    match hl : ps.eraseDups, hlen, ma, mb with
    | [], _, ma, _ => simp at ma
    | [z], _, ma, mb =>
      simp only [List.mem_singleton] at ma mb
      rw [ma, mb]
    | _ :: _ :: _, hlen, _, _ => simp at hlen

theorem contractGroups_spec (mincut : Nat) (G : mutable_graph) (gs : List (Nat × List Nat))
    (hgs : ∀ g ∈ gs, ∀ x ∈ g.1 :: g.2,
      ∃ m, G.current_position x = some m ∧ Heavy mincut G m ∧ m < G.n) :
    ∀ (H : mutable_graph) (f : Nat → Nat),
      (∀ c, H.current_position c = (G.current_position c).map f) →
      (∀ x y, x < G.n → y < G.n → f x = f y → x = y ∨ (Heavy mincut G x ∧ Heavy mincut G y)) →
      (∀ x, x < G.n → f x < H.n) →
      (∀ x, x < G.n → ¬ Heavy mincut G x →
        H.containedVertices (f x) = G.containedVertices x ∧
        ∀ y w, y < G.n → G.edgesOf x = [{ target := y, weight := w }] →
          H.edgesOf (f x) = [{ target := f y, weight := w }]) →
      (Positioned G → Positioned H) →
      ∃ H1 f1, contractGroups gs H = some H1 ∧
        (∀ c, H1.current_position c = (G.current_position c).map f1) ∧
        (∀ x y, x < G.n → y < G.n → f1 x = f1 y →
          x = y ∨ (Heavy mincut G x ∧ Heavy mincut G y)) ∧
        (∀ x, x < G.n → f1 x < H1.n) ∧
        (∀ g ∈ gs, ∀ a ∈ g.1 :: g.2, ∀ b ∈ g.1 :: g.2,
          H1.current_position a = H1.current_position b) ∧
        (∀ a b, H.current_position a = H.current_position b →
          H1.current_position a = H1.current_position b) ∧
        (∀ x, x < G.n → ¬ Heavy mincut G x →
          H1.containedVertices (f1 x) = G.containedVertices x ∧
          ∀ y w, y < G.n → G.edgesOf x = [{ target := y, weight := w }] →
            H1.edgesOf (f1 x) = [{ target := f1 y, weight := w }]) ∧
        (Positioned G → Positioned H1) := by
  induction gs with
  | nil =>
    intro H f h1 h2 h3 h4 h5
    exact ⟨H, f, rfl, h1, h2, h3, fun g hg => by simp at hg, fun _ _ h => h, h4, h5⟩
  | cons grp gs ih =>
    intro H f h1 h2 h3 h4 h5
    have hmem := hgs grp (List.mem_cons_self _ _)
    obtain ⟨H1, g, e1, e2, e3, e4, e5, e6, e7⟩ := contractGroup_spec H grp (by
      intro c hc
      obtain ⟨m, hm, _, hmn⟩ := hmem c hc
      refine ⟨f m, ?_, h3 m hmn⟩
      rw [h1, hm]; rfl)
    have hheavy : ∀ x, x < G.n → (∃ c ∈ grp.1 :: grp.2, H.current_position c = some (f x)) →
        Heavy mincut G x := by
      intro x hx ⟨c, hc, hcx⟩
      obtain ⟨m, hm, hmh, hmn⟩ := hmem c hc
      rw [h1, hm] at hcx
      simp only [Option.map_some', Option.some.injEq] at hcx
      rcases h2 m x hmn hx hcx with h | h
      · rw [← h]; exact hmh
      · exact h.2
    obtain ⟨H2, f2, r1, r2, r3, r4, r5, r6, r7, r8⟩ := ih
      (fun g hg => hgs g (List.mem_cons_of_mem _ hg)) H1 (fun x => g (f x))
      (by
        intro c
        rw [e2, h1]
        cases G.current_position c <;> rfl)
      (by
        intro x y hx hy hxy
        rcases e4 (f x) (f y) (h3 x hx) (h3 y hy) hxy with h | ⟨ha, hb⟩
        · exact h2 x y hx hy h
        · exact Or.inr ⟨hheavy x hx ha, hheavy y hy hb⟩)
      (fun x hx => e5 _ (h3 x hx))
      (by
        intro x hx hnh
        obtain ⟨c1, c2⟩ := h4 x hx hnh
        obtain ⟨b1, b2⟩ := e6 (f x) (h3 x hx) (fun hc => hnh (hheavy x hx hc))
        refine ⟨by rw [b1, c1], ?_⟩
        intro y w hy he
        exact b2 (f y) w (h3 y hy) (c2 y w hy he))
      (fun hp => e7 (h5 hp))
    refine ⟨H2, f2, ?_, r2, r3, r4, ?_, ?_, r7, r8⟩
    · unfold contractGroups
      rw [e1]
      exact r1
    · intro g0 hg0 a ha b hb
      rcases List.mem_cons.mp hg0 with h | h
      · subst h
        exact r6 a b (e3 a ha b hb)
      · exact r5 g0 h a ha b hb
    · intro a b hab
      apply r6
      rw [e2, e2, hab]

end heavy_edges

namespace heavy_edges
open mutable_graph

/-- C1 (heavy-contraction correctness): for an undirected graph `G` whose
nodes are all non-empty and whose positions agree with the contained lists,
and any iteration order of the map `contract`, the second loop of
`removeHeavyEdges` returns, and whenever `removeHeavyEdges` returns, for every
edge `(u, v)` of `G` heavier than λ all originals contained in `u` and all
originals contained in `v` have one and the same current position, a node of
the final graph. -/
theorem heavy_contraction (mincut : Nat)
    (iter : List (Nat × List Nat) → List (Nat × List Nat)) (G : mutable_graph)
    (hpos : Positioned G) (hne : ∀ n, n < G.n → G.isEmpty n = false) (hund : Undirected G)
    (hiter : ∀ c, (iter c).Perm c) :
    (∃ G1, contractGroups (iter (scan mincut G).contract) G = some G1) ∧
    ∀ G' L, removeHeavyEdges mincut iter G = some (G', L) →
      ∀ u ed, ed ∈ G.edgesOf u → ed.weight > mincut →
        ∀ a ∈ G.containedVertices u, ∀ b ∈ G.containedVertices ed.target,
          ∃ p, p < G'.n ∧ G'.getCurrentPosition a = some p ∧
            G'.getCurrentPosition b = some p := by
  obtain ⟨hB, hC⟩ := scan_members mincut G hpos hund
  obtain ⟨G1, f1, r1, r2, r3, r4, r5, r6, -, -⟩ := contractGroups_spec mincut G
    (iter (scan mincut G).contract)
    (fun g hg => hB g ((hiter _).mem_iff.mp hg)) G id
    (fun c => by simp) (fun x y _ _ h => Or.inl h) (fun x hx => hx)
    (fun x _ _ => ⟨rfl, fun y w _ h => h⟩) (fun h => h)
  refine ⟨⟨G1, r1⟩, ?_⟩
  intro G' L hret u ed hed hw a ha b hb
  unfold removeHeavyEdges at hret
  rw [r1] at hret
  simp only at hret
  have hmarks : ∀ e ∈ (scan mincut G).markForCactus, ∀ y, G1.current_position e = some y →
      y < G1.n := by
    intro e he y hy
    obtain ⟨m, hm, -, hmn⟩ := hC e he
    rw [r2, hm] at hy
    simp only [Option.map_some', Option.some.injEq] at hy
    rw [← hy]
    exact r4 m hmn
  obtain ⟨d, d1, d2, d3, d4⟩ := deleteLeaves_spec G1 (scan mincut G).markForCactus hmarks
    (scan mincut G).markForCactus (fun _ h => h) (G1, []) (G', L) some
    (fun c => by simp) (fun x y p hx hy => by rw [Option.some.injEq] at hx hy; omega)
    (fun x p hxn hx => by rw [Option.some.injEq] at hx; rw [← hx]; exact hxn)
    (fun x hx => by simp at hx) hret
  simp only at d1 d3
  have hu : u < G.n := by
    by_contra hc
    rw [local_search.edgesOf_oob G u (by omega)] at hed
    simp at hed
  have ht := (hund u ed hed).1
  have hhu : Heavy mincut G u := ⟨ed, hed, hw⟩
  obtain ⟨g, hg, hv1, hv2⟩ := scan_records mincut G hne hund u ed hed hw
  have hg2 : g ∈ iter (scan mincut G).contract := (hiter _).mem_iff.mpr hg
  have e12 := r5 g hg2 _ hv1 _ hv2
  have pa := hpos u a ha
  have pb := hpos ed.target b hb
  have p1 := hpos u _ (headD_mem _ (hne u hu))
  have p2 := hpos ed.target _ (headD_mem _ (hne _ ht))
  have ea : G1.current_position a = some (f1 u) := by rw [r2, pa]; rfl
  have eb : G1.current_position b = some (f1 u) := by
    rw [r6 b _ (pb.trans p2.symm), ← e12, r2, p1]; rfl
  unfold getCurrentPosition
  rw [d1, d1, ea, eb]
  simp only [Option.some_bind]
  cases hd : d (f1 u) with
  | some p => exact ⟨p, d3 _ p (r4 u hu) hd, rfl, rfl⟩
  | none =>
    exfalso
    obtain ⟨e, he, hpe⟩ := d4 _ hd
    obtain ⟨m, hm, hnh, hmn⟩ := hC e he
    rw [r2, hm] at hpe
    simp only [Option.map_some', Option.some.injEq] at hpe
    rcases r3 m u hmn hu hpe with h | h
    · rw [h] at hnh; exact hnh hhu
    · exact hnh h.1

/-- An instance of C1: the chain of heavy edges 1 - 2 and 2 - 3 (weight 5,
λ = 4), recorded under the group keys 1 and 2, with node 0 attached to 1 by a
light edge; the originals 1, 2 and 3 end in one super-node and the log is
empty. -/
theorem heavy_contraction_witness :
    (Positioned (ofEdges 4 [(1, 2, 5), (2, 3, 5), (0, 1, 1)]) ∧
      (∀ n, n < (ofEdges 4 [(1, 2, 5), (2, 3, 5), (0, 1, 1)]).n →
        (ofEdges 4 [(1, 2, 5), (2, 3, 5), (0, 1, 1)]).isEmpty n = false) ∧
      Undirected (ofEdges 4 [(1, 2, 5), (2, 3, 5), (0, 1, 1)]) ∧
      (∀ c : List (Nat × List Nat), (id c).Perm c)) ∧
    ((∃ G1, contractGroups (id (scan 4 (ofEdges 4 [(1, 2, 5), (2, 3, 5), (0, 1, 1)])).contract)
        (ofEdges 4 [(1, 2, 5), (2, 3, 5), (0, 1, 1)]) = some G1) ∧
      ∀ G' L, removeHeavyEdges 4 id (ofEdges 4 [(1, 2, 5), (2, 3, 5), (0, 1, 1)]) = some (G', L) →
        ∀ u ed, ed ∈ (ofEdges 4 [(1, 2, 5), (2, 3, 5), (0, 1, 1)]).edgesOf u → ed.weight > 4 →
          ∀ a ∈ (ofEdges 4 [(1, 2, 5), (2, 3, 5), (0, 1, 1)]).containedVertices u,
          ∀ b ∈ (ofEdges 4 [(1, 2, 5), (2, 3, 5), (0, 1, 1)]).containedVertices ed.target,
            ∃ p, p < G'.n ∧ G'.getCurrentPosition a = some p ∧
              G'.getCurrentPosition b = some p) ∧
    ((scan 4 (ofEdges 4 [(1, 2, 5), (2, 3, 5), (0, 1, 1)])).contract.map Prod.fst,
      (removeHeavyEdges 4 id (ofEdges 4 [(1, 2, 5), (2, 3, 5), (0, 1, 1)])).map
        (fun r => ((List.range 4).map r.1.getCurrentPosition, r.1.n, r.2))) =
      ([1, 2], some ([some 0, some 1, some 1, some 1], 2, [])) :=
  ⟨⟨(ofEdges_wf 4 _).1, (ofEdges_wf 4 _).2.1, (ofEdges_wf 4 _).2.2.1, fun _ => List.Perm.refl _⟩,
    heavy_contraction 4 id (ofEdges 4 [(1, 2, 5), (2, 3, 5), (0, 1, 1)])
      (ofEdges_wf 4 _).1 (ofEdges_wf 4 _).2.1 (ofEdges_wf 4 _).2.2.1 (fun _ => List.Perm.refl _),
    by decide⟩

end heavy_edges

namespace heavy_edges
open mutable_graph

theorem deleteVertex_pos_some (G : mutable_graph) (v c y : Nat) (hv : v < G.n)
    (h : (G.deleteVertex v).current_position c = some y) :
    ∃ x, G.current_position c = some x ∧ x ≠ v ∧ y = if x = G.n - 1 then v else x := by
  rw [deleteVertex_pos _ _ _ hv] at h
  cases hc : G.current_position c with
  | none => rw [hc] at h; simp at h
  | some x =>
    rw [hc] at h
    simp only at h
    by_cases hxv : x = v
    · rw [if_pos hxv] at h; simp at h
    · rw [if_neg hxv] at h
      refine ⟨x, rfl, hxv, ?_⟩
      split at h <;> simp only [Option.some.injEq] at h
      · rename_i hl; rw [if_pos hl, h]
      · rename_i hl; rw [if_neg hl, h]

theorem deleteVertex_pos_of (G : mutable_graph) (v c x : Nat) (hv : v < G.n)
    (h : G.current_position c = some x) (hx : x ≠ v) :
    (G.deleteVertex v).current_position c = some (if x = G.n - 1 then v else x) := by
  rw [deleteVertex_pos _ _ _ hv, h]
  simp only
  rw [if_neg hx]
  split <;> rfl

theorem deleteVertex_safe (G : mutable_graph) (marks : List Nat) (v p : Nat) (hv : v < G.n)
    (hpv : p ≠ v) (hsafe : ∀ e ∈ marks, G.current_position e ≠ some p) :
    ∀ e ∈ marks, (G.deleteVertex v).current_position e ≠ some (if p = G.n - 1 then v else p) := by
  intro e he hc
  obtain ⟨x, hx, hxv, hy⟩ := deleteVertex_pos_some G v e _ hv hc
  apply hsafe e he
  rw [hx]
  congr 1
  split at hy <;> split at hy <;> omega

theorem deleteLeaf_inv (marks : List Nat) (st st1 : mutable_graph × List (Nat × List Nat))
    (e : Nat) (he : e ∈ marks) (hinv : LeafInv marks st) (hret : deleteLeaf st e = some st1) :
    LeafInv marks st1 := by
  unfold deleteLeaf at hret
  split at hret
  · unfold getCurrentPosition at hret
    cases hpe : st.1.current_position e with
    | none => rw [hpe] at hret; simp at hret
    | some n =>
      rw [hpe] at hret
      simp only at hret
      split at hret
      · simp at hret
      · cases ht : st.1.getEdgeTarget n 0 with
        | none => rw [ht] at hret; simp at hret
        | some t =>
          rw [ht] at hret
          simp only at hret
          split at hret
          · simp only [Option.some.injEq] at hret
            rw [← hret]; exact hinv
          · rename_i hE
            simp only [Option.some.injEq] at hret
            subst hret
            obtain ⟨l1, l2, l3, l4, l5⟩ := hinv
            obtain ⟨hn, T, w, hedges, hT⟩ := l2 e he n hpe
            have htT : t = T := by
              unfold getEdgeTarget getEdge at ht
              rw [hedges] at ht
              simp at ht
              exact ht.symm
            subst htT
            have htn : t ≠ n := fun h => hT e he (by rw [hpe, h])
            have hE2 : st.1.isEmpty t = false := by simpa using hE
            have htlt : t < st.1.n := by
              by_contra hc
              unfold isEmpty at hE2
              rw [containedVertices_oob _ t (by omega)] at hE2
              simp at hE2
            have hhead : st.1.current_position ((st.1.containedVertices t).headD 0) = some t :=
              l1 t _ (headD_mem _ hE2)
            refine ⟨deleteVertex_positioned _ n hn l1, ?_, ?_, ?_, ?_⟩
            · intro e1 he1 y hy
              obtain ⟨x, hx, hxn, hyx⟩ := deleteVertex_pos_some _ n e1 y hn hy
              obtain ⟨hxlt, T1, w1, hed1, hT1⟩ := l2 e1 he1 x hx
              have hT1n : T1 ≠ n := fun h => hT1 e he (by rw [hpe, h])
              refine ⟨?_, if T1 = st.1.n - 1 then n else T1, w1, ?_, ?_⟩
              · simp only
                rw [hyx, deleteVertex_n _ _ hn]
                split <;> omega
              · simp only
                rw [hyx, (deleteVertex_node st.1 n x hn hxlt hxn).2, hed1]
                simp only [List.filter_cons, List.filter_nil, bne_iff_ne, ne_eq, hT1n,
                  not_false_eq_true, if_true, retarget, List.map_cons, List.map_nil]
                split <;> rfl
              · exact deleteVertex_safe _ marks n T1 hn hT1n hT1
            · intro entry hentry c hc
              simp only at hentry ⊢
              rcases List.mem_append.mp hentry with h | h
              · rw [deleteVertex_pos _ _ _ hn, l3 entry h c hc]
              · simp only [List.mem_singleton] at h
                subst h
                simp only at hc
                rw [deleteVertex_pos _ _ _ hn, l1 n c hc]
                simp
            · simp only
              rw [List.pairwise_append]
              refine ⟨l4, List.pairwise_singleton _ _, ?_⟩
              intro a ha b hb c hca hcb
              simp only [List.mem_singleton] at hb
              subst hb
              simp only at hcb
              have h1 := l3 a ha c hca
              rw [l1 n c hcb] at h1
              simp at h1
            · intro entry hentry
              simp only at hentry ⊢
              rcases List.mem_append.mp hentry with h | h
              · obtain ⟨p, hp, hpp, hps⟩ := l5 entry h
                have hpn : p ≠ n := fun hc => hps e he (by rw [hpe, hc])
                refine ⟨if p = st.1.n - 1 then n else p, ?_,
                  deleteVertex_pos_of _ n _ p hn hpp hpn, deleteVertex_safe _ marks n p hn hpn hps⟩
                rw [deleteVertex_n _ _ hn]
                split <;> omega
              · simp only [List.mem_singleton] at h
                subst h
                refine ⟨if t = st.1.n - 1 then n else t, ?_,
                  deleteVertex_pos_of _ n _ t hn hhead htn, deleteVertex_safe _ marks n t hn htn hT⟩
                rw [deleteVertex_n _ _ hn]
                split <;> omega
  · simp only [Option.some.injEq] at hret
    rw [← hret]; exact hinv

theorem deleteLeaves_inv (marks : List Nat) (l : List Nat) (hl : ∀ e ∈ l, e ∈ marks) :
    ∀ (st st1 : mutable_graph × List (Nat × List Nat)),
      LeafInv marks st → deleteLeaves l st = some st1 → LeafInv marks st1 := by
  induction l with
  | nil =>
    intro st st1 hinv hret
    simp only [deleteLeaves, Option.some.injEq] at hret
    rw [← hret]; exact hinv
  | cons e l ih =>
    intro st st1 hinv hret
    unfold deleteLeaves at hret
    cases hd : deleteLeaf st e with
    | none => rw [hd] at hret; simp at hret
    | some st2 =>
      rw [hd] at hret
      simp only at hret
      exact ih (fun x hx => hl x (List.mem_cons_of_mem _ hx)) st2 st1
        (deleteLeaf_inv marks st st2 e (hl e (List.mem_cons_self _ _)) hinv hd) hret

end heavy_edges

namespace heavy_edges
open mutable_graph

theorem new_empty_node_spec (G : mutable_graph) :
    G.new_empty_node.1 = G.n ∧ G.new_empty_node.2.n = G.n + 1 ∧
    G.new_empty_node.2.current_position = G.current_position ∧
    (∀ x, G.new_empty_node.2.containedVertices x = G.containedVertices x) ∧
    (∀ x, G.new_empty_node.2.edgesOf x = G.edgesOf x) := by
  refine ⟨rfl, by simp [new_empty_node, n], rfl, ?_, ?_⟩
  · intro x
    unfold new_empty_node containedVertices
    simp only
    by_cases hx : x < G.vertices.length
    · rw [List.getElem?_append_left hx]
    · rw [List.getElem?_append_right (by omega), List.getElem?_eq_none (l := G.vertices) (by omega)]
      by_cases h0 : x - G.vertices.length = 0
      · rw [h0]; rfl
      · rw [List.getElem?_eq_none (by simp; omega)]
  · intro x
    unfold new_empty_node edgesOf
    simp only
    by_cases hx : x < G.vertices.length
    · rw [List.getElem?_append_left hx]
    · rw [List.getElem?_append_right (by omega), List.getElem?_eq_none (l := G.vertices) (by omega)]
      by_cases h0 : x - G.vertices.length = 0
      · rw [h0]; rfl
      · rw [List.getElem?_eq_none (by simp; omega)]

theorem setContainedVertices_spec (G : mutable_graph) (v : Nat) (l : List Nat) (hv : v < G.n) :
    (G.setContainedVertices v l).n = G.n ∧
    (G.setContainedVertices v l).current_position = G.current_position ∧
    (∀ x, (G.setContainedVertices v l).containedVertices x =
      if x = v then l else G.containedVertices x) ∧
    (∀ x, (G.setContainedVertices v l).edgesOf x = G.edgesOf x) := by
  have hv2 : v < G.vertices.length := hv
  unfold setContainedVertices
  rw [List.getElem?_eq_getElem hv2]
  simp only
  refine ⟨by simp [n], ?_, ?_, ?_⟩
  · trivial
  · intro x
    unfold containedVertices
    simp only
    by_cases hx : x = v
    · subst hx
      rw [List.getElem?_set_self hv2]
      simp
    · rw [List.getElem?_set_ne (fun h => hx h.symm), if_neg hx]
  · intro x
    unfold edgesOf
    simp only
    by_cases hx : x = v
    · subst hx
      rw [List.getElem?_set_self hv2, List.getElem?_eq_getElem hv2]
      rfl
    · rw [List.getElem?_set_ne (fun h => hx h.symm)]

theorem setPositions_spec (v : Nat) (cont : List Nat) :
    ∀ G : mutable_graph,
      (cont.foldl (fun H c => H.setCurrentPosition c (some v)) G).vertices = G.vertices ∧
      (∀ c, (cont.foldl (fun H c => H.setCurrentPosition c (some v)) G).current_position c =
        if c ∈ cont then some v else G.current_position c) := by
  induction cont with
  | nil => intro G; exact ⟨rfl, fun c => by simp⟩
  | cons a l ih =>
    intro G
    simp only [List.foldl_cons]
    obtain ⟨h1, h2⟩ := ih (G.setCurrentPosition a (some v))
    refine ⟨by rw [h1]; rfl, ?_⟩
    intro c
    rw [h2]
    by_cases hc : c ∈ l
    · simp [hc]
    · rw [if_neg hc]
      unfold setCurrentPosition
      simp only
      by_cases hca : c = a
      · simp [hca]
      · simp [hca, hc]

theorem install_spec (G : mutable_graph) (v : Nat) (cont : List Nat) (hv : v < G.n) :
    (install G v cont).n = G.n ∧
    (∀ c, (install G v cont).current_position c =
      if c ∈ cont then some v else G.current_position c) ∧
    (∀ x, (install G v cont).containedVertices x = if x = v then cont else G.containedVertices x) ∧
    (∀ x, (install G v cont).edgesOf x = G.edgesOf x) := by
  obtain ⟨a1, a2, a3, a4⟩ := setContainedVertices_spec G v cont hv
  obtain ⟨b1, b2⟩ := setPositions_spec v cont (G.setContainedVertices v cont)
  unfold install
  refine ⟨?_, ?_, ?_, ?_⟩
  · unfold n at a1 ⊢
    rw [b1, a1]
  · intro c
    rw [b2, a2]
  · intro x
    rw [← a3]
    unfold containedVertices
    rw [b1]
  · intro x
    rw [← a4]
    unfold edgesOf
    rw [b1]

/-- One step of `reInsertVertices`: the new node has the id `n()`, contains
`cont`, has the single edge of weight `mincut` to the position of `t`, and the
originals of `cont` are positioned at it; nothing else changes but the edge
list of the position of `t`. -/
theorem reInsertVertex_spec (mincut : Nat) (G : mutable_graph) (entry : Nat × List Nat) (q : Nat)
    (hcurr : G.current_position entry.1 = some q) (hq : q < G.n) :
    ∃ G2, reInsertVertex mincut G entry = some G2 ∧ G2.n = G.n + 1 ∧
      (∀ c, G2.current_position c = if c ∈ entry.2 then some G.n else G.current_position c) ∧
      (∀ x, G2.containedVertices x = if x = G.n then entry.2 else G.containedVertices x) ∧
      (∀ x, G2.edgesOf x =
        if x = G.n then [{ target := q, weight := mincut }]
        else if x = q then G.edgesOf x ++ [{ target := G.n, weight := mincut }]
        else G.edgesOf x) := by
  obtain ⟨e1, e2, e3, e4, e5⟩ := new_empty_node_spec G
  unfold reInsertVertex getCurrentPosition
  rw [hcurr]
  simp only
  cases hnew : G.new_empty_node.2.new_edge_order q G.new_empty_node.1 mincut with
  | none =>
    exfalso
    unfold new_edge_order at hnew
    rw [if_pos ⟨by rw [e2]; omega, by rw [e1, e2]; omega⟩] at hnew
    simp at hnew
  | some G2 =>
    simp only
    obtain ⟨s1, s2, s3, s4⟩ := local_search.new_edge_order_spec _ _ _ _ _ hnew
    obtain ⟨k1, k2⟩ := new_edge_order_keeps _ _ _ _ _ hnew
    obtain ⟨i1, i2, i3, i4⟩ := install_spec G2 G.new_empty_node.1 entry.2
      (by rw [s3]; exact s2)
    refine ⟨_, rfl, by rw [i1, s3, e2], ?_, ?_, ?_⟩
    · intro c
      rw [i2, k2, e3, e1]
    · intro x
      rw [i3, k1, e4, e1]
    · intro x
      rw [i4, s4, e5, e1]
      have hoob := local_search.edgesOf_oob G G.n (le_refl _)
      by_cases hx : x = G.n
      · have hxq : G.n ≠ q := by omega
        subst hx
        simp [hxq, hoob]
      · by_cases hxq : x = q
        · have hqn : q ≠ G.n := by omega
          simp [hxq, hqn]
        · simp [hx, hxq]

end heavy_edges

namespace heavy_edges
open mutable_graph

/-- The replay of a log of leaves on a graph `G` in which the originals of the
logged contained lists have no position, the lists are pairwise disjoint and
every first component is positioned at a node: `reInsertVertices` returns, and
every entry has its own new node, which contains the logged list, is the
position of its originals and has the single edge of weight `mincut` to the
position of the first component. -/
theorem reInsertVertices_spec (mincut : Nat) (G : mutable_graph) :
    ∀ L : List (Nat × List Nat),
      (∀ entry ∈ L, ∀ c ∈ entry.2, G.current_position c = none) →
      L.Pairwise (fun a b => ∀ c, c ∈ a.2 → c ∉ b.2) →
      (∀ entry ∈ L, ∃ p, p < G.n ∧ G.current_position entry.1 = some p) →
      ∃ G2, reInsertVertices mincut G L = some G2 ∧ G2.n = G.n + L.length ∧
        (∀ c, (∀ entry ∈ L, c ∉ entry.2) → G2.current_position c = G.current_position c) ∧
        (∀ entry ∈ L, ∃ p, G.n ≤ p ∧ p < G2.n ∧
          (∀ c ∈ entry.2, G2.current_position c = some p) ∧
          G2.containedVertices p = entry.2 ∧
          ∃ q, q < G.n ∧ G2.current_position entry.1 = some q ∧
            G2.edgesOf p = [{ target := q, weight := mincut }]) := by
  intro L
  induction L with
  | nil =>
    intro _ _ _
    exact ⟨G, rfl, rfl, fun _ _ => rfl, fun entry h => by simp at h⟩
  | cons entry rest ih =>
    intro h3 h4 h5
    have hnot : ∀ a ∈ entry :: rest, ∀ b ∈ entry :: rest, a.1 ∉ b.2 := by
      intro a ha b hb hc
      obtain ⟨p, _, hp⟩ := h5 a ha
      rw [h3 b hb _ hc] at hp
      simp at hp
    obtain ⟨Gr, r1, r2, r3, r4⟩ := ih
      (fun e he => h3 e (List.mem_cons_of_mem _ he))
      (List.pairwise_cons.mp h4).2
      (fun e he => h5 e (List.mem_cons_of_mem _ he))
    obtain ⟨q, hq, hpq⟩ := h5 entry (List.mem_cons_self _ _)
    have hcurr : Gr.current_position entry.1 = some q := by
      rw [r3 _ (fun e he => hnot entry (List.mem_cons_self _ _) e (List.mem_cons_of_mem _ he))]
      exact hpq
    obtain ⟨G2, s1, s2, s3, s4, s5⟩ := reInsertVertex_spec mincut Gr entry q hcurr (by omega)
    refine ⟨G2, ?_, ?_, ?_, ?_⟩
    · unfold reInsertVertices replay
      unfold reInsertVertices at r1
      rw [r1]
      exact s1
    · rw [s2, r2]
      simp only [List.length_cons]
      omega
    · intro c hc
      rw [s3, if_neg (hc entry (List.mem_cons_self _ _))]
      exact r3 c (fun e he => hc e (List.mem_cons_of_mem _ he))
    · intro e he
      rcases List.mem_cons.mp he with h | h
      · subst h
        refine ⟨Gr.n, by omega, by omega, ?_, ?_, q, hq, ?_, ?_⟩
        · intro c hc
          rw [s3, if_pos hc]
        · rw [s4, if_pos rfl]
        · rw [s3, if_neg (hnot e he e he)]
          exact hcurr
        · rw [s5, if_pos rfl]
      · obtain ⟨p, p1, p2, p3, p4, q1, p5, p6, p7⟩ := r4 e h
        refine ⟨p, p1, by omega, ?_, ?_, q1, p5, ?_, ?_⟩
        · intro c hc
          have hce : c ∉ entry.2 := fun hx => (List.pairwise_cons.mp h4).1 e h c hx hc
          rw [s3, if_neg hce]
          exact p3 c hc
        · rw [s4, if_neg (by omega)]
          exact p4
        · rw [s3, if_neg (hnot e he entry (List.mem_cons_self _ _))]
          exact p6
        · rw [s5, if_neg (by omega), if_neg (by omega)]
          exact p7

end heavy_edges

namespace heavy_edges
open mutable_graph

theorem scanEdge_marks (mincut : Nat) (G : mutable_graph) (n : Nat) (st : Scan) (ed : Edge) :
    (scanEdge mincut G n st ed).markForCactus = st.markForCactus ∨
    (ed.weight = mincut ∧ G.get_first_invalid_edge n = 1 ∧
      (scanEdge mincut G n st ed).markForCactus =
        st.markForCactus ++ [(G.containedVertices n).headD 0]) := by
  unfold scanEdge
  split
  · exact Or.inl rfl
  · simp only
    split
    · rename_i hm
      right
      refine ⟨hm.1, hm.2, ?_⟩
      split <;> rfl
    · left
      split <;> rfl

theorem scanNode_marks (mincut : Nat) (G : mutable_graph) (st : Scan) (n : Nat) :
    (scanNode mincut G st n).markForCactus = st.markForCactus ∨
    (G.isEmpty n = false ∧ (∃ T, G.edgesOf n = [{ target := T, weight := mincut }]) ∧
      (scanNode mincut G st n).markForCactus =
        st.markForCactus ++ [(G.containedVertices n).headD 0]) := by
  unfold scanNode
  split
  · exact Or.inl rfl
  · rename_i hE
    have hE2 : G.isEmpty n = false := by simpa using hE
    by_cases hdeg : G.get_first_invalid_edge n = 1
    · unfold get_first_invalid_edge at hdeg
      match hl : G.edgesOf n, hdeg with
      | [ed], _ =>
        simp only [List.foldl_cons, List.foldl_nil]
        rcases scanEdge_marks mincut G n st ed with h | ⟨hw, -, h⟩
        · exact Or.inl h
        · right
          refine ⟨hE2, ⟨ed.target, ?_⟩, h⟩
          rw [← hw]
    · left
      apply foldl_invariant (scanEdge mincut G n)
        (fun s => s.markForCactus = st.markForCactus)
      · rfl
      · intro s ed _ hs
        rcases scanEdge_marks mincut G n s ed with h | ⟨-, hd, -⟩
        · rw [h, hs]
        · exact absurd hd hdeg

theorem scan_marks_fold (mincut : Nat) (G : mutable_graph) (hpos : Positioned G) (l : List Nat)
    (hnd : l.Nodup) (hl : ∀ n ∈ l, n < G.n) :
    ∀ st : Scan,
      (∀ e ∈ st.markForCactus, ∃ m T, G.current_position e = some m ∧ m < G.n ∧ m ∉ l ∧
        G.edgesOf m = [{ target := T, weight := mincut }]) →
      st.markForCactus.Pairwise (fun a b => G.current_position a ≠ G.current_position b) →
      (∀ e ∈ (l.foldl (scanNode mincut G) st).markForCactus,
        ∃ m T, G.current_position e = some m ∧ m < G.n ∧
          G.edgesOf m = [{ target := T, weight := mincut }]) ∧
      (l.foldl (scanNode mincut G) st).markForCactus.Pairwise
        (fun a b => G.current_position a ≠ G.current_position b) := by
  induction l with
  | nil =>
    intro st h1 h2
    refine ⟨?_, h2⟩
    intro e he
    obtain ⟨m, T, a, b, -, c⟩ := h1 e he
    exact ⟨m, T, a, b, c⟩
  | cons n l ih =>
    intro st h1 h2
    simp only [List.foldl_cons]
    have hnd2 := List.nodup_cons.mp hnd
    have hold : ∀ e ∈ st.markForCactus, ∃ m T, G.current_position e = some m ∧ m < G.n ∧ m ∉ l ∧
        G.edgesOf m = [{ target := T, weight := mincut }] := by
      intro e he
      obtain ⟨m, T, a, b, c, d⟩ := h1 e he
      exact ⟨m, T, a, b, fun h => c (List.mem_cons_of_mem _ h), d⟩
    apply ih hnd2.2 (fun x hx => hl x (List.mem_cons_of_mem _ hx))
    · rcases scanNode_marks mincut G st n with h | ⟨hE, ⟨T, hT⟩, h⟩
      · rw [h]; exact hold
      · rw [h]
        intro e he
        rcases List.mem_append.mp he with h3 | h3
        · exact hold e h3
        · simp only [List.mem_singleton] at h3
          rw [h3]
          exact ⟨n, T, hpos n _ (headD_mem _ hE), hl n (List.mem_cons_self _ _), hnd2.1, hT⟩
    · rcases scanNode_marks mincut G st n with h | ⟨hE, -, h⟩
      · rw [h]; exact h2
      · rw [h, List.pairwise_append]
        refine ⟨h2, List.pairwise_singleton _ _, ?_⟩
        intro a ha b hb
        simp only [List.mem_singleton] at hb
        rw [hb, hpos n _ (headD_mem _ hE)]
        obtain ⟨m, T, a1, -, a3, -⟩ := h1 a ha
        rw [a1]
        intro hc
        simp only [Option.some.injEq] at hc
        exact a3 (by rw [hc]; exact List.mem_cons_self _ _)

/-- The marks of the scan: every marked original is positioned at a node whose
edge list is a single edge of weight `mincut`, and different marks are
positioned at different nodes. -/
theorem scan_marks (mincut : Nat) (G : mutable_graph) (hpos : Positioned G) :
    (∀ e ∈ (scan mincut G).markForCactus,
      ∃ m T, G.current_position e = some m ∧ m < G.n ∧
        G.edgesOf m = [{ target := T, weight := mincut }]) ∧
    (scan mincut G).markForCactus.Pairwise
      (fun a b => G.current_position a ≠ G.current_position b) := by
  unfold scan
  exact scan_marks_fold mincut G hpos G.nodes (List.nodup_range _)
    (fun n hn => by simpa [nodes] using hn) _ (fun e he => by simp at he) List.Pairwise.nil

/-- In a connected graph with more than two nodes, no two nodes have each
other as their only neighbour. -/
theorem no_closed_pair (G : mutable_graph) (hconn : Connected G) (hn : G.n > 2)
    (m T w1 w2 : Nat) (hm : m < G.n)
    (h1 : G.edgesOf m = [{ target := T, weight := w1 }])
    (h2 : G.edgesOf T = [{ target := m, weight := w2 }]) : False := by
  have hclosed : ∀ v, Relation.ReflTransGen (fun a b => ∃ ed ∈ G.edgesOf a, ed.target = b) m v →
      v = m ∨ v = T := by
    intro v hv
    induction hv with
    | refl => exact Or.inl rfl
    | tail _ hstep ih =>
      obtain ⟨ed, hed, htar⟩ := hstep
      rcases ih with h | h
      · rw [h, h1] at hed
        simp only [List.mem_singleton] at hed
        rw [hed] at htar
        exact Or.inr htar.symm
      · rw [h, h2] at hed
        simp only [List.mem_singleton] at hed
        rw [hed] at htar
        exact Or.inl htar.symm
  have h0 := hclosed 0 (hconn m 0 hm (by omega))
  have h1 := hclosed 1 (hconn m 1 hm (by omega))
  have h2 := hclosed 2 (hconn m 2 hm (by omega))
  omega

end heavy_edges

namespace heavy_edges
open mutable_graph

theorem deleteLeaf_cases (marks : List Nat) (st : mutable_graph × List (Nat × List Nat))
    (e : Nat) (he : e ∈ marks) (hinv : LeafInv marks st) (n : Nat)
    (hpe : st.1.current_position e = some n) :
    deleteLeaf st e = some st ∨
    ∃ entry, deleteLeaf st e = some (st.1.deleteVertex n, st.2 ++ [entry]) := by
  obtain ⟨hn, T, w, hedges, -⟩ := hinv.2.1 e he n hpe
  unfold deleteLeaf
  split
  · unfold getCurrentPosition
    rw [hpe]
    simp only
    have hdeg : st.1.get_first_invalid_edge n = 1 := by
      unfold get_first_invalid_edge
      rw [hedges]
      rfl
    rw [if_neg (by rw [hdeg]; simp)]
    have ht : st.1.getEdgeTarget n 0 = some T := by
      unfold getEdgeTarget getEdge
      rw [hedges]
      rfl
    rw [ht]
    simp only
    split
    · exact Or.inl rfl
    · exact Or.inr ⟨_, rfl⟩
  · exact Or.inl rfl

theorem deleteLeaves_returns (marks : List Nat) (l : List Nat) (hl : ∀ e ∈ l, e ∈ marks) :
    ∀ st : mutable_graph × List (Nat × List Nat),
      LeafInv marks st →
      (∀ e ∈ l, ∃ x, st.1.current_position e = some x) →
      l.Pairwise (fun a b => st.1.current_position a ≠ st.1.current_position b) →
      ∃ st1, deleteLeaves l st = some st1 := by
  induction l with
  | nil => intro st _ _ _; exact ⟨st, rfl⟩
  | cons e l ih =>
    intro st hinv hdef hdist
    have he := hl e (List.mem_cons_self _ _)
    obtain ⟨n, hpe⟩ := hdef e (List.mem_cons_self _ _)
    have hn := (hinv.2.1 e he n hpe).1
    have hpw := List.pairwise_cons.mp hdist
    unfold deleteLeaves
    rcases deleteLeaf_cases marks st e he hinv n hpe with h | ⟨entry, h⟩
    · rw [h]
      exact ih (fun x hx => hl x (List.mem_cons_of_mem _ hx)) st hinv
        (fun x hx => hdef x (List.mem_cons_of_mem _ hx)) hpw.2
    · rw [h]
      simp only
      have hinv2 := deleteLeaf_inv marks st _ e he hinv h
      apply ih (fun x hx => hl x (List.mem_cons_of_mem _ hx)) _ hinv2
      · intro x hx
        obtain ⟨y, hy⟩ := hdef x (List.mem_cons_of_mem _ hx)
        have hyn : y ≠ n := by
          intro hc
          apply hpw.1 x hx
          rw [hpe, hy, hc]
        exact ⟨_, deleteVertex_pos_of _ n x y hn hy hyn⟩
      · apply List.Pairwise.imp_of_mem _ hpw.2
        intro a b ha hb hab hc
        simp only at hc
        obtain ⟨ya, hya⟩ := hdef a (List.mem_cons_of_mem _ ha)
        obtain ⟨yb, hyb⟩ := hdef b (List.mem_cons_of_mem _ hb)
        have hyan : ya ≠ n := by
          intro h1
          apply hpw.1 a ha
          rw [hpe, hya, h1]
        have hybn : yb ≠ n := by
          intro h1
          apply hpw.1 b hb
          rw [hpe, hyb, h1]
        rw [deleteVertex_pos_of _ n a ya hn hya hyan,
          deleteVertex_pos_of _ n b yb hn hyb hybn] at hc
        simp only [Option.some.injEq] at hc
        apply hab
        rw [hya, hyb]
        congr 1
        split at hc <;> split at hc <;> omega

/-- C6 (cactus log replay identity): for a connected undirected graph `G0` with
more than two nodes whose positions agree with the contained lists, and any
iteration order of the map `contract`, `removeHeavyEdges` returns a graph and a
log `L`, `reInsertVertices` with `L` then returns, and for every entry
`(t, cont)` of `L` the originals in `cont` have one node as their current
position, that node contains exactly `cont` and has exactly one edge, of weight
λ, whose target is the current position of `t`. -/
theorem cactus_replay (mincut : Nat)
    (iter : List (Nat × List Nat) → List (Nat × List Nat)) (G0 : mutable_graph)
    (hpos : Positioned G0) (hund : Undirected G0) (hconn : Connected G0) (hn : G0.n > 2)
    (hiter : ∀ c, (iter c).Perm c) :
    ∃ G1 L G2, removeHeavyEdges mincut iter G0 = some (G1, L) ∧
      reInsertVertices mincut G1 L = some G2 ∧
      ∀ entry ∈ L, ∃ p, p < G2.n ∧
        (∀ c ∈ entry.2, G2.getCurrentPosition c = some p) ∧
        G2.containedVertices p = entry.2 ∧
        G2.get_first_invalid_edge p = 1 ∧
        ∃ q, G2.getCurrentPosition entry.1 = some q ∧
          G2.getEdge p 0 = some { target := q, weight := mincut } := by
  obtain ⟨hB, -⟩ := scan_members mincut G0 hpos hund
  obtain ⟨hM, hMd⟩ := scan_marks mincut G0 hpos
  obtain ⟨G1, f1, r1, r2, r3, r4, -, -, r7, r8⟩ := contractGroups_spec mincut G0
    (iter (scan mincut G0).contract)
    (fun g hg => hB g ((hiter _).mem_iff.mp hg)) G0 id
    (fun c => by simp) (fun x y _ _ h => Or.inl h) (fun x hx => hx)
    (fun x _ _ => ⟨rfl, fun y w _ h => h⟩) (fun h => h)
  have hlight : ∀ m T, G0.edgesOf m = [{ target := T, weight := mincut }] →
      ¬ Heavy mincut G0 m := by
    rintro m T hm ⟨ed, hed, hw⟩
    rw [hm] at hed
    simp only [List.mem_singleton] at hed
    rw [hed] at hw
    simp at hw
  have hmark : ∀ e ∈ (scan mincut G0).markForCactus, ∃ m T, G0.current_position e = some m ∧
      m < G0.n ∧ T < G0.n ∧ G0.edgesOf m = [{ target := T, weight := mincut }] ∧
      G1.current_position e = some (f1 m) ∧
      G1.edgesOf (f1 m) = [{ target := f1 T, weight := mincut }] := by
    intro e he
    obtain ⟨m, T, a1, a2, a3⟩ := hM e he
    have hT : T < G0.n := (hund m ⟨T, mincut⟩ (by rw [a3]; exact List.mem_singleton.mpr rfl)).1
    refine ⟨m, T, a1, a2, hT, a3, by rw [r2, a1]; rfl, ?_⟩
    exact (r7 m a2 (hlight m T a3)).2 T mincut hT a3
  have hinv : LeafInv (scan mincut G0).markForCactus (G1, []) := by
    refine ⟨r8 hpos, ?_, fun entry h => by simp at h, List.Pairwise.nil,
      fun entry h => by simp at h⟩
    intro e he x hx
    obtain ⟨m, T, a1, a2, a3, a4, a5, a6⟩ := hmark e he
    simp only at hx
    rw [a5] at hx
    simp only [Option.some.injEq] at hx
    subst hx
    refine ⟨r4 m a2, f1 T, mincut, a6, ?_⟩
    intro e1 he1 hc
    obtain ⟨m1, T1, b1, b2, b3, b4, b5, b6⟩ := hmark e1 he1
    simp only at hc
    rw [b5] at hc
    simp only [Option.some.injEq] at hc
    have hm1 : m1 = T := by
      rcases r3 m1 T b2 a3 hc with h | h
      · exact h
      · exact absurd h.1 (hlight m1 T1 b4)
    subst hm1
    have hrev := (hund m ⟨m1, mincut⟩ (by rw [a4]; exact List.mem_singleton.mpr rfl)).2
    rw [b4] at hrev
    simp only [List.mem_singleton, Edge.mk.injEq] at hrev
    rw [← hrev.1] at b4
    exact no_closed_pair G0 hconn hn m m1 mincut mincut a2 a4 b4
  obtain ⟨st1, hst1⟩ := deleteLeaves_returns (scan mincut G0).markForCactus
    (scan mincut G0).markForCactus (fun _ h => h) (G1, []) hinv
    (by
      intro e he
      obtain ⟨m, T, a1, a2, a3, a4, a5, a6⟩ := hmark e he
      exact ⟨_, a5⟩)
    (by
      apply List.Pairwise.imp_of_mem _ hMd
      intro a b ha hb hab hc
      simp only at hc
      obtain ⟨m, T, a1, a2, a3, a4, a5, a6⟩ := hmark a ha
      obtain ⟨m1, T1, b1, b2, b3, b4, b5, b6⟩ := hmark b hb
      rw [a5, b5] at hc
      simp only [Option.some.injEq] at hc
      apply hab
      rw [a1, b1]
      rcases r3 m m1 a2 b2 hc with h | h
      · rw [h]
      · exact absurd h.1 (hlight m T a4))
  obtain ⟨-, -, l3, l4, l5⟩ := deleteLeaves_inv (scan mincut G0).markForCactus
    (scan mincut G0).markForCactus (fun _ h => h) (G1, []) st1 hinv hst1
  obtain ⟨G2, g1, g2, g3, g4⟩ := reInsertVertices_spec mincut st1.1 st1.2 l3 l4
    (fun entry he => by
      obtain ⟨p, hp, hpp, -⟩ := l5 entry he
      exact ⟨p, hp, hpp⟩)
  refine ⟨st1.1, st1.2, G2, ?_, g1, ?_⟩
  · unfold removeHeavyEdges
    rw [r1]
    exact hst1
  · intro entry he
    obtain ⟨p, p1, p2, p3, p4, q, q1, q2, q3⟩ := g4 entry he
    refine ⟨p, p2, p3, p4, ?_, q, q2, ?_⟩
    · unfold get_first_invalid_edge
      rw [q3]
      rfl
    · unfold getEdge
      rw [q3]
      rfl

/-- An instance of C6: nodes 0 and 1 joined by a heavy edge (weight 7, λ = 4),
the leaves 2 (at 1) and 3 (at 0) with edges of weight 4, and node 4 joined to 0
and 1 by edges of weight 2.  The log is `[(0, [2]), (0, [3])]`, and after the
replay the originals 3 and 2 sit in the new nodes 2 and 3, each with the single
edge of weight 4 to node 0, the position of the original 0. -/
theorem cactus_replay_witness :
    (Positioned (ofEdges 5 [(0, 1, 7), (1, 2, 4), (0, 3, 4), (0, 4, 2), (1, 4, 2)]) ∧
      Undirected (ofEdges 5 [(0, 1, 7), (1, 2, 4), (0, 3, 4), (0, 4, 2), (1, 4, 2)]) ∧
      Connected (ofEdges 5 [(0, 1, 7), (1, 2, 4), (0, 3, 4), (0, 4, 2), (1, 4, 2)]) ∧
      (ofEdges 5 [(0, 1, 7), (1, 2, 4), (0, 3, 4), (0, 4, 2), (1, 4, 2)]).n > 2 ∧
      (∀ c : List (Nat × List Nat), (id c).Perm c)) ∧
    (∃ G1 L G2,
      removeHeavyEdges 4 id (ofEdges 5 [(0, 1, 7), (1, 2, 4), (0, 3, 4), (0, 4, 2), (1, 4, 2)])
        = some (G1, L) ∧
      reInsertVertices 4 G1 L = some G2 ∧
      ∀ entry ∈ L, ∃ p, p < G2.n ∧
        (∀ c ∈ entry.2, G2.getCurrentPosition c = some p) ∧
        G2.containedVertices p = entry.2 ∧
        G2.get_first_invalid_edge p = 1 ∧
        ∃ q, G2.getCurrentPosition entry.1 = some q ∧
          G2.getEdge p 0 = some { target := q, weight := 4 }) ∧
    ((removeHeavyEdges 4 id
        (ofEdges 5 [(0, 1, 7), (1, 2, 4), (0, 3, 4), (0, 4, 2), (1, 4, 2)])).map Prod.snd =
      some [(0, [2]), (0, [3])] ∧
    ((removeHeavyEdges 4 id
        (ofEdges 5 [(0, 1, 7), (1, 2, 4), (0, 3, 4), (0, 4, 2), (1, 4, 2)])).bind
          (fun r => reInsertVertices 4 r.1 r.2)).map
        (fun G => ((List.range 5).map G.getCurrentPosition,
          G.vertices.map Vertex.contained, G.edgesOf 2, G.edgesOf 3)) =
      some ([some 0, some 0, some 3, some 2, some 1], [[0, 1], [4], [3], [2]],
        [{ target := 0, weight := 4 }], [{ target := 0, weight := 4 }])) :=
  ⟨⟨(ofEdges_wf 5 _).1, (ofEdges_wf 5 _).2.2.1,
      (by
        have hub : ∀ u, u < 5 →
            Relation.ReflTransGen (fun a b => ∃ ed ∈
              (ofEdges 5 [(0, 1, 7), (1, 2, 4), (0, 3, 4), (0, 4, 2), (1, 4, 2)]).edgesOf a,
                ed.target = b) u 0 ∧
            Relation.ReflTransGen (fun a b => ∃ ed ∈
              (ofEdges 5 [(0, 1, 7), (1, 2, 4), (0, 3, 4), (0, 4, 2), (1, 4, 2)]).edgesOf a,
                ed.target = b) 0 u := by
          intro u hu
          have h01 : ∃ ed ∈ (ofEdges 5 [(0, 1, 7), (1, 2, 4), (0, 3, 4), (0, 4, 2),
              (1, 4, 2)]).edgesOf 0, ed.target = 1 := by decide
          have h10 : ∃ ed ∈ (ofEdges 5 [(0, 1, 7), (1, 2, 4), (0, 3, 4), (0, 4, 2),
              (1, 4, 2)]).edgesOf 1, ed.target = 0 := by decide
          have h12 : ∃ ed ∈ (ofEdges 5 [(0, 1, 7), (1, 2, 4), (0, 3, 4), (0, 4, 2),
              (1, 4, 2)]).edgesOf 1, ed.target = 2 := by decide
          have h21 : ∃ ed ∈ (ofEdges 5 [(0, 1, 7), (1, 2, 4), (0, 3, 4), (0, 4, 2),
              (1, 4, 2)]).edgesOf 2, ed.target = 1 := by decide
          have h03 : ∃ ed ∈ (ofEdges 5 [(0, 1, 7), (1, 2, 4), (0, 3, 4), (0, 4, 2),
              (1, 4, 2)]).edgesOf 0, ed.target = 3 := by decide
          have h30 : ∃ ed ∈ (ofEdges 5 [(0, 1, 7), (1, 2, 4), (0, 3, 4), (0, 4, 2),
              (1, 4, 2)]).edgesOf 3, ed.target = 0 := by decide
          have h04 : ∃ ed ∈ (ofEdges 5 [(0, 1, 7), (1, 2, 4), (0, 3, 4), (0, 4, 2),
              (1, 4, 2)]).edgesOf 0, ed.target = 4 := by decide
          have h40 : ∃ ed ∈ (ofEdges 5 [(0, 1, 7), (1, 2, 4), (0, 3, 4), (0, 4, 2),
              (1, 4, 2)]).edgesOf 4, ed.target = 0 := by decide
          interval_cases u
          · exact ⟨Relation.ReflTransGen.refl, Relation.ReflTransGen.refl⟩
          · exact ⟨Relation.ReflTransGen.single h10, Relation.ReflTransGen.single h01⟩
          · exact ⟨(Relation.ReflTransGen.single h21).tail h10,
              (Relation.ReflTransGen.single h01).tail h12⟩
          · exact ⟨Relation.ReflTransGen.single h30, Relation.ReflTransGen.single h03⟩
          · exact ⟨Relation.ReflTransGen.single h40, Relation.ReflTransGen.single h04⟩
        intro u v hu hv
        rw [(ofEdges_wf 5 _).2.2.2] at hu hv
        exact (hub u hu).1.trans (hub v hv).2),
      (by rw [(ofEdges_wf 5 _).2.2.2]; decide), fun _ => List.Perm.refl _⟩,
    cactus_replay 4 id (ofEdges 5 [(0, 1, 7), (1, 2, 4), (0, 3, 4), (0, 4, 2), (1, 4, 2)])
      (ofEdges_wf 5 _).1 (ofEdges_wf 5 _).2.2.1
      (by
        have hub : ∀ u, u < 5 →
            Relation.ReflTransGen (fun a b => ∃ ed ∈
              (ofEdges 5 [(0, 1, 7), (1, 2, 4), (0, 3, 4), (0, 4, 2), (1, 4, 2)]).edgesOf a,
                ed.target = b) u 0 ∧
            Relation.ReflTransGen (fun a b => ∃ ed ∈
              (ofEdges 5 [(0, 1, 7), (1, 2, 4), (0, 3, 4), (0, 4, 2), (1, 4, 2)]).edgesOf a,
                ed.target = b) 0 u := by
          intro u hu
          have h01 : ∃ ed ∈ (ofEdges 5 [(0, 1, 7), (1, 2, 4), (0, 3, 4), (0, 4, 2),
              (1, 4, 2)]).edgesOf 0, ed.target = 1 := by decide
          have h10 : ∃ ed ∈ (ofEdges 5 [(0, 1, 7), (1, 2, 4), (0, 3, 4), (0, 4, 2),
              (1, 4, 2)]).edgesOf 1, ed.target = 0 := by decide
          have h12 : ∃ ed ∈ (ofEdges 5 [(0, 1, 7), (1, 2, 4), (0, 3, 4), (0, 4, 2),
              (1, 4, 2)]).edgesOf 1, ed.target = 2 := by decide
          have h21 : ∃ ed ∈ (ofEdges 5 [(0, 1, 7), (1, 2, 4), (0, 3, 4), (0, 4, 2),
              (1, 4, 2)]).edgesOf 2, ed.target = 1 := by decide
          have h03 : ∃ ed ∈ (ofEdges 5 [(0, 1, 7), (1, 2, 4), (0, 3, 4), (0, 4, 2),
              (1, 4, 2)]).edgesOf 0, ed.target = 3 := by decide
          have h30 : ∃ ed ∈ (ofEdges 5 [(0, 1, 7), (1, 2, 4), (0, 3, 4), (0, 4, 2),
              (1, 4, 2)]).edgesOf 3, ed.target = 0 := by decide
          have h04 : ∃ ed ∈ (ofEdges 5 [(0, 1, 7), (1, 2, 4), (0, 3, 4), (0, 4, 2),
              (1, 4, 2)]).edgesOf 0, ed.target = 4 := by decide
          have h40 : ∃ ed ∈ (ofEdges 5 [(0, 1, 7), (1, 2, 4), (0, 3, 4), (0, 4, 2),
              (1, 4, 2)]).edgesOf 4, ed.target = 0 := by decide
          interval_cases u
          · exact ⟨Relation.ReflTransGen.refl, Relation.ReflTransGen.refl⟩
          · exact ⟨Relation.ReflTransGen.single h10, Relation.ReflTransGen.single h01⟩
          · exact ⟨(Relation.ReflTransGen.single h21).tail h10,
              (Relation.ReflTransGen.single h01).tail h12⟩
          · exact ⟨Relation.ReflTransGen.single h30, Relation.ReflTransGen.single h03⟩
          · exact ⟨Relation.ReflTransGen.single h40, Relation.ReflTransGen.single h04⟩
        intro u v hu hv
        rw [(ofEdges_wf 5 _).2.2.2] at hu hv
        exact (hub u hu).1.trans (hub v hv).2)
      (by rw [(ofEdges_wf 5 _).2.2.2]; decide) (fun _ => List.Perm.refl _),
    by decide⟩

end heavy_edges

namespace heavy_edges
open mutable_graph

theorem sum_weight_eraseIdx (l : List Edge) :
    ∀ (k : Nat) (a : Edge), l[k]? = some a →
      ((l.eraseIdx k).map Edge.weight).sum + a.weight = (l.map Edge.weight).sum := by
  induction l with
  | nil => intro k a h; simp at h
  | cons b l ih =>
    intro k a h
    cases k with
    | zero =>
      simp only [List.getElem?_cons_zero, Option.some.injEq] at h
      subst h
      simp only [List.eraseIdx_cons_zero, List.map_cons, List.sum_cons]
      omega
    | succ k =>
      simp only [List.getElem?_cons_succ] at h
      simp only [List.eraseIdx_cons_succ, List.map_cons, List.sum_cons]
      have := ih k a h
      omega

theorem sum_weight_set (l : List Edge) :
    ∀ (k : Nat) (a b : Edge), l[k]? = some a →
      ((l.set k b).map Edge.weight).sum + a.weight = (l.map Edge.weight).sum + b.weight := by
  induction l with
  | nil => intro k a b h; simp at h
  | cons c l ih =>
    intro k a b h
    cases k with
    | zero =>
      simp only [List.getElem?_cons_zero, Option.some.injEq] at h
      subst h
      simp only [List.set_cons_zero, List.map_cons, List.sum_cons]
      omega
    | succ k =>
      simp only [List.getElem?_cons_succ] at h
      simp only [List.set_cons_succ, List.map_cons, List.sum_cons]
      have := ih k a b h
      omega

theorem findIdx_target (l : List Edge) (t w : Nat)
    (hmem : ({ target := t, weight := w } : Edge) ∈ l) (hnd : (l.map Edge.target).Nodup) :
    l.findIdx (fun x => x.target == t) < l.length ∧
    l[l.findIdx (fun x => x.target == t)]? = some { target := t, weight := w } := by
  have hlt : l.findIdx (fun x => x.target == t) < l.length :=
    List.findIdx_lt_length_of_exists ⟨_, hmem, by simp⟩
  refine ⟨hlt, ?_⟩
  rw [List.getElem?_eq_getElem hlt]
  congr 1
  have hp : (l[l.findIdx (fun x => x.target == t)]).target = t := by
    have := @List.findIdx_getElem _ (fun x : Edge => x.target == t) l hlt
    simpa using this
  exact List.inj_on_of_nodup_map hnd (List.getElem_mem _) hmem hp

theorem deleteEdge_spec (G : mutable_graph) (n e r : Nat) (ed : Edge)
    (hge : G.getEdge n e = some ed) (hr : G.getReverseEdge n e = some r)
    (hn : n < G.n) (ht : ed.target < G.n) (hnt : ed.target ≠ n) :
    ∃ G1, G.deleteEdge n e = some G1 ∧ G1.n = G.n ∧
      G1.current_position = G.current_position ∧
      (∀ x, G1.containedVertices x = G.containedVertices x) ∧
      (∀ x, G1.edgesOf x =
        if x = ed.target then (G.edgesOf x).eraseIdx r
        else if x = n then (G.edgesOf x).eraseIdx e else G.edgesOf x) := by
  unfold deleteEdge
  rw [hge, hr]
  simp only
  refine ⟨_, rfl, ?_, ?_, ?_, ?_⟩
  · rw [local_search.setEdges_n, local_search.setEdges_n]
  · rw [setEdges_position, setEdges_position]
  · intro x
    rw [setEdges_contained, setEdges_contained]
  · intro x
    rw [local_search.setEdges_edgesOf _ _ _ _ (by rw [local_search.setEdges_n]; exact ht)]
    by_cases hx : x = ed.target
    · rw [if_pos hx, if_pos hx]
      rw [local_search.setEdges_edgesOf _ _ _ _ hn, if_neg hnt, hx]
    · rw [if_neg hx, if_neg hx]
      rw [local_search.setEdges_edgesOf _ _ _ _ hn]
      by_cases hxn : x = n
      · rw [if_pos hxn, if_pos hxn, hxn]
      · rw [if_neg hxn, if_neg hxn]

theorem setEdgeWeight_spec (G : mutable_graph) (n e r w : Nat) (ed : Edge)
    (hge : G.getEdge n e = some ed) (hr : G.getReverseEdge n e = some r)
    (hn : n < G.n) (ht : ed.target < G.n) (hnt : ed.target ≠ n) :
    ∃ G1, G.setEdgeWeight n e w = some G1 ∧ G1.n = G.n ∧
      G1.current_position = G.current_position ∧
      (∀ x, G1.containedVertices x = G.containedVertices x) ∧
      (∀ x, G1.edgesOf x =
        if x = ed.target then (G.edgesOf x).set r { target := n, weight := w }
        else if x = n then (G.edgesOf x).set e { ed with weight := w } else G.edgesOf x) := by
  unfold setEdgeWeight
  rw [hge, hr]
  simp only
  refine ⟨_, rfl, ?_, ?_, ?_, ?_⟩
  · rw [local_search.setEdges_n, local_search.setEdges_n]
  · rw [setEdges_position, setEdges_position]
  · intro x
    rw [setEdges_contained, setEdges_contained]
  · intro x
    rw [local_search.setEdges_edgesOf _ _ _ _ (by rw [local_search.setEdges_n]; exact ht)]
    by_cases hx : x = ed.target
    · rw [if_pos hx, if_pos hx]
      rw [local_search.setEdges_edgesOf _ _ _ _ hn, if_neg hnt, hx]
    · rw [if_neg hx, if_neg hx]
      rw [local_search.setEdges_edgesOf _ _ _ _ hn]
      by_cases hxn : x = n
      · rw [if_pos hxn, if_pos hxn, hxn]
      · rw [if_neg hxn, if_neg hxn]

end heavy_edges

namespace heavy_edges
open mutable_graph

/-- One replay step of `reInsertCycles`.  Let `G` be a simple undirected graph and
`((p0, p1), cont)` a log entry whose originals `cont` have no position, with
`p0` and `p1` positioned at different nodes `n0` and `n1` that are joined by an
edge of weight `w` with `λ/2 ≤ w < 2^64`.  The step of `reInsertCycles` for this
entry returns; the new node `n()` contains `cont` and is the position of its
originals; it has exactly two edges, each of weight `λ/2`, to `n0` and `n1`,
which are still the positions of `p0` and `p1`; the edge between `n0` and `n1`
is lowered to `w - λ/2`, or deleted when `w = λ/2`; every other edge list, the
weighted degree of every old node and every other position are unchanged. -/
theorem reInsertCycle_step (mincut : Nat) (G : mutable_graph)
    (entry : (Nat × Nat) × List Nat) (n0 n1 w : Nat)
    (hs : local_search.Simple G)
    (hp0 : G.getCurrentPosition entry.1.1 = some n0)
    (hp1 : G.getCurrentPosition entry.1.2 = some n1)
    (hne : n0 ≠ n1)
    (hw : ({ target := n1, weight := w } : Edge) ∈ G.edgesOf n0)
    (hwh : mincut / 2 ≤ w) (hw64 : w < 2 ^ edgeWeightBits)
    (hcont : ∀ c ∈ entry.2, G.getCurrentPosition c = none) :
    ∃ G1, reInsertCycle mincut G entry = some G1 ∧ G1.n = G.n + 1 ∧
      (∀ c ∈ entry.2, G1.getCurrentPosition c = some G.n) ∧
      (∀ c, c ∉ entry.2 → G1.getCurrentPosition c = G.getCurrentPosition c) ∧
      G1.containedVertices G.n = entry.2 ∧
      G1.edgesOf G.n = [{ target := n0, weight := mincut / 2 },
        { target := n1, weight := mincut / 2 }] ∧
      G1.getCurrentPosition entry.1.1 = some n0 ∧
      G1.getCurrentPosition entry.1.2 = some n1 ∧
      G1.edgesOf n0 =
        (if w = mincut / 2
          then (G.edgesOf n0).eraseIdx ((G.edgesOf n0).findIdx (fun x => x.target == n1))
          else (G.edgesOf n0).set ((G.edgesOf n0).findIdx (fun x => x.target == n1))
            { target := n1, weight := w - mincut / 2 })
          ++ [{ target := G.n, weight := mincut / 2 }] ∧
      G1.edgesOf n1 =
        (if w = mincut / 2
          then (G.edgesOf n1).eraseIdx ((G.edgesOf n1).findIdx (fun x => x.target == n0))
          else (G.edgesOf n1).set ((G.edgesOf n1).findIdx (fun x => x.target == n0))
            { target := n0, weight := w - mincut / 2 })
          ++ [{ target := G.n, weight := mincut / 2 }] ∧
      (∀ x, x ≠ n0 → x ≠ n1 → x ≠ G.n →
        G1.edgesOf x = G.edgesOf x ∧ G1.containedVertices x = G.containedVertices x) ∧
      (∀ x, x < G.n → G1.getWeightedNodeDegree x = G.getWeightedNodeDegree x) ∧
      (∀ x, x ≠ G.n → G1.containedVertices x = G.containedVertices x) := by
  have hn0 : n0 < G.n := by
    by_contra hc
    rw [local_search.edgesOf_oob G n0 (by omega)] at hw
    simp at hw
  have hn1 : n1 < G.n := (hs.1 n0 _ hw).1
  have hrev : ({ target := n0, weight := w } : Edge) ∈ G.edgesOf n1 := hs.2.2 n0 _ hw
  obtain ⟨he, hee⟩ := findIdx_target (G.edgesOf n0) n1 w hw (hs.2.1 n0)
  obtain ⟨hi, hii⟩ := findIdx_target (G.edgesOf n1) n0 w hrev (hs.2.1 n1)
  obtain ⟨e1, e2, e3, e4, e5⟩ := new_empty_node_spec G
  have hnew2 : ∃ G2, G.new_empty_node.2.new_edge_order n0 G.new_empty_node.1 (mincut / 2)
      = some G2 := by
    unfold new_edge_order
    rw [if_pos ⟨by rw [e2]; omega, by rw [e1, e2]; omega⟩]
    exact ⟨_, rfl⟩
  obtain ⟨G2, hG2⟩ := hnew2
  obtain ⟨a1, a2, a3, a4⟩ := local_search.new_edge_order_spec _ _ _ _ _ hG2
  obtain ⟨a5, a6⟩ := new_edge_order_keeps _ _ _ _ _ hG2
  have hnew3 : ∃ G3, G2.new_edge_order n1 G.new_empty_node.1 (mincut / 2) = some G3 := by
    unfold new_edge_order
    rw [if_pos ⟨by rw [a3, e2]; omega, by rw [a3, e1, e2]; omega⟩]
    exact ⟨_, rfl⟩
  obtain ⟨G3, hG3⟩ := hnew3
  obtain ⟨b1, b2, b3, b4⟩ := local_search.new_edge_order_spec _ _ _ _ _ hG3
  obtain ⟨b5, b6⟩ := new_edge_order_keeps _ _ _ _ _ hG3
  have hoob := local_search.edgesOf_oob G G.n (le_refl _)
  have hE3 : ∀ x, G3.edgesOf x =
      if x = G.n then [{ target := n0, weight := mincut / 2 },
        { target := n1, weight := mincut / 2 }]
      else if x = n0 then G.edgesOf n0 ++ [{ target := G.n, weight := mincut / 2 }]
      else if x = n1 then G.edgesOf n1 ++ [{ target := G.n, weight := mincut / 2 }]
      else G.edgesOf x := by
    intro x
    rw [b4, a4, e5, e1]
    by_cases hx : x = G.n
    · have h0 : G.n ≠ n0 := by omega
      have h1 : G.n ≠ n1 := by omega
      subst hx
      simp [h0, h1, hoob]
    · by_cases hx0 : x = n0
      · subst hx0
        simp [hx, hne]
      · by_cases hx1 : x = n1
        · subst hx1
          simp [hx, hx0]
        · simp [hx, hx0, hx1]
  have hG3n : G3.n = G.n + 1 := by rw [b3, a3, e2]
  have hge : G3.getEdge n0 ((G.edgesOf n0).findIdx (fun x => x.target == n1)) =
      some { target := n1, weight := w } := by
    unfold getEdge
    rw [hE3, if_neg (by omega), if_pos rfl, List.getElem?_append_left he]
    exact hee
  have hgr : G3.getReverseEdge n0 ((G.edgesOf n0).findIdx (fun x => x.target == n1)) =
      some ((G.edgesOf n1).findIdx (fun x => x.target == n0)) := by
    have hE1 : G3.edgesOf n1 = G.edgesOf n1 ++ [{ target := G.n, weight := mincut / 2 }] := by
      rw [hE3, if_neg (show ¬ n1 = G.n by omega), if_neg (fun h => hne h.symm), if_pos rfl]
    have hf : (G3.edgesOf n1).findIdx (fun x => x.target == n0) =
        (G.edgesOf n1).findIdx (fun x => x.target == n0) := by
      rw [hE1, List.findIdx_append, if_pos hi]
    have hlen : (G.edgesOf n1).findIdx (fun x => x.target == n0) < (G3.edgesOf n1).length := by
      rw [hE1, List.length_append]; omega
    unfold getReverseEdge
    rw [hge]
    simp only
    rw [hf, if_pos hlen]
  have hgw : G3.getEdgeWeight n0 ((G.edgesOf n0).findIdx (fun x => x.target == n1)) = some w := by
    unfold getEdgeWeight
    rw [hge]
    rfl
  have hmod : (w + 2 ^ edgeWeightBits - mincut / 2) % 2 ^ edgeWeightBits = w - mincut / 2 := by
    have h1 : w + 2 ^ edgeWeightBits - mincut / 2 = (w - mincut / 2) + 2 ^ edgeWeightBits := by
      omega
    rw [h1, Nat.add_mod_right, Nat.mod_eq_of_lt (by omega)]
  have hG5 : ∃ G5, (if w = mincut / 2
        then G3.deleteEdge n0 ((G.edgesOf n0).findIdx (fun x => x.target == n1))
        else G3.setEdgeWeight n0 ((G.edgesOf n0).findIdx (fun x => x.target == n1))
          ((w + 2 ^ edgeWeightBits - mincut / 2) % 2 ^ edgeWeightBits)) = some G5 ∧
      G5.n = G.n + 1 ∧ G5.current_position = G.current_position ∧
      (∀ x, G5.containedVertices x = G.containedVertices x) ∧
      (∀ x, G5.edgesOf x =
        if x = G.n then [{ target := n0, weight := mincut / 2 },
          { target := n1, weight := mincut / 2 }]
        else if x = n0 then
          (if w = mincut / 2
            then (G.edgesOf n0).eraseIdx ((G.edgesOf n0).findIdx (fun x => x.target == n1))
            else (G.edgesOf n0).set ((G.edgesOf n0).findIdx (fun x => x.target == n1))
              { target := n1, weight := w - mincut / 2 })
            ++ [{ target := G.n, weight := mincut / 2 }]
        else if x = n1 then
          (if w = mincut / 2
            then (G.edgesOf n1).eraseIdx ((G.edgesOf n1).findIdx (fun x => x.target == n0))
            else (G.edgesOf n1).set ((G.edgesOf n1).findIdx (fun x => x.target == n0))
              { target := n0, weight := w - mincut / 2 })
            ++ [{ target := G.n, weight := mincut / 2 }]
        else G.edgesOf x) := by
    by_cases hwe : w = mincut / 2
    · rw [if_pos hwe]
      obtain ⟨G5, c1, c2, c3, c4, c5⟩ := deleteEdge_spec G3 n0 _ _ _ hge hgr
        (by rw [hG3n]; omega) (by rw [hG3n]; simp only; omega) (fun h => hne h.symm)
      refine ⟨G5, c1, by rw [c2, hG3n], by rw [c3, b6, a6, e3], ?_, ?_⟩
      · intro x; rw [c4, b5, a5, e4]
      · intro x
        rw [c5, hE3]
        simp only
        by_cases hx : x = G.n
        · have h0 : x ≠ n0 := by omega
          have h1 : x ≠ n1 := by omega
          rw [if_neg h1, if_neg h0, if_pos hx, if_pos hx]
        · rw [if_neg hx, if_neg hx]
          by_cases hx1 : x = n1
          · have h0 : x ≠ n0 := fun h => hne (h.symm.trans hx1)
            rw [if_pos hx1, if_neg h0, if_pos hx1, if_neg h0, if_pos hx1, if_pos hwe,
              List.eraseIdx_append_of_lt_length hi]
          · rw [if_neg hx1]
            by_cases hx0 : x = n0
            · rw [if_pos hx0, if_pos hx0, if_pos hx0, if_pos hwe,
                List.eraseIdx_append_of_lt_length he]
            · rw [if_neg hx0, if_neg hx0, if_neg hx1, if_neg hx0, if_neg hx1]
    · rw [if_neg hwe, hmod]
      obtain ⟨G5, c1, c2, c3, c4, c5⟩ := setEdgeWeight_spec G3 n0 _ _ (w - mincut / 2) _ hge hgr
        (by rw [hG3n]; omega) (by rw [hG3n]; simp only; omega) (fun h => hne h.symm)
      refine ⟨G5, c1, by rw [c2, hG3n], by rw [c3, b6, a6, e3], ?_, ?_⟩
      · intro x; rw [c4, b5, a5, e4]
      · intro x
        rw [c5, hE3]
        simp only
        by_cases hx : x = G.n
        · have h0 : x ≠ n0 := by omega
          have h1 : x ≠ n1 := by omega
          rw [if_neg h1, if_neg h0, if_pos hx, if_pos hx]
        · rw [if_neg hx, if_neg hx]
          by_cases hx1 : x = n1
          · have h0 : x ≠ n0 := fun h => hne (h.symm.trans hx1)
            rw [if_pos hx1, if_neg h0, if_pos hx1, if_neg h0, if_pos hx1, if_neg hwe,
              List.set_append_left _ _ hi]
          · rw [if_neg hx1]
            by_cases hx0 : x = n0
            · rw [if_pos hx0, if_pos hx0, if_pos hx0, if_neg hwe,
                List.set_append_left _ _ he]
            · rw [if_neg hx0, if_neg hx0, if_neg hx1, if_neg hx0, if_neg hx1]
  obtain ⟨G5, d1, d2, d3, d4, d5⟩ := hG5
  obtain ⟨i1, i2, i3, i4⟩ := install_spec G5 G.n entry.2 (by rw [d2]; omega)
  have hnot0 : entry.1.1 ∉ entry.2 := by
    intro hc
    rw [hcont _ hc] at hp0
    simp at hp0
  have hnot1 : entry.1.2 ∉ entry.2 := by
    intro hc
    rw [hcont _ hc] at hp1
    simp at hp1
  unfold getCurrentPosition at hp0 hp1 hcont ⊢
  have hret : reInsertCycle mincut G entry = some (install G5 G.n entry.2) := by
    unfold reInsertCycle getCurrentPosition
    rw [hp0, hp1]
    simp only
    rw [if_neg hne]
    rw [if_pos he, hG2]
    simp only
    rw [hG3]
    simp only
    rw [hgw]
    simp only
    rw [d1, e1]
  refine ⟨_, hret, by rw [i1, d2], ?_, ?_, ?_, ?_, ?_, ?_, ?_, ?_, ?_, ?_, ?_⟩
  rotate_right
  · intro x hx
    rw [i3, if_neg hx, d4]
  · intro c hc
    rw [i2, if_pos hc]
  · intro c hc
    rw [i2, if_neg hc, d3]
  · rw [i3, if_pos rfl]
  · rw [i4, d5, if_pos rfl]
  · rw [i2, if_neg hnot0, d3, hp0]
  · rw [i2, if_neg hnot1, d3, hp1]
  · rw [i4, d5, if_neg (by omega), if_pos rfl]
  · rw [i4, d5, if_neg (by omega), if_neg (fun h => hne h.symm), if_pos rfl]
  · intro x h0 h1 hN
    refine ⟨?_, ?_⟩
    · rw [i4, d5, if_neg hN, if_neg h0, if_neg h1]
    · rw [i3, if_neg hN, d4]
  · intro x hx
    unfold getWeightedNodeDegree
    rw [i4, d5, if_neg (by omega)]
    by_cases hx0 : x = n0
    · rw [if_pos hx0, hx0]
      by_cases hwe : w = mincut / 2
      · rw [if_pos hwe]
        have := sum_weight_eraseIdx (G.edgesOf n0) _ _ hee
        simp only [List.map_append, List.sum_append, List.map_cons, List.map_nil, List.sum_cons,
          List.sum_nil]
        simp only at this
        omega
      · rw [if_neg hwe]
        have := sum_weight_set (G.edgesOf n0) _ _ { target := n1, weight := w - mincut / 2 } hee
        simp only [List.map_append, List.sum_append, List.map_cons, List.map_nil, List.sum_cons,
          List.sum_nil]
        simp only at this
        omega
    · rw [if_neg hx0]
      by_cases hx1 : x = n1
      · rw [if_pos hx1, hx1]
        by_cases hwe : w = mincut / 2
        · rw [if_pos hwe]
          have := sum_weight_eraseIdx (G.edgesOf n1) _ _ hii
          simp only [List.map_append, List.sum_append, List.map_cons, List.map_nil, List.sum_cons,
            List.sum_nil]
          simp only at this
          omega
        · rw [if_neg hwe]
          have := sum_weight_set (G.edgesOf n1) _ _ { target := n0, weight := w - mincut / 2 } hii
          simp only [List.map_append, List.sum_append, List.map_cons, List.map_nil, List.sum_cons,
            List.sum_nil]
          simp only at this
          omega
      · rw [if_neg hx1]

end heavy_edges

namespace heavy_edges
open mutable_graph

theorem triangle_simple : local_search.Simple triangle := by
  have he : ∀ u, triangle.edgesOf u =
      if u = 0 then [{ target := 1, weight := 9 }, { target := 2, weight := 9 }]
      else if u = 1 then [{ target := 0, weight := 9 }, { target := 2, weight := 7 }]
      else if u = 2 then [{ target := 0, weight := 9 }, { target := 1, weight := 7 }] else [] := by
    intro u
    rcases u with _ | _ | _ | u
    · rfl
    · rfl
    · rfl
    · rfl
  have hn : triangle.n = 3 := rfl
  refine ⟨?_, ?_, ?_⟩
  · intro u ed hed
    rw [he] at hed
    rw [hn]
    split at hed
    · simp at hed; rcases hed with rfl | rfl <;> simp <;> omega
    · split at hed
      · simp at hed; rcases hed with rfl | rfl <;> simp <;> omega
      · split at hed
        · simp at hed; rcases hed with rfl | rfl <;> simp <;> omega
        · simp at hed
  · intro u
    rw [he]
    split
    · simp
    · split
      · simp
      · split <;> simp
  · intro u ed hed
    rw [he] at hed
    rw [he]
    split at hed
    · simp at hed; rcases hed with rfl | rfl <;> simp [*]
    · split at hed
      · simp at hed; rcases hed with rfl | rfl <;> simp [*]
      · split at hed
        · simp at hed; rcases hed with rfl | rfl <;> simp [*]
        · simp at hed

/-- An instance of the replay step: on the triangle with the entry
`((1, 2), [7])` and λ = 4 the new node 3 contains the original 7 and has the
edges of weight 2 to the nodes 1 and 2, whose edge drops from 7 to 5. -/
theorem reInsertCycle_step_witness :
    (local_search.Simple triangle ∧
      triangle.getCurrentPosition (((1, 2), [7]) : (Nat × Nat) × List Nat).1.1 = some 1 ∧
      triangle.getCurrentPosition (((1, 2), [7]) : (Nat × Nat) × List Nat).1.2 = some 2 ∧
      (1 : Nat) ≠ 2 ∧ ({ target := 2, weight := 7 } : Edge) ∈ triangle.edgesOf 1 ∧
      4 / 2 ≤ 7 ∧ 7 < 2 ^ edgeWeightBits ∧
      (∀ c ∈ (((1, 2), [7]) : (Nat × Nat) × List Nat).2, triangle.getCurrentPosition c = none)) ∧
    (∃ G1, reInsertCycle 4 triangle ((1, 2), [7]) = some G1 ∧ G1.n = triangle.n + 1 ∧
      (∀ c ∈ (((1, 2), [7]) : (Nat × Nat) × List Nat).2,
        G1.getCurrentPosition c = some triangle.n) ∧
      (∀ c, c ∉ (((1, 2), [7]) : (Nat × Nat) × List Nat).2 →
        G1.getCurrentPosition c = triangle.getCurrentPosition c) ∧
      G1.containedVertices triangle.n = (((1, 2), [7]) : (Nat × Nat) × List Nat).2 ∧
      G1.edgesOf triangle.n = [{ target := 1, weight := 4 / 2 },
        { target := 2, weight := 4 / 2 }] ∧
      G1.getCurrentPosition (((1, 2), [7]) : (Nat × Nat) × List Nat).1.1 = some 1 ∧
      G1.getCurrentPosition (((1, 2), [7]) : (Nat × Nat) × List Nat).1.2 = some 2 ∧
      G1.edgesOf 1 =
        (if 7 = 4 / 2
          then (triangle.edgesOf 1).eraseIdx ((triangle.edgesOf 1).findIdx (fun x => x.target == 2))
          else (triangle.edgesOf 1).set ((triangle.edgesOf 1).findIdx (fun x => x.target == 2))
            { target := 2, weight := 7 - 4 / 2 })
          ++ [{ target := triangle.n, weight := 4 / 2 }] ∧
      G1.edgesOf 2 =
        (if 7 = 4 / 2
          then (triangle.edgesOf 2).eraseIdx ((triangle.edgesOf 2).findIdx (fun x => x.target == 1))
          else (triangle.edgesOf 2).set ((triangle.edgesOf 2).findIdx (fun x => x.target == 1))
            { target := 1, weight := 7 - 4 / 2 })
          ++ [{ target := triangle.n, weight := 4 / 2 }] ∧
      (∀ x, x ≠ 1 → x ≠ 2 → x ≠ triangle.n →
        G1.edgesOf x = triangle.edgesOf x ∧
        G1.containedVertices x = triangle.containedVertices x) ∧
      (∀ x, x < triangle.n → G1.getWeightedNodeDegree x = triangle.getWeightedNodeDegree x) ∧
      (∀ x, x ≠ triangle.n → G1.containedVertices x = triangle.containedVertices x)) ∧
    (reInsertCycle 4 triangle ((1, 2), [7])).map
        (fun G => (G.vertices, (List.range 8).map G.getCurrentPosition)) =
      some ([{ contained := [0],
               edges := [{ target := 1, weight := 9 }, { target := 2, weight := 9 }] },
             { contained := [1],
               edges := [{ target := 0, weight := 9 }, { target := 2, weight := 5 },
                         { target := 3, weight := 2 }] },
             { contained := [2],
               edges := [{ target := 0, weight := 9 }, { target := 1, weight := 5 },
                         { target := 3, weight := 2 }] },
             { contained := [7],
               edges := [{ target := 1, weight := 2 }, { target := 2, weight := 2 }] }],
            [some 0, some 1, some 2, none, none, none, none, some 3]) :=
  ⟨⟨triangle_simple, by decide, by decide, by decide, by decide, by decide, by decide,
      by decide⟩,
    reInsertCycle_step 4 triangle ((1, 2), [7]) 1 2 7 triangle_simple (by decide) (by decide)
      (by decide) (by decide) (by decide) (by decide) (by decide),
    by decide⟩

/-- C7 as stated does not hold in the final graph.  On the cycle
0 - 2 - 4 - 1 - 3 - 0 (all weights 2, λ = 4) `contractCycleEdges` logs
`((2,3),[0])`, `((4,3),[1])`, `((4,3),[2])`, and `reInsertCycles` gives the
cycle back; the original 2 of the last entry sits in node 2, whose two edges of
weight 2 go to node 0, the super-node of 4, and to node 4, the super-node of the
original 0 and not of the recorded neighbour 3, which is node 1. -/
theorem cycle_replay_final_neighbours :
    (contractCycleEdges 4 fiveCycle).map Prod.snd =
      some [((2, 3), [0]), ((4, 3), [1]), ((4, 3), [2])] ∧
    ((contractCycleEdges 4 fiveCycle).bind (fun r => reInsertCycles 4 r.1 r.2)).map
        (fun G => ((List.range 5).map G.getCurrentPosition, G.edgesOf 2,
          G.vertices.map Vertex.contained)) =
      some ([some 4, some 3, some 2, some 1, some 0],
        [{ target := 0, weight := 2 }, { target := 4, weight := 2 }],
        [[4], [3], [2], [1], [0]]) := by
  decide

end heavy_edges

namespace heavy_edges
open mutable_graph

/-- C11 as stated does not hold: on the cycle A - B - C - A (weights 2, λ = 4)
the loop of `contractCycleEdges` starts at node A = 0, which has two edges of
weight 2, so the only log entry is `((B, C), [A])`, not `((A, C), [B])`. -/
theorem s4_logs_first_node :
    (contractCycleEdges 4 s4Graph).map Prod.snd = some [((1, 2), [0])] ∧
    (contractCycleEdges 4 s4Graph).map Prod.snd ≠ some [((0, 2), [1])] := by
  decide

/-- C11, as amended (scenario S4).  On the cycle A - B - C - A with all edges of
weight 2 and λ = 4, `contractCycleEdges` logs node A as `((B, C), [A])` and
contracts it into B: two nodes are left, C (now node 0) and B, joined by one
edge of weight 4, and the original A has no position.  `reInsertCycles` with
that log rebuilds A as a new node with two edges of weight 2, to B and to C,
and lowers the edge B - C from 4 to 2. -/
theorem s4_scenario :
    (contractCycleEdges 4 s4Graph).map (fun r => r.1.vertices) =
      some [{ contained := [2], edges := [{ target := 1, weight := 4 }] },
            { contained := [1], edges := [{ target := 0, weight := 4 }] }] ∧
    (contractCycleEdges 4 s4Graph).map
        (fun r => ((List.range 3).map r.1.getCurrentPosition, r.2)) =
      some ([none, some 1, some 0], [((1, 2), [0])]) ∧
    ((contractCycleEdges 4 s4Graph).bind (fun r => reInsertCycles 4 r.1 r.2)).map
        (fun G => (G.vertices, (List.range 3).map G.getCurrentPosition)) =
      some ([{ contained := [2],
               edges := [{ target := 1, weight := 2 }, { target := 2, weight := 2 }] },
             { contained := [1],
               edges := [{ target := 0, weight := 2 }, { target := 2, weight := 2 }] },
             { contained := [0],
               edges := [{ target := 1, weight := 2 }, { target := 0, weight := 2 }] }],
            [some 2, some 1, some 0]) := by
  decide

end heavy_edges

namespace local_search
open mutable_graph

theorem gainFold_skip_fixed (env : Env) (l : List Nat) :
    ∀ gs : GainState, l.foldl (gainStep env) gs =
      (l.filter (fun v => !env.fixed_vertex v)).foldl (gainStep env) gs := by
  induction l with
  | nil => intro gs; rfl
  | cons a l ih =>
    intro gs
    simp only [List.foldl_cons]
    cases hf : env.fixed_vertex a
    · rw [List.filter_cons_of_pos (by simp [hf]), List.foldl_cons]
      exact ih _
    · rw [List.filter_cons_of_neg (by simp [hf])]
      have : gainStep env gs a = gs := by
        unfold gainStep
        rw [if_pos (Or.inl hf)]
      rw [this]
      exact ih _

theorem perm_pair (l : List Nat) (a b : Nat) (h : l.Perm [a, b]) : l = [a, b] ∨ l = [b, a] := by
  have hlen := h.length_eq
  match l, hlen with
  | [x, y], _ =>
    have hx : x ∈ [a, b] := h.subset (List.mem_cons_self _ _)
    have hy : y ∈ [a, b] := h.subset (List.mem_cons_of_mem _ (List.mem_cons_self _ _))
    have ha : a ∈ [x, y] := h.symm.subset (List.mem_cons_self _ _)
    have hb : b ∈ [x, y] := h.symm.subset (List.mem_cons_of_mem _ (List.mem_cons_self _ _))
    simp only [List.mem_cons, List.mem_singleton, List.mem_nil_iff, or_false] at hx hy ha hb
    by_cases hab : a = b
    · subst hab
      left
      rcases hx with rfl | rfl <;> rcases hy with rfl | rfl <;> rfl
    · rcases hx with rfl | rfl
      · rcases hy with rfl | rfl
        · exfalso
          rcases hb with h1 | h1 <;> exact hab h1.symm
        · exact Or.inl rfl
      · rcases hy with rfl | rfl
        · exact Or.inr rfl
        · exfalso
          rcases ha with h1 | h1 <;> exact hab h1

theorem s5_two_orders :
    ∀ ix : Bool, ∀ q ∈ [[2, 3], [3, 2]],
      (gainLocalSearch (s5Env q ix) 0 s5State).2.sol 2 =
        (gainLocalSearch (s5Env q ix) 0 s5State).2.sol 3 ∧
      (gainLocalSearch (s5Env q ix) 0 s5State).2.sol 0 = 0 ∧
      (gainLocalSearch (s5Env q ix) 0 s5State).2.sol 1 = 1 ∧
      (gainLocalSearch (s5Env q ix) 0 s5State).1 = 4 := by
  decide

/-- C12 (scenario S5): on the graph with the edges (v0,v2,2), (v1,v2,1),
(v2,v3,5), (v3,v1,1), the terminals v0 and v1 fixed and the solution
`[T1, T2, T1, T2]`, for every visiting order `p` of the four vertices
`gainLocalSearch` ends with v2 and v3 in the same block, v0 in `T1`, v1 in
`T2`, and returns the improvement 4. -/
theorem s5_gain (p : List Nat) (ix : Bool) (hp : p.Perm [0, 1, 2, 3]) :
    (gainLocalSearch (s5Env p ix) 0 s5State).2.sol 2 =
      (gainLocalSearch (s5Env p ix) 0 s5State).2.sol 3 ∧
    (gainLocalSearch (s5Env p ix) 0 s5State).2.sol 0 = 0 ∧
    (gainLocalSearch (s5Env p ix) 0 s5State).2.sol 1 = 1 ∧
    (gainLocalSearch (s5Env p ix) 0 s5State).1 = 4 := by
  have hq : (p.filter (fun v => !(s5Env p ix).fixed_vertex v)).Perm [2, 3] :=
    hp.filter _
  have heq : gainLocalSearch (s5Env p ix) 0 s5State =
      gainLocalSearch (s5Env (p.filter (fun v => !(s5Env p ix).fixed_vertex v)) ix) 0 s5State := by
    unfold gainLocalSearch
    simp only
    rw [gainFold_skip_fixed (s5Env p ix) ((s5Env p ix).permute 0)]
    rfl
  rw [heq]
  rcases perm_pair _ _ _ hq with h | h
  · rw [h]
    exact s5_two_orders ix [2, 3] (by decide)
  · rw [h]
    exact s5_two_orders ix [3, 2] (by decide)

/-- An instance of C12: the visiting order v3, v1, v0, v2, in which v3 moves
to `T1`. -/
theorem s5_gain_witness :
    ([3, 1, 0, 2] : List Nat).Perm [0, 1, 2, 3] ∧
    (((gainLocalSearch (s5Env [3, 1, 0, 2] false) 0 s5State).2.sol 2 =
        (gainLocalSearch (s5Env [3, 1, 0, 2] false) 0 s5State).2.sol 3 ∧
      (gainLocalSearch (s5Env [3, 1, 0, 2] false) 0 s5State).2.sol 0 = 0 ∧
      (gainLocalSearch (s5Env [3, 1, 0, 2] false) 0 s5State).2.sol 1 = 1 ∧
      (gainLocalSearch (s5Env [3, 1, 0, 2] false) 0 s5State).1 = 4)) ∧
    (List.range 4).map (gainLocalSearch (s5Env [3, 1, 0, 2] false) 0 s5State).2.sol
      = [0, 1, 0, 0] :=
  ⟨by decide, s5_gain [3, 1, 0, 2] false (by decide), by decide⟩

end local_search

namespace heavy_edges
open mutable_graph

theorem reInsertCycle_same_pos (mincut : Nat) (G : mutable_graph)
    (entry : (Nat × Nat) × List Nat) (n0 : Nat)
    (hp0 : G.getCurrentPosition entry.1.1 = some n0)
    (hp1 : G.getCurrentPosition entry.1.2 = some n0) :
    reInsertCycle mincut G entry = reInsertVertex mincut G (entry.1.1, entry.2) := by
  unfold reInsertCycle reInsertVertex
  rw [hp0, hp1]
  simp only [if_true]

/-- C14 (degenerate cycle re-insertion): when the two recorded originals of a
log entry `((p0, p1), cont)` have the same current super-node `n0`, the step of
`reInsertCycles` returns and adds exactly one node, the new node `n()`; it
contains `cont`, has the single edge of weight λ to `n0`, and `n0` gets the one
new edge of weight λ to it; the originals of `cont` are positioned at the new
node, and every other edge list, contained list and position is unchanged. -/
theorem reInsertCycle_degenerate (mincut : Nat) (G : mutable_graph)
    (entry : (Nat × Nat) × List Nat) (n0 : Nat)
    (hp0 : G.getCurrentPosition entry.1.1 = some n0)
    (hp1 : G.getCurrentPosition entry.1.2 = some n0) (hn0 : n0 < G.n) :
    ∃ G1, reInsertCycle mincut G entry = some G1 ∧ G1.n = G.n + 1 ∧
      G1.containedVertices G.n = entry.2 ∧
      (∀ x, x ≠ G.n → G1.containedVertices x = G.containedVertices x) ∧
      G1.edgesOf G.n = [{ target := n0, weight := mincut }] ∧
      G1.edgesOf n0 = G.edgesOf n0 ++ [{ target := G.n, weight := mincut }] ∧
      (∀ x, x ≠ G.n → x ≠ n0 → G1.edgesOf x = G.edgesOf x) ∧
      (∀ c ∈ entry.2, G1.getCurrentPosition c = some G.n) ∧
      (∀ c, c ∉ entry.2 → G1.getCurrentPosition c = G.getCurrentPosition c) := by
  obtain ⟨G1, h1, h2, h3, h4, h5⟩ := reInsertVertex_spec mincut G (entry.1.1, entry.2) n0 hp0 hn0
  refine ⟨G1, ?_, h2, ?_, ?_, ?_, ?_, ?_, ?_, ?_⟩
  · rw [reInsertCycle_same_pos mincut G entry n0 hp0 hp1]
    exact h1
  · rw [h4, if_pos rfl]
  · intro x hx
    rw [h4, if_neg hx]
  · rw [h5, if_pos rfl]
  · rw [h5, if_neg (by omega), if_pos rfl]
  · intro x hx hx0
    rw [h5, if_neg hx, if_neg hx0]
  · intro c hc
    unfold getCurrentPosition
    rw [h3]
    exact if_pos hc
  · intro c hc
    unfold getCurrentPosition
    rw [h3]
    exact if_neg hc

/-- An instance of C14: the originals 0 and 1 sit in node 0 of `mergedPair`;
the entry `((0, 1), [7])` with λ = 4 gives the new node 2, which contains 7 and
has the single edge of weight 4 to node 0. -/
theorem reInsertCycle_degenerate_witness :
    (mergedPair.getCurrentPosition (((0, 1), [7]) : (Nat × Nat) × List Nat).1.1 = some 0 ∧
      mergedPair.getCurrentPosition (((0, 1), [7]) : (Nat × Nat) × List Nat).1.2 = some 0 ∧
      0 < mergedPair.n) ∧
    (∃ G1, reInsertCycle 4 mergedPair ((0, 1), [7]) = some G1 ∧ G1.n = mergedPair.n + 1 ∧
      G1.containedVertices mergedPair.n = (((0, 1), [7]) : (Nat × Nat) × List Nat).2 ∧
      (∀ x, x ≠ mergedPair.n → G1.containedVertices x = mergedPair.containedVertices x) ∧
      G1.edgesOf mergedPair.n = [{ target := 0, weight := 4 }] ∧
      G1.edgesOf 0 = mergedPair.edgesOf 0 ++ [{ target := mergedPair.n, weight := 4 }] ∧
      (∀ x, x ≠ mergedPair.n → x ≠ 0 → G1.edgesOf x = mergedPair.edgesOf x) ∧
      (∀ c ∈ (((0, 1), [7]) : (Nat × Nat) × List Nat).2,
        G1.getCurrentPosition c = some mergedPair.n) ∧
      (∀ c, c ∉ (((0, 1), [7]) : (Nat × Nat) × List Nat).2 →
        G1.getCurrentPosition c = mergedPair.getCurrentPosition c)) ∧
    (mergedPair.vertices = [{ contained := [0, 1], edges := [{ target := 1, weight := 1 }] },
        { contained := [2], edges := [{ target := 0, weight := 1 }] }] ∧
      (reInsertCycle 4 mergedPair ((0, 1), [7])).map
        (fun G => (G.vertices, (List.range 8).map G.getCurrentPosition)) =
      some ([{ contained := [0, 1],
               edges := [{ target := 1, weight := 1 }, { target := 2, weight := 4 }] },
             { contained := [2], edges := [{ target := 0, weight := 1 }] },
             { contained := [7], edges := [{ target := 0, weight := 4 }] }],
            [some 0, some 0, some 1, none, none, none, none, some 2])) :=
  ⟨⟨by decide, by decide, by decide⟩,
    reInsertCycle_degenerate 4 mergedPair ((0, 1), [7]) 0 (by decide) (by decide) (by decide),
    by decide⟩

theorem deleteLeaf_small (st : mutable_graph × List (Nat × List Nat)) (e : Nat)
    (h : st.1.n ≤ 2) : deleteLeaf st e = some st := by
  unfold deleteLeaf
  rw [if_neg (by omega)]

theorem deleteLeaves_small (l : List Nat) :
    ∀ st : mutable_graph × List (Nat × List Nat), st.1.n ≤ 2 → deleteLeaves l st = some st := by
  induction l with
  | nil => intro st _; rfl
  | cons e l ih =>
    intro st h
    unfold deleteLeaves
    rw [deleteLeaf_small st e h]
    exact ih st h

theorem deleteLeaf_count (st st1 : mutable_graph × List (Nat × List Nat)) (e : Nat)
    (h : deleteLeaf st e = some st1) :
    st1 = st ∨ (st.1.n > 2 ∧ st1.1.n + 1 = st.1.n ∧ st1.2.length = st.2.length + 1) := by
  unfold deleteLeaf at h
  split at h
  · rename_i hn
    cases hpe : st.1.getCurrentPosition e with
    | none => rw [hpe] at h; simp at h
    | some n =>
      rw [hpe] at h
      simp only at h
      split at h
      · simp at h
      · rename_i hdeg
        cases ht : st.1.getEdgeTarget n 0 with
        | none => rw [ht] at h; simp at h
        | some t =>
          rw [ht] at h
          simp only at h
          split at h
          · simp only [Option.some.injEq] at h
            exact Or.inl h.symm
          · simp only [Option.some.injEq] at h
            right
            have hlt : n < st.1.n := by
              by_contra hc
              apply hdeg
              unfold get_first_invalid_edge
              rw [local_search.edgesOf_oob _ n (by omega)]
              simp
            subst h
            refine ⟨hn, ?_, ?_⟩
            · simp only
              rw [deleteVertex_n _ _ hlt]
              omega
            · simp
  · simp only [Option.some.injEq] at h
    exact Or.inl h.symm

theorem deleteLeaves_count (l : List Nat) :
    ∀ st st1 : mutable_graph × List (Nat × List Nat),
      deleteLeaves l st = some st1 → 2 ≤ st.1.n →
      2 ≤ st1.1.n ∧ st1.1.n + st1.2.length = st.1.n + st.2.length := by
  induction l with
  | nil =>
    intro st st1 h h2
    simp only [deleteLeaves, Option.some.injEq] at h
    subst h
    exact ⟨h2, rfl⟩
  | cons e l ih =>
    intro st st1 h h2
    unfold deleteLeaves at h
    cases hd : deleteLeaf st e with
    | none => rw [hd] at h; simp at h
    | some st2 =>
      rw [hd] at h
      simp only at h
      rcases deleteLeaf_count st st2 e hd with hs | ⟨a1, a2, a3⟩
      · subst hs
        exact ih _ _ h h2
      · obtain ⟨b1, b2⟩ := ih st2 st1 h (by omega)
        exact ⟨b1, by omega⟩

/-- C15 (degenerate graph in heavy-edge removal): a step of the third loop of
`removeHeavyEdges` changes nothing when the graph has at most 2 nodes at that
moment; hence, for the graph `G1` left by the heavy contractions, if `G1` has at
most 2 nodes `removeHeavyEdges` returns `G1` and the empty log, and if `G1` has
at least 2 nodes then the graph still has at least 2 nodes when
`removeHeavyEdges` returns, every log entry standing for one deleted node. -/
theorem leaf_deletion_guard (mincut : Nat)
    (iter : List (Nat × List Nat) → List (Nat × List Nat)) (G G1 : mutable_graph)
    (hc : contractGroups (iter (scan mincut G).contract) G = some G1) :
    (∀ (st : mutable_graph × List (Nat × List Nat)) (e : Nat),
      st.1.n ≤ 2 → deleteLeaf st e = some st) ∧
    (G1.n ≤ 2 → removeHeavyEdges mincut iter G = some (G1, [])) ∧
    (2 ≤ G1.n → ∀ G2 L, removeHeavyEdges mincut iter G = some (G2, L) →
      2 ≤ G2.n ∧ G2.n + L.length = G1.n) := by
  refine ⟨deleteLeaf_small, ?_, ?_⟩
  · intro h
    unfold removeHeavyEdges
    rw [hc]
    exact deleteLeaves_small _ (G1, []) h
  · intro h G2 L hret
    unfold removeHeavyEdges at hret
    rw [hc] at hret
    simp only at hret
    have := deleteLeaves_count _ (G1, []) (G2, L) hret h
    simpa using this

/-- An instance of C15: on the star with three leaves of weight 4 (λ = 4) the
contractions leave 4 nodes, and `removeHeavyEdges` stops at 2 nodes with a log
of 2 entries. -/
theorem leaf_deletion_guard_witness :
    contractGroups (id (scan 4 (ofEdges 4 [(0, 1, 4), (0, 2, 4), (0, 3, 4)])).contract)
        (ofEdges 4 [(0, 1, 4), (0, 2, 4), (0, 3, 4)])
      = some (ofEdges 4 [(0, 1, 4), (0, 2, 4), (0, 3, 4)]) ∧
    ((∀ (st : mutable_graph × List (Nat × List Nat)) (e : Nat),
      st.1.n ≤ 2 → deleteLeaf st e = some st) ∧
    ((ofEdges 4 [(0, 1, 4), (0, 2, 4), (0, 3, 4)]).n ≤ 2 →
      removeHeavyEdges 4 id (ofEdges 4 [(0, 1, 4), (0, 2, 4), (0, 3, 4)])
        = some (ofEdges 4 [(0, 1, 4), (0, 2, 4), (0, 3, 4)], [])) ∧
    (2 ≤ (ofEdges 4 [(0, 1, 4), (0, 2, 4), (0, 3, 4)]).n → ∀ G2 L,
      removeHeavyEdges 4 id (ofEdges 4 [(0, 1, 4), (0, 2, 4), (0, 3, 4)]) = some (G2, L) →
      2 ≤ G2.n ∧ G2.n + L.length = (ofEdges 4 [(0, 1, 4), (0, 2, 4), (0, 3, 4)]).n)) ∧
    (removeHeavyEdges 4 id (ofEdges 4 [(0, 1, 4), (0, 2, 4), (0, 3, 4)])).map
        (fun r => (r.1.n, r.2.length)) = some (2, 2) :=
  ⟨rfl, leaf_deletion_guard 4 id (ofEdges 4 [(0, 1, 4), (0, 2, 4), (0, 3, 4)])
      (ofEdges 4 [(0, 1, 4), (0, 2, 4), (0, 3, 4)]) rfl, by decide⟩

end heavy_edges

namespace heavy_edges
open mutable_graph

theorem deleteVertex_contained (G : mutable_graph) (v x : Nat) (hv : v < G.n) (hxv : x ≠ v) :
    (G.deleteVertex v).containedVertices (if x = G.n - 1 then v else x) =
      G.containedVertices x := by
  by_cases hx : x < G.n
  · exact (deleteVertex_node G v x hv hx hxv).1
  · rw [if_neg (by omega), containedVertices_oob G x (by omega),
      containedVertices_oob _ x (by rw [deleteVertex_n _ _ hv]; omega)]

theorem deleteLeaf_pendant (mincut : Nat) (G : mutable_graph) (marks : List Nat)
    (st st1 : mutable_graph × List (Nat × List Nat)) (e : Nat) (he : e ∈ marks)
    (hinv : PendantInv mincut G marks st) (hret : deleteLeaf st e = some st1) :
    PendantInv mincut G marks st1 := by
  unfold deleteLeaf at hret
  split at hret
  · unfold getCurrentPosition at hret
    cases hpe : st.1.current_position e with
    | none => rw [hpe] at hret; simp at hret
    | some n =>
      rw [hpe] at hret
      simp only at hret
      split at hret
      · simp at hret
      · rename_i hdeg
        cases ht : st.1.getEdgeTarget n 0 with
        | none => rw [ht] at hret; simp at hret
        | some t =>
          rw [ht] at hret
          simp only at hret
          split at hret
          · simp only [Option.some.injEq] at hret
            rw [← hret]; exact hinv
          · simp only [Option.some.injEq] at hret
            subst hret
            have hn : n < st.1.n := by
              by_contra hc
              apply hdeg
              unfold get_first_invalid_edge
              rw [local_search.edgesOf_oob _ n (by omega)]
              simp
            obtain ⟨l1, l2⟩ := hinv
            refine ⟨?_, ?_⟩
            · intro e1 he1 y hy
              obtain ⟨x, hx, hxn, hyx⟩ := deleteVertex_pos_some _ n e1 y hn hy
              obtain ⟨m, T, a1, a2, a3⟩ := l1 e1 he1 x hx
              refine ⟨m, T, a1, a2, ?_⟩
              simp only
              rw [hyx, deleteVertex_contained _ n x hn hxn, a3]
            · intro entry hentry
              simp only at hentry
              rcases List.mem_append.mp hentry with h | h
              · exact l2 entry h
              · simp only [List.mem_singleton] at h
                subst h
                obtain ⟨m, T, a1, a2, a3⟩ := l1 e he n hpe
                exact ⟨m, T, a1, a2, a3⟩
  · simp only [Option.some.injEq] at hret
    rw [← hret]; exact hinv

theorem deleteLeaves_pendant (mincut : Nat) (G : mutable_graph) (marks : List Nat) (l : List Nat)
    (hl : ∀ e ∈ l, e ∈ marks) :
    ∀ (st st1 : mutable_graph × List (Nat × List Nat)),
      PendantInv mincut G marks st → deleteLeaves l st = some st1 →
      PendantInv mincut G marks st1 := by
  induction l with
  | nil =>
    intro st st1 hinv hret
    simp only [deleteLeaves, Option.some.injEq] at hret
    rw [← hret]; exact hinv
  | cons e l ih =>
    intro st st1 hinv hret
    unfold deleteLeaves at hret
    cases hd : deleteLeaf st e with
    | none => rw [hd] at hret; simp at hret
    | some st2 =>
      rw [hd] at hret
      simp only at hret
      exact ih (fun x hx => hl x (List.mem_cons_of_mem _ hx)) st2 st1
        (deleteLeaf_pendant mincut G marks st st2 e (hl e (List.mem_cons_self _ _)) hinv hd) hret

/-- C13 (`removeHeavyEdges` logs only λ-pendants): for an undirected graph `G`
whose positions agree with the contained lists and any iteration order of the
map `contract`, whenever `removeHeavyEdges` returns, every entry `(t, cont)` of
the log has as `cont` the contained list of a node of `G` whose edge list is
exactly one edge, of weight λ; and if no node of `G` has such an edge list,
the log is empty and the returned graph is the graph left by the heavy
contractions, no vertex having been deleted. -/
theorem log_only_pendants (mincut : Nat)
    (iter : List (Nat × List Nat) → List (Nat × List Nat)) (G : mutable_graph)
    (hpos : Positioned G) (hund : Undirected G) (hiter : ∀ c, (iter c).Perm c) :
    (∀ G1 L, removeHeavyEdges mincut iter G = some (G1, L) →
      ∀ entry ∈ L, ∃ m T, m < G.n ∧ G.edgesOf m = [{ target := T, weight := mincut }] ∧
        entry.2 = G.containedVertices m) ∧
    ((∀ m T, G.edgesOf m ≠ [{ target := T, weight := mincut }]) →
      ∃ G1, contractGroups (iter (scan mincut G).contract) G = some G1 ∧
        removeHeavyEdges mincut iter G = some (G1, [])) := by
  obtain ⟨hB, -⟩ := scan_members mincut G hpos hund
  obtain ⟨hM, -⟩ := scan_marks mincut G hpos
  obtain ⟨G1, f1, r1, r2, r3, r4, -, -, r7, r8⟩ := contractGroups_spec mincut G
    (iter (scan mincut G).contract)
    (fun g hg => hB g ((hiter _).mem_iff.mp hg)) G id
    (fun c => by simp) (fun x y _ _ h => Or.inl h) (fun x hx => hx)
    (fun x _ _ => ⟨rfl, fun y w _ h => h⟩) (fun h => h)
  refine ⟨?_, ?_⟩
  · intro G2 L hret
    unfold removeHeavyEdges at hret
    rw [r1] at hret
    simp only at hret
    have hinv : PendantInv mincut G (scan mincut G).markForCactus (G1, []) := by
      refine ⟨?_, fun entry h => by simp at h⟩
      intro e he x hx
      obtain ⟨m, T, a1, a2, a3⟩ := hM e he
      simp only at hx
      rw [r2, a1] at hx
      simp only [Option.map_some', Option.some.injEq] at hx
      subst hx
      refine ⟨m, T, a2, a3, ?_⟩
      have hlight : ¬ Heavy mincut G m := by
        rintro ⟨ed, hed, hw⟩
        rw [a3] at hed
        simp only [List.mem_singleton] at hed
        rw [hed] at hw
        simp at hw
      exact (r7 m a2 hlight).1
    exact (deleteLeaves_pendant mincut G (scan mincut G).markForCactus
      (scan mincut G).markForCactus (fun _ h => h) (G1, []) (G2, L) hinv hret).2
  · intro hno
    have hmarks : (scan mincut G).markForCactus = [] := by
      cases hm : (scan mincut G).markForCactus with
      | nil => rfl
      | cons e l =>
        exfalso
        obtain ⟨m, T, -, -, a3⟩ := hM e (by rw [hm]; exact List.mem_cons_self _ _)
        exact hno m T a3
    refine ⟨G1, r1, ?_⟩
    unfold removeHeavyEdges
    rw [r1, hmarks]
    rfl

/-- An instance of C13, with the scenarios S1 and S2: on the triangle with
three edges of weight 3 and λ = 3 nothing is contracted, the log is empty and
the graph is unchanged; on the path with weights (5, 5) and λ = 3 the three
nodes are merged into one and the log is empty. -/
theorem log_only_pendants_witness :
    (Positioned (ofEdges 3 [(0, 1, 3), (1, 2, 3), (0, 2, 3)]) ∧
      Undirected (ofEdges 3 [(0, 1, 3), (1, 2, 3), (0, 2, 3)]) ∧
      (∀ c : List (Nat × List Nat), (id c).Perm c)) ∧
    ((∀ G1 L, removeHeavyEdges 3 id (ofEdges 3 [(0, 1, 3), (1, 2, 3), (0, 2, 3)]) = some (G1, L) →
      ∀ entry ∈ L, ∃ m T, m < (ofEdges 3 [(0, 1, 3), (1, 2, 3), (0, 2, 3)]).n ∧
        (ofEdges 3 [(0, 1, 3), (1, 2, 3), (0, 2, 3)]).edgesOf m
          = [{ target := T, weight := 3 }] ∧
        entry.2 = (ofEdges 3 [(0, 1, 3), (1, 2, 3), (0, 2, 3)]).containedVertices m) ∧
    ((∀ m T, (ofEdges 3 [(0, 1, 3), (1, 2, 3), (0, 2, 3)]).edgesOf m
        ≠ [{ target := T, weight := 3 }]) →
      ∃ G1, contractGroups (id (scan 3 (ofEdges 3 [(0, 1, 3), (1, 2, 3), (0, 2, 3)])).contract)
          (ofEdges 3 [(0, 1, 3), (1, 2, 3), (0, 2, 3)]) = some G1 ∧
        removeHeavyEdges 3 id (ofEdges 3 [(0, 1, 3), (1, 2, 3), (0, 2, 3)]) = some (G1, []))) ∧
    ((scan 3 (ofEdges 3 [(0, 1, 3), (1, 2, 3), (0, 2, 3)])).contract = [] ∧
      (removeHeavyEdges 3 id (ofEdges 3 [(0, 1, 3), (1, 2, 3), (0, 2, 3)])).map
        (fun r => (r.1.vertices, r.2)) =
        some ((ofEdges 3 [(0, 1, 3), (1, 2, 3), (0, 2, 3)]).vertices, []) ∧
      (removeHeavyEdges 3 id (ofEdges 3 [(0, 1, 5), (1, 2, 5)])).map
        (fun r => (r.1.vertices, (List.range 3).map r.1.getCurrentPosition, r.2)) =
        some ([{ contained := [0, 1, 2], edges := [] }], [some 0, some 0, some 0], [])) :=
  ⟨⟨(ofEdges_wf 3 _).1, (ofEdges_wf 3 _).2.2.1, fun _ => List.Perm.refl _⟩,
    log_only_pendants 3 id (ofEdges 3 [(0, 1, 3), (1, 2, 3), (0, 2, 3)])
      (ofEdges_wf 3 _).1 (ofEdges_wf 3 _).2.2.1 (fun _ => List.Perm.refl _),
    by decide⟩

end heavy_edges

namespace bucket_pq

theorem Tracked_reachable (span : Nat) (q : bucket_pq) (m : Nat → Option Int)
    (h : Tracked span q m) : Reachable span q := by
  induction h with
  | fresh => exact Reachable.fresh
  | insert node g _ hc h1 h2 ih => exact Reachable.insert node g ih hc h1 h2
  | deleteMax _ he hd ih => exact Reachable.deleteMax ih he hd
  | deleteNode node _ hc hd ih => exact Reachable.deleteNode node ih hc hd
  | changeKey node g _ hc h1 h2 hd ih => exact Reachable.changeKey node g ih hc h1 h2 hd

theorem deleteNode_gains (q q1 : bucket_pq) (hq : WF q) (node : Nat)
    (hc : q.contains node = true) (hd : q.deleteNode node = some q1) (x : Nat) :
    (q1.m_queue_index x).map Prod.snd =
      if x = node then none else (q.m_queue_index x).map Prod.snd := by
  obtain ⟨i, g, hidx⟩ := (contains_iff q node).mp hc
  obtain ⟨last, q2, hlast, hdel, -, -, -, -, hindex⟩ := deleteNode_spec q hq node i g hidx
  rw [hd] at hdel
  simp only [Option.some.injEq] at hdel
  subst hdel
  rw [hindex]
  by_cases hx : x = node
  · simp [hx]
  · simp only [if_neg hx]
    by_cases hxl : x = last
    · subst hxl
      simp only [if_true]
      have hmem : x ∈ q.bucket (q.address g) := List.mem_of_mem_getLast? (by rw [hlast]; exact rfl)
      obtain ⟨j, hj⟩ := List.getElem?_of_mem hmem
      rw [hq.complete _ j x hj]
      rfl
    · simp only [if_neg hxl]

theorem Tracked_index (span : Nat) (q : bucket_pq) (m : Nat → Option Int)
    (h : Tracked span q m) : ∀ x, (q.m_queue_index x).map Prod.snd = m x := by
  induction h with
  | fresh => intro x; rfl
  | @insert q m node g ht hc h1 h2 ih =>
    intro x
    obtain ⟨hwf, hspan⟩ := WF_of_Reachable span q (Tracked_reachable span q m ht)
    rw [insert_index q node g
      (address_lt q g hwf.len (by rw [hspan]; exact h1) (by rw [hspan]; exact h2)) x]
    by_cases hx : x = node
    · simp [hx]
    · simp only [if_neg hx]; exact ih x
  | @deleteMax q q1 m y ht he hd ih =>
    intro x
    obtain ⟨-, -, -, -, hindex, -⟩ := deleteMax_fields q q1 y hd
    rw [hindex]
    by_cases hx : x = y
    · simp [hx]
    · simp only [if_neg hx]; exact ih x
  | @deleteNode q q1 m node ht hc hd ih =>
    intro x
    obtain ⟨hwf, -⟩ := WF_of_Reachable span q (Tracked_reachable span q m ht)
    rw [deleteNode_gains q q1 hwf node hc hd x]
    by_cases hx : x = node
    · simp [hx]
    · simp only [if_neg hx]; exact ih x
  | @changeKey q q1 m node g ht hc h1 h2 hd ih =>
    intro x
    obtain ⟨hwf, hspan⟩ := WF_of_Reachable span q (Tracked_reachable span q m ht)
    unfold bucket_pq.changeKey at hd
    cases hdn : q.deleteNode node with
    | none => rw [hdn] at hd; simp at hd
    | some q2 =>
      rw [hdn] at hd
      simp only [Option.some.injEq] at hd
      subst hd
      have hwf2 := WF_deleteNode q q2 hwf node hdn
      have hspan2 : q2.m_gain_span = span := by
        rw [deleteNode_span q q2 node hdn]; exact hspan
      rw [insert_index q2 node g
        (address_lt q2 g hwf2.len (by rw [hspan2]; exact h1) (by rw [hspan2]; exact h2)) x]
      by_cases hx : x = node
      · simp [hx]
      · simp only [if_neg hx]
        rw [deleteNode_gains q q2 hwf node hc hdn x, if_neg hx]
        exact ih x

/-- C16 (`gain` is a query with a sentinel): in every state reached from a
fresh queue by `insert`, `deleteMax`, `deleteNode` and `changeKey` under their
preconditions, with `m` the gain each node was most recently inserted or
`changeKey`-ed with (`none` for a node never inserted or removed since),
`contains(n)` tells whether `m n` is a gain, `gain(n)` is that gain, and
`gain(n)` is `0` for a node that is not contained.  The call reads
`m_queue_index` with `find` only, so `gain` is a function of the state and
the state after the call is the state before it. -/
theorem gain_pure_query (span : Nat) (q : bucket_pq) (m : Nat → Option Int)
    (h : Tracked span q m) (n : Nat) :
    q.contains n = (m n).isSome ∧ q.gain n = (m n).getD 0 ∧
    (q.contains n = false → q.gain n = 0) ∧
    (∀ g, m n = some g → q.contains n = true ∧ q.gain n = g) := by
  have hidx := Tracked_index span q m h n
  unfold contains gain
  cases hq : q.m_queue_index n with
  | none =>
    rw [hq] at hidx
    simp only [Option.map_none'] at hidx
    rw [← hidx]
    simp
  | some p =>
    rw [hq] at hidx
    simp only [Option.map_some'] at hidx
    rw [← hidx]
    simp

theorem threeInserted_tracked :
    Tracked 3 threeInserted (fun x => if x = 3 then some (-1) else if x = 2 then some 2 else
      if x = 1 then some 2 else none) :=
  Tracked.insert 3 (-1)
    (Tracked.insert 2 2 (Tracked.insert 1 2 Tracked.fresh rfl (by decide) (by decide))
      rfl (by decide) (by decide))
    rfl (by decide) (by decide)

/-- An instance of C16: after `insert(1, 2)`, `insert(2, 2)`, `insert(3, -1)`,
`changeKey(2, 0)` and `deleteNode(1)` on a queue of span 3, `gain(2)` is 0 with
node 2 contained, `gain(3)` is -1, and `gain(1)` and `gain(7)` are the sentinel
0 with nodes 1 and 7 not contained. -/
theorem gain_pure_query_witness :
    Tracked 3 afterDelete (fun y => if y = 1 then none else if y = 2 then some 0 else
      if y = 3 then some (-1) else if y = 2 then some 2 else if y = 1 then some 2 else none) ∧
    (afterDelete.contains 2 = true ∧ afterDelete.gain 2 = 0) ∧
    (afterDelete.contains 3 = true ∧ afterDelete.gain 3 = -1) ∧
    (afterDelete.contains 1 = false ∧ afterDelete.gain 1 = 0) ∧
    (afterDelete.contains 7 = false ∧ afterDelete.gain 7 = 0) ∧
    afterDelete.size = 2 :=
  have ht := Tracked.deleteNode 1
    (Tracked.changeKey 2 0 threeInserted_tracked rfl (by decide) (by decide)
      (show threeInserted.changeKey 2 0 = some afterChange from rfl))
    rfl (show afterChange.deleteNode 1 = some afterDelete from rfl)
  ⟨ht, (gain_pure_query 3 afterDelete _ ht 2).2.2.2 0 rfl,
    (gain_pure_query 3 afterDelete _ ht 3).2.2.2 (-1) rfl,
    ⟨(gain_pure_query 3 afterDelete _ ht 1).1, (gain_pure_query 3 afterDelete _ ht 1).2.1⟩,
    ⟨(gain_pure_query 3 afterDelete _ ht 7).1, (gain_pure_query 3 afterDelete _ ht 7).2.1⟩,
    rfl⟩

end bucket_pq

namespace local_search
open mutable_graph

theorem pairStep_none (env : Env) (n M : Nat) (gain : Int) (acc : GainState × Bool) (ed : Edge)
    (h : acc.1.nextBest ed.target = none) : pairStep env n M gain acc ed = acc := by
  unfold pairStep
  rw [h]

theorem pairFold_stuck (env : Env) (n M : Nat) (gain : Int) (l : List Edge) :
    ∀ acc : GainState × Bool, (∀ e ∈ l, acc.1.nextBest e.target = none) →
      l.foldl (pairStep env n M gain) acc = acc := by
  induction l with
  | nil => intro acc _; rfl
  | cons a l ih =>
    intro acc h
    simp only [List.foldl_cons]
    rw [pairStep_none env n M gain acc a (h a (List.mem_cons_self _ _))]
    exact ih acc (fun e he => h e (List.mem_cons_of_mem _ he))

theorem pairStep_skip (env : Env) (n M : Nat) (gain : Int) (acc : GainState × Bool) (ed : Edge)
    (h : ¬ ∃ nb, acc.1.nextBest ed.target = some nb ∧ acc.1.sol ed.target = acc.1.sol n ∧
      nb.1 = M ∧ nb.2 + gain + 2 * (ed.weight : Int) > 0 ∧
      nb.2 + gain + 2 * (ed.weight : Int) > gain) :
    pairStep env n M gain acc ed = acc := by
  unfold pairStep
  cases hnb : acc.1.nextBest ed.target with
  | none => rfl
  | some nb =>
    simp only
    rw [if_neg]
    intro hc
    exact h ⟨nb, hnb, hc⟩

theorem pairStep_move (env : Env) (n M : Nat) (gain : Int) (acc : GainState × Bool) (ed : Edge)
    (nb : Nat × Int) (hnb : acc.1.nextBest ed.target = some nb)
    (hc : acc.1.sol ed.target = acc.1.sol n ∧
      nb.1 = M ∧ nb.2 + gain + 2 * (ed.weight : Int) > 0 ∧
      nb.2 + gain + 2 * (ed.weight : Int) > gain) :
    (pairStep env n M gain acc ed).2 = false ∧
    (pairStep env n M gain acc ed).1.improvement
      = acc.1.improvement + (nb.2 + gain + 2 * (ed.weight : Int)) ∧
    (pairStep env n M gain acc ed).1.sol
      = (fun x => if x = ed.target then M else if x = n then M else acc.1.sol x) ∧
    (∀ e ∈ env.original_graph.edgesOf n,
      (pairStep env n M gain acc ed).1.nextBest e.target = none) := by
  unfold pairStep
  rw [hnb]
  simp only
  rw [if_pos hc]
  refine ⟨rfl, ?_, ?_, ?_⟩
  · simp only [invalidate_improvement]
  · simp only [invalidate_sol]
  · intro e he
    rw [invalidate_nextBest]
    split
    · rfl
    · simp only
      split
      · rfl
      · rw [invalidate_nextBest, if_pos (List.mem_map_of_mem _ he)]

theorem pairFold_once (env : Env) (n M : Nat) (gain : Int) (l : List Edge)
    (hl : ∀ e ∈ l, e ∈ env.original_graph.edgesOf n) (g0 : GainState) :
    l.foldl (pairStep env n M gain) (g0, true) = (g0, true) ∨
    ∃ ed ∈ l, ∃ nb, g0.nextBest ed.target = some nb ∧ g0.sol ed.target = g0.sol n ∧
      nb.1 = M ∧ nb.2 + gain + 2 * (ed.weight : Int) > 0 ∧
      nb.2 + gain + 2 * (ed.weight : Int) > gain ∧
      l.foldl (pairStep env n M gain) (g0, true) = pairStep env n M gain (g0, true) ed ∧
      (l.foldl (pairStep env n M gain) (g0, true)).2 = false ∧
      (l.foldl (pairStep env n M gain) (g0, true)).1.improvement
        = g0.improvement + (nb.2 + gain + 2 * (ed.weight : Int)) ∧
      (l.foldl (pairStep env n M gain) (g0, true)).1.sol
        = (fun x => if x = ed.target then M else if x = n then M else g0.sol x) := by
  induction l with
  | nil => exact Or.inl rfl
  | cons a l ih =>
    simp only [List.foldl_cons]
    by_cases hc : ∃ nb, g0.nextBest a.target = some nb ∧ g0.sol a.target = g0.sol n ∧
      nb.1 = M ∧ nb.2 + gain + 2 * (a.weight : Int) > 0 ∧
      nb.2 + gain + 2 * (a.weight : Int) > gain
    · obtain ⟨nb, hnb, c1, c2, c3, c4⟩ := hc
      obtain ⟨m1, m2, m3, m4⟩ := pairStep_move env n M gain (g0, true) a nb hnb ⟨c1, c2, c3, c4⟩
      have hst := pairFold_stuck env n M gain l (pairStep env n M gain (g0, true) a)
        (fun e he => m4 e (hl e (List.mem_cons_of_mem _ he)))
      right
      refine ⟨a, List.mem_cons_self _ _, nb, hnb, c1, c2, c3, c4, hst, ?_, ?_, ?_⟩
      · rw [hst]; exact m1
      · rw [hst]; exact m2
      · rw [hst]; exact m3
    · rw [pairStep_skip env n M gain (g0, true) a hc]
      rcases ih (fun e he => hl e (List.mem_cons_of_mem _ he)) with h | h
      · exact Or.inl h
      · obtain ⟨ed, hed, rest⟩ := h
        exact Or.inr ⟨ed, List.mem_cons_of_mem _ hed, rest⟩

theorem markInner_fields (gs : GainState) (n w : Nat) :
    (markInner gs n w).sol = gs.sol ∧ (markInner gs n w).improvement = gs.improvement ∧
    (markInner gs n w).nextBest = gs.nextBest := by
  unfold markInner
  split
  · exact ⟨rfl, rfl, rfl⟩
  · exact ⟨rfl, rfl, rfl⟩

theorem gainStep_cases (env : Env) (n : Nat) (gs : GainState) :
    ((gainStep env gs n).improvement = gs.improvement ∧ (gainStep env gs n).sol = gs.sol) ∨
    (0 ≤ gainOf env gs.sol n ∧
      (gainStep env gs n).improvement = gs.improvement + gainOf env gs.sol n ∧
      (gainStep env gs n).sol
        = (fun x => if x = n then (bestBlock env gs.sol n).1 else gs.sol x)) ∨
    (∃ ed ∈ env.original_graph.edgesOf n, ∃ nb, gs.nextBest ed.target = some nb ∧
      gs.sol ed.target = gs.sol n ∧ nb.1 = (bestBlock env gs.sol n).1 ∧
      (gainStep env gs n).improvement
        = gs.improvement + (nb.2 + gainOf env gs.sol n + 2 * (ed.weight : Int)) ∧
      (gainStep env gs n).sol
        = (fun x => if x = ed.target then (bestBlock env gs.sol n).1
            else if x = n then (bestBlock env gs.sol n).1 else gs.sol x)) := by
  unfold gainStep
  split
  · exact Or.inl ⟨rfl, rfl⟩
  · obtain ⟨f1, f2, f3⟩ := markInner_fields gs n (bestBlock env gs.sol n).2
    rcases pairFold_once env n (bestBlock env gs.sol n).1 (gainOf env gs.sol n)
      (env.original_graph.edgesOf n) (fun _ h => h)
      (markInner gs n (bestBlock env gs.sol n).2) with h | h
    · rw [h]
      unfold soloStep
      simp only [Bool.true_eq_false, if_false]
      split
      · rename_i hg
        right; left
        refine ⟨hg, ?_, ?_⟩
        · rw [invalidate_improvement]; simp only; rw [f2]
        · rw [invalidate_sol]; simp only; rw [f1]
      · left
        exact ⟨f2, f1⟩
    · obtain ⟨ed, hed, nb, a1, a2, a3, a4, a5, a6, a7, a8, a9⟩ := h
      right; right
      refine ⟨ed, hed, nb, by rw [← f3]; exact a1, by rw [← f1]; exact a2, a3, ?_, ?_⟩
      · unfold soloStep
        rw [if_pos a7, a8, f2]
      · unfold soloStep
        rw [if_pos a7, a9, f1]

/-- C18 (at most one paired move per vertex): for every state `g0` at the start
of the paired-move loop of a vertex `n`, the loop over the edges of `n` either
changes nothing, or its result is that of one single paired move, of `n` and
the target of one edge `ed` of `n` that passes the test in the state `g0`:
`improvement` has grown by exactly that one `movegain`, `notDoublemoved` is
false and the rest of the body makes no solo move.  Hence a whole visit of a
vertex leaves solution and `improvement` alone, or makes one solo move, or
makes one paired move. -/
theorem one_paired_move (env : Env) (n : Nat) :
    (∀ (M : Nat) (gain : Int) (g0 : GainState),
      (env.original_graph.edgesOf n).foldl (pairStep env n M gain) (g0, true) = (g0, true) ∨
      ∃ ed ∈ env.original_graph.edgesOf n, ∃ nb,
        g0.nextBest ed.target = some nb ∧ g0.sol ed.target = g0.sol n ∧
        nb.1 = M ∧ nb.2 + gain + 2 * (ed.weight : Int) > 0 ∧
        nb.2 + gain + 2 * (ed.weight : Int) > gain ∧
        (env.original_graph.edgesOf n).foldl (pairStep env n M gain) (g0, true)
          = pairStep env n M gain (g0, true) ed ∧
        ((env.original_graph.edgesOf n).foldl (pairStep env n M gain) (g0, true)).1.improvement
          = g0.improvement + (nb.2 + gain + 2 * (ed.weight : Int)) ∧
        ((env.original_graph.edgesOf n).foldl (pairStep env n M gain) (g0, true)).1.sol
          = (fun x => if x = ed.target then M else if x = n then M else g0.sol x) ∧
        soloStep env n M gain
            ((env.original_graph.edgesOf n).foldl (pairStep env n M gain) (g0, true))
          = ((env.original_graph.edgesOf n).foldl (pairStep env n M gain) (g0, true)).1) ∧
    (∀ gs : GainState,
      ((gainStep env gs n).improvement = gs.improvement ∧ (gainStep env gs n).sol = gs.sol) ∨
      (0 ≤ gainOf env gs.sol n ∧
        (gainStep env gs n).improvement = gs.improvement + gainOf env gs.sol n ∧
        (gainStep env gs n).sol
          = (fun x => if x = n then (bestBlock env gs.sol n).1 else gs.sol x)) ∨
      (∃ ed ∈ env.original_graph.edgesOf n, ∃ nb, gs.nextBest ed.target = some nb ∧
        (gainStep env gs n).improvement
          = gs.improvement + (nb.2 + gainOf env gs.sol n + 2 * (ed.weight : Int)) ∧
        (gainStep env gs n).sol
          = (fun x => if x = ed.target then (bestBlock env gs.sol n).1
              else if x = n then (bestBlock env gs.sol n).1 else gs.sol x))) := by
  refine ⟨?_, ?_⟩
  · intro M gain g0
    rcases pairFold_once env n M gain (env.original_graph.edgesOf n) (fun _ h => h) g0 with h | h
    · exact Or.inl h
    · obtain ⟨ed, hed, nb, a1, a2, a3, a4, a5, a6, a7, a8, a9⟩ := h
      refine Or.inr ⟨ed, hed, nb, a1, a2, a3, a4, a5, a6, a8, a9, ?_⟩
      unfold soloStep
      rw [if_pos a7]
  · intro gs
    rcases gainStep_cases env n gs with h | h | h
    · exact Or.inl h
    · exact Or.inr (Or.inl h)
    · obtain ⟨ed, hed, nb, a1, -, -, a4, a5⟩ := h
      exact Or.inr (Or.inr ⟨ed, hed, nb, a1, a4, a5⟩)

end local_search

namespace local_search
open mutable_graph

theorem simple_of_check (G : mutable_graph)
    (h : ∀ u ∈ List.range G.n, ((G.edgesOf u).map Edge.target).Nodup ∧
      ∀ ed ∈ G.edgesOf u, ed.target < G.n ∧ ed.target ≠ u ∧
        ({ target := u, weight := ed.weight } : Edge) ∈ G.edgesOf ed.target) : Simple G := by
  have hmem : ∀ u ed, ed ∈ G.edgesOf u → u ∈ List.range G.n := by
    intro u ed hed
    by_contra hu
    rw [List.mem_range] at hu
    rw [edgesOf_oob G u (by omega)] at hed
    simp at hed
  refine ⟨?_, ?_, ?_⟩
  · intro u ed hed
    obtain ⟨a, b, -⟩ := (h u (hmem u ed hed)).2 ed hed
    exact ⟨a, b⟩
  · intro u
    by_cases hu : u < G.n
    · exact (h u (List.mem_range.mpr hu)).1
    · rw [edgesOf_oob G u (by omega)]
      simp
  · intro u ed hed
    exact ((h u (hmem u ed hed)).2 ed hed).2.2

theorem gainPrefix_inv (env : Env) (hs : Simple env.original_graph)
    (hw : WeightBound env.original_graph) (st : State)
    (hvalid : ∀ v, v < env.original_graph.n → st.sol v < env.num_terminals) (l : List Nat) :
    GainInv env st.sol (gainPrefix env st l) := by
  have h0 : GainInv env st.sol
      { sol := st.sol, improvement := 0, inBoundary := fun _ => true,
        nextBest := fun _ => none, movedToNewBlock := st.movedToNewBlock } :=
    ⟨by simp, le_refl _, hvalid, fun x p hx => by simp at hx⟩
  exact gainFold_inv env hs hw st.sol l _ h0

/-- C17, as amended (exact gain accounting): on a simple graph whose weighted
degrees sum to less than `2^63` and a valid solution, the value returned by
`gainLocalSearch` is the cut weight before the call minus the cut weight after
it.  At every visit of a vertex `n`, after any list `l` of
earlier visits: every entry of `nextBest` is the pair `(maxBlockID, gain)` of
its vertex for the current solution; the visit lowers the cut by exactly what
it adds to `improvement`; and the visit changes nothing, or is a solo move to
`maxBlockID` that lowers the cut by `gain = maxBlockWgt - ownBlockWgt`, or is a
paired move of `n` and a neighbour `t` that lowers the cut by
`nbrGain + gain + 2 * w`, with `nbrGain` the gain of `t` for the solution
before the move. -/
theorem gain_accounting (env : Env) (hs : Simple env.original_graph)
    (hw : WeightBound env.original_graph) (k : Nat) (st : State)
    (hvalid : ∀ v, v < env.original_graph.n → st.sol v < env.num_terminals) :
    ((cutWeight env.original_graph (gainLocalSearch env k st).2.sol : Int)
        + (gainLocalSearch env k st).1 = (cutWeight env.original_graph st.sol : Int) ∧
      (gainLocalSearch env k st).1 = (gainPrefix env st (env.permute k)).improvement ∧
      (gainLocalSearch env k st).2.sol = (gainPrefix env st (env.permute k)).sol) ∧
    (∀ (l : List Nat) (n : Nat),
      gainPrefix env st (l ++ [n]) = gainStep env (gainPrefix env st l) n ∧
      (∀ x p, (gainPrefix env st l).nextBest x = some p →
        p = ((bestBlock env (gainPrefix env st l).sol x).1,
          gainOf env (gainPrefix env st l).sol x)) ∧
      (cutWeight env.original_graph (gainStep env (gainPrefix env st l) n).sol : Int)
          + ((gainStep env (gainPrefix env st l) n).improvement
            - (gainPrefix env st l).improvement)
        = (cutWeight env.original_graph (gainPrefix env st l).sol : Int) ∧
      (((gainStep env (gainPrefix env st l) n).improvement = (gainPrefix env st l).improvement ∧
          (gainStep env (gainPrefix env st l) n).sol = (gainPrefix env st l).sol) ∨
        (0 ≤ gainOf env (gainPrefix env st l).sol n ∧
          gainOf env (gainPrefix env st l).sol n
            = ((bestBlock env (gainPrefix env st l).sol n).2 : Int)
              - (blockwgt env (gainPrefix env st l).sol n ((gainPrefix env st l).sol n) : Int) ∧
          (gainStep env (gainPrefix env st l) n).sol
            = (fun x => if x = n then (bestBlock env (gainPrefix env st l).sol n).1
                else (gainPrefix env st l).sol x) ∧
          (cutWeight env.original_graph (gainStep env (gainPrefix env st l) n).sol : Int)
              + gainOf env (gainPrefix env st l).sol n
            = (cutWeight env.original_graph (gainPrefix env st l).sol : Int)) ∨
        (∃ ed ∈ env.original_graph.edgesOf n,
          (gainPrefix env st l).nextBest ed.target
            = some ((bestBlock env (gainPrefix env st l).sol n).1,
                gainOf env (gainPrefix env st l).sol ed.target) ∧
          (gainStep env (gainPrefix env st l) n).sol
            = (fun x => if x = ed.target then (bestBlock env (gainPrefix env st l).sol n).1
                else if x = n then (bestBlock env (gainPrefix env st l).sol n).1
                else (gainPrefix env st l).sol x) ∧
          (cutWeight env.original_graph (gainStep env (gainPrefix env st l) n).sol : Int)
              + (gainOf env (gainPrefix env st l).sol ed.target
                + gainOf env (gainPrefix env st l).sol n + 2 * (ed.weight : Int))
            = (cutWeight env.original_graph (gainPrefix env st l).sol : Int)))) := by
  refine ⟨⟨?_, rfl, rfl⟩, ?_⟩
  · exact (gainPrefix_inv env hs hw st hvalid (env.permute k)).1
  · intro l n
    have hinv := gainPrefix_inv env hs hw st hvalid l
    have hinv1 := gainStep_inv env hs hw st.sol (gainPrefix env st l) n hinv
    have hdiff : (cutWeight env.original_graph (gainStep env (gainPrefix env st l) n).sol : Int)
          + ((gainStep env (gainPrefix env st l) n).improvement
            - (gainPrefix env st l).improvement)
        = (cutWeight env.original_graph (gainPrefix env st l).sol : Int) := by
      have a := hinv.1
      have b := hinv1.1
      omega
    refine ⟨?_, ?_, hdiff, ?_⟩
    · unfold gainPrefix
      rw [List.foldl_append]
      rfl
    · intro x p hp
      rw [gainOf_eq_exact env hw]
      exact (hinv.2.2.2 x p hp).1
    · rcases gainStep_cases env n (gainPrefix env st l) with h | h | h
      · exact Or.inl h
      · obtain ⟨a1, a2, a3⟩ := h
        refine Or.inr (Or.inl ⟨a1, by rw [gainOf_eq_exact env hw]; rfl, a3, ?_⟩)
        rw [a2] at hdiff
        omega
      · obtain ⟨ed, hed, nb, a1, -, a3, a4, a5⟩ := h
        have hnb := (hinv.2.2.2 ed.target nb a1).1
        have hnb1 : nb.1 = (bestBlock env (gainPrefix env st l).sol ed.target).1 := by
          rw [hnb]
        have hnb2 : nb.2 = gainOf env (gainPrefix env st l).sol ed.target := by
          rw [gainOf_eq_exact env hw, hnb]
        refine Or.inr (Or.inr ⟨ed, hed, ?_, a5, ?_⟩)
        · rw [a1, ← a3, ← hnb2]
        · rw [a4, hnb2] at hdiff
          omega

/-- An instance of C17 with a paired move: in `pairEnv` the visit of vertex 2
stores `nextBest[2] = (1, -3)`, the visit of vertex 3 (gain -3) moves 2 and 3
together to block 1 with `movegain = -3 + -3 + 2 * 5 = 4`, and the cut goes
from 6 to 2. -/
theorem gain_accounting_witness :
    (Simple pairEnv.original_graph ∧ WeightBound pairEnv.original_graph ∧
      ∀ v, v < pairEnv.original_graph.n → pairState.sol v < pairEnv.num_terminals) ∧
    ((cutWeight pairEnv.original_graph (gainLocalSearch pairEnv 0 pairState).2.sol : Int)
        + (gainLocalSearch pairEnv 0 pairState).1
      = (cutWeight pairEnv.original_graph pairState.sol : Int)) ∧
    ((gainLocalSearch pairEnv 0 pairState).1 = 4 ∧
      cutWeight pairEnv.original_graph pairState.sol = 6 ∧
      cutWeight pairEnv.original_graph (gainLocalSearch pairEnv 0 pairState).2.sol = 2 ∧
      (gainPrefix pairEnv pairState [0, 1, 2]).nextBest 2 = some (1, -3) ∧
      gainOf pairEnv (gainPrefix pairEnv pairState [0, 1, 2]).sol 3 = -3 ∧
      (List.range 4).map (gainLocalSearch pairEnv 0 pairState).2.sol = [0, 1, 1, 1]) :=
  ⟨⟨simple_of_check _ (by decide), by unfold WeightBound; decide,
      fun v _ => by unfold pairState; simp only; split <;> decide⟩,
    (gain_accounting pairEnv (simple_of_check _ (by decide))
      (by unfold WeightBound; decide) 0 pairState
      (fun v _ => by unfold pairState; simp only; split <;> decide)).1.1,
    by decide⟩

end local_search

namespace local_search
open mutable_graph

theorem sum_dedges_half (G : mutable_graph) (hs : Simple G) (g : Nat × Nat × Nat → Int)
    (hg : ∀ x, g (x.2.1, x.1, x.2.2) = g x) :
    ((dedges G).map g).sum =
      2 * ((dedges G).map (fun x => if x.1 < x.2.1 then g x else 0)).sum := by
  have h2 := sum_dedges_rev G hs (fun x => if x.1 < x.2.1 then g x else 0)
  simp only [hg] at h2
  have h3 : 2 * ((dedges G).map (fun x => if x.1 < x.2.1 then g x else 0)).sum =
      ((dedges G).map (fun x => if x.1 < x.2.1 then g x else 0)).sum +
      ((dedges G).map (fun x => if x.1 < x.2.1 then g x else 0)).sum := by ring
  rw [h3]
  conv_rhs => arg 2; rw [h2]
  rw [← sum_map_add_int]
  apply sum_map_congr_int
  intro x hx
  have hne := (dedges_ne G hs x hx).1
  rcases Nat.lt_or_gt_of_ne hne with hlt | hgt
  · have : ¬ x.1 < x.2.1 := by omega
    simp [hlt, this]
  · have : ¬ x.2.1 < x.1 := by omega
    simp [hgt, this]

theorem relevant_symm (env : Env) (sol : Nat → Nat) (t1 t2 : Nat) (x : Nat × Nat × Nat) :
    relevant env sol t1 t2 (x.2.1, x.1, x.2.2) = relevant env sol t1 t2 x := by
  unfold relevant
  simp only
  rw [decide_eq_decide]
  tauto

theorem sol_weight_once (env : Env) (hs : Simple env.original_graph) (sol : Nat → Nat)
    (t1 t2 : Nat) :
    (flowScan env sol t1 t2 (buildMapping env sol t1 t2).1).sol_weight =
      ((dedges env.original_graph).map (fun x =>
        if x.1 < x.2.1 ∧ relevant env sol t1 t2 x = true ∧ sol x.1 ≠ sol x.2.1
        then x.2.2 else 0)).sum := by
  have h1 := (flowScan_spec env sol t1 t2 (buildMapping env sol t1 t2).1 []).2
  have h2 := relevant_sum env hs sol t1 t2
    (fun x => if sol x.1 ≠ sol x.2.1 then (x.2.2 : Int) else 0)
    (fun x => by
      simp only
      by_cases hc : sol x.1 = sol x.2.1
      · simp [hc]
      · have hc' : ¬ sol x.2.1 = sol x.1 := fun h => hc h.symm
        simp [hc, hc'])
  have h3 := sum_dedges_half env.original_graph hs
    (fun x => if relevant env sol t1 t2 x then
      (if sol x.1 ≠ sol x.2.1 then (x.2.2 : Int) else 0) else 0)
    (fun x => by
      simp only
      rw [relevant_symm]
      by_cases hc : sol x.1 = sol x.2.1
      · simp [hc]
      · have hc' : ¬ sol x.2.1 = sol x.1 := fun h => hc h.symm
        simp [hc, hc'])
  simp only at h2 h3
  rw [h3] at h2
  have h4 : ((dedges env.original_graph).map (fun x =>
        if x.1 < x.2.1 then
          (if relevant env sol t1 t2 x then
            (if sol x.1 ≠ sol x.2.1 then (x.2.2 : Int) else 0) else 0) else 0)).sum =
      ((dedges env.original_graph).map (fun x =>
        if scanned sol t1 t2 (buildMapping env sol t1 t2).1 x then
          (if sol x.1 ≠ sol x.2.1 then (x.2.2 : Int) else 0) else 0)).sum := by
    omega
  apply Int.ofNat_inj.mp
  rw [h1]
  rw [sum_map_cast, sum_map_cast]
  rw [show ((dedges env.original_graph).map (fun x =>
        (((if scanned sol t1 t2 (buildMapping env sol t1 t2).1 x ∧ sol x.1 ≠ sol x.2.1
          then x.2.2 else 0 : Nat)) : Int))).sum =
      ((dedges env.original_graph).map (fun x =>
        if scanned sol t1 t2 (buildMapping env sol t1 t2).1 x then
          (if sol x.1 ≠ sol x.2.1 then (x.2.2 : Int) else 0) else 0)).sum from by
    apply sum_map_congr_int
    intro x _
    by_cases ha : scanned sol t1 t2 (buildMapping env sol t1 t2).1 x = true
    · by_cases hb : sol x.1 = sol x.2.1
      · simp [ha, hb]
      · simp [ha, hb]
    · simp [ha]]
  rw [← h4]
  apply sum_map_congr_int
  intro x _
  by_cases ha : x.1 < x.2.1
  · by_cases hb : relevant env sol t1 t2 x = true
    · by_cases hc : sol x.1 = sol x.2.1
      · simp [ha, hb, hc]
      · simp [ha, hb, hc]
    · simp [ha, hb]
  · simp [ha]

theorem sol_weight_cut (env : Env) (hs : Simple env.original_graph) (sol : Nat → Nat)
    (t1 t2 : Nat) :
    (flowScan env sol t1 t2 (buildMapping env sol t1 t2).1).sol_weight =
      cutOf (auxGraph (buildMapping env sol t1 t2).2
          (flowScan env sol t1 t2 (buildMapping env sol t1 t2).1))
        (currentSide env sol t1 (buildMapping env sol t1 t2).1) := by
  rw [cutOf_auxGraph env hs, currentSide_weight env hs sol t1 t2,
    ← (flowScan_spec env sol t1 t2 _ []).2]

/-- C19 (`sol_weight` is the cut that the current assignment induces in the
auxiliary graph): on a simple graph, `sol_weight` is the sum of `w` over the
edges `{n, t}` with both end points in the blocks `t1`, `t2`, in different
blocks and not both fixed, each edge taken once (from its end point with the
smaller id); it is the weight of the cut of the auxiliary graph whose one side
is node 0 with the images of the vertices of `t1`, a cut that has node 0 and
not node 1, the image of a vertex of the two blocks being on that side exactly
when the vertex is in `t1`; hence for a solver that returns a minimum cut
between node 0 and node 1, `f <= sol_weight`, the call returns, and the
returned improvement is `sol_weight - f` and is not negative. -/
theorem sol_weight_is_cut (env : Env) (hs : Simple env.original_graph) (st : State)
    (t1 t2 : Nat) :
    (flowScan env st.sol t1 t2 (buildMapping env st.sol t1 t2).1).sol_weight =
      ((dedges env.original_graph).map (fun x =>
        if x.1 < x.2.1 ∧ relevant env st.sol t1 t2 x = true ∧ st.sol x.1 ≠ st.sol x.2.1
        then x.2.2 else 0)).sum ∧
    (flowScan env st.sol t1 t2 (buildMapping env st.sol t1 t2).1).sol_weight =
      cutOf (auxGraph (buildMapping env st.sol t1 t2).2
          (flowScan env st.sol t1 t2 (buildMapping env st.sol t1 t2).1))
        (currentSide env st.sol t1 (buildMapping env st.sol t1 t2).1) ∧
    (0 ∈ currentSide env st.sol t1 (buildMapping env st.sol t1 t2).1 ∧
      1 ∉ currentSide env st.sol t1 (buildMapping env st.sol t1 t2).1 ∧
      ∀ v, v < env.original_graph.n → (st.sol v = t1 ∨ st.sol v = t2) →
        ((buildMapping env st.sol t1 t2).1 v
            ∈ currentSide env st.sol t1 (buildMapping env st.sol t1 t2).1 ↔ st.sol v = t1)) ∧
    (MinCutSolver env.solver →
      (flowResult env st.sol t1 t2).1
        ≤ (flowScan env st.sol t1 t2 (buildMapping env st.sol t1 t2).1).sol_weight ∧
      ∃ r, flowBetweenBlocks env st t1 t2 = some r ∧
        r.1.1 = ((flowScan env st.sol t1 t2 (buildMapping env st.sol t1 t2).1).sol_weight : Int)
          - ((flowResult env st.sol t1 t2).1 : Int) ∧
        0 ≤ r.1.1) := by
  refine ⟨sol_weight_once env hs st.sol t1 t2, sol_weight_cut env hs st.sol t1 t2,
    ⟨currentSide_zero _ _ _ _, currentSide_one env st.sol t1 t2,
      fun v hv hb => currentSide_mem env st.sol t1 t2 v hv hb⟩, ?_⟩
  intro hsolver
  obtain ⟨r, hr, -, hpos, -⟩ := flowBetweenBlocks_exact env hs hsolver st t1 t2
  obtain ⟨-, hval, -⟩ := flowBetweenBlocks_some env st t1 t2 r hr
  refine ⟨?_, r, hr, hval, hpos⟩
  rw [hval] at hpos
  omega

/-- An instance of C19: in `pairEnv` with the blocks 0 and 1, `sol_weight` is 6
(the two edges of weight 3 between terminal 1 and the vertices 2 and 3), the
side of the current solution in the auxiliary graph is `[0, 2, 3]`, and with
the minimum cut value 2 the improvement is 4. -/
theorem sol_weight_is_cut_witness :
    Simple pairEnv.original_graph ∧
    ((flowScan pairEnv pairState.sol 0 1 (buildMapping pairEnv pairState.sol 0 1).1).sol_weight =
      cutOf (auxGraph (buildMapping pairEnv pairState.sol 0 1).2
          (flowScan pairEnv pairState.sol 0 1 (buildMapping pairEnv pairState.sol 0 1).1))
        (currentSide pairEnv pairState.sol 0 (buildMapping pairEnv pairState.sol 0 1).1)) ∧
    ((flowScan pairEnv pairState.sol 0 1 (buildMapping pairEnv pairState.sol 0 1).1).sol_weight = 6 ∧
      currentSide pairEnv pairState.sol 0 (buildMapping pairEnv pairState.sol 0 1).1 = [0, 2, 3] ∧
      (flowBetweenBlocks pairFlowEnv pairState 0 1).map (fun r => r.1) = some (4, 2)) :=
  ⟨simple_of_check _ (by decide),
    (sol_weight_is_cut pairEnv (simple_of_check _ (by decide)) pairState 0 1).2.1,
    by decide⟩

theorem mem_nodes (G : mutable_graph) (v : Nat) : v ∈ G.nodes ↔ v < G.n := by
  unfold nodes
  exact List.mem_range

/-- C20 (reassignment and frame of `flowBetweenBlocks(t1, t2)`): whenever the
call returns, every vertex whose block was neither `t1` nor `t2` keeps its
block; every node `v` of the graph that was in `t1` or `t2` is in `t1` if
`mapping[v]` is in the source side `s` returned by the solver and in `t2`
otherwise; so a vertex is in `t1` or `t2` after the call exactly when it was
before; `movedToNewBlock` and `previousConnectivity` are unchanged. -/
theorem flow_reassignment_frame (env : Env) (st : State) (t1 t2 : Nat)
    (r : (Int × Nat) × State) (h : flowBetweenBlocks env st t1 t2 = some r) :
    (∀ v, ¬ (st.sol v = t1 ∨ st.sol v = t2) → r.2.sol v = st.sol v) ∧
    (∀ v, v < env.original_graph.n → (st.sol v = t1 ∨ st.sol v = t2) →
      r.2.sol v = if (buildMapping env st.sol t1 t2).1 v ∈ (flowResult env st.sol t1 t2).2
        then t1 else t2) ∧
    (∀ v, (r.2.sol v = t1 ∨ r.2.sol v = t2) ↔ (st.sol v = t1 ∨ st.sol v = t2)) ∧
    r.2.movedToNewBlock = st.movedToNewBlock ∧
    r.2.previousConnectivity = st.previousConnectivity := by
  obtain ⟨hfold, -, -, hpc, hmv⟩ := flowBetweenBlocks_some env st t1 t2 r h
  obtain ⟨k1, k2⟩ := reassign_fold env t1 t2 (buildMapping env st.sol t1 t2).1
    (flowResult env st.sol t1 t2).2 st.sol env.original_graph.nodes
    (by unfold nodes; exact List.nodup_range _) st.sol r.2.sol (fun _ _ => rfl) hfold
  have hout : ∀ v, ¬ (st.sol v = t1 ∨ st.sol v = t2) → r.2.sol v = st.sol v :=
    fun v hv => k2 v (Or.inr hv)
  have hin : ∀ v, v < env.original_graph.n → (st.sol v = t1 ∨ st.sol v = t2) →
      r.2.sol v = if (buildMapping env st.sol t1 t2).1 v ∈ (flowResult env st.sol t1 t2).2
        then t1 else t2 :=
    fun v hv hb => (k1 v ((mem_nodes _ v).mpr hv) hb).2
  refine ⟨hout, hin, ?_, hmv, hpc⟩
  intro v
  by_cases hb : st.sol v = t1 ∨ st.sol v = t2
  · simp only [hb, iff_true]
    by_cases hv : v < env.original_graph.n
    · rw [hin v hv hb]
      split
      · exact Or.inl rfl
      · exact Or.inr rfl
    · rw [k2 v (Or.inl (fun hm => hv ((mem_nodes _ v).mp hm)))]
      exact hb
  · rw [hout v hb]

/-- An instance of C20: in `pairFlowEnv` the call for the blocks 0 and 1
returns; the source side is `{0}`, so the vertices 2 and 3 of block 0 go to
block 1 and the terminals keep their blocks. -/
theorem flow_reassignment_frame_witness :
    ∃ r, flowBetweenBlocks pairFlowEnv pairState 0 1 = some r ∧
      ((∀ v, ¬ (pairState.sol v = 0 ∨ pairState.sol v = 1) → r.2.sol v = pairState.sol v) ∧
      (∀ v, v < pairFlowEnv.original_graph.n → (pairState.sol v = 0 ∨ pairState.sol v = 1) →
        r.2.sol v = if (buildMapping pairFlowEnv pairState.sol 0 1).1 v
            ∈ (flowResult pairFlowEnv pairState.sol 0 1).2
          then 0 else 1) ∧
      (∀ v, (r.2.sol v = 0 ∨ r.2.sol v = 1) ↔ (pairState.sol v = 0 ∨ pairState.sol v = 1)) ∧
      r.2.movedToNewBlock = pairState.movedToNewBlock ∧
      r.2.previousConnectivity = pairState.previousConnectivity) ∧
      (List.range 4).map r.2.sol = [0, 1, 1, 1] :=
  ⟨(flowBetweenBlocks pairFlowEnv pairState 0 1).get (by decide),
    (Option.some_get _).symm,
    flow_reassignment_frame pairFlowEnv pairState 0 1 _ (Option.some_get _).symm,
    by decide⟩

end local_search

namespace bucket_pq

theorem elements_pos_of_index (q : bucket_pq) (hq : WF q) (x i : Nat) (g : Int)
    (h : q.m_queue_index x = some (i, g)) : q.m_elements ≠ 0 := by
  obtain ⟨-, -, b3⟩ := hq.sound x i g h
  have hlen : (q.bucket (q.address g)).length ≠ 0 := by
    intro h0
    rw [List.length_eq_zero] at h0
    rw [h0] at b3
    simp at b3
  have := length_le_flatten q.m_buckets (q.address g)
  rw [hq.count]
  unfold bucket at hlen
  omega

/-- C21 (`deleteNode` keeps the index map consistent): in every reachable state
and for every contained node `n`, `deleteNode(n)` succeeds; afterwards `n` is
not contained, `size()` is one less, every other node is contained as before
with the same gain, and for every node `x` with a recorded pair `(i, g)` the
gain `g` is `gain(x)`, lies in `[-gain_span, gain_span]`, and slot `i` of
bucket `g + gain_span` holds `x`; conversely every node stored in a bucket has
its slot and the gain of the bucket recorded. -/
theorem deleteNode_consistent (span : Nat) (q : bucket_pq) (h : Reachable span q) (n : Nat)
    (hc : q.contains n = true) :
    ∃ q1, q.deleteNode n = some q1 ∧
      q1.contains n = false ∧
      q1.size + 1 = q.size ∧
      (∀ x, x ≠ n → q1.contains x = q.contains x ∧ q1.gain x = q.gain x) ∧
      (∀ x i g, q1.m_queue_index x = some (i, g) →
        g = q1.gain x ∧ -(q1.m_gain_span : Int) ≤ g ∧ g ≤ (q1.m_gain_span : Int) ∧
        (q1.bucket (g + (q1.m_gain_span : Int)).toNat)[i]? = some x) ∧
      (∀ x, q1.contains x = true → ∃ i,
        q1.m_queue_index x = some (i, q1.gain x) ∧
        (q1.bucket (q1.gain x + (q1.m_gain_span : Int)).toNat)[i]? = some x) ∧
      (∀ a i x, (q1.bucket a)[i]? = some x →
        q1.m_queue_index x = some (i, (a : Int) - (q1.m_gain_span : Int))) := by
  obtain ⟨hwf, -⟩ := WF_of_Reachable span q h
  obtain ⟨i, g, hidx⟩ := (contains_iff q n).mp hc
  obtain ⟨last, q1, -, hdel, -, hel, -, -, -⟩ := deleteNode_spec q hwf n i g hidx
  have hwf1 := WF_deleteNode q q1 hwf n hdel
  have hsound : ∀ x i g, q1.m_queue_index x = some (i, g) →
      g = q1.gain x ∧ -(q1.m_gain_span : Int) ≤ g ∧ g ≤ (q1.m_gain_span : Int) ∧
      (q1.bucket (g + (q1.m_gain_span : Int)).toNat)[i]? = some x := by
    intro x j g1 hx
    obtain ⟨b1, b2, b3⟩ := hwf1.sound x j g1 hx
    exact ⟨(gain_of_index q1 x j g1 hx).symm, b1, b2, b3⟩
  refine ⟨q1, hdel, deleteNode_not_contains q q1 hwf n hdel, ?_, ?_, hsound, ?_, hwf1.complete⟩
  · have := elements_pos_of_index q hwf n i g hidx
    unfold size
    omega
  · intro x hx
    have hg := deleteNode_gains q q1 hwf n hc hdel x
    rw [if_neg hx] at hg
    unfold contains gain
    cases h1 : q1.m_queue_index x with
    | none =>
      rw [h1] at hg
      cases h0 : q.m_queue_index x with
      | none => exact ⟨rfl, rfl⟩
      | some p => rw [h0] at hg; simp at hg
    | some p1 =>
      rw [h1] at hg
      cases h0 : q.m_queue_index x with
      | none => rw [h0] at hg; simp at hg
      | some p =>
        rw [h0] at hg
        simp only [Option.map_some', Option.some.injEq] at hg
        exact ⟨rfl, hg⟩
  · intro x hx
    obtain ⟨j, g1, hj⟩ := (contains_iff q1 x).mp hx
    obtain ⟨e1, -, -, e4⟩ := hsound x j g1 hj
    refine ⟨j, ?_, ?_⟩
    · rw [← e1]; exact hj
    · rw [← e1]; exact e4

/-- An instance of C21: in the queue with the nodes 1 and 2 in the bucket of
gain 2 and node 3 in the bucket of gain -1, `deleteNode(1)` moves node 2 into
slot 0 and records that slot, and `deleteNode(2)` removes the last element of
the bucket and leaves the record of node 1 alone. -/
theorem deleteNode_consistent_witness :
    (Reachable 3 threeInserted ∧ threeInserted.contains 1 = true) ∧
    (∃ q1, threeInserted.deleteNode 1 = some q1 ∧
      q1.contains 1 = false ∧
      q1.size + 1 = threeInserted.size ∧
      (∀ x, x ≠ 1 → q1.contains x = threeInserted.contains x ∧
        q1.gain x = threeInserted.gain x) ∧
      (∀ x i g, q1.m_queue_index x = some (i, g) →
        g = q1.gain x ∧ -(q1.m_gain_span : Int) ≤ g ∧ g ≤ (q1.m_gain_span : Int) ∧
        (q1.bucket (g + (q1.m_gain_span : Int)).toNat)[i]? = some x) ∧
      (∀ x, q1.contains x = true → ∃ i,
        q1.m_queue_index x = some (i, q1.gain x) ∧
        (q1.bucket (q1.gain x + (q1.m_gain_span : Int)).toNat)[i]? = some x) ∧
      (∀ a i x, (q1.bucket a)[i]? = some x →
        q1.m_queue_index x = some (i, (a : Int) - (q1.m_gain_span : Int)))) ∧
    (threeInserted.bucket 5 = [1, 2] ∧ threeInserted.m_queue_index 1 = some (0, 2) ∧
      threeInserted.m_queue_index 2 = some (1, 2) ∧
      (threeInserted.deleteNode 1).map (fun q => q.bucket 5) = some [2] ∧
      (threeInserted.deleteNode 1).map (fun q => q.m_queue_index 1) = some none ∧
      (threeInserted.deleteNode 1).map (fun q => q.m_queue_index 2) = some (some (0, 2)) ∧
      (threeInserted.deleteNode 1).map (fun q => q.size) = some 2 ∧
      (threeInserted.deleteNode 2).map (fun q => q.bucket 5) = some [1] ∧
      (threeInserted.deleteNode 2).map (fun q => q.m_queue_index 1) = some (some (0, 2)) ∧
      (threeInserted.deleteNode 2).map (fun q => q.m_queue_index 2) = some none ∧
      (threeInserted.deleteNode 2).map (fun q => q.size) = some 2) :=
  ⟨⟨Tracked_reachable 3 _ _ threeInserted_tracked, rfl⟩,
    deleteNode_consistent 3 threeInserted (Tracked_reachable 3 _ _ threeInserted_tracked) 1 rfl,
    by decide⟩

end bucket_pq

namespace mutable_graph

theorem noParallel_iff (G : mutable_graph) :
    NoParallel G ↔ ∀ vtx ∈ G.vertices, (vtx.edges.map Edge.target).Nodup := by
  constructor
  · intro h vtx hv
    obtain ⟨i, hi, hget⟩ := List.getElem_of_mem hv
    have := h i
    unfold edgesOf at this
    rw [List.getElem?_eq_getElem hi, hget] at this
    exact this
  · intro h u
    unfold edgesOf
    cases hu : G.vertices[u]? with
    | none => simp
    | some vtx =>
      simp only [Option.map_some', Option.getD_some]
      exact h vtx (List.mem_iff_getElem?.mpr ⟨_, hu⟩)

theorem addEdge_targets (es : List Edge) (e : Edge)
    (h : (es.map Edge.target).Nodup) : ((addEdge es e).map Edge.target).Nodup := by
  unfold addEdge
  split
  · have : (es.map (fun x => if x.target = e.target then
        ({ x with weight := x.weight + e.weight } : Edge) else x)).map Edge.target
        = es.map Edge.target := by
      rw [List.map_map]
      apply List.map_congr_left
      intro x _
      simp only [Function.comp]
      split <;> rfl
    rw [this]; exact h
  · rename_i hany
    rw [List.map_append, List.map_singleton]
    apply List.Nodup.append h (List.nodup_singleton _)
    intro t ht ht2
    simp only [List.mem_singleton] at ht2
    subst ht2
    apply hany
    obtain ⟨x, hx, hxt⟩ := List.mem_map.mp ht
    rw [List.any_eq_true]
    exact ⟨x, hx, by simp [hxt]⟩

theorem collapse_nodup (es : List Edge) : ((collapse es).map Edge.target).Nodup := by
  unfold collapse
  have key : ∀ (l acc : List Edge), (acc.map Edge.target).Nodup →
      ((l.foldl addEdge acc).map Edge.target).Nodup := by
    intro l
    induction l with
    | nil => intro acc h; exact h
    | cons a l ih =>
      intro acc h
      simp only [List.foldl_cons]
      exact ih _ (addEdge_targets acc a h)
  exact key es [] (by simp)

theorem retarget_filter_nodup (last v : Nat) (es : List Edge)
    (h : (es.map Edge.target).Nodup) :
    ((retarget last v (es.filter (fun ed => ed.target != v))).map Edge.target).Nodup := by
  unfold retarget
  rw [List.map_map]
  have h1 : ((es.filter (fun ed => ed.target != v)).map Edge.target).Nodup :=
    (List.Sublist.map _ (List.filter_sublist _)).nodup h
  have h2 : (es.filter (fun ed => ed.target != v)).map
      (Edge.target ∘ fun x => if x.target = last then ({ x with target := v } : Edge) else x)
      = ((es.filter (fun ed => ed.target != v)).map Edge.target).map
        (fun t => if t = last then v else t) := by
    rw [List.map_map]
    apply List.map_congr_left
    intro x _
    simp only [Function.comp]
    split <;> rfl
  rw [h2]
  apply List.Nodup.map_on _ h1
  intro a ha b hb hab
  have hav : a ≠ v := by
    obtain ⟨x, hx, hxa⟩ := List.mem_map.mp ha
    have := (List.mem_filter.mp hx).2
    simp only [bne_iff_ne, ne_eq] at this
    rw [← hxa]; exact this
  have hbv : b ≠ v := by
    obtain ⟨x, hx, hxa⟩ := List.mem_map.mp hb
    have := (List.mem_filter.mp hx).2
    simp only [bne_iff_ne, ne_eq] at this
    rw [← hxa]; exact this
  by_cases h1 : a = last
  · by_cases h2 : b = last
    · rw [h1, h2]
    · rw [if_pos h1, if_neg h2] at hab
      exact absurd hab.symm hbv
  · by_cases h2 : b = last
    · rw [if_neg h1, if_pos h2] at hab
      exact absurd hab hav
    · rw [if_neg h1, if_neg h2] at hab
      exact hab

theorem deleteVertex_noParallel (G : mutable_graph) (v : Nat) (h : NoParallel G) :
    NoParallel (G.deleteVertex v) := by
  unfold deleteVertex
  split
  · rw [noParallel_iff] at h ⊢
    simp only
    intro vtx hvtx
    have hvs : ∀ y ∈ G.vertices.map (fun x => ({ x with
        edges := retarget (G.n - 1) v (x.edges.filter (fun ed => ed.target != v)) } : Vertex)),
        (y.edges.map Edge.target).Nodup := by
      intro y hy
      obtain ⟨x, hx, hxy⟩ := List.mem_map.mp hy
      rw [← hxy]
      exact retarget_filter_nodup _ _ _ (h x hx)
    have h1 := List.mem_of_mem_dropLast hvtx
    rcases List.mem_or_eq_of_mem_set h1 with h2 | h2
    · exact hvs vtx h2
    · rw [h2]
      cases hl : (G.vertices.map (fun x => ({ x with
          edges := retarget (G.n - 1) v (x.edges.filter (fun ed => ed.target != v)) } : Vertex)))[
            G.n - 1]? with
      | none => simp
      | some y =>
        simp only [Option.getD_some]
        exact hvs y (List.mem_iff_getElem?.mpr ⟨_, hl⟩)
  · exact h

theorem mergeCore_noParallel (G : mutable_graph) (r v : Nat) : NoParallel (G.mergeCore r v) := by
  rw [noParallel_iff]
  intro vtx hvtx
  unfold mergeCore at hvtx
  simp only at hvtx
  rcases List.mem_or_eq_of_mem_set hvtx with h1 | h1
  · rcases List.mem_or_eq_of_mem_set h1 with h2 | h2
    · obtain ⟨x, -, hxy⟩ := List.mem_map.mp h2
      rw [← hxy]
      exact collapse_nodup _
    · rw [h2]
      exact collapse_nodup _
  · rw [h1]
    simp

theorem mergeInto_noParallel (G : mutable_graph) (r v : Nat) (h : NoParallel G) :
    NoParallel (G.mergeInto r v) := by
  by_cases hc : r < G.n ∧ v < G.n ∧ r ≠ v
  · rw [mergeInto_eq G r v hc]
    exact deleteVertex_noParallel _ v (mergeCore_noParallel G r v)
  · unfold mergeInto
    rw [if_neg hc]
    exact h

theorem setContainedVertices_edgesOf (G : mutable_graph) (n : Nat) (l : List Nat) (u : Nat) :
    (G.setContainedVertices n l).edgesOf u = G.edgesOf u := by
  unfold setContainedVertices
  cases hn : G.vertices[n]? with
  | none => rfl
  | some vtx =>
    simp only
    unfold edgesOf
    simp only
    by_cases hu : n = u
    · subst hu
      have hlt : n < G.vertices.length := by
        by_contra hc
        rw [List.getElem?_eq_none (by omega)] at hn
        simp at hn
      rw [List.getElem?_set_self hlt, hn]
      rfl
    · rw [List.getElem?_set_ne hu]

theorem setPositions_edgesOf (l : List Nat) (p : Option Nat) :
    ∀ (G : mutable_graph) (u : Nat),
      (l.foldl (fun H c => H.setCurrentPosition c p) G).edgesOf u = G.edgesOf u := by
  induction l with
  | nil => intro G u; rfl
  | cons a l ih =>
    intro G u
    simp only [List.foldl_cons]
    rw [ih]
    rfl

end mutable_graph

namespace heavy_edges
open mutable_graph

theorem cycleStep_noParallel (mincut : Nat)
    (st st1 : mutable_graph × List ((Nat × Nat) × List Nat)) (n : Nat)
    (hnp : NoParallel st.1) (h : cycleStep mincut st n = some st1) : NoParallel st1.1 := by
  unfold cycleStep at h
  split at h
  · split at h
    · split at h
      · simp only [Option.some.injEq] at h
        rw [← h]; exact hnp
      · split at h
        · simp only [Option.some.injEq] at h
          rw [← h]; exact hnp
        · simp only at h
          split at h
          · simp at h
          · split at h
            · simp at h
            · rename_i G3 hG3
              simp only [Option.some.injEq] at h
              rw [← h]
              simp only
              unfold contractEdge at hG3
              split at hG3
              · simp at hG3
              · split at hG3
                · simp at hG3
                · simp only [Option.some.injEq] at hG3
                  rw [← hG3]
                  apply mergeInto_noParallel
                  intro u
                  rw [setPositions_edgesOf, setContainedVertices_edgesOf]
                  exact hnp u
    · simp at h
  · simp only [Option.some.injEq] at h
    rw [← h]; exact hnp


theorem cycleStep_cases (mincut : Nat) (st st1 : mutable_graph × List ((Nat × Nat) × List Nat))
    (n : Nat) (h : cycleStep mincut st n = some st1) :
    st1 = st ∨
    ∃ e0 e1, st.1.edgesOf n = [e0, e1] ∧ e0.weight + e1.weight = mincut ∧
      e0.weight = mincut / 2 ∧ e1.weight = mincut / 2 ∧
      st.1.isEmpty e0.target = false ∧ st.1.isEmpty e1.target = false ∧
      st1.2 = st.2 ++ [(((st.1.containedVertices e0.target).headD 0,
        (st.1.containedVertices e1.target).headD 0), st.1.containedVertices n)] := by
  unfold cycleStep at h
  split at h
  · rename_i hc
    obtain ⟨hdeg, hw⟩ := hc
    unfold get_first_invalid_edge at hdeg
    obtain ⟨e0, e1, hE⟩ := List.length_eq_two.mp hdeg
    have h0 : st.1.getEdge n 0 = some e0 := by unfold getEdge; rw [hE]; rfl
    have h1 : st.1.getEdge n 1 = some e1 := by unfold getEdge; rw [hE]; rfl
    have hsum : e0.weight + e1.weight = mincut := by
      rw [← hw]
      unfold getWeightedNodeDegree
      rw [hE]
      simp
    rw [h0, h1] at h
    simp only at h
    split at h
    · left
      simp only [Option.some.injEq] at h
      exact h.symm
    · rename_i hne
      split at h
      · left
        simp only [Option.some.injEq] at h
        exact h.symm
      · rename_i hwt
        right
        have hwt0 : e0.weight = mincut / 2 := by
          by_contra hc
          exact hwt (Or.inl hc)
        have hwt1 : e1.weight = mincut / 2 := by
          by_contra hc
          exact hwt (Or.inr hc)
        have hne0 : st.1.isEmpty e0.target = false := by
          cases hb : st.1.isEmpty e0.target
          · rfl
          · exact absurd (by simp [hb]) hne
        have hne1 : st.1.isEmpty e1.target = false := by
          cases hb : st.1.isEmpty e1.target
          · rfl
          · exact absurd (by simp [hb]) hne
        refine ⟨e0, e1, hE, hsum, hwt0, hwt1, hne0, hne1, ?_⟩
        split at h
        · simp at h
        · split at h
          · simp at h
          · simp only [Option.some.injEq] at h
            rw [← h]
  · left
    simp only [Option.some.injEq] at h
    exact h.symm

theorem cycleStep_odd (mincut : Nat) (hodd : mincut % 2 = 1)
    (st : mutable_graph × List ((Nat × Nat) × List Nat)) (n : Nat) :
    cycleStep mincut st n = some st := by
  unfold cycleStep
  split
  · rename_i hc
    obtain ⟨hdeg, hw⟩ := hc
    unfold get_first_invalid_edge at hdeg
    obtain ⟨e0, e1, hE⟩ := List.length_eq_two.mp hdeg
    have h0 : st.1.getEdge n 0 = some e0 := by unfold getEdge; rw [hE]; rfl
    have h1 : st.1.getEdge n 1 = some e1 := by unfold getEdge; rw [hE]; rfl
    have hsum : e0.weight + e1.weight = mincut := by
      rw [← hw]
      unfold getWeightedNodeDegree
      rw [hE]
      simp
    rw [h0, h1]
    simp only
    split
    · rfl
    · rw [if_pos]
      by_contra hc
      have a : e0.weight = mincut / 2 := by
        by_contra hx; exact hc (Or.inl hx)
      have b : e1.weight = mincut / 2 := by
        by_contra hx; exact hc (Or.inr hx)
      omega
  · rfl

theorem cycleLoop_odd (mincut : Nat) (hodd : mincut % 2 = 1) (fuel : Nat) :
    ∀ (n : Nat) (st : mutable_graph × List ((Nat × Nat) × List Nat)),
      cycleLoop mincut fuel n st = some st := by
  induction fuel with
  | zero => intro n st; rfl
  | succ fuel ih =>
    intro n st
    unfold cycleLoop
    split
    · rw [cycleStep_odd mincut hodd st n]
      exact ih (n + 1) st
    · rfl

theorem cycleState_noParallel (mincut : Nat) (G H : mutable_graph)
    (hs : CycleState mincut G H) (hnp : NoParallel G) : NoParallel H := by
  induction hs with
  | start => exact hnp
  | @step H0 H1 L L1 n _ _ hstep ih =>
    exact cycleStep_noParallel mincut (H0, L) (H1, L1) n ih hstep

theorem cycleLoop_logged (mincut : Nat) (G : mutable_graph)
    (P : (Nat × Nat) × List Nat → Prop)
    (hP : ∀ (H : mutable_graph) (n : Nat) (e0 e1 : Edge), CycleState mincut G H → n < H.n →
      H.edgesOf n = [e0, e1] → e0.weight + e1.weight = mincut →
      e0.weight = mincut / 2 → e1.weight = mincut / 2 →
      H.isEmpty e0.target = false → H.isEmpty e1.target = false →
      P (((H.containedVertices e0.target).headD 0, (H.containedVertices e1.target).headD 0),
        H.containedVertices n))
    (fuel : Nat) :
    ∀ (n : Nat) (st st1 : mutable_graph × List ((Nat × Nat) × List Nat)),
      CycleState mincut G st.1 → (∀ entry ∈ st.2, P entry) →
      cycleLoop mincut fuel n st = some st1 →
      CycleState mincut G st1.1 ∧ ∀ entry ∈ st1.2, P entry := by
  induction fuel with
  | zero =>
    intro n st st1 hs hl h
    simp only [cycleLoop, Option.some.injEq] at h
    rw [← h]; exact ⟨hs, hl⟩
  | succ fuel ih =>
    intro n st st1 hs hl h
    unfold cycleLoop at h
    split at h
    · rename_i hn
      cases hstep : cycleStep mincut st n with
      | none => rw [hstep] at h; simp at h
      | some st2 =>
        rw [hstep] at h
        simp only at h
        have hs2 : CycleState mincut G st2.1 :=
          CycleState.step n hs hn (show cycleStep mincut (st.1, st.2) n = some (st2.1, st2.2) from hstep)
        refine ih (n + 1) st2 st1 hs2 ?_ h
        rcases cycleStep_cases mincut st st2 n hstep with hc | hc
        · rw [hc]; exact hl
        · obtain ⟨e0, e1, c1, c2, c3, c4, c5, c6, c7⟩ := hc
          intro entry hentry
          rw [c7] at hentry
          rcases List.mem_append.mp hentry with hm | hm
          · exact hl entry hm
          · simp only [List.mem_singleton] at hm
            rw [hm]
            exact hP st.1 n e0 e1 hs hn c1 c2 c3 c4 c5 c6
    · simp only [Option.some.injEq] at h
      rw [← h]; exact ⟨hs, hl⟩

/-- C24 (an odd λ disables the cycle pass): for an odd `mincut` and every
graph, `contractCycleEdges` returns the graph unchanged and an empty log, since
two edges of weight `mincut / 2` have the weighted degree `mincut - 1`.  For
every `mincut`, whenever `contractCycleEdges` returns, `mincut` is even if the
log is not empty, and every entry was logged for a node `n` of a graph `H` the
loop went through that had exactly two edges, each of weight `mincut / 2`, to
two non-empty nodes, which are two different nodes if `G` has no parallel
edges; the entry is the pair of the first contained vertices of
these two nodes and the contained list of `n`. -/
theorem odd_mincut_no_cycles (mincut : Nat) (G : mutable_graph) :
    (mincut % 2 = 1 → contractCycleEdges mincut G = some (G, [])) ∧
    (∀ G1 L, contractCycleEdges mincut G = some (G1, L) →
      (L ≠ [] → mincut % 2 = 0) ∧
      ∀ entry ∈ L, ∃ H n e0 e1, CycleState mincut G H ∧ n < H.n ∧
        H.edgesOf n = [e0, e1] ∧ H.get_first_invalid_edge n = 2 ∧
        H.getWeightedNodeDegree n = mincut ∧
        e0.weight = mincut / 2 ∧ e1.weight = mincut / 2 ∧ 2 * (mincut / 2) = mincut ∧
        H.isEmpty e0.target = false ∧ H.isEmpty e1.target = false ∧
        (NoParallel G → e0.target ≠ e1.target) ∧
        entry = (((H.containedVertices e0.target).headD 0,
          (H.containedVertices e1.target).headD 0), H.containedVertices n)) := by
  refine ⟨fun hodd => cycleLoop_odd mincut hodd G.n 0 (G, []), ?_⟩
  intro G1 L hret
  have key := (cycleLoop_logged mincut G
    (fun entry => ∃ H n e0 e1, CycleState mincut G H ∧ n < H.n ∧
        H.edgesOf n = [e0, e1] ∧ H.get_first_invalid_edge n = 2 ∧
        H.getWeightedNodeDegree n = mincut ∧
        e0.weight = mincut / 2 ∧ e1.weight = mincut / 2 ∧ 2 * (mincut / 2) = mincut ∧
        H.isEmpty e0.target = false ∧ H.isEmpty e1.target = false ∧
        (NoParallel G → e0.target ≠ e1.target) ∧
        entry = (((H.containedVertices e0.target).headD 0,
          (H.containedVertices e1.target).headD 0), H.containedVertices n))
    (fun H n e0 e1 hs hn c1 c2 c3 c4 c5 c6 =>
      ⟨H, n, e0, e1, hs, hn, c1, by unfold get_first_invalid_edge; rw [c1]; rfl,
        by unfold getWeightedNodeDegree; rw [c1]; simp; exact c2,
        c3, c4, by omega, c5, c6,
        fun hnp => by
          have := cycleState_noParallel mincut G H hs hnp n
          rw [c1] at this
          simp only [List.map_cons, List.map_nil, List.nodup_cons, List.mem_singleton] at this
          exact this.1,
        rfl⟩)
    G.n 0 (G, []) (G1, L) CycleState.start (fun entry h => by simp at h) hret).2
  refine ⟨?_, key⟩
  intro hne
  cases L with
  | nil => exact absurd rfl hne
  | cons entry rest =>
    obtain ⟨H, n, e0, e1, -, -, -, -, -, -, -, h2, -⟩ := key entry (List.mem_cons_self _ _)
    omega

/-- An instance of C24: with λ = 5 the triangle with the weights 2, 2, 3, whose
node 0 has two edges of total weight 5, is returned unchanged with an empty
log; with λ = 4 the triangle with three edges of weight 2 gets one log
entry. -/
theorem odd_mincut_no_cycles_witness :
    (5 % 2 = 1 ∧ oddTriangle.get_first_invalid_edge 0 = 2 ∧
      oddTriangle.getWeightedNodeDegree 0 = 5) ∧
    contractCycleEdges 5 oddTriangle = some (oddTriangle, []) ∧
    (contractCycleEdges 4 s4Graph).map (fun r => r.2) = some [((1, 2), [0])] ∧
    (contractCycleEdges 3 s4Graph).map (fun r => r.2) = some [] :=
  ⟨by decide, (odd_mincut_no_cycles 5 oddTriangle).1 (by decide), by decide, by decide⟩

end heavy_edges

namespace local_search
open mutable_graph

theorem blockConnectivity_ge (env : Env) (sol : Nat → Nat) (a b : Nat) (h : b ≤ a) :
    blockConnectivity env sol a b = 0 := by
  unfold blockConnectivity
  apply List.sum_eq_zero
  intro x hx
  obtain ⟨n, -, rfl⟩ := List.mem_map.mp hx
  apply List.sum_eq_zero
  intro y hy
  obtain ⟨ed, -, rfl⟩ := List.mem_map.mp hy
  rw [if_neg]
  rintro ⟨h1, h2, h3, -⟩
  omega

theorem mem_neighboringBlocks_iff (env : Env) (st : State) (p : Nat × Nat × Nat) :
    p ∈ neighboringBlocks env st ↔
      p.1 < env.num_blocks ∧ p.2.1 < env.num_blocks ∧
      p.2.2 = blockConnectivity env st.sol p.1 p.2.1 ∧
      blockConnectivity env st.sol p.1 p.2.1 ≠ st.previousConnectivity p.1 p.2.1 := by
  unfold neighboringBlocks
  simp only [List.mem_flatMap, List.mem_map, List.mem_filter, List.mem_range,
    decide_eq_true_eq]
  constructor
  · rintro ⟨i, hi, j, ⟨hj, hne⟩, rfl⟩
    exact ⟨hi, hj, rfl, hne⟩
  · rintro ⟨h1, h2, h3, h4⟩
    obtain ⟨a, b, c⟩ := p
    simp only at h1 h2 h3 h4
    exact ⟨a, h1, b, ⟨h2, h4⟩, by rw [h3]⟩

theorem neighboringBlocks_nodup (env : Env) (st : State) :
    ((neighboringBlocks env st).map (fun p => (p.1, p.2.1))).Nodup := by
  unfold neighboringBlocks
  rw [List.map_flatMap]
  rw [List.nodup_flatMap]
  constructor
  · intro i _
    rw [List.map_map]
    apply List.Nodup.map
    · intro x y hxy
      simp only [Function.comp, Prod.mk.injEq] at hxy
      exact hxy.2
    · exact (List.nodup_range _).filter _
  · apply (List.nodup_range env.num_blocks).imp
    intro i i' hne
    simp only [Function.onFun]
    intro x hx hx'
    apply hne
    have e1 : x.1 = i := by
      obtain ⟨z, hz, hzx⟩ := List.mem_map.mp hx
      obtain ⟨j, -, hj⟩ := List.mem_map.mp hz
      rw [← hzx, ← hj]
    have e2 : x.1 = i' := by
      obtain ⟨z, hz, hzx⟩ := List.mem_map.mp hx'
      obtain ⟨j, -, hj⟩ := List.mem_map.mp hz
      rw [← hzx, ← hj]
    rw [← e1, e2]

theorem flowPairsLog_fst (env : Env) (l : List (Nat × Nat × Nat)) :
    ∀ (acc : Int × State) (lg : List (Nat × Nat × Nat)),
      (flowPairsLog env l (acc, lg)).map (fun x => x.1) = flowPairs env l acc := by
  induction l with
  | nil => intro acc lg; rfl
  | cons p l ih =>
    intro acc lg
    unfold flowPairsLog flowPairs
    simp only
    cases h : flowBetweenBlocks env acc.2 p.1 p.2.1 with
    | none => rfl
    | some r =>
      simp only
      exact ih _ _

theorem flowPairsLog_spec (env : Env) (l : List (Nat × Nat × Nat)) :
    ∀ (acc r : Int × State) (lg lg1 : List (Nat × Nat × Nat)),
      (l.map (fun p => (p.1, p.2.1))).Nodup →
      flowPairsLog env l (acc, lg) = some (r, lg1) →
      ∃ lgnew, lg1 = lg ++ lgnew ∧
        lgnew.map (fun e => (e.1, e.2.1)) = l.map (fun p => (p.1, p.2.1)) ∧
        (∀ e ∈ lgnew, r.2.previousConnectivity e.1 e.2.1 = e.2.2) ∧
        (∀ a b, (a, b) ∉ l.map (fun p => (p.1, p.2.1)) →
          r.2.previousConnectivity a b = acc.2.previousConnectivity a b) := by
  induction l with
  | nil =>
    intro acc r lg lg1 _ h
    simp only [flowPairsLog, Option.some.injEq, Prod.mk.injEq] at h
    obtain ⟨rfl, rfl⟩ := h
    exact ⟨[], by simp, rfl, fun e he => by simp at he, fun _ _ _ => rfl⟩
  | cons p l ih =>
    intro acc r lg lg1 hnd h
    unfold flowPairsLog at h
    simp only at h
    cases hf : flowBetweenBlocks env acc.2 p.1 p.2.1 with
    | none => rw [hf] at h; simp at h
    | some r0 =>
      rw [hf] at h
      simp only at h
      simp only [List.map_cons, List.nodup_cons] at hnd
      obtain ⟨hnotin, hnd2⟩ := hnd
      obtain ⟨lgnew, e1, e2, e3, e4⟩ := ih _ r _ lg1 hnd2 h
      obtain ⟨-, -, -, hpc, -⟩ := flowBetweenBlocks_some env acc.2 p.1 p.2.1 r0 hf
      refine ⟨(p.1, p.2.1, r0.1.2) :: lgnew, ?_, ?_, ?_, ?_⟩
      · rw [e1]; simp
      · simp only [List.map_cons, e2]
      · intro e he
        rcases List.mem_cons.mp he with he | he
        · rw [he]
          simp only
          rw [e4 p.1 p.2.1 hnotin]
          simp
        · exact e3 e he
      · intro a b hab
        simp only [List.map_cons, List.mem_cons, not_or] at hab
        rw [e4 a b hab.2]
        simp only
        rw [if_neg, hpc]
        rintro ⟨h1, h2⟩
        exact hab.1 (by rw [h1, h2])

theorem sum_dedges_pairs (G : mutable_graph) (hs : Simple G) (g : Nat × Nat × Nat → Int) :
    ((dedges G).map g).sum =
      ((dedges G).map (fun x => if x.1 < x.2.1 then g x + g (x.2.1, x.1, x.2.2) else 0)).sum := by
  have h2 := sum_dedges_rev G hs (fun x => if x.2.1 < x.1 then g x else 0)
  simp only at h2
  have h3 : ((dedges G).map g).sum =
      ((dedges G).map (fun x => (if x.1 < x.2.1 then g x else 0) +
        (if x.2.1 < x.1 then g x else 0))).sum := by
    apply sum_map_congr_int
    intro x hx
    have hne := (dedges_ne G hs x hx).1
    rcases Nat.lt_or_gt_of_ne hne with hlt | hgt
    · have : ¬ x.1 < x.2.1 := by omega
      simp [hlt, this]
    · have : ¬ x.2.1 < x.1 := by omega
      simp [hgt, this]
  rw [h3, sum_map_add_int, h2, ← sum_map_add_int]
  apply sum_map_congr_int
  intro x _
  by_cases hc : x.1 < x.2.1
  · simp [hc]
  · simp [hc]

theorem blockConnectivity_once (env : Env) (hs : Simple env.original_graph) (sol : Nat → Nat)
    (a b : Nat) (hab : a < b) :
    blockConnectivity env sol a b =
      ((dedges env.original_graph).map (fun x =>
        if x.1 < x.2.1 ∧ ((sol x.1 = a ∧ sol x.2.1 = b) ∨ (sol x.1 = b ∧ sol x.2.1 = a))
          ∧ (env.fixed_vertex x.1 = false ∨ env.fixed_vertex x.2.1 = false)
        then x.2.2 else 0)).sum := by
  have h1 : blockConnectivity env sol a b = ((dedges env.original_graph).map (fun x =>
      if sol x.1 = a ∧ sol x.2.1 = b ∧ sol x.2.1 > sol x.1
          ∧ (env.fixed_vertex x.1 = false ∨ env.fixed_vertex x.2.1 = false)
      then x.2.2 else 0)).sum := by
    rw [sum_dedges_nat]
    rfl
  apply Int.ofNat_inj.mp
  rw [h1, sum_map_cast, sum_map_cast, sum_dedges_pairs env.original_graph hs]
  apply sum_map_congr_int
  intro x _
  by_cases hlt : x.1 < x.2.1
  · simp only [hlt, if_true, true_and]
    by_cases hf : env.fixed_vertex x.1 = false ∨ env.fixed_vertex x.2.1 = false
    · have hf' : env.fixed_vertex x.2.1 = false ∨ env.fixed_vertex x.1 = false := hf.symm
      by_cases h1 : sol x.1 = a ∧ sol x.2.1 = b
      · have e1 : sol x.1 = a ∧ sol x.2.1 = b ∧ sol x.2.1 > sol x.1
            ∧ (env.fixed_vertex x.1 = false ∨ env.fixed_vertex x.2.1 = false) :=
          ⟨h1.1, h1.2, by omega, hf⟩
        have e2 : ¬ (sol x.2.1 = a ∧ sol x.1 = b ∧ sol x.1 > sol x.2.1
            ∧ (env.fixed_vertex x.2.1 = false ∨ env.fixed_vertex x.1 = false)) := by
          rintro ⟨-, -, h, -⟩
          omega
        have e3 : ((sol x.1 = a ∧ sol x.2.1 = b) ∨ (sol x.1 = b ∧ sol x.2.1 = a))
            ∧ (env.fixed_vertex x.1 = false ∨ env.fixed_vertex x.2.1 = false) :=
          ⟨Or.inl h1, hf⟩
        rw [if_pos e1, if_neg e2, if_pos e3]
        simp
      · by_cases h2 : sol x.1 = b ∧ sol x.2.1 = a
        · have e1 : ¬ (sol x.1 = a ∧ sol x.2.1 = b ∧ sol x.2.1 > sol x.1
              ∧ (env.fixed_vertex x.1 = false ∨ env.fixed_vertex x.2.1 = false)) :=
            fun h => h1 ⟨h.1, h.2.1⟩
          have e2 : sol x.2.1 = a ∧ sol x.1 = b ∧ sol x.1 > sol x.2.1
              ∧ (env.fixed_vertex x.2.1 = false ∨ env.fixed_vertex x.1 = false) :=
            ⟨h2.2, h2.1, by omega, hf'⟩
          have e3 : ((sol x.1 = a ∧ sol x.2.1 = b) ∨ (sol x.1 = b ∧ sol x.2.1 = a))
              ∧ (env.fixed_vertex x.1 = false ∨ env.fixed_vertex x.2.1 = false) :=
            ⟨Or.inr h2, hf⟩
          rw [if_neg e1, if_pos e2, if_pos e3]
          simp
        · have e1 : ¬ (sol x.1 = a ∧ sol x.2.1 = b ∧ sol x.2.1 > sol x.1
              ∧ (env.fixed_vertex x.1 = false ∨ env.fixed_vertex x.2.1 = false)) :=
            fun h => h1 ⟨h.1, h.2.1⟩
          have e2 : ¬ (sol x.2.1 = a ∧ sol x.1 = b ∧ sol x.1 > sol x.2.1
              ∧ (env.fixed_vertex x.2.1 = false ∨ env.fixed_vertex x.1 = false)) :=
            fun h => h2 ⟨h.2.1, h.1⟩
          have e3 : ¬ (((sol x.1 = a ∧ sol x.2.1 = b) ∨ (sol x.1 = b ∧ sol x.2.1 = a))
              ∧ (env.fixed_vertex x.1 = false ∨ env.fixed_vertex x.2.1 = false)) := by
            rintro ⟨h | h, -⟩
            · exact h1 h
            · exact h2 h
          rw [if_neg e1, if_neg e2, if_neg e3]
          simp
    · have e1 : ¬ (sol x.1 = a ∧ sol x.2.1 = b ∧ sol x.2.1 > sol x.1
          ∧ (env.fixed_vertex x.1 = false ∨ env.fixed_vertex x.2.1 = false)) :=
        fun h => hf h.2.2.2
      have e2 : ¬ (sol x.2.1 = a ∧ sol x.1 = b ∧ sol x.1 > sol x.2.1
          ∧ (env.fixed_vertex x.2.1 = false ∨ env.fixed_vertex x.1 = false)) :=
        fun h => hf h.2.2.2.symm
      have e3 : ¬ (((sol x.1 = a ∧ sol x.2.1 = b) ∨ (sol x.1 = b ∧ sol x.2.1 = a))
          ∧ (env.fixed_vertex x.1 = false ∨ env.fixed_vertex x.2.1 = false)) :=
        fun h => hf h.2
      rw [if_neg e1, if_neg e2, if_neg e3]
      simp
  · have e3 : ¬ (x.1 < x.2.1 ∧ ((sol x.1 = a ∧ sol x.2.1 = b) ∨ (sol x.1 = b ∧ sol x.2.1 = a))
        ∧ (env.fixed_vertex x.1 = false ∨ env.fixed_vertex x.2.1 = false)) :=
      fun h => hlt h.1
    rw [if_neg hlt, if_neg e3]
    simp

/-- C22 (unchanged block pairs are not re-solved): in a pass of
`flowLocalSearch` on a state whose matrix `previousConnectivity` is 0 at every
entry `(a, b)` with `a >= b` (as after the constructor), the loop runs over
exactly the triples `(a, b, c)` with `a < b < original_terminals.size()`, `c`
the freshly computed connectivity of `(a, b)` and `c` different from
`previousConnectivity[a][b]`, each pair once; `flowBetweenBlocks` is called
once per triple, in the order of the list, and when the pass returns the flow
value returned by the call for `(a, b)` is in `previousConnectivity[a][b]`, all
other entries are unchanged and the entries with `a >= b` are still 0.  On a
simple graph the connectivity of `a < b` is the weight of the edges between
the two blocks with an end point that is not fixed, each edge taken once.  If
the connectivity equals `previousConnectivity` on all pairs of blocks, no call
is made and the pass returns 0. -/
theorem unchanged_pairs_skipped (env : Env) (k : Nat) (st : State)
    (hshuffle : ∀ l, (env.shuffle k l).Perm l)
    (hprev : ∀ a b, b ≤ a → st.previousConnectivity a b = 0) :
    (∀ p, p ∈ env.shuffle k (neighboringBlocks env st) ↔
      p.1 < p.2.1 ∧ p.2.1 < env.num_blocks ∧
      p.2.2 = blockConnectivity env st.sol p.1 p.2.1 ∧
      blockConnectivity env st.sol p.1 p.2.1 ≠ st.previousConnectivity p.1 p.2.1) ∧
    ((env.shuffle k (neighboringBlocks env st)).map (fun p => (p.1, p.2.1))).Nodup ∧
    flowLocalSearch env k st =
      (flowPairsLog env (env.shuffle k (neighboringBlocks env st)) ((0, st), [])).map
        (fun x => (x.1.1, { x.1.2 with noImprovement := [] })) ∧
    (∀ r lg, flowPairsLog env (env.shuffle k (neighboringBlocks env st)) ((0, st), [])
        = some (r, lg) →
      lg.map (fun e => (e.1, e.2.1))
        = (env.shuffle k (neighboringBlocks env st)).map (fun p => (p.1, p.2.1)) ∧
      (∀ e ∈ lg, r.2.previousConnectivity e.1 e.2.1 = e.2.2) ∧
      (∀ a b, (a, b) ∉ (env.shuffle k (neighboringBlocks env st)).map (fun p => (p.1, p.2.1)) →
        r.2.previousConnectivity a b = st.previousConnectivity a b) ∧
      (∀ a b, b ≤ a → r.2.previousConnectivity a b = 0)) ∧
    (Simple env.original_graph → ∀ a b, a < b →
      blockConnectivity env st.sol a b =
        ((dedges env.original_graph).map (fun x =>
          if x.1 < x.2.1 ∧
            ((st.sol x.1 = a ∧ st.sol x.2.1 = b) ∨ (st.sol x.1 = b ∧ st.sol x.2.1 = a))
            ∧ (env.fixed_vertex x.1 = false ∨ env.fixed_vertex x.2.1 = false)
          then x.2.2 else 0)).sum) ∧
    ((∀ a b, a < env.num_blocks → b < env.num_blocks →
        blockConnectivity env st.sol a b = st.previousConnectivity a b) →
      env.shuffle k (neighboringBlocks env st) = [] ∧
      flowPairsLog env (env.shuffle k (neighboringBlocks env st)) ((0, st), [])
        = some ((0, st), []) ∧
      flowLocalSearch env k st = some (0, { st with noImprovement := [] })) := by
  have hmem : ∀ p, p ∈ env.shuffle k (neighboringBlocks env st) ↔
      p.1 < p.2.1 ∧ p.2.1 < env.num_blocks ∧
      p.2.2 = blockConnectivity env st.sol p.1 p.2.1 ∧
      blockConnectivity env st.sol p.1 p.2.1 ≠ st.previousConnectivity p.1 p.2.1 := by
    intro p
    rw [(hshuffle _).mem_iff, mem_neighboringBlocks_iff]
    constructor
    · rintro ⟨h1, h2, h3, h4⟩
      refine ⟨?_, h2, h3, h4⟩
      by_contra hc
      apply h4
      rw [blockConnectivity_ge env st.sol _ _ (by omega), hprev _ _ (by omega)]
    · rintro ⟨h1, h2, h3, h4⟩
      exact ⟨by omega, h2, h3, h4⟩
  have hnd : ((env.shuffle k (neighboringBlocks env st)).map (fun p => (p.1, p.2.1))).Nodup :=
    (((hshuffle (neighboringBlocks env st)).map _).nodup_iff).mpr
      (neighboringBlocks_nodup env st)
  have hfl : flowLocalSearch env k st =
      (flowPairsLog env (env.shuffle k (neighboringBlocks env st)) ((0, st), [])).map
        (fun x => (x.1.1, { x.1.2 with noImprovement := [] })) := by
    unfold flowLocalSearch
    rw [← flowPairsLog_fst env _ (0, st) []]
    cases flowPairsLog env (env.shuffle k (neighboringBlocks env st)) ((0, st), []) with
    | none => rfl
    | some x => rfl
  refine ⟨hmem, hnd, hfl, ?_, ?_, ?_⟩
  · intro r lg h
    obtain ⟨lgnew, e1, e2, e3, e4⟩ := flowPairsLog_spec env _ (0, st) r [] lg hnd h
    simp only [List.nil_append] at e1
    subst e1
    refine ⟨e2, e3, e4, ?_⟩
    intro a b hab
    by_cases hin : (a, b) ∈ (env.shuffle k (neighboringBlocks env st)).map (fun p => (p.1, p.2.1))
    · obtain ⟨p, hp, hpe⟩ := List.mem_map.mp hin
      have := ((hmem p).mp hp).1
      simp only [Prod.mk.injEq] at hpe
      omega
    · rw [e4 a b hin]
      exact hprev a b hab
  · intro hs a b hab
    exact blockConnectivity_once env hs st.sol a b hab
  · intro heq
    have hnil : env.shuffle k (neighboringBlocks env st) = [] := by
      cases hl : env.shuffle k (neighboringBlocks env st) with
      | nil => rfl
      | cons p l =>
        exfalso
        have hp : p ∈ env.shuffle k (neighboringBlocks env st) := by
          rw [hl]; exact List.mem_cons_self _ _
        obtain ⟨h1, h2, -, h4⟩ := (hmem p).mp hp
        exact h4 (heq _ _ (by omega) h2)
    refine ⟨hnil, ?_, ?_⟩
    · rw [hnil]; rfl
    · rw [hfl, hnil]; rfl

/-- An instance of C22: in `pairFlowEnv` the first pass from `pairState`, whose
matrix `previousConnectivity` is 0, calls `flowBetweenBlocks(0, 1)` only (the
connectivity is 6) and records the flow value 2; in the state after that pass
the connectivity of `(0, 1)` is 2, the list of pairs is empty and the pass
returns 0. -/
theorem unchanged_pairs_skipped_witness :
    ((∀ l, (pairFlowEnv.shuffle 0 l).Perm l) ∧
      ∀ a b, b ≤ a → pairStateAfter.previousConnectivity a b = 0) ∧
    (flowPairsLog pairFlowEnv (pairFlowEnv.shuffle 0 (neighboringBlocks pairFlowEnv pairStateAfter))
        ((0, pairStateAfter), []) = some ((0, pairStateAfter), []) ∧
      flowLocalSearch pairFlowEnv 0 pairStateAfter
        = some (0, { pairStateAfter with noImprovement := [] })) ∧
    (neighboringBlocks pairFlowEnv pairState = [(0, 1, 6)] ∧
      (flowPairsLog pairFlowEnv (pairFlowEnv.shuffle 0 (neighboringBlocks pairFlowEnv pairState))
        ((0, pairState), [])).map (fun x => x.2) = some [(0, 1, 2)] ∧
      (flowPairsLog pairFlowEnv (pairFlowEnv.shuffle 0 (neighboringBlocks pairFlowEnv pairState))
        ((0, pairState), [])).map (fun x => x.1.2.previousConnectivity 0 1) = some 2 ∧
      (flowPairsLog pairFlowEnv (pairFlowEnv.shuffle 0 (neighboringBlocks pairFlowEnv pairState))
        ((0, pairState), [])).map (fun x => (List.range 4).map x.1.2.sol) = some [0, 1, 1, 1] ∧
      blockConnectivity pairFlowEnv pairStateAfter.sol 0 1 = 2 ∧
      neighboringBlocks pairFlowEnv pairStateAfter = []) :=
  ⟨⟨fun _ => List.Perm.refl _, fun a b hab => by
      unfold pairStateAfter
      simp only
      rw [if_neg]
      omega⟩,
    ((unchanged_pairs_skipped pairFlowEnv 0 pairStateAfter (fun _ => List.Perm.refl _)
      (fun a b hab => by
        unfold pairStateAfter
        simp only
        rw [if_neg]
        omega)).2.2.2.2.2
      (by
        intro a b ha hb
        have ha2 : a < 2 := ha
        have hb2 : b < 2 := hb
        interval_cases a <;> interval_cases b <;> decide)).2,
    by decide⟩

end local_search

namespace local_search
open mutable_graph

theorem improveLoop_fuel_mono (env : Env) :
    ∀ (fuel m k : Nat) (total : Int) (st : State) (r : Int × State),
      improveLoop env fuel k total st = some r →
      improveLoop env (fuel + m) k total st = some r := by
  intro fuel
  induction fuel with
  | zero =>
    intro m k total st r h
    simp [improveLoop] at h
  | succ fuel ih =>
    intro m k total st r h
    rw [show fuel + 1 + m = (fuel + m) + 1 from by omega]
    unfold improveLoop at h ⊢
    cases hf : flowLocalSearch env k st with
    | none => rw [hf] at h; simp at h
    | some rf =>
      rw [hf] at h
      simp only at h ⊢
      split
      · rename_i hc
        rw [if_pos hc] at h
        exact ih m _ _ _ r h
      · rename_i hc
        rw [if_neg hc] at h
        exact h

/-- C23, as amended (termination of the driver): on a simple graph whose
weighted degrees sum to less than `2^63`, with a valid solution, a solver that
returns a minimum cut between node 0 and node 1, permutations as shuffles and
`original_terminals.size() <= num_terminals`, the loop of
`improveSolution` ends within `cutWeight + 1` iterations, and a larger bound
on the number of iterations gives the same result.  In every iteration, from
any valid state, `flowLocalSearch` returns and both improvements are not
negative; if one of them is not 0 the cut weight after the iteration is
strictly below the cut weight before it and the loop goes on; if both are 0
the loop ends with this iteration; the state after the iteration is valid. -/
theorem improveSolution_terminates (env : Env) (hs : Simple env.original_graph)
    (hw : WeightBound env.original_graph)
    (hsolver : MinCutSolver env.solver)
    (hshuffle : ∀ k l, (env.shuffle k l).Perm l)
    (hblocks : env.num_blocks ≤ env.num_terminals) (st : State)
    (hvalid : ∀ v, v < env.original_graph.n → st.sol v < env.num_terminals) :
    (∃ r, improveSolution env (cutWeight env.original_graph st.sol + 1) st = some r ∧
      ∀ fuel, cutWeight env.original_graph st.sol < fuel →
        improveSolution env fuel st = some r) ∧
    (∀ (k : Nat) (s : State),
      (∀ v, v < env.original_graph.n → s.sol v < env.num_terminals) →
      ∃ rf, flowLocalSearch env k s = some rf ∧
        0 ≤ rf.1 ∧ 0 ≤ (gainLocalSearch env k rf.2).1 ∧
        (∀ v, v < env.original_graph.n →
          (gainLocalSearch env k rf.2).2.sol v < env.num_terminals) ∧
        ((rf.1 ≠ 0 ∨ (gainLocalSearch env k rf.2).1 ≠ 0) →
          cutWeight env.original_graph (gainLocalSearch env k rf.2).2.sol
            < cutWeight env.original_graph s.sol ∧
          ∀ fuel total, improveLoop env (fuel + 1) k total s =
            improveLoop env fuel (k + 1) (total + rf.1 + (gainLocalSearch env k rf.2).1)
              (gainLocalSearch env k rf.2).2) ∧
        ((rf.1 = 0 ∧ (gainLocalSearch env k rf.2).1 = 0) →
          ∀ fuel total, improveLoop env (fuel + 1) k total s =
            some (total + rf.1 + (gainLocalSearch env k rf.2).1,
              (gainLocalSearch env k rf.2).2))) := by
  refine ⟨?_, ?_⟩
  · obtain ⟨r, hr⟩ := improveLoop_returns env hs hw hsolver hshuffle hblocks
      (cutWeight env.original_graph st.sol + 1) 0 0 st hvalid (by omega)
    refine ⟨r, hr, ?_⟩
    intro fuel hf
    have := improveLoop_fuel_mono env (cutWeight env.original_graph st.sol + 1)
      (fuel - (cutWeight env.original_graph st.sol + 1)) 0 0 st r hr
    rw [show cutWeight env.original_graph st.sol + 1
      + (fuel - (cutWeight env.original_graph st.sol + 1)) = fuel from by omega] at this
    exact this
  · intro k s hv
    obtain ⟨rf, hrf, hcut, hpos, hv2⟩ :=
      flowLocalSearch_exact env hs hsolver hshuffle hblocks k s hv
    obtain ⟨gcut, gpos, gv, -⟩ := gainLocalSearch_exact env hs hw k rf.2 hv2
    refine ⟨rf, hrf, hpos, gpos, gv, ?_, ?_⟩
    · intro hne
      refine ⟨by omega, ?_⟩
      intro fuel total
      conv_lhs => unfold improveLoop
      rw [hrf]
      simp only
      rw [if_pos hne]
    · intro hz
      intro fuel total
      conv_lhs => unfold improveLoop
      rw [hrf]
      simp only
      rw [if_neg]
      omega

/-- An instance of C23: the path 0 - 1 - 2 with the exhaustive minimum-cut
solver. -/
theorem improveSolution_terminates_witness :
    (Simple pathEnvExact.original_graph ∧ WeightBound pathEnvExact.original_graph ∧
      MinCutSolver pathEnvExact.solver ∧
      (∀ k l, (pathEnvExact.shuffle k l).Perm l) ∧
      pathEnvExact.num_blocks ≤ pathEnvExact.num_terminals ∧
      (∀ v, v < pathEnvExact.original_graph.n → pathState.sol v < pathEnvExact.num_terminals)) ∧
    (∃ r, improveSolution pathEnvExact
        (cutWeight pathEnvExact.original_graph pathState.sol + 1) pathState = some r ∧
      ∀ fuel, cutWeight pathEnvExact.original_graph pathState.sol < fuel →
        improveSolution pathEnvExact fuel pathState = some r) ∧
    cutWeight pathEnvExact.original_graph pathState.sol = 1 :=
  ⟨⟨pathEnv_simple, by unfold WeightBound; decide, exhaustiveSolver_spec, fun _ _ => List.Perm.refl _, le_refl _,
      fun v _ => by unfold pathState; simp only; split <;> decide⟩,
    (improveSolution_terminates pathEnvExact pathEnv_simple (by unfold WeightBound; decide) exhaustiveSolver_spec
      (fun _ _ => List.Perm.refl _) (le_refl _) pathState
      (fun v _ => by unfold pathState; simp only; split <;> decide)).1,
    by decide⟩

end local_search

namespace local_search
open mutable_graph

theorem State_eq (a b : State) (h1 : a.sol = b.sol) (h2 : a.movedToNewBlock = b.movedToNewBlock)
    (h3 : a.previousConnectivity = b.previousConnectivity)
    (h4 : a.noImprovement = b.noImprovement) : a = b := by
  cases a
  cases b
  simp only at h1 h2 h3 h4
  subst h1 h2 h3 h4
  rfl

theorem cutOf_vertices (H K : mutable_graph) (h : H.vertices = K.vertices) (s : List Nat) :
    cutOf H s = cutOf K s := by
  unfold cutOf nodes n edgesOf
  rw [h]

theorem bigEnv_simple : Simple bigEnv.original_graph :=
  simple_of_check _ (by decide)

theorem bigAux_cut (s : List Nat) (h0 : 0 ∈ s) (h1 : 1 ∉ s) : 1 ≤ cutOf bigAux s := by
  have hu : cutUniverse bigAux = [0, 1, 2, 2, 2, 0, 1] := by decide
  by_cases h2 : 2 ∈ s
  · rw [cutOf_congr bigAux s [0, 2] (fun v hv => by
      rw [hu] at hv
      simp only [List.mem_cons, List.mem_nil_iff, or_false] at hv
      rcases hv with rfl | rfl | rfl | rfl | rfl | rfl | rfl <;> simp [h0, h1, h2])]
    decide
  · rw [cutOf_congr bigAux s [0] (fun v hv => by
      rw [hu] at hv
      simp only [List.mem_cons, List.mem_nil_iff, or_false] at hv
      rcases hv with rfl | rfl | rfl | rfl | rfl | rfl | rfl <;> simp [h0, h1, h2])]
    decide

theorem bigSolver_spec : MinCutSolver bigSolver := by
  intro H
  unfold bigSolver
  split
  · rename_i hv
    refine ⟨by simp, by simp, ?_, ?_⟩
    · simp only
      rw [cutOf_vertices H bigAux hv]
      decide
    · intro s h0 h1
      simp only
      rw [cutOf_vertices H bigAux hv]
      exact bigAux_cut s h0 h1
  · exact exhaustiveSolver_spec H

theorem gainStep_frame (env : Env) (n : Nat) (gs : GainState) (v : Nat) (hv : v ≠ n)
    (ht : ∀ ed ∈ env.original_graph.edgesOf n, ed.target ≠ v) :
    (gainStep env gs n).sol v = gs.sol v := by
  rcases gainStep_cases env n gs with h | h | h
  · rw [h.2]
  · rw [h.2.2]
    simp only
    rw [if_neg hv]
  · obtain ⟨ed, hed, nb, -, -, -, -, h5⟩ := h
    rw [h5]
    simp only
    rw [if_neg (fun hc => ht ed hed hc.symm), if_neg hv]

theorem gainFold_frame (env : Env) (l : List Nat) (v : Nat)
    (hl : ∀ n ∈ l, v ≠ n ∧ ∀ ed ∈ env.original_graph.edgesOf n, ed.target ≠ v) :
    ∀ gs : GainState, (l.foldl (gainStep env) gs).sol v = gs.sol v := by
  induction l with
  | nil => intro gs; rfl
  | cons a l ih =>
    intro gs
    simp only [List.foldl_cons]
    rw [ih (fun n hn => hl n (List.mem_cons_of_mem _ hn))]
    exact gainStep_frame env a gs v (hl a (List.mem_cons_self _ _)).1
      (hl a (List.mem_cons_self _ _)).2

theorem pairStep_moved (env : Env) (hin : env.inexact = false) (n M : Nat) (gain : Int)
    (acc : GainState × Bool) (ed : Edge) :
    (pairStep env n M gain acc ed).1.movedToNewBlock = acc.1.movedToNewBlock := by
  unfold pairStep
  split
  · rfl
  · split
    · simp only [invalidate_moved, hin]
      rfl
    · rfl

theorem pairFold_moved (env : Env) (hin : env.inexact = false) (n M : Nat) (gain : Int)
    (l : List Edge) : ∀ acc : GainState × Bool,
      (l.foldl (pairStep env n M gain) acc).1.movedToNewBlock = acc.1.movedToNewBlock := by
  induction l with
  | nil => intro acc; rfl
  | cons a l ih =>
    intro acc
    simp only [List.foldl_cons]
    rw [ih, pairStep_moved env hin]

theorem gainStep_moved (env : Env) (hin : env.inexact = false) (gs : GainState) (n : Nat) :
    (gainStep env gs n).movedToNewBlock = gs.movedToNewBlock := by
  unfold gainStep
  split
  · rfl
  · have hm : (markInner gs n (bestBlock env gs.sol n).2).movedToNewBlock
        = gs.movedToNewBlock := by
      unfold markInner
      split <;> rfl
    have hp := pairFold_moved env hin n (bestBlock env gs.sol n).1 (gainOf env gs.sol n)
      (env.original_graph.edgesOf n) (markInner gs n (bestBlock env gs.sol n).2, true)
    simp only at hp
    unfold soloStep
    split
    · rw [hp, hm]
    · split
      · rw [invalidate_moved]
        simp only [hin]
        rw [hp, hm]
        rfl
      · simp only
        rw [hp, hm]

theorem gainFold_moved (env : Env) (hin : env.inexact = false) (l : List Nat) :
    ∀ gs : GainState, (l.foldl (gainStep env) gs).movedToNewBlock = gs.movedToNewBlock := by
  induction l with
  | nil => intro gs; rfl
  | cons a l ih =>
    intro gs
    simp only [List.foldl_cons]
    rw [ih, gainStep_moved env hin]

/-- One pass of `flowLocalSearch` in `bigEnv` from a state whose list of block
pairs is the pair `(0, 1)` alone: the pass is the one call
`flowBetweenBlocks(0, 1)`. -/
theorem big_flow_pass (k : Nat) (st : State) (c : Nat)
    (hnb : neighboringBlocks bigEnv st = [(0, 1, c)]) :
    ∃ r, flowBetweenBlocks bigEnv st 0 1 = some r ∧
      flowLocalSearch bigEnv k st = some (r.1.1,
        { sol := reassigned st.sol 0 1 (buildMapping bigEnv st.sol 0 1).1
            (flowResult bigEnv st.sol 0 1).2 bigEnv.original_graph.n
          movedToNewBlock := st.movedToNewBlock
          previousConnectivity := fun a b =>
            if a = 0 ∧ b = 1 then (flowResult bigEnv st.sol 0 1).1
            else st.previousConnectivity a b
          noImprovement := [] }) ∧
      r.1.1 = ((flowScan bigEnv st.sol 0 1 (buildMapping bigEnv st.sol 0 1).1).sol_weight : Int)
        - ((flowResult bigEnv st.sol 0 1).1 : Int) := by
  obtain ⟨r, hr, -, -, hsol⟩ := flowBetweenBlocks_exact bigEnv bigEnv_simple bigSolver_spec st 0 1
  obtain ⟨-, hval, hf, hpc, hmv⟩ := flowBetweenBlocks_some bigEnv st 0 1 r hr
  refine ⟨r, hr, ?_, hval⟩
  unfold flowLocalSearch
  have hsh : bigEnv.shuffle k (neighboringBlocks bigEnv st) = [(0, 1, c)] := hnb
  rw [hsh]
  unfold flowPairs
  simp only
  rw [hr]
  simp only [flowPairs, zero_add, Option.some.injEq, Prod.mk.injEq, true_and]
  apply State_eq
  · exact hsol
  · exact hmv
  · simp only
    rw [hf, hpc]
  · rfl

theorem big_flow_start (k : Nat) :
    flowLocalSearch bigEnv k bigState = some (0, bigFlowed) := by
  obtain ⟨r, -, hfl, hval⟩ := big_flow_pass k bigState 1 (by decide)
  rw [hfl]
  have hv : r.1.1 = 0 := by rw [hval]; decide
  simp only [Option.some.injEq, Prod.mk.injEq]
  refine ⟨hv, ?_⟩
  apply State_eq
  · funext v
    simp only
    by_cases h3 : v < 3
    · interval_cases v <;> decide
    · unfold reassigned
      rw [if_neg (fun hc => h3 hc.1)]
      rfl
  · rfl
  · funext a b
    simp only
    by_cases hab : a = 0 ∧ b = 1
    · rw [if_pos hab]
      unfold bigFlowed
      simp only
      rw [if_pos hab]
      decide
    · rw [if_neg hab]
      unfold bigFlowed
      simp only
      rw [if_neg hab]
      rfl
  · rfl

theorem big_flow_moved (k : Nat) :
    flowLocalSearch bigEnv k bigMoved = some (9223372036854775812, bigFlowed) := by
  obtain ⟨r, -, hfl, hval⟩ := big_flow_pass k bigMoved 9223372036854775813 (by decide)
  rw [hfl]
  have hv : r.1.1 = 9223372036854775812 := by rw [hval]; decide
  simp only [Option.some.injEq, Prod.mk.injEq]
  refine ⟨hv, ?_⟩
  apply State_eq
  · funext v
    simp only
    by_cases h3 : v < 3
    · interval_cases v <;> decide
    · unfold reassigned
      rw [if_neg (fun hc => h3 hc.1)]
      unfold bigMoved bigFlowed
      simp only
      have h0 : ¬ v = 0 := by omega
      have h2 : ¬ (v = 0 ∨ v = 2) := by omega
      rw [if_neg h0, if_neg h2]
  · rfl
  · funext a b
    simp only
    by_cases hab : a = 0 ∧ b = 1
    · rw [if_pos hab]
      unfold bigFlowed
      simp only
      rw [if_pos hab]
      decide
    · rw [if_neg hab]
      rfl
  · rfl

theorem big_gain (k : Nat) :
    gainLocalSearch bigEnv k bigFlowed = (9223372036854775804, bigMoved) := by
  have hk : gainLocalSearch bigEnv k bigFlowed = gainLocalSearch bigEnv 0 bigFlowed := rfl
  rw [hk]
  apply Prod.ext
  · decide
  · apply State_eq
    · funext v
      by_cases h3 : v < 3
      · interval_cases v <;> decide
      · unfold gainLocalSearch
        simp only
        rw [gainFold_frame bigEnv (bigEnv.permute 0) v (by
          intro n hn
          have hn3 : n < 3 := by
            have : n ∈ [0, 1, 2] := hn
            simp only [List.mem_cons, List.mem_nil_iff, or_false] at this
            omega
          refine ⟨by omega, ?_⟩
          intro ed hed
          have := (bigEnv_simple.1 n ed hed).1
          have hN : bigEnv.original_graph.n = 3 := by decide
          omega)]
        unfold bigMoved bigFlowed
        simp only
        have h0 : ¬ v = 0 := by omega
        have h2 : ¬ (v = 0 ∨ v = 2) := by omega
        rw [if_neg h0, if_neg h2]
    · unfold gainLocalSearch
      simp only
      rw [gainFold_moved bigEnv rfl]
      rfl
    · rfl
    · rfl

theorem big_loop (fuel : Nat) :
    ∀ (k : Nat) (total : Int), improveLoop bigEnv fuel k total bigMoved = none := by
  induction fuel with
  | zero => intro k total; rfl
  | succ fuel ih =>
    intro k total
    unfold improveLoop
    rw [big_flow_moved k]
    simp only
    rw [big_gain k]
    simp only
    rw [if_pos (by decide)]
    exact ih _ _

theorem big_never_returns (fuel : Nat) : improveSolution bigEnv fuel bigState = none := by
  unfold improveSolution
  cases fuel with
  | zero => rfl
  | succ fuel =>
    unfold improveLoop
    rw [big_flow_start 0]
    simp only
    rw [big_gain 0]
    simp only
    rw [if_pos (by decide)]
    exact big_loop fuel _ _

/-- Counterexample to C3 as stated: in `bigEnv`, a simple graph with a valid
solution and a minimum-cut solver, whose weights 1 and `2^63 + 5` fit an
unsigned 64 bit integer, the gain pass of the first iteration of
`improveSolution` returns the improvement `2^63 - 4` and raises the cut weight
from 1 to `2^63 + 5`; with the flow pass of the second iteration the
accumulated total reaches `2^64`, which an unsigned 64 bit integer does not
hold. -/
theorem big_weight_cut_rises :
    (Simple bigEnv.original_graph ∧ MinCutSolver bigEnv.solver ∧
      (∀ k l, (bigEnv.shuffle k l).Perm l) ∧ bigEnv.num_blocks ≤ bigEnv.num_terminals ∧
      (∀ v, v < bigEnv.original_graph.n → bigState.sol v < bigEnv.num_terminals)) ∧
    (flowLocalSearch bigEnv 0 bigState = some (0, bigFlowed) ∧
      gainLocalSearch bigEnv 0 bigFlowed = (9223372036854775804, bigMoved) ∧
      flowLocalSearch bigEnv 1 bigMoved = some (9223372036854775812, bigFlowed)) ∧
    (cutWeight bigEnv.original_graph bigState.sol = 1 ∧
      cutWeight bigEnv.original_graph bigFlowed.sol = 1 ∧
      cutWeight bigEnv.original_graph bigMoved.sol = 9223372036854775813 ∧
      cutWeight bigEnv.original_graph bigFlowed.sol
        < cutWeight bigEnv.original_graph bigMoved.sol) ∧
    ((0 : Int) + 0 + 9223372036854775804 + 9223372036854775812 = 2 ^ 64) :=
  ⟨⟨bigEnv_simple, bigSolver_spec, fun _ _ => List.Perm.refl _, le_refl _,
      fun v _ => by unfold bigState; simp only; split <;> decide⟩,
    ⟨big_flow_start 0, big_gain 0, big_flow_moved 1⟩, by decide, by decide⟩

/-- Counterexample to C17 as stated: in `bigEnv`, a simple graph with a valid
solution, `gainLocalSearch` computes for vertex 2 the gain
`int64(1) - int64(2^63 + 5) = 2^63 - 4`, moves it to block 0 and returns
`2^63 - 4`, while the cut weight goes from 1 to `2^63 + 5`: the returned value
is not the cut weight before the call minus the cut weight after it. -/
theorem big_weight_gain_accounting :
    (Simple bigEnv.original_graph ∧
      ∀ v, v < bigEnv.original_graph.n → bigState.sol v < bigEnv.num_terminals) ∧
    (bestBlock bigEnv bigState.sol 2 = (0, 1) ∧
      blockwgt bigEnv bigState.sol 2 (bigState.sol 2) = 9223372036854775813 ∧
      gainOf bigEnv bigState.sol 2 = 9223372036854775804) ∧
    ((gainLocalSearch bigEnv 0 bigState).1 = 9223372036854775804 ∧
      (List.range 3).map (gainLocalSearch bigEnv 0 bigState).2.sol = [0, 1, 0] ∧
      cutWeight bigEnv.original_graph bigState.sol = 1 ∧
      cutWeight bigEnv.original_graph (gainLocalSearch bigEnv 0 bigState).2.sol
        = 9223372036854775813) ∧
    (cutWeight bigEnv.original_graph (gainLocalSearch bigEnv 0 bigState).2.sol : Int)
        + (gainLocalSearch bigEnv 0 bigState).1
      ≠ (cutWeight bigEnv.original_graph bigState.sol : Int) :=
  ⟨⟨bigEnv_simple, fun v _ => by unfold bigState; simp only; split <;> decide⟩,
    by decide, by decide, by decide⟩

/-- Counterexample to C23 as stated: in `bigEnv`, a simple graph with a valid
solution and a minimum-cut solver, the loop of `improveSolution` does not end
within any number of iterations.  Every iteration sets `change_found`: the
flow pass puts vertex 2 into block 1 (cut weight 1), the gain pass moves it
back to block 0 with the improvement `2^63 - 4` (cut weight `2^63 + 5`), and
the state after an iteration is the state before it. -/
theorem big_weight_driver_loops :
    (Simple bigEnv.original_graph ∧ MinCutSolver bigEnv.solver ∧
      (∀ k l, (bigEnv.shuffle k l).Perm l) ∧ bigEnv.num_blocks ≤ bigEnv.num_terminals ∧
      (∀ v, v < bigEnv.original_graph.n → bigState.sol v < bigEnv.num_terminals)) ∧
    (∀ fuel, improveSolution bigEnv fuel bigState = none) ∧
    (∀ k, flowLocalSearch bigEnv k bigState = some (0, bigFlowed)) ∧
    (∀ k, gainLocalSearch bigEnv k bigFlowed = (9223372036854775804, bigMoved)) ∧
    (∀ k, flowLocalSearch bigEnv k bigMoved = some (9223372036854775812, bigFlowed)) ∧
    (∀ fuel k total, improveLoop bigEnv fuel k total bigMoved = none) ∧
    (cutWeight bigEnv.original_graph bigFlowed.sol = 1 ∧
      cutWeight bigEnv.original_graph bigMoved.sol = 9223372036854775813) :=
  ⟨⟨bigEnv_simple, bigSolver_spec, fun _ _ => List.Perm.refl _, le_refl _,
      fun v _ => by unfold bigState; simp only; split <;> decide⟩,
    big_never_returns, big_flow_start, big_gain, big_flow_moved, big_loop, by decide⟩

end local_search

namespace heavy_edges
open mutable_graph

theorem deleteLeavesWith_deleteVertex (l : List Nat) :
    ∀ st, deleteLeavesWith deleteVertex l st = deleteLeaves l st := by
  induction l with
  | nil => intro st; rfl
  | cons e l ih =>
    intro st
    unfold deleteLeavesWith deleteLeaves
    have h : deleteLeafWith deleteVertex st e = deleteLeaf st e := rfl
    rw [h]
    cases deleteLeaf st e with
    | none => rfl
    | some st1 => exact ih st1

theorem removeHeavyEdgesWith_deleteVertex (mincut : Nat)
    (iter : List (Nat × List Nat) → List (Nat × List Nat)) (G : mutable_graph) :
    removeHeavyEdgesWith deleteVertex mincut iter G = removeHeavyEdges mincut iter G := by
  unfold removeHeavyEdgesWith removeHeavyEdges
  cases contractGroups (iter (scan mincut G).contract) G with
  | none => rfl
  | some G1 => exact deleteLeavesWith_deleteVertex _ _

end heavy_edges


namespace mutable_graph

theorem wtOf_nil (t : Nat) : wtOf [] t = 0 := rfl

theorem wtOf_cons (e : Edge) (l : List Edge) (t : Nat) :
    wtOf (e :: l) t = (if e.target = t then e.weight else 0) + wtOf l t := by
  simp [wtOf]

theorem wtOf_append (l1 l2 : List Edge) (t : Nat) :
    wtOf (l1 ++ l2) t = wtOf l1 t + wtOf l2 t := by
  simp [wtOf]

theorem wtOf_le_sum (l : List Edge) (t : Nat) : wtOf l t ≤ (l.map Edge.weight).sum := by
  induction l with
  | nil => simp [wtOf]
  | cons e l ih =>
    rw [wtOf_cons]
    simp only [List.map_cons, List.sum_cons]
    split <;> omega

theorem wtOf_eq_zero (l : List Edge) (t : Nat) (h : ∀ e ∈ l, e.target ≠ t) : wtOf l t = 0 := by
  induction l with
  | nil => rfl
  | cons e l ih =>
    rw [wtOf_cons, if_neg (h e (List.mem_cons_self _ _)),
      ih (fun e he => h e (List.mem_cons_of_mem _ he))]

theorem wtOf_ge (l : List Edge) (e : Edge) (he : e ∈ l) : e.weight ≤ wtOf l e.target := by
  induction l with
  | nil => simp at he
  | cons a l ih =>
    rw [wtOf_cons]
    rcases List.mem_cons.mp he with rfl | h
    · simp
    · have := ih h
      omega

theorem wtOf_of_mem (l : List Edge) (hnd : (l.map Edge.target).Nodup) (e : Edge) (he : e ∈ l) :
    wtOf l e.target = e.weight :=
  local_search.wtTo_list l hnd e he

theorem exists_of_wtOf (l : List Edge) (t : Nat) (h : wtOf l t ≠ 0) :
    ∃ e ∈ l, e.target = t := by
  by_contra hc
  push_neg at hc
  exact h (wtOf_eq_zero l t hc)

theorem mem_of_wtOf (l : List Edge) (hnd : (l.map Edge.target).Nodup) (t : Nat)
    (h : wtOf l t ≠ 0) : ({ target := t, weight := wtOf l t } : Edge) ∈ l := by
  obtain ⟨e, he, rfl⟩ := exists_of_wtOf l t h
  rw [wtOf_of_mem l hnd e he]
  exact he

theorem perm_of_wtOf (l1 l2 : List Edge) (h1 : (l1.map Edge.target).Nodup)
    (h2 : (l2.map Edge.target).Nodup)
    (p1 : ∀ e ∈ l1, 0 < e.weight) (p2 : ∀ e ∈ l2, 0 < e.weight)
    (h : ∀ t, wtOf l1 t = wtOf l2 t) : l1.Perm l2 := by
  rw [List.perm_ext_iff_of_nodup (List.Nodup.of_map _ h1) (List.Nodup.of_map _ h2)]
  intro e
  constructor
  · intro he
    have hw := wtOf_of_mem l1 h1 e he
    have hp := p1 e he
    have := mem_of_wtOf l2 h2 e.target (by rw [← h, hw]; omega)
    rw [← h, hw] at this
    exact this
  · intro he
    have hw := wtOf_of_mem l2 h2 e he
    have hp := p2 e he
    have := mem_of_wtOf l1 h1 e.target (by rw [h, hw]; omega)
    rw [h, hw] at this
    exact this

theorem wtOf_filter_ne (l : List Edge) (v t : Nat) :
    wtOf (l.filter (fun ed => ed.target != v)) t = if t = v then 0 else wtOf l t := by
  induction l with
  | nil => simp [wtOf]
  | cons e l ih =>
    by_cases hev : e.target = v
    · rw [List.filter_cons_of_neg (by simp [hev]), ih, wtOf_cons]
      by_cases htv : t = v
      · simp [htv]
      · have : ¬ e.target = t := by rw [hev]; exact fun h => htv h.symm
        simp [htv, this]
    · rw [List.filter_cons_of_pos (by simp [hev]), wtOf_cons, ih, wtOf_cons]
      by_cases htv : t = v
      · have : ¬ e.target = t := by rw [htv]; exact hev
        simp [htv, hev]
      · simp [htv]

theorem retarget_cons (a b : Nat) (e : Edge) (l : List Edge) :
    retarget a b (e :: l) =
      (if e.target = a then ({ e with target := b } : Edge) else e) :: retarget a b l := rfl

theorem wtOf_retarget (a b : Nat) (hab : a ≠ b) (l : List Edge) (t : Nat) :
    wtOf (retarget a b l) t =
      if t = a then 0 else if t = b then wtOf l a + wtOf l b else wtOf l t := by
  induction l with
  | nil => simp [retarget, wtOf]
  | cons e l ih =>
    rw [retarget_cons, wtOf_cons, ih]
    simp only [wtOf_cons]
    have hba : b ≠ a := Ne.symm hab
    by_cases hea : e.target = a
    · rw [if_pos hea]
      simp only [hea]
      by_cases hta : t = a
      · have hbt : ¬ b = t := by rw [hta]; exact hba
        simp [hta, hba]
      · by_cases htb : t = b
        · simp [htb, hab, hba]
          omega
        · have h1 : ¬ a = t := fun h => hta h.symm
          have h2 : ¬ b = t := fun h => htb h.symm
          simp [hta, htb, h1, h2]
    · rw [if_neg hea]
      by_cases hta : t = a
      · simp [hta, hea]
      · by_cases htb : t = b
        · have heb : (if e.target = a then e.weight else 0) = 0 := if_neg hea
          simp [htb, hab, hba, hea]
          omega
        · simp [hta, htb]

theorem wtOf_bump (es : List Edge) (k w t : Nat) (hnd : (es.map Edge.target).Nodup) :
    wtOf (es.map (fun x => if x.target = k then
        ({ x with weight := x.weight + w } : Edge) else x)) t =
      wtOf es t + (if k = t ∧ k ∈ es.map Edge.target then w else 0) := by
  induction es with
  | nil => simp [wtOf]
  | cons x es ih =>
    simp only [List.map_cons, List.nodup_cons] at hnd
    rw [List.map_cons, wtOf_cons, wtOf_cons, ih hnd.2]
    by_cases hxk : x.target = k
    · have hk : k ∉ es.map Edge.target := by rw [← hxk]; exact hnd.1
      rw [if_pos hxk]
      simp only [hk, and_false, if_false, List.map_cons, List.mem_cons, hxk, true_or, and_true]
      by_cases hkt : k = t
      · simp [hkt]
        omega
      · simp [hkt]
    · rw [if_neg hxk]
      simp only [List.map_cons, List.mem_cons]
      have : (k = t ∧ (k = x.target ∨ k ∈ es.map Edge.target)) ↔
          (k = t ∧ k ∈ es.map Edge.target) := by
        constructor
        · rintro ⟨h1, h2 | h2⟩
          · exact absurd h2.symm hxk
          · exact ⟨h1, h2⟩
        · rintro ⟨h1, h2⟩
          exact ⟨h1, Or.inr h2⟩
      simp only [this]
      omega

theorem wtOf_addEdge (es : List Edge) (e : Edge) (hnd : (es.map Edge.target).Nodup) (t : Nat) :
    wtOf (addEdge es e) t = wtOf es t + (if e.target = t then e.weight else 0) := by
  unfold addEdge
  split
  · rename_i hany
    rw [wtOf_bump es e.target e.weight t hnd]
    have hmem : e.target ∈ es.map Edge.target := by
      rw [List.any_eq_true] at hany
      obtain ⟨x, hx, hxt⟩ := hany
      simp only [beq_iff_eq] at hxt
      rw [← hxt]
      exact List.mem_map_of_mem _ hx
    simp [hmem]
  · rw [wtOf_append, wtOf_cons, wtOf_nil]
    omega

theorem wtOf_collapse (l : List Edge) (t : Nat) : wtOf (collapse l) t = wtOf l t := by
  unfold collapse
  have key : ∀ (l acc : List Edge), (acc.map Edge.target).Nodup →
      wtOf (l.foldl addEdge acc) t = wtOf acc t + wtOf l t := by
    intro l
    induction l with
    | nil => intro acc _; simp [wtOf_nil]
    | cons a l ih =>
      intro acc h
      simp only [List.foldl_cons]
      rw [ih _ (addEdge_targets acc a h), wtOf_addEdge acc a h, wtOf_cons]
      omega
  rw [key l [] (by simp), wtOf_nil]
  omega

theorem addEdge_pos (es : List Edge) (e : Edge) (h : ∀ x ∈ es, 0 < x.weight)
    (he : 0 < e.weight) : ∀ x ∈ addEdge es e, 0 < x.weight := by
  intro x hx
  unfold addEdge at hx
  split at hx
  · obtain ⟨y, hy, rfl⟩ := List.mem_map.mp hx
    have := h y hy
    split
    · simp only
      omega
    · exact this
  · rcases List.mem_append.mp hx with h1 | h1
    · exact h x h1
    · simp only [List.mem_singleton] at h1
      rw [h1]
      exact he

theorem collapse_pos (l : List Edge) (h : ∀ x ∈ l, 0 < x.weight) :
    ∀ x ∈ collapse l, 0 < x.weight := by
  unfold collapse
  have key : ∀ (l acc : List Edge), (∀ x ∈ acc, 0 < x.weight) → (∀ x ∈ l, 0 < x.weight) →
      ∀ x ∈ l.foldl addEdge acc, 0 < x.weight := by
    intro l
    induction l with
    | nil => intro acc h _; exact h
    | cons a l ih =>
      intro acc hacc hl
      simp only [List.foldl_cons]
      exact ih _ (addEdge_pos acc a hacc (hl a (List.mem_cons_self _ _)))
        (fun x hx => hl x (List.mem_cons_of_mem _ hx))
  exact key l [] (by simp) h

theorem collapse_target (l : List Edge) (h : ∀ x ∈ l, 0 < x.weight) (e : Edge)
    (he : e ∈ collapse l) : ∃ x ∈ l, x.target = e.target := by
  apply exists_of_wtOf
  rw [← wtOf_collapse]
  have h1 := wtOf_ge (collapse l) e he
  have h2 := collapse_pos l h e he
  omega

theorem sum_bump (es : List Edge) (k w : Nat) (hnd : (es.map Edge.target).Nodup) :
    ((es.map (fun x => if x.target = k then
        ({ x with weight := x.weight + w } : Edge) else x)).map Edge.weight).sum ≤
      (es.map Edge.weight).sum + w := by
  induction es with
  | nil => simp
  | cons x es ih =>
    simp only [List.map_cons, List.nodup_cons] at hnd
    simp only [List.map_cons, List.sum_cons]
    by_cases hxk : x.target = k
    · have hk : ∀ y ∈ es, y.target ≠ k := by
        intro y hy hyk
        apply hnd.1
        rw [hxk, ← hyk]
        exact List.mem_map_of_mem _ hy
      have hsame : es.map (fun x => if x.target = k then
          ({ x with weight := x.weight + w } : Edge) else x) = es := by
        conv_rhs => rw [← List.map_id es]
        apply List.map_congr_left
        intro y hy
        rw [if_neg (hk y hy)]
        rfl
      rw [hsame, if_pos hxk]
      simp only
      omega
    · rw [if_neg hxk]
      have := ih hnd.2
      omega

theorem sum_addEdge (es : List Edge) (e : Edge) (hnd : (es.map Edge.target).Nodup) :
    ((addEdge es e).map Edge.weight).sum ≤ (es.map Edge.weight).sum + e.weight := by
  unfold addEdge
  split
  · exact sum_bump es e.target e.weight hnd
  · simp

theorem sum_collapse (l : List Edge) :
    ((collapse l).map Edge.weight).sum ≤ (l.map Edge.weight).sum := by
  unfold collapse
  have key : ∀ (l acc : List Edge), (acc.map Edge.target).Nodup →
      ((l.foldl addEdge acc).map Edge.weight).sum ≤
        (acc.map Edge.weight).sum + (l.map Edge.weight).sum := by
    intro l
    induction l with
    | nil => intro acc _; simp
    | cons a l ih =>
      intro acc h
      simp only [List.foldl_cons, List.map_cons, List.sum_cons]
      have h1 := ih _ (addEdge_targets acc a h)
      have h2 := sum_addEdge acc a h
      omega
  have := key l [] (by simp)
  simpa using this

theorem sum_retarget (a b : Nat) (l : List Edge) :
    ((retarget a b l).map Edge.weight).sum = (l.map Edge.weight).sum := by
  unfold retarget
  rw [List.map_map]
  congr 1
  apply List.map_congr_left
  intro x _
  simp only [Function.comp]
  split <;> rfl

theorem sum_filter_ne (l : List Edge) (v : Nat) :
    ((l.filter (fun ed => ed.target != v)).map Edge.weight).sum + wtOf l v =
      (l.map Edge.weight).sum := by
  induction l with
  | nil => simp [wtOf]
  | cons e l ih =>
    rw [wtOf_cons]
    by_cases hev : e.target = v
    · rw [List.filter_cons_of_neg (by simp [hev]), if_pos hev]
      simp only [List.map_cons, List.sum_cons]
      omega
    · rw [List.filter_cons_of_pos (by simp [hev]), if_neg hev]
      simp only [List.map_cons, List.sum_cons]
      omega

theorem sum_weight_filter_le (l : List Edge) (p : Edge → Bool) :
    ((l.filter p).map Edge.weight).sum ≤ (l.map Edge.weight).sum := by
  induction l with
  | nil => simp
  | cons e l ih =>
    by_cases hp : p e = true
    · rw [List.filter_cons_of_pos hp]
      simp only [List.map_cons, List.sum_cons]
      omega
    · rw [List.filter_cons_of_neg hp]
      simp only [List.map_cons, List.sum_cons]
      omega

theorem wtOf_rename (σ : Nat → Nat) (N : Nat) (l : List Edge) (y : Nat)
    (hl : ∀ e ∈ l, e.target < N) (hy : y < N)
    (hinj : ∀ a b, a < N → b < N → σ a = σ b → a = b) :
    wtOf (renameEdges σ l) (σ y) = wtOf l y := by
  induction l with
  | nil => rfl
  | cons e l ih =>
    have h1 : renameEdges σ (e :: l) =
        { target := σ e.target, weight := e.weight } :: renameEdges σ l := rfl
    rw [h1, wtOf_cons, wtOf_cons, ih (fun e he => hl e (List.mem_cons_of_mem _ he))]
    simp only
    have he := hl e (List.mem_cons_self _ _)
    by_cases hey : e.target = y
    · rw [if_pos (by rw [hey]), if_pos hey]
    · rw [if_neg (fun h => hey (hinj _ _ he hy h)), if_neg hey]

theorem surj_of_inj (N : Nat) (f : Nat → Nat) (hlt : ∀ x, x < N → f x < N)
    (hinj : ∀ a b, a < N → b < N → f a = f b → a = b) :
    ∀ y, y < N → ∃ x, x < N ∧ f x = y := by
  intro y hy
  let g : Fin N → Fin N := fun i => ⟨f i.1, hlt i.1 i.2⟩
  have hg : Function.Injective g := by
    intro a b hab
    apply Fin.ext
    apply hinj _ _ a.2 b.2
    have := congrArg Fin.val hab
    exact this
  obtain ⟨x, hx⟩ := Finite.surjective_of_injective hg ⟨y, hy⟩
  exact ⟨x.1, x.2, congrArg Fin.val hx⟩

end mutable_graph


namespace mutable_graph

theorem retarget_self (a : Nat) (l : List Edge) : retarget a a l = l := by
  unfold retarget
  conv_rhs => rw [← List.map_id l]
  apply List.map_congr_left
  intro x _
  split
  · rename_i h
    simp only [id]
    rw [← h]
  · rfl

theorem mem_retarget (a b : Nat) (l : List Edge) (e : Edge) (he : e ∈ retarget a b l) :
    ∃ x ∈ l, e.weight = x.weight ∧ e.target = if x.target = a then b else x.target := by
  unfold retarget at he
  obtain ⟨x, hx, rfl⟩ := List.mem_map.mp he
  refine ⟨x, hx, ?_, ?_⟩
  · split <;> rfl
  · split <;> rfl

theorem wtOf_renumber (last v y : Nat) (L : List Edge) (hyv : y ≠ v) :
    wtOf (retarget last v (L.filter (fun ed => ed.target != v))) (if y = last then v else y) =
      wtOf L y := by
  by_cases hlv : last = v
  · rw [hlv, retarget_self, if_neg hyv, wtOf_filter_ne, if_neg hyv]
  · rw [wtOf_retarget last v hlv]
    by_cases hyl : y = last
    · rw [if_pos hyl, if_neg (Ne.symm hlv), if_pos rfl, wtOf_filter_ne, wtOf_filter_ne,
        if_neg hlv, if_pos rfl, hyl, Nat.add_zero]
    · rw [if_neg hyl, if_neg hyl, if_neg hyv, wtOf_filter_ne, if_neg hyv]

theorem mergeCore_edges_root (G : mutable_graph) (r v : Nat) (h : r < G.n ∧ v < G.n ∧ r ≠ v) :
    (G.mergeCore r v).edgesOf r =
      collapse ((retarget v r (G.edgesOf r ++ G.edgesOf v)).filter
        (fun ed => ed.target != r)) := by
  have hr : r < G.vertices.length := h.1
  unfold mergeCore
  unfold edgesOf
  simp only
  rw [List.getElem?_set_ne (fun hh => h.2.2 hh.symm),
    List.getElem?_set_self (by simpa using hr)]
  rfl

theorem mergeInto_edges (G : mutable_graph) (r v x : Nat) (h : r < G.n ∧ v < G.n ∧ r ≠ v)
    (hx : x < G.n) (hxv : x ≠ v) :
    (G.mergeInto r v).edgesOf (if x = G.n - 1 then v else x) =
      retarget (G.n - 1) v
        ((if x = r then collapse ((retarget v r (G.edgesOf r ++ G.edgesOf v)).filter
            (fun ed => ed.target != r))
          else collapse (retarget v r (G.edgesOf x))).filter (fun ed => ed.target != v)) := by
  rw [mergeInto_eq G r v h]
  have h1 := (deleteVertex_node (G.mergeCore r v) v x (by rw [mergeCore_n]; exact h.2.1)
    (by rw [mergeCore_n]; exact hx) hxv).2
  rw [mergeCore_n] at h1
  rw [h1]
  by_cases hxr : x = r
  · rw [if_pos hxr, hxr, mergeCore_edges_root G r v h]
  · rw [if_neg hxr, (mergeCore_node G r v x hx hxv).2 hxr]

theorem mergeInto_wt (G : mutable_graph) (r v x y : Nat) (h : r < G.n ∧ v < G.n ∧ r ≠ v)
    (hx : x < G.n) (hxv : x ≠ v) (hyv : y ≠ v) :
    wtOf ((G.mergeInto r v).edgesOf (if x = G.n - 1 then v else x))
        (if y = G.n - 1 then v else y) =
      if x = r then (if y = r then 0 else wtOf (G.edgesOf r) y + wtOf (G.edgesOf v) y)
      else (if y = r then wtOf (G.edgesOf x) v + wtOf (G.edgesOf x) r
        else wtOf (G.edgesOf x) y) := by
  rw [mergeInto_edges G r v x h hx hxv, wtOf_renumber _ _ _ _ hyv]
  by_cases hxr : x = r
  · rw [if_pos hxr, if_pos hxr, wtOf_collapse, wtOf_filter_ne]
    by_cases hyr : y = r
    · rw [if_pos hyr, if_pos hyr]
    · rw [if_neg hyr, if_neg hyr, wtOf_retarget v r (Ne.symm h.2.2), if_neg hyv, if_neg hyr,
        wtOf_append]
  · rw [if_neg hxr, if_neg hxr, wtOf_collapse, wtOf_retarget v r (Ne.symm h.2.2), if_neg hyv]

theorem mergeInto_edge_mem (G : mutable_graph) (r v : Nat) (h : r < G.n ∧ v < G.n ∧ r ≠ v)
    (hpos : Positive G) (ht : ∀ u ed, ed ∈ G.edgesOf u → ed.target < G.n) :
    ∀ u ed, ed ∈ (G.mergeInto r v).edgesOf u → ed.target < G.n - 1 ∧ 0 < ed.weight := by
  intro u ed hed
  have hu : u < G.n - 1 := by
    by_contra hc
    rw [local_search.edgesOf_oob _ u (by rw [mergeInto_n G r v h]; omega)] at hed
    simp at hed
  have hx : ∃ x, x < G.n ∧ x ≠ v ∧ (if x = G.n - 1 then v else x) = u := by
    by_cases huv : u = v
    · refine ⟨G.n - 1, by omega, by omega, ?_⟩
      rw [if_pos rfl, huv]
    · refine ⟨u, by omega, huv, ?_⟩
      rw [if_neg (by omega)]
  obtain ⟨x, hxn, hxv, rfl⟩ := hx
  rw [mergeInto_edges G r v x h hxn hxv] at hed
  obtain ⟨e1, he1, hw1, ht1⟩ := mem_retarget _ _ _ _ hed
  have he1f := List.mem_filter.mp he1
  have he1v : e1.target ≠ v := by simpa using he1f.2
  have hin : ∀ l : List Edge, (∀ e ∈ l, e.target < G.n ∧ 0 < e.weight) →
      ∀ e ∈ retarget v r l, e.target < G.n ∧ 0 < e.weight := by
    intro l hl e he
    obtain ⟨e2, he2, hw2, ht2⟩ := mem_retarget _ _ _ _ he
    have := hl e2 he2
    rw [hw2, ht2]
    refine ⟨?_, this.2⟩
    split
    · exact h.1
    · exact this.1
  have hG : ∀ z, ∀ e ∈ G.edgesOf z, e.target < G.n ∧ 0 < e.weight :=
    fun z e he => ⟨ht z e he, hpos z e he⟩
  have hE : e1.target < G.n ∧ 0 < e1.weight := by
    have hmem := he1f.1
    by_cases hxr : x = r
    · rw [if_pos hxr] at hmem
      have hF : ∀ e ∈ (retarget v r (G.edgesOf r ++ G.edgesOf v)).filter
          (fun ed => ed.target != r), e.target < G.n ∧ 0 < e.weight := by
        intro e he
        apply hin _ _ e (List.mem_filter.mp he).1
        intro e3 he3
        rcases List.mem_append.mp he3 with h3 | h3
        · exact hG _ _ h3
        · exact hG _ _ h3
      refine ⟨?_, collapse_pos _ (fun e he => (hF e he).2) _ hmem⟩
      obtain ⟨e4, he4, ht4⟩ := collapse_target _ (fun e he => (hF e he).2) _ hmem
      rw [← ht4]
      exact (hF e4 he4).1
    · rw [if_neg hxr] at hmem
      have hF := hin _ (hG x)
      refine ⟨?_, collapse_pos _ (fun e he => (hF e he).2) _ hmem⟩
      obtain ⟨e4, he4, ht4⟩ := collapse_target _ (fun e he => (hF e he).2) _ hmem
      rw [← ht4]
      exact (hF e4 he4).1
  rw [hw1, ht1]
  refine ⟨?_, hE.2⟩
  split
  · rename_i hl
    have : v ≠ G.n - 1 := by rw [← hl]; exact Ne.symm he1v
    omega
  · have := hE.1
    omega

theorem mergeInto_degree_le (G : mutable_graph) (r v x : Nat) (h : r < G.n ∧ v < G.n ∧ r ≠ v)
    (hx : x < G.n) (hxv : x ≠ v) (hxr : x ≠ r) :
    (G.mergeInto r v).getWeightedNodeDegree (if x = G.n - 1 then v else x) ≤
      G.getWeightedNodeDegree x := by
  unfold getWeightedNodeDegree
  rw [mergeInto_edges G r v x h hx hxv, if_neg hxr, sum_retarget]
  calc _ ≤ ((collapse (retarget v r (G.edgesOf x))).map Edge.weight).sum :=
        sum_weight_filter_le _ _
    _ ≤ ((retarget v r (G.edgesOf x)).map Edge.weight).sum := sum_collapse _
    _ = _ := sum_retarget _ _ _

theorem mergeInto_degree_root (G : mutable_graph) (r v : Nat) (h : r < G.n ∧ v < G.n ∧ r ≠ v) :
    (G.mergeInto r v).getWeightedNodeDegree (if r = G.n - 1 then v else r)
        + wtOf (G.edgesOf r) v + wtOf (G.edgesOf v) r ≤
      G.getWeightedNodeDegree r + G.getWeightedNodeDegree v := by
  unfold getWeightedNodeDegree
  rw [mergeInto_edges G r v r h h.1 h.2.2, if_pos rfl, sum_retarget]
  have h1 := sum_weight_filter_le (collapse ((retarget v r (G.edgesOf r ++ G.edgesOf v)).filter
    (fun ed => ed.target != r))) (fun ed => ed.target != v)
  have h2 := sum_collapse ((retarget v r (G.edgesOf r ++ G.edgesOf v)).filter
    (fun ed => ed.target != r))
  have h3 := sum_filter_ne (retarget v r (G.edgesOf r ++ G.edgesOf v)) r
  rw [sum_retarget, wtOf_retarget v r (Ne.symm h.2.2), if_neg h.2.2, if_pos rfl, wtOf_append,
    wtOf_append] at h3
  simp only [List.map_append, List.sum_append] at h3
  omega

theorem mergeInto_contained_root (G : mutable_graph) (r v : Nat)
    (h : r < G.n ∧ v < G.n ∧ r ≠ v) :
    (G.mergeInto r v).containedVertices (if r = G.n - 1 then v else r) =
      G.containedVertices r ++ G.containedVertices v := by
  rw [mergeInto_eq G r v h]
  have h1 := (deleteVertex_node (G.mergeCore r v) v r (by rw [mergeCore_n]; exact h.2.1)
    (by rw [mergeCore_n]; exact h.1) h.2.2).1
  rw [mergeCore_n] at h1
  rw [h1, (mergeCore_node G r v r h.1 h.2.2).1, if_pos rfl]

theorem clearPositions_spec (cont : List Nat) :
    ∀ G : mutable_graph,
      (cont.foldl (fun H c => H.setCurrentPosition c none) G).vertices = G.vertices ∧
      (∀ c, (cont.foldl (fun H c => H.setCurrentPosition c none) G).current_position c =
        if c ∈ cont then none else G.current_position c) := by
  induction cont with
  | nil => intro G; exact ⟨rfl, fun c => by simp⟩
  | cons a l ih =>
    intro G
    simp only [List.foldl_cons]
    obtain ⟨h1, h2⟩ := ih (G.setCurrentPosition a none)
    refine ⟨by rw [h1]; rfl, ?_⟩
    intro c
    rw [h2]
    unfold setCurrentPosition
    simp only
    by_cases hca : c = a
    · simp [hca]
    · by_cases hc : c ∈ l
      · simp [hc]
      · simp [hca, hc]

end mutable_graph


namespace mutable_graph

theorem renumber_surj (N v u : Nat) (hu : u < N - 1) :
    ∃ x, x < N ∧ x ≠ v ∧ (if x = N - 1 then v else x) = u := by
  by_cases huv : u = v
  · refine ⟨N - 1, by omega, by omega, ?_⟩
    rw [if_pos rfl, huv]
  · refine ⟨u, by omega, huv, ?_⟩
    rw [if_neg (by omega)]

theorem renumber_inj (N v x y : Nat) (hxv : x ≠ v) (hyv : y ≠ v)
    (h : (if x = N - 1 then v else x) = (if y = N - 1 then v else y)) : x = y := by
  by_cases h1 : x = N - 1
  · by_cases h2 : y = N - 1
    · omega
    · rw [if_pos h1, if_neg h2] at h
      exact absurd h.symm hyv
  · by_cases h2 : y = N - 1
    · rw [if_neg h1, if_pos h2] at h
      exact absurd h hxv
    · rw [if_neg h1, if_neg h2] at h
      exact h

theorem renumber_lt (N v x : Nat) (hx : x < N) (hv : v < N) (hxv : x ≠ v) :
    (if x = N - 1 then v else x) < N - 1 := by
  split <;> omega

theorem wt_symm_of_simple (H : mutable_graph) (hs : local_search.Simple H) (x y : Nat) :
    wtOf (H.edgesOf x) y = wtOf (H.edgesOf y) x := by
  by_cases h1 : wtOf (H.edgesOf x) y = 0
  · by_cases h2 : wtOf (H.edgesOf y) x = 0
    · rw [h1, h2]
    · have hm := mem_of_wtOf _ (hs.2.1 y) x h2
      have hr := hs.2.2 y _ hm
      exact wtOf_of_mem _ (hs.2.1 x) _ hr
  · have hm := mem_of_wtOf _ (hs.2.1 x) y h1
    have hr := hs.2.2 x _ hm
    exact (wtOf_of_mem _ (hs.2.1 y) _ hr).symm

theorem wt_self_of_simple (H : mutable_graph) (hs : local_search.Simple H) (x : Nat) :
    wtOf (H.edgesOf x) x = 0 :=
  wtOf_eq_zero _ _ (fun e he => (hs.1 x e he).2)

theorem simple_of_wt (K : mutable_graph)
    (ht : ∀ u ed, ed ∈ K.edgesOf u → ed.target < K.n)
    (hnp : NoParallel K) (hpos : Positive K)
    (hsym : ∀ x y, x < K.n → y < K.n → wtOf (K.edgesOf x) y = wtOf (K.edgesOf y) x)
    (hloop : ∀ x, x < K.n → wtOf (K.edgesOf x) x = 0) : local_search.Simple K := by
  have hu : ∀ u ed, ed ∈ K.edgesOf u → u < K.n := by
    intro u ed hed
    by_contra hc
    rw [local_search.edgesOf_oob K u (by omega)] at hed
    simp at hed
  refine ⟨?_, hnp, ?_⟩
  · intro u ed hed
    refine ⟨ht u ed hed, ?_⟩
    intro hc
    have h1 := wtOf_ge _ _ hed
    rw [hc, hloop u (hu u ed hed)] at h1
    have := hpos u ed hed
    omega
  · intro u ed hed
    have h1 := wtOf_of_mem _ (hnp u) _ hed
    rw [hsym u ed.target (hu u ed hed) (ht u ed hed)] at h1
    have h2 := mem_of_wtOf _ (hnp ed.target) u (by rw [h1]; have := hpos u ed hed; omega)
    rw [h1] at h2
    exact h2

theorem cleared_spec (H : mutable_graph) (n : Nat) (hn : n < H.n) (cont : List Nat) :
    (cont.foldl (fun K c => K.setCurrentPosition c none) (H.setContainedVertices n [])).n = H.n ∧
    (∀ u, (cont.foldl (fun K c => K.setCurrentPosition c none)
      (H.setContainedVertices n [])).edgesOf u = H.edgesOf u) ∧
    (∀ x, (cont.foldl (fun K c => K.setCurrentPosition c none)
      (H.setContainedVertices n [])).containedVertices x =
        if x = n then [] else H.containedVertices x) ∧
    (∀ c, (cont.foldl (fun K c => K.setCurrentPosition c none)
      (H.setContainedVertices n [])).current_position c =
        if c ∈ cont then none else H.current_position c) := by
  obtain ⟨a1, a2, a3, a4⟩ := heavy_edges.setContainedVertices_spec H n [] hn
  obtain ⟨b1, b2⟩ := clearPositions_spec cont (H.setContainedVertices n [])
  refine ⟨?_, ?_, ?_, ?_⟩
  · unfold mutable_graph.n at a1 ⊢
    rw [b1, a1]
  · intro u
    rw [← a4]
    unfold edgesOf
    rw [b1]
  · intro x
    rw [← a3]
    unfold containedVertices
    rw [b1]
  · intro c
    rw [b2, a2]

end mutable_graph

namespace heavy_edges
open mutable_graph

theorem cycleStep_run (mincut : Nat) (H : mutable_graph) (L : List ((Nat × Nat) × List Nat))
    (n : Nat) (hn : n < H.n) (hs : local_search.Simple H) :
    cycleStep mincut (H, L) n = some (H, L) ∨
    ∃ e0 e1, H.edgesOf n = [e0, e1] ∧ e0.weight = mincut / 2 ∧ e1.weight = mincut / 2 ∧
      e0.weight + e1.weight = mincut ∧
      H.isEmpty e0.target = false ∧ H.isEmpty e1.target = false ∧
      cycleStep mincut (H, L) n = some
        (((H.containedVertices n).foldl (fun K c => K.setCurrentPosition c none)
            (H.setContainedVertices n [])).mergeInto e0.target n,
          L ++ [(((H.containedVertices e0.target).headD 0,
            (H.containedVertices e1.target).headD 0), H.containedVertices n)]) := by
  by_cases c1 : H.get_first_invalid_edge n = 2 ∧ H.getWeightedNodeDegree n = mincut
  · obtain ⟨hdeg, hw⟩ := c1
    have hdeg2 := hdeg
    unfold get_first_invalid_edge at hdeg2
    obtain ⟨e0, e1, hE⟩ := List.length_eq_two.mp hdeg2
    have h0 : H.getEdge n 0 = some e0 := by unfold getEdge; rw [hE]; rfl
    have h1 : H.getEdge n 1 = some e1 := by unfold getEdge; rw [hE]; rfl
    have hsum : e0.weight + e1.weight = mincut := by
      rw [← hw]
      unfold getWeightedNodeDegree
      rw [hE]
      simp
    by_cases c2 : (H.isEmpty e0.target || H.isEmpty e1.target) = true
    · left
      unfold cycleStep
      simp only
      rw [if_pos ⟨hdeg, hw⟩, h0, h1]
      simp only
      rw [if_pos c2]
    · by_cases c3 : e0.weight ≠ mincut / 2 ∨ e1.weight ≠ mincut / 2
      · left
        unfold cycleStep
        simp only
        rw [if_pos ⟨hdeg, hw⟩, h0, h1]
        simp only
        rw [if_neg c2, if_pos c3]
      · right
        push_neg at c3
        have c2a : H.isEmpty e0.target = false ∧ H.isEmpty e1.target = false := by
          simpa using c2
        refine ⟨e0, e1, hE, c3.1, c3.2, hsum, c2a.1, c2a.2, ?_⟩
        obtain ⟨g1, g2, g3, g4⟩ := cleared_spec H n hn (H.containedVertices n)
        have hmem0 : e0 ∈ H.edgesOf n := by rw [hE]; simp
        have hrev := hs.2.2 n e0 hmem0
        obtain ⟨hi, hii⟩ := findIdx_target (H.edgesOf e0.target) n e0.weight hrev
          (hs.2.1 e0.target)
        have hne : n ≠ e0.target := fun h => (hs.1 n e0 hmem0).2 h.symm
        have hr : ((H.containedVertices n).foldl (fun K c => K.setCurrentPosition c none)
            (H.setContainedVertices n [])).getReverseEdge n 0 =
            some ((H.edgesOf e0.target).findIdx (fun x => x.target == n)) := by
          unfold getReverseEdge getEdge
          rw [g2, hE]
          simp only [List.getElem?_cons_zero]
          rw [g2, if_pos hi]
        have hc : ((H.containedVertices n).foldl (fun K c => K.setCurrentPosition c none)
            (H.setContainedVertices n [])).contractEdge e0.target
              ((H.edgesOf e0.target).findIdx (fun x => x.target == n)) =
            some (((H.containedVertices n).foldl (fun K c => K.setCurrentPosition c none)
              (H.setContainedVertices n [])).mergeInto e0.target n) := by
          unfold contractEdge getEdgeTarget getEdge
          rw [g2, hii]
          simp only [Option.map_some']
          rw [if_neg hne]
        unfold cycleStep
        simp only
        rw [if_pos ⟨hdeg, hw⟩, h0, h1]
        simp only
        rw [if_neg c2, if_neg (by push_neg; exact c3), hr]
        simp only
        rw [hc]
  · left
    unfold cycleStep
    simp only
    rw [if_neg c1]

theorem cycleStep_forward (mincut : Nat) (H : mutable_graph) (n : Nat) (e0 e1 : Edge)
    (hwf : CycleWF H) (hn : n < H.n) (hE : H.edgesOf n = [e0, e1])
    (hw0 : e0.weight = mincut / 2) (hw1 : e1.weight = mincut / 2) :
    e0.target < H.n ∧ e1.target < H.n ∧ e0.target ≠ n ∧ e1.target ≠ n ∧
    e0.target ≠ e1.target ∧
    (((H.containedVertices n).foldl (fun K c => K.setCurrentPosition c none)
      (H.setContainedVertices n [])).mergeInto e0.target n).n = H.n - 1 ∧
    (∀ x, x < H.n → x ≠ n →
      (((H.containedVertices n).foldl (fun K c => K.setCurrentPosition c none)
        (H.setContainedVertices n [])).mergeInto e0.target n).containedVertices
          (if x = H.n - 1 then n else x) = H.containedVertices x) ∧
    (∀ x y, x < H.n → x ≠ n → y ≠ n →
      wtOf ((((H.containedVertices n).foldl (fun K c => K.setCurrentPosition c none)
        (H.setContainedVertices n [])).mergeInto e0.target n).edgesOf
          (if x = H.n - 1 then n else x)) (if y = H.n - 1 then n else y) =
        wtOf (H.edgesOf x) y +
          (if (x = e0.target ∧ y = e1.target) ∨ (x = e1.target ∧ y = e0.target)
            then mincut / 2 else 0)) ∧
    (∀ c ∈ H.containedVertices n,
      (((H.containedVertices n).foldl (fun K c => K.setCurrentPosition c none)
        (H.setContainedVertices n [])).mergeInto e0.target n).current_position c = none) ∧
    (∀ c, H.current_position c = none →
      (((H.containedVertices n).foldl (fun K c => K.setCurrentPosition c none)
        (H.setContainedVertices n [])).mergeInto e0.target n).current_position c = none) ∧
    CycleWF (((H.containedVertices n).foldl (fun K c => K.setCurrentPosition c none)
      (H.setContainedVertices n [])).mergeInto e0.target n) := by
  obtain ⟨hs, hpos, hp, hb⟩ := hwf
  obtain ⟨g1, g2, g3, g4⟩ := cleared_spec H n hn (H.containedVertices n)
  generalize hG2 : ((H.containedVertices n).foldl (fun K c => K.setCurrentPosition c none)
      (H.setContainedVertices n [])) = G2 at g1 g2 g3 g4 ⊢
  have hmem0 : e0 ∈ H.edgesOf n := by rw [hE]; simp
  have hmem1 : e1 ∈ H.edgesOf n := by rw [hE]; simp
  have hn0 : e0.target < H.n := (hs.1 n e0 hmem0).1
  have hn1 : e1.target < H.n := (hs.1 n e1 hmem1).1
  have hn0n : e0.target ≠ n := (hs.1 n e0 hmem0).2
  have hn1n : e1.target ≠ n := (hs.1 n e1 hmem1).2
  have h01 : e0.target ≠ e1.target := by
    have := hs.2.1 n
    rw [hE] at this
    simpa using this
  have hm : e0.target < G2.n ∧ n < G2.n ∧ e0.target ≠ n := ⟨by rw [g1]; exact hn0,
    by rw [g1]; exact hn, hn0n⟩
  -- the weights at the contracted node
  have hwn : ∀ y, wtOf (H.edgesOf n) y =
      if y = e0.target ∨ y = e1.target then mincut / 2 else 0 := by
    intro y
    rw [hE, wtOf_cons, wtOf_cons, wtOf_nil, hw0, hw1]
    by_cases h0 : e0.target = y
    · have h1 : ¬ e1.target = y := by rw [← h0]; exact Ne.symm h01
      rw [if_pos h0, if_neg h1, if_pos (Or.inl h0.symm)]
      omega
    · by_cases h1 : e1.target = y
      · rw [if_neg h0, if_pos h1, if_pos (Or.inr h1.symm)]
        omega
      · rw [if_neg h0, if_neg h1, if_neg]
        rintro (h | h)
        · exact h0 h.symm
        · exact h1 h.symm
  have hwt : ∀ x y, x < H.n → x ≠ n → y ≠ n →
      wtOf ((G2.mergeInto e0.target n).edgesOf (if x = H.n - 1 then n else x))
        (if y = H.n - 1 then n else y) =
      wtOf (H.edgesOf x) y +
        (if (x = e0.target ∧ y = e1.target) ∨ (x = e1.target ∧ y = e0.target)
          then mincut / 2 else 0) := by
    intro x y hx hxn hyn
    have := mergeInto_wt G2 e0.target n x y hm (by rw [g1]; exact hx) hxn hyn
    rw [g1] at this
    rw [this, g2, g2, g2]
    by_cases hx0 : x = e0.target
    · rw [if_pos hx0]
      by_cases hy0 : y = e0.target
      · rw [if_pos hy0, hx0, hy0, wt_self_of_simple H hs, if_neg]
        rintro (⟨-, h⟩ | ⟨h, -⟩)
        · exact h01 h
        · exact h01 h
      · rw [if_neg hy0, hwn y, hx0]
        by_cases hy1 : y = e1.target
        · rw [if_pos (Or.inr hy1), if_pos (Or.inl ⟨rfl, hy1⟩)]
        · rw [if_neg, if_neg]
          · rintro (⟨-, h⟩ | ⟨-, h⟩)
            · exact hy1 h
            · exact hy0 h
          · rintro (h | h)
            · exact hy0 h
            · exact hy1 h
    · rw [if_neg hx0]
      by_cases hy0 : y = e0.target
      · rw [if_pos hy0, wt_symm_of_simple H hs x n, hwn x, hy0]
        by_cases hx1 : x = e1.target
        · rw [if_pos (Or.inr hx1), if_pos (Or.inr ⟨hx1, rfl⟩)]
          omega
        · rw [if_neg, if_neg]
          · omega
          · rintro (⟨h, -⟩ | ⟨h, -⟩)
            · exact hx0 h
            · exact hx1 h
          · rintro (h | h)
            · exact hx0 h
            · exact hx1 h
      · rw [if_neg hy0, if_neg]
        · rfl
        · rintro (⟨h, -⟩ | ⟨-, h⟩)
          · exact hx0 h
          · exact hy0 h
  have hnG2 : NoParallel G2 := by
    intro u
    rw [g2]
    exact hs.2.1 u
  have hposG2 : Positive G2 := by
    intro u ed hed
    rw [g2] at hed
    exact hp u ed hed
  have htG2 : ∀ u ed, ed ∈ G2.edgesOf u → ed.target < G2.n := by
    intro u ed hed
    rw [g2] at hed
    rw [g1]
    exact (hs.1 u ed hed).1
  have hmem := mergeInto_edge_mem G2 e0.target n hm hposG2 htG2
  have hnn : (G2.mergeInto e0.target n).n = H.n - 1 := by
    rw [mergeInto_n G2 _ _ hm, g1]
  have hcontained : ∀ x, x < H.n → x ≠ n →
      (G2.mergeInto e0.target n).containedVertices (if x = H.n - 1 then n else x) =
        H.containedVertices x := by
    intro x hx hxn
    by_cases hx0 : x = e0.target
    · have := mergeInto_contained_root G2 e0.target n hm
      rw [g1] at this
      rw [hx0, this, g3, g3, if_neg hn0n, if_pos rfl, List.append_nil]
    · have := mergeInto_contained G2 e0.target n x hm (by rw [g1]; exact hx) hxn hx0
      rw [mergeMap_ne _ _ _ _ hm hxn, g1] at this
      rw [this, g3, if_neg hxn]
  have hpG2 : Positioned G2 := by
    intro x c hc
    rw [g3] at hc
    by_cases hxn : x = n
    · rw [if_pos hxn] at hc
      simp at hc
    · rw [if_neg hxn] at hc
      rw [g4, if_neg]
      · exact hpos x c hc
      · intro hcn
        have h1 := hpos x c hc
        have h2 := hpos n c hcn
        rw [h1] at h2
        exact hxn (Option.some.inj h2)
  refine ⟨hn0, hn1, hn0n, hn1n, h01, hnn, hcontained, hwt, ?_, ?_, ?_⟩
  · intro c hc
    rw [mergeInto_pos, g4, if_pos hc]
    rfl
  · intro c hc
    rw [mergeInto_pos, g4, hc]
    split <;> rfl
  · have hsurj : ∀ u, u < (G2.mergeInto e0.target n).n →
        ∃ x, x < H.n ∧ x ≠ n ∧ (if x = H.n - 1 then n else x) = u := by
      intro u hu
      rw [hnn] at hu
      exact renumber_surj H.n n u hu
    have hsimple : local_search.Simple (G2.mergeInto e0.target n) := by
      apply simple_of_wt
      · intro u ed hed
        rw [hnn, ← g1]
        exact (hmem u ed hed).1
      · exact mergeInto_noParallel G2 _ _ hnG2
      · intro u ed hed
        exact (hmem u ed hed).2
      · intro u t hu ht
        obtain ⟨x, hx, hxn, rfl⟩ := hsurj u hu
        obtain ⟨y, hy, hyn, rfl⟩ := hsurj t ht
        rw [hwt x y hx hxn hyn, hwt y x hy hyn hxn, wt_symm_of_simple H hs x y]
        congr 1
        by_cases hc : (x = e0.target ∧ y = e1.target) ∨ (x = e1.target ∧ y = e0.target)
        · rw [if_pos hc, if_pos]
          rcases hc with ⟨h1, h2⟩ | ⟨h1, h2⟩
          · exact Or.inr ⟨h2, h1⟩
          · exact Or.inl ⟨h2, h1⟩
        · rw [if_neg hc, if_neg]
          rintro (⟨h1, h2⟩ | ⟨h1, h2⟩)
          · exact hc (Or.inr ⟨h2, h1⟩)
          · exact hc (Or.inl ⟨h2, h1⟩)
      · intro u hu
        obtain ⟨x, hx, hxn, rfl⟩ := hsurj u hu
        rw [hwt x x hx hxn hxn, wt_self_of_simple H hs x, if_neg]
        rintro (⟨h1, h2⟩ | ⟨h1, h2⟩)
        · exact h01 (h1.symm.trans h2)
        · exact h01 (h2.symm.trans h1)
    refine ⟨hsimple, mergeInto_positioned G2 _ _ hpG2, ?_, ?_⟩
    · intro u ed hed
      exact (hmem u ed hed).2
    · intro u
      by_cases hu : u < (G2.mergeInto e0.target n).n
      · obtain ⟨x, hx, hxn, rfl⟩ := hsurj u hu
        by_cases hx0 : x = e0.target
        · have h1 := mergeInto_degree_root G2 e0.target n hm
          rw [g1, g2, g2] at h1
          have h2 : wtOf (H.edgesOf n) e0.target = mincut / 2 := by
            rw [hwn, if_pos (Or.inl rfl)]
          have h3 : wtOf (H.edgesOf e0.target) n = mincut / 2 := by
            rw [wt_symm_of_simple H hs, h2]
          have h4 : G2.getWeightedNodeDegree n = mincut / 2 + mincut / 2 := by
            unfold getWeightedNodeDegree
            rw [g2, hE]
            simp [hw0, hw1]
          have h5 : G2.getWeightedNodeDegree e0.target = H.getWeightedNodeDegree e0.target := by
            unfold getWeightedNodeDegree
            rw [g2]
          have h6 := hb e0.target
          rw [hx0]
          omega
        · have h1 := mergeInto_degree_le G2 e0.target n x hm (by rw [g1]; exact hx) hxn hx0
          rw [g1] at h1
          have h5 : G2.getWeightedNodeDegree x = H.getWeightedNodeDegree x := by
            unfold getWeightedNodeDegree
            rw [g2]
          have h6 := hb x
          omega
      · unfold getWeightedNodeDegree
        rw [local_search.edgesOf_oob _ u (by omega)]
        simp [edgeWeightBits]

end heavy_edges


namespace mutable_graph

theorem sum_map_eraseIdx (f : Edge → Nat) (l : List Edge) :
    ∀ (k : Nat) (a : Edge), l[k]? = some a →
      ((l.eraseIdx k).map f).sum + f a = (l.map f).sum := by
  induction l with
  | nil => intro k a h; simp at h
  | cons b l ih =>
    intro k a h
    cases k with
    | zero =>
      simp only [List.getElem?_cons_zero, Option.some.injEq] at h
      subst h
      simp only [List.eraseIdx_cons_zero, List.map_cons, List.sum_cons]
      omega
    | succ k =>
      simp only [List.getElem?_cons_succ] at h
      simp only [List.eraseIdx_cons_succ, List.map_cons, List.sum_cons]
      have := ih k a h
      omega

theorem sum_map_set (f : Edge → Nat) (l : List Edge) :
    ∀ (k : Nat) (a b : Edge), l[k]? = some a →
      ((l.set k b).map f).sum + f a = (l.map f).sum + f b := by
  induction l with
  | nil => intro k a b h; simp at h
  | cons c l ih =>
    intro k a b h
    cases k with
    | zero =>
      simp only [List.getElem?_cons_zero, Option.some.injEq] at h
      subst h
      simp only [List.set_cons_zero, List.map_cons, List.sum_cons]
      omega
    | succ k =>
      simp only [List.getElem?_cons_succ] at h
      simp only [List.set_cons_succ, List.map_cons, List.sum_cons]
      have := ih k a b h
      omega

theorem set_targets (l : List Edge) :
    ∀ (k : Nat) (a b : Edge), l[k]? = some a → a.target = b.target →
      (l.set k b).map Edge.target = l.map Edge.target := by
  induction l with
  | nil => intro k a b h; simp at h
  | cons c l ih =>
    intro k a b h hab
    cases k with
    | zero =>
      simp only [List.getElem?_cons_zero, Option.some.injEq] at h
      subst h
      simp only [List.set_cons_zero, List.map_cons, hab]
    | succ k =>
      simp only [List.getElem?_cons_succ] at h
      simp only [List.set_cons_succ, List.map_cons]
      rw [ih k a b h hab]

theorem lowerEdge_wt (l : List Edge) (t w h : Nat) (hnd : (l.map Edge.target).Nodup)
    (hmem : ({ target := t, weight := w } : Edge) ∈ l) (s : Nat) :
    wtOf (lowerEdge l t w h) s = if s = t then w - h else wtOf l s := by
  obtain ⟨-, hii⟩ := heavy_edges.findIdx_target l t w hmem hnd
  have hwt : wtOf l t = w := wtOf_of_mem l hnd _ hmem
  unfold lowerEdge
  by_cases hwh : w = h
  · rw [if_pos hwh]
    have h1 := sum_map_eraseIdx (fun e => if e.target = s then e.weight else 0) l _ _ hii
    simp only at h1
    by_cases hst : s = t
    · rw [if_pos hst]
      subst hst
      simp only [if_true] at h1
      unfold wtOf at hwt ⊢
      omega
    · rw [if_neg hst]
      have hts : ¬ t = s := fun hh => hst hh.symm
      simp only [if_neg hts] at h1
      unfold wtOf
      omega
  · rw [if_neg hwh]
    have h1 := sum_map_set (fun e => if e.target = s then e.weight else 0) l _ _
      { target := t, weight := w - h } hii
    simp only at h1
    by_cases hst : s = t
    · rw [if_pos hst]
      subst hst
      simp only [if_true] at h1
      unfold wtOf at hwt ⊢
      omega
    · rw [if_neg hst]
      have hts : ¬ t = s := fun hh => hst hh.symm
      simp only [if_neg hts] at h1
      unfold wtOf
      omega

theorem lowerEdge_nodup (l : List Edge) (t w h : Nat) (hnd : (l.map Edge.target).Nodup)
    (hmem : ({ target := t, weight := w } : Edge) ∈ l) :
    ((lowerEdge l t w h).map Edge.target).Nodup := by
  obtain ⟨-, hii⟩ := heavy_edges.findIdx_target l t w hmem hnd
  unfold lowerEdge
  split
  · exact (List.Sublist.map _ (List.eraseIdx_sublist _ _)).nodup hnd
  · rw [set_targets l _ { target := t, weight := w } { target := t, weight := w - h } hii rfl]
    exact hnd

theorem lowerEdge_mem (l : List Edge) (t w h : Nat) (e : Edge)
    (he : e ∈ lowerEdge l t w h) :
    e ∈ l ∨ (e = { target := t, weight := w - h } ∧ w ≠ h) := by
  unfold lowerEdge at he
  split at he
  · exact Or.inl ((List.eraseIdx_sublist _ _).subset he)
  · rename_i hwh
    rcases List.mem_or_eq_of_mem_set he with h1 | h1
    · exact Or.inl h1
    · exact Or.inr ⟨h1, hwh⟩

theorem lowerEdge_two (a b : Edge) (t w h : Nat) (ha : a.weight = h) (hb : b.weight = h)
    (hmem : ({ target := t, weight := w } : Edge) ∈ [a, b]) :
    ∃ c, lowerEdge [a, b] t w h = [c] ∧ c.weight = h := by
  have hw : w = h := by
    simp only [List.mem_cons, List.mem_singleton, List.not_mem_nil, or_false] at hmem
    rcases hmem with h1 | h1
    · rw [← h1] at ha
      exact ha
    · rw [← h1] at hb
      exact hb
  unfold lowerEdge
  rw [if_pos hw]
  by_cases hat : a.target = t
  · refine ⟨b, ?_, hb⟩
    simp [List.findIdx_cons, hat]
  · have hbt : b.target = t := by
      simp only [List.mem_cons, List.mem_singleton, List.not_mem_nil, or_false] at hmem
      rcases hmem with h1 | h1
      · rw [← h1] at hat
        exact absurd rfl hat
      · rw [← h1]
    refine ⟨a, ?_, ha⟩
    have hf : (a.target == t) = false := by simp [hat]
    simp [List.findIdx_cons, hf, hbt]

theorem lowered_ok (l : List Edge) (t w h N : Nat) (hnd : (l.map Edge.target).Nodup)
    (hmem : ({ target := t, weight := w } : Edge) ∈ l)
    (hlt : ∀ e ∈ l, e.target < N ∧ 0 < e.weight) (hh : 0 < h) (hwh : h ≤ w) :
    (((lowerEdge l t w h) ++ [({ target := N, weight := h } : Edge)]).map Edge.target).Nodup ∧
    ∀ e ∈ (lowerEdge l t w h) ++ [({ target := N, weight := h } : Edge)],
      e.target < N + 1 ∧ 0 < e.weight := by
  have hm : ∀ e ∈ lowerEdge l t w h, e.target < N ∧ 0 < e.weight := by
    intro e he
    rcases lowerEdge_mem l t w h e he with h1 | ⟨h1, h2⟩
    · exact hlt e h1
    · rw [h1]
      simp only
      refine ⟨(hlt _ hmem).1, ?_⟩
      omega
  constructor
  · rw [List.map_append, List.nodup_append]
    refine ⟨lowerEdge_nodup l t w h hnd hmem, by simp, ?_⟩
    intro x hx1 hx2
    simp only [List.map_cons, List.map_nil, List.mem_singleton] at hx2
    obtain ⟨e, he, rfl⟩ := List.mem_map.mp hx1
    have := (hm e he).1
    omega
  · intro e he
    rcases List.mem_append.mp he with h1 | h1
    · have := hm e h1
      exact ⟨by omega, this.2⟩
    · simp only [List.mem_singleton] at h1
      rw [h1]
      exact ⟨by simp, hh⟩

end mutable_graph

namespace heavy_edges
open mutable_graph

theorem replay_step_spec (mincut : Nat) (K : mutable_graph)
    (entry : (Nat × Nat) × List Nat) (n0 n1 w : Nat)
    (hs : local_search.Simple K) (hpos : Positive K) (hh : 0 < mincut / 2)
    (hp0 : K.getCurrentPosition entry.1.1 = some n0)
    (hp1 : K.getCurrentPosition entry.1.2 = some n1)
    (hne : n0 ≠ n1)
    (hw : ({ target := n1, weight := w } : Edge) ∈ K.edgesOf n0)
    (hwh : mincut / 2 ≤ w) (hw64 : w < 2 ^ edgeWeightBits)
    (hcont : ∀ c ∈ entry.2, K.getCurrentPosition c = none) :
    ∃ K1, reInsertCycle mincut K entry = some K1 ∧ K1.n = K.n + 1 ∧
      (∀ c ∈ entry.2, K1.getCurrentPosition c = some K.n) ∧
      (∀ c, c ∉ entry.2 → K1.getCurrentPosition c = K.getCurrentPosition c) ∧
      K1.containedVertices K.n = entry.2 ∧
      (∀ x, x ≠ K.n → K1.containedVertices x = K.containedVertices x) ∧
      K1.edgesOf K.n = [{ target := n0, weight := mincut / 2 },
        { target := n1, weight := mincut / 2 }] ∧
      (∀ x, x ≠ K.n → K1.edgesOf x =
        if x = n0 then lowerEdge (K.edgesOf n0) n1 w (mincut / 2)
          ++ [{ target := K.n, weight := mincut / 2 }]
        else if x = n1 then lowerEdge (K.edgesOf n1) n0 w (mincut / 2)
          ++ [{ target := K.n, weight := mincut / 2 }]
        else K.edgesOf x) ∧
      (∀ u ed, ed ∈ K1.edgesOf u → ed.target < K1.n) ∧ NoParallel K1 ∧ Positive K1 := by
  obtain ⟨K1, r1, r2, r3, r4, r5, r6, r7, r8, r9, r10, r11, r12, r13⟩ :=
    reInsertCycle_step mincut K entry n0 n1 w hs hp0 hp1 hne hw hwh hw64 hcont
  have hn0 : n0 < K.n := by
    by_contra hc
    rw [local_search.edgesOf_oob K n0 (by omega)] at hw
    simp at hw
  have hn1 : n1 < K.n := (hs.1 n0 _ hw).1
  have hrev : ({ target := n0, weight := w } : Edge) ∈ K.edgesOf n1 := hs.2.2 n0 _ hw
  have hE : ∀ x, x ≠ K.n → K1.edgesOf x =
      if x = n0 then lowerEdge (K.edgesOf n0) n1 w (mincut / 2)
        ++ [{ target := K.n, weight := mincut / 2 }]
      else if x = n1 then lowerEdge (K.edgesOf n1) n0 w (mincut / 2)
        ++ [{ target := K.n, weight := mincut / 2 }]
      else K.edgesOf x := by
    intro x hx
    by_cases hx0 : x = n0
    · rw [if_pos hx0, hx0, r9]
      rfl
    · rw [if_neg hx0]
      by_cases hx1 : x = n1
      · rw [if_pos hx1, hx1, r10]
        rfl
      · rw [if_neg hx1]
        exact (r11 x hx0 hx1 hx).1
  have hK : ∀ z, ∀ e ∈ K.edgesOf z, e.target < K.n ∧ 0 < e.weight :=
    fun z e he => ⟨(hs.1 z e he).1, hpos z e he⟩
  have ok0 := lowered_ok (K.edgesOf n0) n1 w (mincut / 2) K.n (hs.2.1 n0) hw (hK n0) hh hwh
  have ok1 := lowered_ok (K.edgesOf n1) n0 w (mincut / 2) K.n (hs.2.1 n1) hrev (hK n1) hh hwh
  have hall : ∀ u, ((K1.edgesOf u).map Edge.target).Nodup ∧
      ∀ ed ∈ K1.edgesOf u, ed.target < K.n + 1 ∧ 0 < ed.weight := by
    intro u
    by_cases hu : u = K.n
    · rw [hu, r6]
      constructor
      · simp [hne]
      · intro ed hed
        simp only [List.mem_cons, List.mem_singleton, List.not_mem_nil, or_false] at hed
        rcases hed with h1 | h1
        · rw [h1]
          exact ⟨by simp only; omega, hh⟩
        · rw [h1]
          exact ⟨by simp only; omega, hh⟩
    · rw [hE u hu]
      by_cases hu0 : u = n0
      · rw [if_pos hu0]
        exact ok0
      · rw [if_neg hu0]
        by_cases hu1 : u = n1
        · rw [if_pos hu1]
          exact ok1
        · rw [if_neg hu1]
          refine ⟨hs.2.1 u, ?_⟩
          intro ed hed
          have := hK u ed hed
          exact ⟨by omega, this.2⟩
  refine ⟨K1, r1, r2, r3, r4, r5, r13, r6, hE, ?_, ?_, ?_⟩
  · intro u ed hed
    rw [r2]
    exact ((hall u).2 ed hed).1
  · intro u
    exact (hall u).1
  · intro u ed hed
    exact ((hall u).2 ed hed).2

end heavy_edges


namespace heavy_edges
open mutable_graph

theorem replay_step_wt (mincut : Nat) (K K1 : mutable_graph)
    (entry : (Nat × Nat) × List Nat) (n0 n1 w : Nat)
    (hs : local_search.Simple K) (hpos : Positive K) (hh : 0 < mincut / 2)
    (hp0 : K.getCurrentPosition entry.1.1 = some n0)
    (hp1 : K.getCurrentPosition entry.1.2 = some n1)
    (hne : n0 ≠ n1)
    (hw : ({ target := n1, weight := w } : Edge) ∈ K.edgesOf n0)
    (hwh : mincut / 2 ≤ w) (hw64 : w < 2 ^ edgeWeightBits)
    (hcont : ∀ c ∈ entry.2, K.getCurrentPosition c = none)
    (hK1 : reInsertCycle mincut K entry = some K1) :
    ∀ a b, wtOf (K1.edgesOf a) b =
      if a = K.n then (if b = n0 ∨ b = n1 then mincut / 2 else 0)
      else if b = K.n then (if a = n0 ∨ a = n1 then mincut / 2 else 0)
      else if (a = n0 ∧ b = n1) ∨ (a = n1 ∧ b = n0) then w - mincut / 2
      else wtOf (K.edgesOf a) b := by
  obtain ⟨K2, s1, s2, s3, s4, s5, s6, s7, s8, s9, s10, s11⟩ :=
    replay_step_spec mincut K entry n0 n1 w hs hpos hh hp0 hp1 hne hw hwh hw64 hcont
  rw [hK1] at s1
  have hk : K1 = K2 := Option.some.inj s1
  subst hk
  have hn0 : n0 < K.n := by
    by_contra hc
    rw [local_search.edgesOf_oob K n0 (by omega)] at hw
    simp at hw
  have hn1 : n1 < K.n := (hs.1 n0 _ hw).1
  have hrev : ({ target := n0, weight := w } : Edge) ∈ K.edgesOf n1 := hs.2.2 n0 _ hw
  have hzero : ∀ a, wtOf (K.edgesOf a) K.n = 0 := by
    intro a
    apply wtOf_eq_zero
    intro e he
    have := (hs.1 a e he).1
    omega
  intro a b
  by_cases ha : a = K.n
  · subst ha
    rw [s7, wtOf_cons, wtOf_cons, wtOf_nil]
    simp only
    (try simp only [eq_self_iff_true, true_or, or_true, true_and, and_true, if_true])
    (try split_ifs) <;> omega
  · rw [if_neg ha, s8 a ha]
    by_cases hb : b = K.n
    · subst hb
      rw [if_pos rfl]
      by_cases ha0 : a = n0
      · subst ha0
        rw [if_pos rfl, wtOf_append, lowerEdge_wt _ _ _ _ (hs.2.1 a) hw, wtOf_cons, wtOf_nil]
        simp only
        have := hzero a
        (try simp only [eq_self_iff_true, true_or, or_true, true_and, and_true, if_true])
        (try split_ifs) <;> omega
      · rw [if_neg ha0]
        by_cases ha1 : a = n1
        · subst ha1
          rw [if_pos rfl, wtOf_append, lowerEdge_wt _ _ _ _ (hs.2.1 a) hrev, wtOf_cons, wtOf_nil]
          simp only
          have := hzero a
          (try simp only [eq_self_iff_true, true_or, or_true, true_and, and_true, if_true])
          (try split_ifs) <;> omega
        · rw [if_neg ha1, hzero a]
          (try split_ifs) <;> omega
    · rw [if_neg hb]
      by_cases ha0 : a = n0
      · subst ha0
        rw [if_pos rfl, wtOf_append, lowerEdge_wt _ _ _ _ (hs.2.1 a) hw, wtOf_cons, wtOf_nil]
        simp only
        (try simp only [eq_self_iff_true, true_or, or_true, true_and, and_true, if_true])
        (try split_ifs) <;> omega
      · rw [if_neg ha0]
        by_cases ha1 : a = n1
        · subst ha1
          rw [if_pos rfl, wtOf_append, lowerEdge_wt _ _ _ _ (hs.2.1 a) hrev, wtOf_cons, wtOf_nil]
          simp only
          (try simp only [eq_self_iff_true, true_or, or_true, true_and, and_true, if_true])
          (try split_ifs) <;> omega
        · rw [if_neg ha1]
          (try split_ifs) <;> omega

theorem replay_step_keeps (mincut : Nat) (K K1 : mutable_graph)
    (entry : (Nat × Nat) × List Nat) (n0 n1 w : Nat)
    (hs : local_search.Simple K) (hpos : Positive K) (hh : 0 < mincut / 2)
    (hp0 : K.getCurrentPosition entry.1.1 = some n0)
    (hp1 : K.getCurrentPosition entry.1.2 = some n1)
    (hne : n0 ≠ n1)
    (hw : ({ target := n1, weight := w } : Edge) ∈ K.edgesOf n0)
    (hwh : mincut / 2 ≤ w) (hw64 : w < 2 ^ edgeWeightBits)
    (hcont : ∀ c ∈ entry.2, K.getCurrentPosition c = none)
    (hK1 : reInsertCycle mincut K entry = some K1) :
    (∀ c y, K.getCurrentPosition c = some y → K1.getCurrentPosition c = some y) ∧
    (∀ x, x < K.n → ∀ a b, K.edgesOf x = [a, b] → a.weight = mincut / 2 →
      b.weight = mincut / 2 →
      ∃ a1 b1, K1.edgesOf x = [a1, b1] ∧ a1.weight = mincut / 2 ∧ b1.weight = mincut / 2) := by
  obtain ⟨K2, s1, s2, s3, s4, s5, s6, s7, s8, s9, s10, s11⟩ :=
    replay_step_spec mincut K entry n0 n1 w hs hpos hh hp0 hp1 hne hw hwh hw64 hcont
  rw [hK1] at s1
  have hk : K1 = K2 := Option.some.inj s1
  subst hk
  have hrev : ({ target := n0, weight := w } : Edge) ∈ K.edgesOf n1 := hs.2.2 n0 _ hw
  constructor
  · intro c y hc
    rw [s4 c, hc]
    intro hmem
    rw [hcont c hmem] at hc
    simp at hc
  · intro x hx a b hab ha hb
    rw [s8 x (by omega)]
    by_cases hx0 : x = n0
    · rw [if_pos hx0]
      rw [hx0] at hab
      rw [hab] at hw ⊢
      obtain ⟨c, hc1, hc2⟩ := lowerEdge_two a b n1 w (mincut / 2) ha hb hw
      exact ⟨c, _, by rw [hc1]; rfl, hc2, rfl⟩
    · rw [if_neg hx0]
      by_cases hx1 : x = n1
      · rw [if_pos hx1]
        rw [hx1] at hab
        rw [hab] at hrev ⊢
        obtain ⟨c, hc1, hc2⟩ := lowerEdge_two a b n0 w (mincut / 2) ha hb hrev
        exact ⟨c, _, by rw [hc1]; rfl, hc2, rfl⟩
      · rw [if_neg hx1]
        exact ⟨a, b, hab, ha, hb⟩

theorem replayRel_simple (τ : Nat → Nat) (H K : mutable_graph)
    (hs : local_search.Simple H) (hrel : ReplayRel τ H K) : local_search.Simple K := by
  obtain ⟨q1, q2, q3, q4, q5, q6, q7, q8, q9, q10⟩ := hrel
  have hsurj := surj_of_inj H.n τ q2 q3
  apply simple_of_wt K q8 q9 q10
  · intro x y hx hy
    rw [q1] at hx hy
    obtain ⟨x0, hx0, rfl⟩ := hsurj x hx
    obtain ⟨y0, hy0, rfl⟩ := hsurj y hy
    rw [q5 x0 y0 hx0 hy0, q5 y0 x0 hy0 hx0, wt_symm_of_simple H hs]
  · intro x hx
    rw [q1] at hx
    obtain ⟨x0, hx0, rfl⟩ := hsurj x hx
    rw [q5 x0 x0 hx0 hx0, wt_self_of_simple H hs]

end heavy_edges


namespace heavy_edges
open mutable_graph

theorem replay_rel_step (mincut : Nat) (H : mutable_graph) (n : Nat) (e0 e1 : Edge)
    (p0 p1 : Nat) (hwf : CycleWF H) (hn : n < H.n) (hE : H.edgesOf n = [e0, e1])
    (hw0 : e0.weight = mincut / 2) (hw1 : e1.weight = mincut / 2)
    (hp0 : p0 ∈ H.containedVertices e0.target) (hp1 : p1 ∈ H.containedVertices e1.target)
    (K : mutable_graph) (τ : Nat → Nat)
    (hrel : ReplayRel τ (((H.containedVertices n).foldl
      (fun K c => K.setCurrentPosition c none)
      (H.setContainedVertices n [])).mergeInto e0.target n) K) :
    ∃ K1 n0 n1, reInsertCycle mincut K ((p0, p1), H.containedVertices n) = some K1 ∧
      ReplayRel (fun x => if x = n then K.n else τ (if x = H.n - 1 then n else x)) H K1 ∧
      K1.n = K.n + 1 ∧
      K1.getCurrentPosition p0 = some n0 ∧ K1.getCurrentPosition p1 = some n1 ∧ n0 ≠ n1 ∧
      K1.edgesOf K.n = [{ target := n0, weight := mincut / 2 },
        { target := n1, weight := mincut / 2 }] ∧
      K1.containedVertices K.n = H.containedVertices n ∧
      (∀ c ∈ H.containedVertices n, K1.getCurrentPosition c = some K.n) ∧
      (∀ x, x ≠ K.n → K1.containedVertices x = K.containedVertices x) ∧
      (∀ c y, K.getCurrentPosition c = some y → K1.getCurrentPosition c = some y) ∧
      (∀ x, x < K.n → ∀ a b, K.edgesOf x = [a, b] → a.weight = mincut / 2 →
        b.weight = mincut / 2 →
        ∃ a1 b1, K1.edgesOf x = [a1, b1] ∧ a1.weight = mincut / 2 ∧
          b1.weight = mincut / 2) := by
  obtain ⟨hn0, hn1, hn0n, hn1n, h01, hnn, hcontained, hwt, hposCont, hposNone, hwf1⟩ :=
    cycleStep_forward mincut H n e0 e1 hwf hn hE hw0 hw1
  generalize hH1 : (((H.containedVertices n).foldl (fun K c => K.setCurrentPosition c none)
      (H.setContainedVertices n [])).mergeInto e0.target n) = H1
    at hrel hnn hcontained hwt hposCont hposNone hwf1
  obtain ⟨hs, hpos, hp, hb⟩ := hwf
  have hsK : local_search.Simple K := replayRel_simple τ H1 K hwf1.1 hrel
  obtain ⟨q1, q2, q3, q4, q5, q6, q7, q8, q9, q10⟩ := hrel
  have hmem0 : e0 ∈ H.edgesOf n := by rw [hE]; simp
  have hh : 0 < mincut / 2 := by rw [← hw0]; exact hp n e0 hmem0
  have hwn : ∀ y, wtOf (H.edgesOf n) y =
      if y = e0.target ∨ y = e1.target then mincut / 2 else 0 := by
    intro y
    rw [hE, wtOf_cons, wtOf_cons, wtOf_nil, hw0, hw1]
    split_ifs <;> omega
  have hμlt : ∀ x, x < H.n → x ≠ n → (if x = H.n - 1 then n else x) < H1.n := by
    intro x hx hxn
    rw [hnn]
    exact renumber_lt H.n n x hx hn hxn
  have hinj : ∀ x y, x < H.n → y < H.n → x ≠ n → y ≠ n →
      τ (if x = H.n - 1 then n else x) = τ (if y = H.n - 1 then n else y) → x = y := by
    intro x y hx hy hxn hyn h
    exact renumber_inj H.n n x y hxn hyn (q3 _ _ (hμlt x hx hxn) (hμlt y hy hyn) h)
  have hKn : K.n = H.n - 1 := by rw [q1, hnn]
  obtain ⟨m0, hm0⟩ : ∃ m0, m0 = τ (if e0.target = H.n - 1 then n else e0.target) := ⟨_, rfl⟩
  obtain ⟨m1, hm1⟩ : ∃ m1, m1 = τ (if e1.target = H.n - 1 then n else e1.target) := ⟨_, rfl⟩
  have hm0lt : m0 < K.n := by
    rw [hm0, q1]
    exact q2 _ (hμlt _ hn0 hn0n)
  have hm1lt : m1 < K.n := by
    rw [hm1, q1]
    exact q2 _ (hμlt _ hn1 hn1n)
  have hm01 : m0 ≠ m1 := by
    intro h
    rw [hm0, hm1] at h
    exact h01 (hinj _ _ hn0 hn1 hn0n hn1n h)
  obtain ⟨w, hwdef⟩ : ∃ w, w = wtOf (H.edgesOf e0.target) e1.target + mincut / 2 := ⟨_, rfl⟩
  have hwH1 : wtOf (H1.edgesOf (if e0.target = H.n - 1 then n else e0.target))
      (if e1.target = H.n - 1 then n else e1.target) = w := by
    rw [hwt e0.target e1.target hn0 hn0n hn1n, if_pos (Or.inl ⟨rfl, rfl⟩), hwdef]
  have hwK : wtOf (K.edgesOf m0) m1 = w := by
    rw [hm0, hm1, q5 _ _ (hμlt _ hn0 hn0n) (hμlt _ hn1 hn1n), hwH1]
  have hedge : ({ target := m1, weight := w } : Edge) ∈ K.edgesOf m0 := by
    have := mem_of_wtOf _ (q9 m0) m1 (by rw [hwK]; omega)
    rw [hwK] at this
    exact this
  have hwh : mincut / 2 ≤ w := by omega
  have hw64 : w < 2 ^ edgeWeightBits := by
    have h1 := wtOf_le_sum (H1.edgesOf (if e0.target = H.n - 1 then n else e0.target))
      (if e1.target = H.n - 1 then n else e1.target)
    have h2 := hwf1.2.2.2 (if e0.target = H.n - 1 then n else e0.target)
    unfold getWeightedNodeDegree at h2
    rw [hwH1] at h1
    omega
  have hpK0 : K.getCurrentPosition p0 = some m0 := by
    unfold getCurrentPosition
    rw [hm0]
    exact q6 _ p0 (hμlt _ hn0 hn0n) (by rw [hcontained _ hn0 hn0n]; exact hp0)
  have hpK1 : K.getCurrentPosition p1 = some m1 := by
    unfold getCurrentPosition
    rw [hm1]
    exact q6 _ p1 (hμlt _ hn1 hn1n) (by rw [hcontained _ hn1 hn1n]; exact hp1)
  have hcontK : ∀ c ∈ H.containedVertices n, K.getCurrentPosition c = none :=
    fun c hc => q7 c (hposCont c hc)
  obtain ⟨K1, s1, s2, s3, s4, s5, s6, s7, s8, s9, s10, s11⟩ :=
    replay_step_spec mincut K ((p0, p1), H.containedVertices n) m0 m1 w hsK q10 hh hpK0 hpK1
      hm01 hedge hwh hw64 hcontK
  have hwtK1 := replay_step_wt mincut K K1 ((p0, p1), H.containedVertices n) m0 m1 w hsK q10 hh
    hpK0 hpK1 hm01 hedge hwh hw64 hcontK s1
  have hkeep := replay_step_keeps mincut K K1 ((p0, p1), H.containedVertices n) m0 m1 w hsK q10
    hh hpK0 hpK1 hm01 hedge hwh hw64 hcontK s1
  refine ⟨K1, m0, m1, s1, ?_, s2, hkeep.1 p0 m0 hpK0, hkeep.1 p1 m1 hpK1, hm01, s7, s5, s3, s6,
    hkeep.1, hkeep.2⟩
  obtain ⟨T, hT⟩ : ∃ T : Nat → Nat,
    T = fun x => if x = n then K.n else τ (if x = H.n - 1 then n else x) := ⟨_, rfl⟩
  rw [← hT]
  have hTn : T n = K.n := by rw [hT]; simp
  have hTx : ∀ x, x ≠ n → T x = τ (if x = H.n - 1 then n else x) := by
    intro x hx
    rw [hT]
    simp only
    rw [if_neg hx]
  have hTlt : ∀ x, x < H.n → x ≠ n → T x < K.n := by
    intro x hx hxn
    rw [hTx x hxn, q1]
    exact q2 _ (hμlt x hx hxn)
  have hiff : ∀ x, x < H.n →
      (T x = K.n ↔ x = n) ∧ (T x = m0 ↔ x = e0.target) ∧ (T x = m1 ↔ x = e1.target) := by
    intro x hx
    by_cases hxn : x = n
    · rw [hxn, hTn]
      refine ⟨⟨fun _ => rfl, fun _ => rfl⟩, ⟨fun h => ?_, fun h => ?_⟩, ⟨fun h => ?_, fun h => ?_⟩⟩
      · omega
      · exact absurd h.symm hn0n
      · omega
      · exact absurd h.symm hn1n
    · have := hTlt x hx hxn
      refine ⟨⟨fun h => ?_, fun h => absurd h hxn⟩, ⟨fun h => ?_, fun h => ?_⟩,
        ⟨fun h => ?_, fun h => ?_⟩⟩
      · omega
      · rw [hTx x hxn, hm0] at h
        exact hinj _ _ hx hn0 hxn hn0n h
      · rw [hTx x hxn, hm0, h]
      · rw [hTx x hxn, hm1] at h
        exact hinj _ _ hx hn1 hxn hn1n h
      · rw [hTx x hxn, hm1, h]
  refine ⟨?_, ?_, ?_, ?_, ?_, ?_, ?_, s9, s10, s11⟩
  · rw [s2, hKn]
    omega
  · intro x hx
    by_cases hxn : x = n
    · rw [hxn, hTn, hKn]
      omega
    · have := hTlt x hx hxn
      omega
  · intro x y hx hy h
    by_cases hxn : x = n
    · have := ((hiff y hy).1).1 (by rw [← h, hxn, hTn])
      rw [hxn, this]
    · by_cases hyn : y = n
      · have := ((hiff x hx).1).1 (by rw [h, hyn, hTn])
        exact absurd this hxn
      · rw [hTx x hxn, hTx y hyn] at h
        exact hinj _ _ hx hy hxn hyn h
  · intro x hx
    by_cases hxn : x = n
    · rw [hxn, hTn, s5]
    · have := hTlt x hx hxn
      rw [s6 _ (by omega), hTx x hxn, q4 _ (hμlt x hx hxn), hcontained x hx hxn]
  · intro x y hx hy
    rw [hwtK1]
    obtain ⟨x1, x2, x3⟩ := hiff x hx
    obtain ⟨y1, y2, y3⟩ := hiff y hy
    simp only [x1, x2, x3, y1, y2, y3]
    by_cases hxn : x = n
    · rw [if_pos hxn, hxn, hwn y]
    · rw [if_neg hxn]
      by_cases hyn : y = n
      · rw [if_pos hyn, hyn, wt_symm_of_simple H hs x n, hwn x]
      · rw [if_neg hyn, hTx x hxn, hTx y hyn, q5 _ _ (hμlt x hx hxn) (hμlt y hy hyn),
          hwt x y hx hxn hyn]
        by_cases hc : (x = e0.target ∧ y = e1.target) ∨ (x = e1.target ∧ y = e0.target)
        · rw [if_pos hc]
          rcases hc with ⟨h1, h2⟩ | ⟨h1, h2⟩
          · rw [h1, h2, hwdef]
            omega
          · rw [h1, h2, hwdef, wt_symm_of_simple H hs e1.target e0.target]
            omega
        · rw [if_neg hc, if_neg hc]
          omega
  · intro x c hx hc
    by_cases hxn : x = n
    · rw [hxn, hTn]
      rw [hxn] at hc
      exact s3 c hc
    · have hcn : c ∉ H.containedVertices n := by
        intro hcn
        have h1 := hpos x c hc
        have h2 := hpos n c hcn
        rw [h1] at h2
        exact hxn (Option.some.inj h2)
      have h3 := s4 c hcn
      unfold getCurrentPosition at h3
      rw [h3, hTx x hxn]
      exact q6 _ c (hμlt x hx hxn) (by rw [hcontained x hx hxn]; exact hc)
  · intro c hc
    have hcn : c ∉ H.containedVertices n := by
      intro hcn
      have h2 := hpos n c hcn
      rw [hc] at h2
      simp at h2
    have h3 := s4 c hcn
    unfold getCurrentPosition at h3
    rw [h3]
    exact q7 c (hposNone c hc)

end heavy_edges


namespace heavy_edges
open mutable_graph

theorem replay_cons {α : Type} (step : mutable_graph → α → Option mutable_graph)
    (entry : α) (rest : List α) (G : mutable_graph) :
    replay step (entry :: rest) G = (replay step rest G).bind (fun G1 => step G1 entry) := by
  rw [replay]
  cases replay step rest G <;> rfl

theorem replayTrace_nil (mincut : Nat) (K : mutable_graph) : ReplayTrace mincut [] K K := by
  intro L1 entry L2 h
  simp at h

theorem replayRel_refl (H : mutable_graph) (hwf : CycleWF H) : ReplayRel (fun x => x) H H := by
  obtain ⟨hs, hpos, hp, hb⟩ := hwf
  refine ⟨rfl, fun x hx => hx, fun x y _ _ h => h, fun x _ => rfl, fun x y _ _ => rfl,
    fun x c _ hc => hpos x c hc, fun c hc => hc, fun u ed hed => (hs.1 u ed hed).1, hs.2.1, hp⟩

theorem cycleLoop_round (mincut : Nat) (fuel : Nat) :
    ∀ (n : Nat) (H : mutable_graph) (L : List ((Nat × Nat) × List Nat)), CycleWF H →
      ∃ H1 Lnew, cycleLoop mincut fuel n (H, L) = some (H1, L ++ Lnew) ∧ CycleWF H1 ∧
        ∀ K τ, ReplayRel τ H1 K →
          ∃ K0 τ0, reInsertCycles mincut K Lnew = some K0 ∧ ReplayRel τ0 H K0 ∧
            ReplayTrace mincut Lnew K K0 := by
  induction fuel with
  | zero =>
    intro n H L hwf
    refine ⟨H, [], by simp [cycleLoop], hwf, ?_⟩
    intro K τ hrel
    exact ⟨K, τ, rfl, hrel, replayTrace_nil mincut K⟩
  | succ fuel ih =>
    intro n H L hwf
    by_cases hn : n < H.n
    · rcases cycleStep_run mincut H L n hn hwf.1 with hstep |
        ⟨e0, e1, hE, hw0, hw1, -, hne0, hne1, hstep⟩
      · obtain ⟨H1, Lnew, h1, h2, h3⟩ := ih (n + 1) H L hwf
        refine ⟨H1, Lnew, ?_, h2, h3⟩
        unfold cycleLoop
        simp only
        rw [if_pos hn, hstep]
        exact h1
      · obtain ⟨f1, f2, f3, f4, f5, f6, f7, f8, f9, f10, hwf1⟩ :=
          cycleStep_forward mincut H n e0 e1 hwf hn hE hw0 hw1
        obtain ⟨H1, Lrest, h1, h2, h3⟩ := ih (n + 1) _
          (L ++ [(((H.containedVertices e0.target).headD 0,
            (H.containedVertices e1.target).headD 0), H.containedVertices n)]) hwf1
        refine ⟨H1, (((H.containedVertices e0.target).headD 0,
            (H.containedVertices e1.target).headD 0), H.containedVertices n) :: Lrest, ?_, h2, ?_⟩
        · unfold cycleLoop
          simp only
          rw [if_pos hn, hstep]
          simp only
          rw [h1, List.append_assoc]
          rfl
        · intro K τ hrel
          obtain ⟨K1, τ1, r1, r2, r3⟩ := h3 K τ hrel
          obtain ⟨K0, m0, m1, t1, t2, t3, t4, t5, t6, t7, t8, t9, t10, t11, t12⟩ :=
            replay_rel_step mincut H n e0 e1 ((H.containedVertices e0.target).headD 0)
              ((H.containedVertices e1.target).headD 0) hwf hn hE hw0 hw1
              (headD_mem _ hne0) (headD_mem _ hne1) K1 τ1 r2
          refine ⟨K0, _, ?_, t2, ?_⟩
          · unfold reInsertCycles at r1 ⊢
            rw [replay_cons, r1]
            exact t1
          · intro L1 entry L2 hsplit
            cases L1 with
            | nil =>
              simp only [List.nil_append, List.cons.injEq] at hsplit
              obtain ⟨he, hL2⟩ := hsplit
              subst hL2
              subst he
              refine ⟨K1, K0, m0, m1, r1, t1, t4, t5, t6, t7, by omega, t8, t9, _, _, t7, rfl,
                rfl⟩
            | cons a L1 =>
              simp only [List.cons_append, List.cons.injEq] at hsplit
              obtain ⟨-, hrest⟩ := hsplit
              obtain ⟨Ka, Kb, k0, k1, u1, u2, u3, u4, u5, u6, u7, u8, u9, a1, b1, u10, u11,
                u12⟩ := r3 L1 entry L2 hrest
              refine ⟨Ka, Kb, k0, k1, u1, u2, u3, u4, u5, u6, by omega, ?_, ?_, ?_⟩
              · rw [t10 _ (by omega)]
                exact u8
              · intro c hc
                exact t11 c _ (u9 c hc)
              · exact t12 Ka.n u7 a1 b1 u10 u11 u12
    · refine ⟨H, [], ?_, hwf, ?_⟩
      · unfold cycleLoop
        simp only
        rw [if_neg hn]
        simp
      · intro K τ hrel
        exact ⟨K, τ, rfl, hrel, replayTrace_nil mincut K⟩

theorem renamedCopy_of_rel (σ : Nat → Nat) (G K : mutable_graph) (hwf : CycleWF G)
    (hrel : ReplayRel σ G K) : RenamedCopy σ G K := by
  obtain ⟨hs, hpos, hp, hb⟩ := hwf
  obtain ⟨q1, q2, q3, q4, q5, q6, q7, q8, q9, q10⟩ := hrel
  have hsurj := surj_of_inj G.n σ q2 q3
  have hperm : ∀ x, x < G.n → (K.edgesOf (σ x)).Perm (renameEdges σ (G.edgesOf x)) := by
    intro x hx
    have htl : ∀ e ∈ G.edgesOf x, e.target < G.n := fun e he => (hs.1 x e he).1
    apply perm_of_wtOf _ _ (q9 (σ x))
    · unfold renameEdges
      rw [List.map_map]
      have : (Edge.target ∘ fun e : Edge => ({ target := σ e.target, weight := e.weight } : Edge))
          = σ ∘ Edge.target := rfl
      rw [this, ← List.map_map]
      apply List.Nodup.map_on _ (hs.2.1 x)
      intro a ha b hb hab
      obtain ⟨ea, hea, rfl⟩ := List.mem_map.mp ha
      obtain ⟨eb, heb, rfl⟩ := List.mem_map.mp hb
      exact q3 _ _ (htl ea hea) (htl eb heb) hab
    · exact fun e he => q10 (σ x) e he
    · intro e he
      unfold renameEdges at he
      obtain ⟨e1, he1, rfl⟩ := List.mem_map.mp he
      exact hp x e1 he1
    · intro t
      by_cases ht : t < G.n
      · obtain ⟨y, hy, rfl⟩ := hsurj t ht
        rw [q5 x y hx hy, wtOf_rename σ G.n _ y htl hy q3]
      · rw [wtOf_eq_zero, wtOf_eq_zero]
        · intro e he
          unfold renameEdges at he
          obtain ⟨e1, he1, rfl⟩ := List.mem_map.mp he
          have := q2 _ (htl e1 he1)
          simp only
          omega
        · intro e he
          have := q8 (σ x) e he
          omega
  refine ⟨q1, q2, q3, ?_, q7⟩
  intro x hx
  refine ⟨q4 x hx, hperm x hx, ?_, fun c hc => q6 x c hx hc⟩
  unfold getWeightedNodeDegree
  rw [((hperm x hx).map Edge.weight).sum_eq]
  unfold renameEdges
  rw [List.map_map]
  rfl

end heavy_edges


namespace heavy_edges
open mutable_graph

theorem cycleWF_of_check (G : mutable_graph) (hs : local_search.Simple G) (hpos : Positioned G)
    (h : ∀ u ∈ List.range G.n, G.getWeightedNodeDegree u < 2 ^ edgeWeightBits ∧
      ∀ ed ∈ G.edgesOf u, 0 < ed.weight) : CycleWF G := by
  refine ⟨hs, hpos, ?_, ?_⟩
  · intro u ed hed
    have hu : u < G.n := by
      by_contra hc
      rw [local_search.edgesOf_oob G u (by omega)] at hed
      simp at hed
    exact (h u (List.mem_range.mpr hu)).2 ed hed
  · intro u
    by_cases hu : u < G.n
    · exact (h u (List.mem_range.mpr hu)).1
    · unfold getWeightedNodeDegree
      rw [local_search.edgesOf_oob G u (by omega)]
      simp [edgeWeightBits]

theorem fiveCycle_wf : CycleWF fiveCycle :=
  cycleWF_of_check fiveCycle (local_search.simple_of_check fiveCycle (by decide))
    (ofEdges_wf 5 _).1 (by decide)

/-- C7, as amended (the round trip).  Let `G` be a simple undirected graph (no
parallel edges, no self-loops, every edge with its reverse edge) whose position
map agrees with the contained lists, whose edge weights are positive and whose
weighted degrees are below `2^64`.  Then `contractCycleEdges(G)` returns a
graph `G1` and a log `L`, and `reInsertCycles(G1, L)` returns a graph `G2`,
such that `G2` is `G` up to a renaming `σ` of the nodes and the order of the
slots: node `σ x` of `G2` has the contained list, the edges with their weights
and the weighted degree of node `x` of `G`, and the originals keep their nodes.
For every log entry `((p0, p1), cont)`: at its own replay step the new node
gets exactly two edges of weight `λ/2`, to the positions of `p0` and `p1` at
that moment, which are different nodes; and in `G2` that node contains `cont`,
is the position of the originals of `cont` and has exactly two edges, each of
weight `λ/2`. -/
theorem cycle_round_trip (mincut : Nat) (G : mutable_graph) (hwf : CycleWF G) :
    ∃ G1 L G2 σ, contractCycleEdges mincut G = some (G1, L) ∧
      reInsertCycles mincut G1 L = some G2 ∧
      RenamedCopy σ G G2 ∧ ReplayTrace mincut L G1 G2 := by
  obtain ⟨H1, Lnew, h1, h2, h3⟩ := cycleLoop_round mincut G.n 0 G [] hwf
  obtain ⟨K0, τ0, r1, r2, r3⟩ := h3 H1 (fun x => x) (replayRel_refl H1 h2)
  refine ⟨H1, Lnew, K0, τ0, ?_, r1, renamedCopy_of_rel τ0 G K0 hwf r2, r3⟩
  unfold contractCycleEdges
  rw [h1]
  rfl

/-- An instance of the round trip: the cycle 0 - 2 - 4 - 1 - 3 - 0 with all
weights 2 and λ = 4.  `contractCycleEdges` leaves two nodes joined by an edge
of weight 4 and logs three entries; `reInsertCycles` gives the cycle back with
the nodes renamed `0 ↦ 4, 1 ↦ 3, 2 ↦ 2, 3 ↦ 1, 4 ↦ 0`. -/
theorem cycle_round_trip_witness :
    CycleWF fiveCycle ∧
    (∃ G1 L G2 σ, contractCycleEdges 4 fiveCycle = some (G1, L) ∧
      reInsertCycles 4 G1 L = some G2 ∧
      RenamedCopy σ fiveCycle G2 ∧ ReplayTrace 4 L G1 G2) ∧
    (contractCycleEdges 4 fiveCycle).map (fun r => (r.1.vertices, r.2)) =
      some ([{ contained := [4], edges := [{ target := 1, weight := 4 }] },
             { contained := [3], edges := [{ target := 0, weight := 4 }] }],
        [((2, 3), [0]), ((4, 3), [1]), ((4, 3), [2])]) ∧
    fiveCycle.vertices =
      [{ contained := [0], edges := [{ target := 2, weight := 2 }, { target := 3, weight := 2 }] },
       { contained := [1], edges := [{ target := 4, weight := 2 }, { target := 3, weight := 2 }] },
       { contained := [2], edges := [{ target := 0, weight := 2 }, { target := 4, weight := 2 }] },
       { contained := [3], edges := [{ target := 1, weight := 2 }, { target := 0, weight := 2 }] },
       { contained := [4], edges := [{ target := 2, weight := 2 }, { target := 1, weight := 2 }] }] ∧
    ((contractCycleEdges 4 fiveCycle).bind (fun r => reInsertCycles 4 r.1 r.2)).map
        (fun G => (G.vertices, (List.range 6).map G.getCurrentPosition)) =
      some ([{ contained := [4],
               edges := [{ target := 2, weight := 2 }, { target := 3, weight := 2 }] },
             { contained := [3],
               edges := [{ target := 3, weight := 2 }, { target := 4, weight := 2 }] },
             { contained := [2],
               edges := [{ target := 0, weight := 2 }, { target := 4, weight := 2 }] },
             { contained := [1],
               edges := [{ target := 0, weight := 2 }, { target := 1, weight := 2 }] },
             { contained := [0],
               edges := [{ target := 2, weight := 2 }, { target := 1, weight := 2 }] }],
        [some 4, some 3, some 2, some 1, some 0, none]) :=
  ⟨fiveCycle_wf, cycle_round_trip 4 fiveCycle fiveCycle_wf, by decide, by decide, by decide⟩

/-- The round trip needs positive edge weights.  On the triangle with the edges
0 - 1 and 0 - 2 of weight 2 and the edge 1 - 2 of weight 0 (λ = 4), node 0 is
contracted into node 1, which makes the weight between the two remaining nodes
`0 + 2 = λ/2`; the replay then takes the branch `w01 == mincut / 2` and deletes
that edge, so the nodes of the originals 1 and 2 end with one edge each, where
they had two. -/
theorem zero_weight_edge_lost :
    zeroWeightTriangle.vertices.map (fun v => (v.contained, v.edges.length)) =
      [([0], 2), ([1], 2), ([2], 2)] ∧
    (contractCycleEdges 4 zeroWeightTriangle).map Prod.snd = some [((1, 2), [0])] ∧
    ((contractCycleEdges 4 zeroWeightTriangle).bind (fun r => reInsertCycles 4 r.1 r.2)).map
        (fun G => G.vertices.map (fun v => (v.contained, v.edges.length))) =
      some [([2], 1), ([1], 1), ([0], 2)] := by
  decide

end heavy_edges

end VieCut
